import Mathlib

/-!
# rchk: context-sensitive called/wrapped allocator detection

A shallow embedding of `src/callocators.h` and `src/callocators.cpp`.

Conventions of the embedding.

* Heap objects are kept in lists; the address of an object is its position in
  the list, `new` appends.  A pointer that may be `NULL` is an `Option Nat`.
* `std::unordered_set` is modelled by the contract the C++ standard gives it:
  `find` returns an element equivalent to the probe under the key-equality
  functor when one exists.  The elements are kept in insertion order.
* `std::set<CalledFunctionTy*>` is an increasing list of handles without
  repetition, `std::map` an association list.
* LLVM IR values are trees: an operand that is an instruction is the subtree of
  that instruction.  Functions, basic blocks, globals and stack slots are named
  by numbers (their identity).
-/

set_option autoImplicit false

namespace llvm

/-- An `llvm::Value`, as far as the analysis looks into it. -/
inductive Value where
  /-- a `GlobalVariable` -/
  | globalVariable (g : Nat)
  /-- an `AllocaInst`: a local storage slot -/
  | allocaInst (a : Nat)
  /-- a `LoadInst` with its pointer operand -/
  | loadInst (ptr : Value)
  /-- a `StoreInst` with its value operand and its pointer operand -/
  | storeInst (val ptr : Value)
  /-- a `CallInst`; `callee` is `CallSite::getCalledFunction()`, `none` for an
  indirect call -/
  | callInst (callee : Option Nat) (args : List Value)
  /-- an `InvokeInst`: a call site that is also a terminator -/
  | invokeInst (callee : Option Nat) (args : List Value) (succs : List Nat)
  /-- a `ReturnInst` with `getReturnValue()` -/
  | returnInst (val : Option Value)
  /-- any other terminator (`br`, `switch`, `unreachable`, ...) with its
  successors -/
  | branchInst (succs : List Nat)
  /-- any other value -/
  | other (tag : Nat)

/-- `CallSite cs(v)`: the callee and the arguments when `v` is a call or an
invoke, `none` when `!cs`. -/
def Value.callSite : Value → Option (Option Nat × List Value)
  | .callInst callee args => some (callee, args)
  | .invokeInst callee args _ => some (callee, args)
  | _ => none

/-- `isa<TerminatorInst>`. -/
def Value.isTerminator : Value → Bool
  | .invokeInst _ _ _ => true
  | .returnInst _ => true
  | .branchInst _ => true
  | _ => false

/-- `TerminatorInst::getNumSuccessors` / `getSuccessor(i)`. -/
def Value.successors : Value → List Nat
  | .invokeInst _ _ succs => succs
  | .branchInst succs => succs
  | _ => []

/-- An `llvm::BasicBlock`: its instructions in order, the terminator last. -/
abbrev BasicBlock := List Value

/-- `BasicBlock::getTerminator()`. -/
def BasicBlock.getTerminator (bb : BasicBlock) : Option Value :=
  match bb.getLast? with
  | some t => if t.isTerminator then some t else none
  | none => none

/-- An `llvm::Function`.  A declaration has no blocks; the entry block is block
`0`; a `BasicBlock*` of the function is a position in `blocks`. -/
structure Function where
  /-- `arg_size()`: the number of declared (fixed) parameters -/
  arg_size : Nat
  /-- `isVarArg()` -/
  isVarArg : Bool := false
  /-- `isSEXP(getReturnType())` -/
  returnsSEXP : Bool := false
  /-- the basic blocks, `size()` is their number -/
  blocks : List BasicBlock := []

/-- `Function::size()`. -/
def Function.size (f : Function) : Nat := f.blocks.length

/-- The block a `BasicBlock*` of the function points to. -/
def Function.block (f : Function) (bb : Nat) : BasicBlock := f.blocks.getD bb []

/-- An `llvm::Module`: a `Function*` is a number, `fn` reads the function it
points to, and the functions of the module are `0 .. size - 1`. -/
structure Module where
  fn : Nat → Function
  size : Nat

end llvm

namespace Rchk

/-! ## Containers -/

/-- `std::unordered_set::find` on a table whose handles are positions: the
position of the first element for which `p` (equivalence with the probe) holds. -/
def usetFind {α : Type} (p : α → Bool) : List α → Option Nat
  | [] => none
  | e :: es => if p e then some 0 else (usetFind p es).map (· + 1)

/-- `std::set<CalledFunctionTy*>`: an increasing list of handles. -/
abbrev CalledFunctionsOrderedSetTy := List Nat

/-- `std::set::insert(x)`. -/
def CalledFunctionsOrderedSetTy.insert (x : Nat) :
    CalledFunctionsOrderedSetTy → CalledFunctionsOrderedSetTy
  | [] => [x]
  | y :: ys =>
    if x < y then x :: y :: ys
    else if x = y then y :: ys
    else y :: CalledFunctionsOrderedSetTy.insert x ys

/-- `std::set::insert(first, last)`: insert every element of `src`. -/
def CalledFunctionsOrderedSetTy.insertAll (src dst : CalledFunctionsOrderedSetTy) :
    CalledFunctionsOrderedSetTy :=
  src.foldl (fun acc x => CalledFunctionsOrderedSetTy.insert x acc) dst

/-! ## Argument descriptors (callocators.h) -/

/-- The objects an `ArgInfoTy*` can point to: a plain `ArgInfoTy`
(`isSymbol()` is false) or a `SymbolArgInfoTy`. -/
inductive ArgInfoTy where
  | base
  | symbol (symbolName : String)
deriving DecidableEq

/-- `ArgInfoTy::isSymbol()`. -/
def ArgInfoTy.isSymbol : ArgInfoTy → Bool
  | .base => false
  | .symbol _ => true

/-- `ArgInfosTy = std::vector<ArgInfoTy*>`; a `NULL` element means nothing is
known about that argument. -/
abbrev ArgInfosTy := List (Option Nat)

/-- `CalledFunctionTy`: `fun_` is the field `fun` (a `Function*`, possibly
`NULL`), `argInfo` the interned context, `module` the owning module. -/
structure CalledFunctionTy where
  fun_ : Option Nat
  argInfo : Nat
  module : Nat
deriving DecidableEq

/-- `p->isSymbol()` for a non-null `p`; a pointer outside the heap is not a
symbol. -/
def isSymbolAt (heap : List ArgInfoTy) (a : Nat) : Bool :=
  match heap[a]? with
  | some o => o.isSymbol
  | none => false

/-- `cast<SymbolArgInfoTy>(p)->symbolName` for a non-null `p`; defined only when
`p` points to a `SymbolArgInfoTy`. -/
def symbolNameAt (heap : List ArgInfoTy) (a : Nat) : Option String :=
  match heap[a]? with
  | some (.symbol n) => some n
  | _ => none

/-- `CalledFunctionPtrTy_equal::operator()`. -/
def CalledFunctionPtrTy_equal (lhs rhs : CalledFunctionTy) : Bool :=
  decide (lhs.fun_ = rhs.fun_) && decide (lhs.argInfo = rhs.argInfo) &&
    decide (lhs.module = rhs.module)

/-- The loop of `ArgInfosPtrTy_equal::operator()` over the positions. -/
def ArgInfosPtrTy_equal.loop (heap : List ArgInfoTy) : ArgInfosTy → ArgInfosTy → Bool
  | la :: ls, ra :: rs =>
    if la = ra then ArgInfosPtrTy_equal.loop heap ls rs
    else
      match la, ra with
      | some l, some r =>
        if symbolNameAt heap l ≠ symbolNameAt heap r then false
        else ArgInfosPtrTy_equal.loop heap ls rs
      | _, _ => false
  | _, _ => true

/-- `ArgInfosPtrTy_equal::operator()`. -/
def ArgInfosPtrTy_equal (heap : List ArgInfoTy) (lhs rhs : ArgInfosTy) : Bool :=
  if lhs.length ≠ rhs.length then false
  else ArgInfosPtrTy_equal.loop heap lhs rhs

/-- `ArgInfoPtrTy_equal::operator()`. -/
def ArgInfoPtrTy_equal (heap : List ArgInfoTy) (lhs rhs : Option Nat) : Bool :=
  match lhs, rhs with
  | some l, some r =>
    if !isSymbolAt heap l || !isSymbolAt heap r then decide (lhs = rhs)
    else decide (symbolNameAt heap l = symbolNameAt heap r)
  | _, _ => decide (lhs = rhs)

/-! ## The called module (callocators.h, callocators.cpp 125-211) -/

/-- `FunctionsSetTy`: a set of functions. -/
abbrev FunctionsSetTy := List Nat

/-- `CalledModuleTy`.  `argInfoHeap` holds every heap-allocated descriptor
object.  `argInfosTable` and `calledFunctionsTable` hold the heap copies they
own in insertion order, and an `ArgInfosTy*` or `CalledFunctionTy*` handle is
the position of the copy.  `argInfoTable` holds addresses into `argInfoHeap`.
`this` is the address of the module object. -/
structure CalledModuleTy where
  this : Nat
  argInfoHeap : List ArgInfoTy
  calledFunctionsTable : List CalledFunctionTy
  argInfosTable : List ArgInfosTy
  argInfoTable : List Nat
  symbolsMap : Nat → Option String
  m : llvm.Module
  errorFunctions : FunctionsSetTy
  possibleAllocators : FunctionsSetTy
  allocatingFunctions : FunctionsSetTy
  gcFunction : Nat

/-- `CalledModuleTy::intern(ArgInfosTy&)`. -/
def CalledModuleTy.intern_ArgInfosTy (cm : CalledModuleTy) (argInfos : ArgInfosTy) :
    Nat × CalledModuleTy :=
  match usetFind (fun e => ArgInfosPtrTy_equal cm.argInfoHeap e argInfos) cm.argInfosTable with
  | some ai => (ai, cm)
  | none =>
    (cm.argInfosTable.length, { cm with argInfosTable := cm.argInfosTable ++ [argInfos] })

/-- `CalledModuleTy::intern(SymbolArgInfoTy&)`.  The argument is the probe
object, given by its only field; it lives (possibly on the stack) at an address
different from every heap object, here the next free one. -/
def CalledModuleTy.intern_SymbolArgInfoTy (cm : CalledModuleTy) (argInfo : String) :
    Nat × CalledModuleTy :=
  let mem := cm.argInfoHeap ++ [ArgInfoTy.symbol argInfo]
  let probe := cm.argInfoHeap.length
  match cm.argInfoTable.find? (fun e => ArgInfoPtrTy_equal mem (some e) (some probe)) with
  | some ai => (ai, cm)
  | none =>
    (cm.argInfoHeap.length,
      { cm with
        argInfoHeap := cm.argInfoHeap ++ [ArgInfoTy.symbol argInfo]
        argInfoTable := cm.argInfoTable ++ [cm.argInfoHeap.length] })

/-- `CalledModuleTy::intern(CalledFunctionTy&)`. -/
def CalledModuleTy.intern_CalledFunctionTy (cm : CalledModuleTy)
    (calledFunction : CalledFunctionTy) : Nat × CalledModuleTy :=
  match usetFind (fun e => CalledFunctionPtrTy_equal e calledFunction)
      cm.calledFunctionsTable with
  | some cfun => (cfun, cm)
  | none =>
    (cm.calledFunctionsTable.length,
      { cm with calledFunctionsTable := cm.calledFunctionsTable ++ [calledFunction] })

/-- `CalledModuleTy::getCalledFunction(Function*)`. -/
def CalledModuleTy.getCalledFunction_Function (cm : CalledModuleTy) (f : Nat) :
    Nat × CalledModuleTy :=
  let nargs := (cm.m.fn f).arg_size
  let argInfos : ArgInfosTy := List.replicate nargs none
  let r := cm.intern_ArgInfosTy argInfos
  r.2.intern_CalledFunctionTy { fun_ := some f, argInfo := r.1, module := cm.this }

/-- The symbol a `symbolsMap` lookup gives for an argument that is a load from a
global variable (lines 190-194). -/
def CalledModuleTy.symbolOfLoad (cm : CalledModuleTy) : llvm.Value → Option String
  | .loadInst (.globalVariable src) => cm.symbolsMap src
  | _ => none

/-- One iteration of the argument loop of `getCalledFunction(Value*)` (lines
189-206): the entry `argInfo[i]` for the argument, and the module afterwards.
`isInstallConstantCall` is the helper of `symbols.h`, giving the constant string
when it matches. -/
def CalledModuleTy.argInfoOf (isInstallConstantCall : llvm.Value → Option String)
    (cm : CalledModuleTy) (arg : llvm.Value) : Option Nat × CalledModuleTy :=
  match cm.symbolOfLoad arg with
  | some name =>
    let r := cm.intern_SymbolArgInfoTy name
    (some r.1, r.2)
  | none =>
    match isInstallConstantCall arg with
    | some symbolName =>
      (some cm.argInfoHeap.length,
        { cm with argInfoHeap := cm.argInfoHeap ++ [ArgInfoTy.symbol symbolName] })
    | none => (none, cm)

/-- The argument loop of `getCalledFunction(Value*)` (lines 186-207). -/
def CalledModuleTy.buildArgInfo (isInstallConstantCall : llvm.Value → Option String)
    (cm : CalledModuleTy) : List llvm.Value → ArgInfosTy × CalledModuleTy
  | [] => ([], cm)
  | arg :: rest =>
    let r := cm.argInfoOf isInstallConstantCall arg
    let rs := CalledModuleTy.buildArgInfo isInstallConstantCall r.2 rest
    (r.1 :: rs.1, rs.2)

/-- `CalledModuleTy::getCalledFunction(Value*)`. -/
def CalledModuleTy.getCalledFunction_Value
    (isInstallConstantCall : llvm.Value → Option String)
    (cm : CalledModuleTy) (inst : llvm.Value) : Option Nat × CalledModuleTy :=
  match inst.callSite with
  | none => (none, cm)
  | some (none, _) => (none, cm)
  | some (some fun_, args) =>
    let a := cm.buildArgInfo isInstallConstantCall args
    let r := a.2.intern_ArgInfosTy a.1
    let c := r.2.intern_CalledFunctionTy { fun_ := some fun_, argInfo := r.1, module := cm.this }
    (some c.1, c.2)

/-- `CalledModuleTy::isAllocating`. -/
def CalledModuleTy.isAllocating (cm : CalledModuleTy) (f : Option Nat) : Bool :=
  match f with
  | some f => cm.allocatingFunctions.contains f
  | none => false

/-- `CalledModuleTy::isPossibleAllocator`. -/
def CalledModuleTy.isPossibleAllocator (cm : CalledModuleTy) (f : Option Nat) : Bool :=
  match f with
  | some f => cm.possibleAllocators.contains f
  | none => false

/-! ## Descriptors as values (spec, section 3) -/

/-- The `ArgDescriptor` of the specification. -/
inductive ArgDescriptor where
  | Unknown
  | Symbol (name : String)
deriving DecidableEq

/-- The descriptor an `ArgInfoTy*` stands for: `NULL` and every pointer to an
object that is not a symbol are `Unknown`. -/
def descriptorOf (heap : List ArgInfoTy) : Option Nat → ArgDescriptor
  | none => .Unknown
  | some a =>
    match symbolNameAt heap a with
    | some n => .Symbol n
    | none => .Unknown

/-- The descriptors of a context, position by position. -/
def contextOf (heap : List ArgInfoTy) (c : ArgInfosTy) : List ArgDescriptor :=
  c.map (descriptorOf heap)

/-- An entry of a context is `NULL` or points to a `SymbolArgInfoTy`. -/
def validEntry (heap : List ArgInfoTy) : Option Nat → Bool
  | none => true
  | some a => isSymbolAt heap a

/-- Every entry of the context is `NULL` or points to a `SymbolArgInfoTy`. -/
def validArgInfos (heap : List ArgInfoTy) (c : ArgInfosTy) : Bool :=
  c.all (validEntry heap)

/-- The intern tables only hold pointers to live objects of the right kind. -/
structure CalledModuleTy.WF (cm : CalledModuleTy) : Prop where
  argInfos_valid : ∀ c ∈ cm.argInfosTable, validArgInfos cm.argInfoHeap c = true
  argInfo_valid : ∀ a ∈ cm.argInfoTable, isSymbolAt cm.argInfoHeap a = true
  calledFunctions_valid : ∀ cf ∈ cm.calledFunctionsTable, cf.argInfo < cm.argInfosTable.length

/-- The module `b` is a later state of the module `a`: heap and tables have only
grown at the end, everything else is the same. -/
structure CalledModuleTy.Ext (a b : CalledModuleTy) : Prop where
  argInfoHeap : a.argInfoHeap <+: b.argInfoHeap
  calledFunctionsTable : a.calledFunctionsTable <+: b.calledFunctionsTable
  argInfosTable : a.argInfosTable <+: b.argInfosTable
  argInfoTable : a.argInfoTable <+: b.argInfoTable
  this : a.this = b.this
  symbolsMap : a.symbolsMap = b.symbolsMap
  m : a.m = b.m
  errorFunctions : a.errorFunctions = b.errorFunctions
  possibleAllocators : a.possibleAllocators = b.possibleAllocators
  allocatingFunctions : a.allocatingFunctions = b.allocatingFunctions
  gcFunction : a.gcFunction = b.gcFunction

/-- Lookup of a descriptor sequence in the context table. -/
def CalledModuleTy.findContext (cm : CalledModuleTy) (k : List ArgDescriptor) : Option Nat :=
  usetFind (fun e => decide (contextOf cm.argInfoHeap e = k)) cm.argInfosTable

/-- Lookup of a called function in its table. -/
def CalledModuleTy.findCalledFunction (cm : CalledModuleTy) (cf : CalledFunctionTy) :
    Option Nat :=
  usetFind (fun e => decide (e = cf)) cm.calledFunctionsTable

/-- Lookup of a symbol name in the descriptor table. -/
def CalledModuleTy.findSymbol (cm : CalledModuleTy) (name : String) : Option Nat :=
  cm.argInfoTable.find? (fun e => decide (symbolNameAt cm.argInfoHeap e = some name))

/-- The descriptor the argument loop of `getCalledFunction(Value*)` attaches to
an argument, read off lines 190-206. -/
def CalledModuleTy.classifyArg (isInstallConstantCall : llvm.Value → Option String)
    (cm : CalledModuleTy) (arg : llvm.Value) : ArgDescriptor :=
  match cm.symbolOfLoad arg with
  | some name => .Symbol name
  | none =>
    match isInstallConstantCall arg with
    | some symbolName => .Symbol symbolName
    | none => .Unknown

/-- The handle a call site has in the tables of the module, without interning
anything: `none` when the value is not a direct call or is not in the tables. -/
def CalledModuleTy.lookupHandle (isInstallConstantCall : llvm.Value → Option String)
    (cm : CalledModuleTy) (inst : llvm.Value) : Option Nat :=
  match inst.callSite with
  | some (some fun_, args) =>
    match cm.findContext (args.map (cm.classifyArg isInstallConstantCall)) with
    | some ai => cm.findCalledFunction { fun_ := some fun_, argInfo := ai, module := cm.this }
    | none => none
  | _ => none

/-- The LLVM verifier's rule for a direct call: as many arguments as declared
parameters, or at least as many when the callee is variadic. -/
def wellFormedCall (m : llvm.Module) (callee : Nat) (args : List llvm.Value) : Prop :=
  args.length = (m.fn callee).arg_size ∨
    ((m.fn callee).isVarArg = true ∧ (m.fn callee).arg_size ≤ args.length)

/-! ## Example modules -/

/-- A module with three functions: `0` takes one argument, `1` is variadic with
one fixed parameter (like `Rf_error(const char*, ...)`), `2` takes none. -/
def exampleModule : llvm.Module where
  fn := fun i =>
    match i with
    | 0 => { arg_size := 1 }
    | 1 => { arg_size := 1, isVarArg := true }
    | _ => { arg_size := 0 }
  size := 3

/-- A freshly constructed called module over `exampleModule` with empty intern
tables; global `7` holds the symbol `names`.  Two descriptor objects named `a`
are on the heap, neither of them interned. -/
def exampleCM : CalledModuleTy where
  this := 0
  argInfoHeap := [ArgInfoTy.symbol "a", ArgInfoTy.symbol "a"]
  calledFunctionsTable := []
  argInfosTable := []
  argInfoTable := []
  symbolsMap := fun g => if g = 7 then some "names" else none
  m := exampleModule
  errorFunctions := []
  possibleAllocators := []
  allocatingFunctions := []
  gcFunction := 0

/-- An `isInstallConstantCall` that recognises a call of function `9` with no
arguments as `install("x")`. -/
def exampleInstall : llvm.Value → Option String
  | .callInst (some 9) [] => some "x"
  | _ => none

/-! ## The abstract state (callocators.cpp 242-366) -/

/-- Modelled from the spec: `IntGuardState` of `guards.h`, which is not among
the sources (spec section 3, the integer guard map). -/
inductive IntGuardState where
  | IGS_ZERO
  | IGS_NONZERO
  | IGS_UNKNOWN
deriving DecidableEq

/-- Modelled from the spec: `IntGuardsTy` of `guards.h`, a map from local slots
to integer guard states. -/
abbrev IntGuardsTy := List (Nat × IntGuardState)

/-- Modelled from the spec: `SEXPGuardState` of `guards.h` (spec section 3, the
managed guard map). -/
inductive SEXPGuardState where
  | SGS_NIL
  | SGS_NONNIL
  | SGS_SYMBOL
  | SGS_UNKNOWN
deriving DecidableEq

/-- Modelled from the spec: `SEXPGuardTy` of `guards.h`, the fields `state` and
`symbolName` that `CAllocStateTy::hash` reads. -/
structure SEXPGuardTy where
  state : SEXPGuardState
  symbolName : String
deriving DecidableEq

/-- Modelled from the spec: `SEXPGuardsTy` of `guards.h`. -/
abbrev SEXPGuardsTy := List (Nat × SEXPGuardTy)

/-- `VarOriginsTy = std::map<AllocaInst*, CalledFunctionsOrderedSetTy>`, kept in
key order. -/
abbrev VarOriginsTy := List (Nat × CalledFunctionsOrderedSetTy)

/-- `std::map::find`. -/
def VarOriginsTy.find (vo : VarOriginsTy) (var : Nat) : Option CalledFunctionsOrderedSetTy :=
  List.lookup var vo

/-- Write the set `origins` under the key `var`: `std::map::insert` of a new
entry when the key is absent, and the result of updating the mapped set in place
when it is present. -/
def VarOriginsTy.set (var : Nat) (origins : CalledFunctionsOrderedSetTy) :
    VarOriginsTy → VarOriginsTy
  | [] => [(var, origins)]
  | (k, v) :: rest =>
    if var < k then (var, origins) :: (k, v) :: rest
    else if var = k then (var, origins) :: rest
    else (k, v) :: VarOriginsTy.set var origins rest

/-- Modelled from the spec: `StateWithGuardsTy` of `guards.h` / `state.h`, the
base of `CAllocStateTy`: the basic block and the two guard maps. -/
structure StateWithGuardsTy where
  bb : Nat
  intGuards : IntGuardsTy
  sexpGuards : SEXPGuardsTy
deriving DecidableEq

/-- `CAllocStateTy`.  The field `hashcode` caches `hash()` for the hasher of the
DoneSet and takes no part in equality; the DoneSet is modelled by the contract
of `std::unordered_set`, so the field is kept apart, in `HashedStateTy`. -/
structure CAllocStateTy extends StateWithGuardsTy where
  called : CalledFunctionsOrderedSetTy
  varOrigins : VarOriginsTy
deriving DecidableEq

/-- The constructor `CAllocStateTy(BasicBlock *bb)`. -/
def CAllocStateTy.init (bb : Nat) : CAllocStateTy :=
  { bb := bb, intGuards := [], sexpGuards := [], called := [], varOrigins := [] }

/-- `CAllocStateTy::clone(newBB)`. -/
def CAllocStateTy.clone (s : CAllocStateTy) (newBB : Nat) : CAllocStateTy :=
  { bb := newBB, intGuards := s.intGuards, sexpGuards := s.sexpGuards, called := s.called,
    varOrigins := s.varOrigins }

/-- `CAllocStatePtrTy_equal::operator()`: the fields compared at lines 329-331.
The test `lhs == rhs` of line 326 is for one and the same object, whose fields
are equal. -/
def CAllocStatePtrTy_equal (lhs rhs : CAllocStateTy) : Bool :=
  decide (lhs.bb = rhs.bb) && decide (lhs.intGuards = rhs.intGuards) &&
    decide (lhs.sexpGuards = rhs.sexpGuards) && decide (lhs.called = rhs.called) &&
    decide (lhs.varOrigins = rhs.varOrigins)

/-- `WorkListTy = std::stack<CAllocStateTy*>`, the top first. -/
abbrev WorkListTy := List CAllocStateTy

/-- `DoneSetTy`, in insertion order. -/
abbrev DoneSetTy := List CAllocStateTy

/-- `MAX_STATES`. -/
def MAX_STATES : Nat := 1000000

/-- `CAllocStateTy::add()` on the file-scope `workList` and `doneSet`: the
result of the call and the two containers afterwards. -/
def CAllocStateTy.add (s : CAllocStateTy) (workList : WorkListTy) (doneSet : DoneSetTy) :
    Bool × WorkListTy × DoneSetTy :=
  match usetFind (fun e => CAllocStatePtrTy_equal e s) doneSet with
  | none => (true, s :: workList, doneSet ++ [s])
  | some _ => (false, workList, doneSet)

/-- Modelled from the spec: the helpers of `guards.h`, `symbols.h`, `errors.h`
and `allocators.h` that the engine calls and that are not among the sources.
The guard handlers are applied to the instruction and to the guards they may
change.  A terminator handler returns `none` for `false`; for `true` it returns
the base parts of the states it has cloned from the current state and admitted
with `add()`, in that order (spec 4.4 and 6). -/
structure Helpers where
  isInstallConstantCall : llvm.Value → Option String
  findErrorBasicBlocks : llvm.Function → FunctionsSetTy → List Nat
  findPossiblyReturnedVariables : llvm.Function → List Nat
  handleIntGuardsForNonTerminator : llvm.Value → IntGuardsTy → IntGuardsTy
  handleSEXPGuardsForNonTerminator : llvm.Value → SEXPGuardsTy → SEXPGuardsTy
  handleSEXPGuardsForTerminator : llvm.Value → StateWithGuardsTy → Option (List StateWithGuardsTy)
  handleIntGuardsForTerminator : llvm.Value → StateWithGuardsTy → Option (List StateWithGuardsTy)

/-! ## The worklist engine (callocators.cpp 368-538) -/

/-- `tgt->fun` for a handle `tgt`. -/
def CalledModuleTy.funOf (cm : CalledModuleTy) (tgt : Nat) : Option Nat :=
  match cm.calledFunctionsTable[tgt]? with
  | some cf => cf.fun_
  | none => none

/-- What is fixed during one run of `getCalledAndWrappedFunctions`: the helpers,
the function `f->fun`, the locals computed at lines 379-385 and the state cap. -/
structure RunCtx where
  H : Helpers
  F : llvm.Function
  errorBasicBlocks : List Nat
  possiblyReturnedVars : List Nat
  trackOrigins : Bool
  maxStates : Nat

/-- What one run changes: the module (its intern tables), the file-scope
`workList` and `doneSet`, the two result sets passed by reference, and the
`error` lines given to the messenger. -/
structure EngineState where
  cm : CalledModuleTy
  workList : WorkListTy
  doneSet : DoneSetTy
  called : CalledFunctionsOrderedSetTy
  wrapped : CalledFunctionsOrderedSetTy
  errors : List String

/-- Lines 437-450: copy the origins of `src` into `dst`. -/
def copyOrigins (vo : VarOriginsTy) (src dst : Nat) : VarOriginsTy :=
  match vo.find src with
  | some srcOrigs =>
    match vo.find dst with
    | none => vo.set dst srcOrigs
    | some dstOrigs => vo.set dst (CalledFunctionsOrderedSetTy.insertAll srcOrigs dstOrigs)
  | none => vo

/-- Lines 458-466: add the origin `tgt` to `dst`. -/
def addOrigin (vo : VarOriginsTy) (dst tgt : Nat) : VarOriginsTy :=
  match vo.find dst with
  | none => vo.set dst (CalledFunctionsOrderedSetTy.insert tgt [])
  | some existingOrigins => vo.set dst (CalledFunctionsOrderedSetTy.insert tgt existingOrigins)

/-- Lines 454-468: the stored value is not a load; when it is a call of an
allocating function, record the call as an origin of `dst` and `continue`. -/
def handleStoreOfCall (c : RunCtx) (val : llvm.Value) (dst : Nat) (cm : CalledModuleTy)
    (s : CAllocStateTy) : Bool × CalledModuleTy × CAllocStateTy :=
  let r := cm.getCalledFunction_Value c.H.isInstallConstantCall val
  match r.1 with
  | some tgt =>
    if r.2.isAllocating (r.2.funOf tgt) then
      (true, r.2, { s with varOrigins := addOrigin s.varOrigins dst tgt })
    else (false, r.2, s)
  | none => (false, r.2, s)

/-- Lines 434-453: the stored value is a load from `src`; copy the origins when
`src` is a local slot, and `continue`. -/
def handleStoreOfLoad (src : llvm.Value) (dst : Nat) (s : CAllocStateTy) : CAllocStateTy :=
  match src with
  | .allocaInst srcVar => { s with varOrigins := copyOrigins s.varOrigins srcVar dst }
  | _ => s

/-- The store handling of lines 426-471 when `trackOrigins` holds.  The first
component tells whether the iteration ended with `continue`. -/
def handleStore (c : RunCtx) (inst : llvm.Value) (cm : CalledModuleTy) (s : CAllocStateTy) :
    Bool × CalledModuleTy × CAllocStateTy :=
  match inst with
  | .storeInst val (.allocaInst dst) =>
    if c.possiblyReturnedVars.contains dst then
      match val with
      | .loadInst src => (true, cm, handleStoreOfLoad src dst s)
      | _ => handleStoreOfCall c val dst cm s
    else (false, cm, s)
  | _ => (false, cm, s)

/-- The call handling of lines 473-478. -/
def handleCall (c : RunCtx) (inst : llvm.Value) (cm : CalledModuleTy) (s : CAllocStateTy) :
    CalledModuleTy × CAllocStateTy :=
  let r := cm.getCalledFunction_Value c.H.isInstallConstantCall inst
  match r.1 with
  | some tgt =>
    if r.2.isAllocating (r.2.funOf tgt) then
      (r.2, { s with called := CalledFunctionsOrderedSetTy.insert tgt s.called })
    else (r.2, s)
  | none => (r.2, s)

/-- One iteration of the instruction loop, lines 419-479. -/
def visitInstruction (c : RunCtx) (inst : llvm.Value) (cm : CalledModuleTy)
    (s : CAllocStateTy) : CalledModuleTy × CAllocStateTy :=
  let s1 : CAllocStateTy :=
    { s with
      intGuards := c.H.handleIntGuardsForNonTerminator inst s.intGuards
      sexpGuards := c.H.handleSEXPGuardsForNonTerminator inst s.sexpGuards }
  if c.trackOrigins then
    let r := handleStore c inst cm s1
    if r.1 then (r.2.1, r.2.2) else handleCall c inst r.2.1 r.2.2
  else handleCall c inst cm s1

/-- The instruction loop over a block, lines 419-479. -/
def visitBlock (c : RunCtx) :
    List llvm.Value → CalledModuleTy → CAllocStateTy → CalledModuleTy × CAllocStateTy
  | [], cm, s => (cm, s)
  | inst :: rest, cm, s =>
    let r := visitInstruction c inst cm s
    visitBlock c rest r.1 r.2

/-- The origins collected for a returned value, lines 495-514. -/
def collectWrapped (c : RunCtx) (returnOperand : llvm.Value) (cm : CalledModuleTy)
    (s : CAllocStateTy) (wrapped : CalledFunctionsOrderedSetTy) :
    CalledModuleTy × CalledFunctionsOrderedSetTy :=
  let wrapped1 :=
    match returnOperand with
    | .loadInst (.allocaInst src) =>
      match s.varOrigins.find src with
      | some knownOrigins => CalledFunctionsOrderedSetTy.insertAll knownOrigins wrapped
      | none => wrapped
    | _ => wrapped
  let r := cm.getCalledFunction_Value c.H.isInstallConstantCall returnOperand
  match r.1 with
  | some tgt =>
    if r.2.isPossibleAllocator (r.2.funOf tgt) then
      (r.2, CalledFunctionsOrderedSetTy.insert tgt wrapped1)
    else (r.2, wrapped1)
  | none => (r.2, wrapped1)

/-- The handling of a return statement, lines 483-517, for the terminator `t`
and the state `s` at the end of its block.  A `ret void` has no operand to look
at (it cannot occur when `trackOrigins` holds). -/
def handleReturn (c : RunCtx) (t : llvm.Value) (s : CAllocStateTy) (st : EngineState) :
    EngineState :=
  match t with
  | .returnInst returnValue =>
    let called := CalledFunctionsOrderedSetTy.insertAll s.called st.called
    if c.trackOrigins then
      let wrapped0 :=
        if called.contains st.cm.gcFunction then
          CalledFunctionsOrderedSetTy.insert st.cm.gcFunction st.wrapped
        else st.wrapped
      match returnValue with
      | some returnOperand =>
        let r := collectWrapped c returnOperand st.cm s wrapped0
        { st with cm := r.1, called := called, wrapped := r.2 }
      | none => { st with called := called, wrapped := wrapped0 }
    else { st with called := called }
  | _ => st

/-- Add the states in order with `add()`. -/
def addAll : List CAllocStateTy → WorkListTy → DoneSetTy → WorkListTy × DoneSetTy
  | [], workList, doneSet => (workList, doneSet)
  | s :: rest, workList, doneSet =>
    let r := s.add workList doneSet
    addAll rest r.2.1 r.2.2

/-- The state a terminator handler has cloned from `s` and tailored. -/
def CAllocStateTy.withGuards (s : CAllocStateTy) (g : StateWithGuardsTy) : CAllocStateTy :=
  { bb := g.bb, intGuards := g.intGuards, sexpGuards := g.sexpGuards, called := s.called,
    varOrigins := s.varOrigins }

/-- The states admitted at the end of a block, lines 519-536: those of a guard
handler that consumed the terminator, else a clone for every successor. -/
def successorStates (c : RunCtx) (t : llvm.Value) (s : CAllocStateTy) : List CAllocStateTy :=
  match c.H.handleSEXPGuardsForTerminator t s.toStateWithGuardsTy with
  | some l => l.map s.withGuards
  | none =>
    match c.H.handleIntGuardsForTerminator t s.toStateWithGuardsTy with
    | some l => l.map s.withGuards
    | none => t.successors.map s.clone

/-- The body of the worklist loop, lines 416-536, for the popped state `s`, once
the checks at lines 398-414 have passed.  A block without terminator is outside
well-formed IR; nothing is done at its end. -/
def processState (c : RunCtx) (s : CAllocStateTy) (st : EngineState) : EngineState :=
  let r := visitBlock c (c.F.block s.bb) st.cm s
  let st1 : EngineState := { st with cm := r.1 }
  match (c.F.block s.bb).getTerminator with
  | none => st1
  | some t =>
    let st2 := handleReturn c t r.2 st1
    let a := addAll (successorStates c t r.2) st2.workList st2.doneSet
    { st2 with workList := a.1, doneSet := a.2 }

/-- The worklist loop, lines 394-537.  `fuel` bounds the number of iterations;
`none` means the bound was reached.  `ONLY_FUNCTION` and `DUMP_STATES` are
`false`, so lines 398-404 do nothing. -/
def workLoop (c : RunCtx) : Nat → EngineState → Option EngineState
  | 0, _ => none
  | fuel + 1, st =>
    match st.workList with
    | [] => some st
    | s :: rest =>
      let st1 : EngineState := { st with workList := rest }
      if c.errorBasicBlocks.contains s.bb then workLoop c fuel st1
      else if st1.doneSet.length > c.maxStates then
        some { st1 with errors := st1.errors ++ ["too many states (abstraction error?)"] }
      else workLoop c fuel (processState c s st1)

/-- `clearStates()` followed by the seeding of lines 390-393. -/
def seedState (st : EngineState) : EngineState :=
  let a := (CAllocStateTy.init 0).add [] []
  { st with workList := a.2.1, doneSet := a.2.2 }

/-- The locals of lines 374-385 for the function `fn`. -/
def RunCtx.make (H : Helpers) (cm : CalledModuleTy) (fn : Nat) (maxStates : Nat) : RunCtx where
  H := H
  F := cm.m.fn fn
  errorBasicBlocks := H.findErrorBasicBlocks (cm.m.fn fn) cm.errorFunctions
  possiblyReturnedVars := H.findPossiblyReturnedVariables (cm.m.fn fn)
  trackOrigins := (cm.m.fn fn).returnsSEXP
  maxStates := maxStates

/-- `getCalledAndWrappedFunctions` with the state cap as a parameter.  `st`
holds the module `f->module`, the file-scope containers as the previous run left
them, and the result sets as passed in. -/
def getCalledAndWrappedFunctionsCap (H : Helpers) (maxStates : Nat) (fuel : Nat)
    (f : CalledFunctionTy) (st : EngineState) : Option EngineState :=
  match f.fun_ with
  | none => some st
  | some fn =>
    if (st.cm.m.fn fn).size = 0 then some st
    else workLoop (RunCtx.make H st.cm fn maxStates) fuel (seedState st)

/-- `getCalledAndWrappedFunctions`. -/
def getCalledAndWrappedFunctions (H : Helpers) (fuel : Nat) (f : CalledFunctionTy)
    (st : EngineState) : Option EngineState :=
  getCalledAndWrappedFunctionsCap H MAX_STATES fuel f st

/-! ## The engine over fixed handles

During a run the module only grows, and the handle of a call site never
changes.  The definitions below are the steps of the engine with the handles
read from one fixed state of the module; they are used to state what a run
computes. -/

/-- The handles and classifications as one state of the module gives them. -/
structure Oracle where
  handle : llvm.Value → Option Nat
  allocating : Nat → Bool
  possibleAllocator : Nat → Bool
  gcFunction : Nat

/-- The oracle of the module state `cm`. -/
def Oracle.ofModule (isInstallConstantCall : llvm.Value → Option String)
    (cm : CalledModuleTy) : Oracle where
  handle := fun v => (cm.getCalledFunction_Value isInstallConstantCall v).1
  allocating := fun t => cm.isAllocating (cm.funOf t)
  possibleAllocator := fun t => cm.isPossibleAllocator (cm.funOf t)
  gcFunction := cm.gcFunction

/-- `handleStoreOfCall` over fixed handles. -/
def handleStoreOfCallP (O : Oracle) (val : llvm.Value) (dst : Nat) (s : CAllocStateTy) :
    Bool × CAllocStateTy :=
  match O.handle val with
  | some tgt =>
    if O.allocating tgt then (true, { s with varOrigins := addOrigin s.varOrigins dst tgt })
    else (false, s)
  | none => (false, s)

/-- `handleStore` over fixed handles. -/
def handleStoreP (c : RunCtx) (O : Oracle) (inst : llvm.Value) (s : CAllocStateTy) :
    Bool × CAllocStateTy :=
  match inst with
  | .storeInst val (.allocaInst dst) =>
    if c.possiblyReturnedVars.contains dst then
      match val with
      | .loadInst src => (true, handleStoreOfLoad src dst s)
      | _ => handleStoreOfCallP O val dst s
    else (false, s)
  | _ => (false, s)

/-- `handleCall` over fixed handles. -/
def handleCallP (O : Oracle) (inst : llvm.Value) (s : CAllocStateTy) : CAllocStateTy :=
  match O.handle inst with
  | some tgt =>
    if O.allocating tgt then
      { s with called := CalledFunctionsOrderedSetTy.insert tgt s.called }
    else s
  | none => s

/-- `visitInstruction` over fixed handles. -/
def visitInstructionP (c : RunCtx) (O : Oracle) (inst : llvm.Value) (s : CAllocStateTy) :
    CAllocStateTy :=
  let s1 : CAllocStateTy :=
    { s with
      intGuards := c.H.handleIntGuardsForNonTerminator inst s.intGuards
      sexpGuards := c.H.handleSEXPGuardsForNonTerminator inst s.sexpGuards }
  if c.trackOrigins then
    let r := handleStoreP c O inst s1
    if r.1 then r.2 else handleCallP O inst r.2
  else handleCallP O inst s1

/-- `visitBlock` over fixed handles. -/
def visitBlockP (c : RunCtx) (O : Oracle) : List llvm.Value → CAllocStateTy → CAllocStateTy
  | [], s => s
  | inst :: rest, s => visitBlockP c O rest (visitInstructionP c O inst s)

/-- `collectWrapped` over fixed handles. -/
def collectWrappedP (O : Oracle) (returnOperand : llvm.Value) (s : CAllocStateTy)
    (wrapped : CalledFunctionsOrderedSetTy) : CalledFunctionsOrderedSetTy :=
  let wrapped1 :=
    match returnOperand with
    | .loadInst (.allocaInst src) =>
      match s.varOrigins.find src with
      | some knownOrigins => CalledFunctionsOrderedSetTy.insertAll knownOrigins wrapped
      | none => wrapped
    | _ => wrapped
  match O.handle returnOperand with
  | some tgt =>
    if O.possibleAllocator tgt then CalledFunctionsOrderedSetTy.insert tgt wrapped1
    else wrapped1
  | none => wrapped1

/-- `handleReturn` over fixed handles; the module is left as it is. -/
def handleReturnP (c : RunCtx) (O : Oracle) (t : llvm.Value) (s : CAllocStateTy)
    (st : EngineState) : EngineState :=
  match t with
  | .returnInst returnValue =>
    let called := CalledFunctionsOrderedSetTy.insertAll s.called st.called
    if c.trackOrigins then
      let wrapped0 :=
        if called.contains O.gcFunction then
          CalledFunctionsOrderedSetTy.insert O.gcFunction st.wrapped
        else st.wrapped
      match returnValue with
      | some returnOperand =>
        { st with called := called, wrapped := collectWrappedP O returnOperand s wrapped0 }
      | none => { st with called := called, wrapped := wrapped0 }
    else { st with called := called }
  | _ => st

/-- `processState` over fixed handles; the module is left as it is. -/
def processStateP (c : RunCtx) (O : Oracle) (s : CAllocStateTy) (st : EngineState) :
    EngineState :=
  match (c.F.block s.bb).getTerminator with
  | none => st
  | some t =>
    let sP := visitBlockP c O (c.F.block s.bb) s
    let st2 := handleReturnP c O t sP st
    let a := addAll (successorStates c t sP) st2.workList st2.doneSet
    { st2 with workList := a.1, doneSet := a.2 }

/-! ## What a run explores -/

/-- The state at the end of the block of `s`, over fixed handles. -/
def blockEnd (c : RunCtx) (O : Oracle) (s : CAllocStateTy) : CAllocStateTy :=
  visitBlockP c O (c.F.block s.bb) s

/-- The states the engine admits after processing `s`. -/
def nextStates (c : RunCtx) (O : Oracle) (s : CAllocStateTy) : List CAllocStateTy :=
  match (c.F.block s.bb).getTerminator with
  | none => []
  | some t => successorStates c t (blockEnd c O s)

/-- The calls the engine collects into the called set when it processes `s`:
the call set at the end of the block when the block ends in a return. -/
def returnedCalls (c : RunCtx) (O : Oracle) (s : CAllocStateTy) : CalledFunctionsOrderedSetTy :=
  match (c.F.block s.bb).getTerminator with
  | some (.returnInst _) => (blockEnd c O s).called
  | _ => []

/-- The abstract states a run reaches: the seed state at the entry block, and
the states admitted after processing a reached state whose block is not an error
block. -/
inductive Reach (c : RunCtx) (O : Oracle) : CAllocStateTy → Prop where
  | seed : Reach c O (CAllocStateTy.init 0)
  | next (s s2 : CAllocStateTy) : Reach c O s → c.errorBasicBlocks.contains s.bb = false →
      s2 ∈ nextStates c O s → Reach c O s2

/-- The invariant of the worklist loop.  `called0` is the called set passed in. -/
structure LoopInv (c : RunCtx) (O : Oracle) (called0 : CalledFunctionsOrderedSetTy)
    (st : EngineState) : Prop where
  work_done : ∀ s ∈ st.workList, s ∈ st.doneSet
  processed : ∀ s ∈ st.doneSet, s ∈ st.workList ∨ c.errorBasicBlocks.contains s.bb = true ∨
    ((∀ t ∈ returnedCalls c O s, t ∈ st.called) ∧ ∀ s2 ∈ nextStates c O s, s2 ∈ st.doneSet)
  reach : ∀ s ∈ st.doneSet, Reach c O s
  called_sound : ∀ t ∈ st.called, t ∈ called0 ∨
    ∃ s, Reach c O s ∧ c.errorBasicBlocks.contains s.bb = false ∧ t ∈ returnedCalls c O s
  seed_done : CAllocStateTy.init 0 ∈ st.doneSet
  called_mono : ∀ t ∈ called0, t ∈ st.called

/-- A path in the control-flow graph of `F` from the entry block: `CFGPath F b p`
says that the blocks of `p` (the latest first) lead from the entry block to the
block `b`, each step going to a successor of the terminator. -/
inductive CFGPath (F : llvm.Function) : Nat → List Nat → Prop where
  | entry : CFGPath F 0 []
  | step (b b2 : Nat) (p : List Nat) (t : llvm.Value) : CFGPath F b p →
      (F.block b).getTerminator = some t → b2 ∈ t.successors → CFGPath F b2 (b :: p)

/-- The terminator handlers of `guards.h` never consume a terminator: they return
`false` and add nothing. -/
structure Helpers.NeverConsume (H : Helpers) : Prop where
  sexpTerminator : ∀ t s, H.handleSEXPGuardsForTerminator t s = none
  intTerminator : ∀ t s, H.handleIntGuardsForTerminator t s = none

/-- The guard handlers of `guards.h` leave the guard maps as they are and never
consume a terminator. -/
structure Helpers.GuardsInert (H : Helpers) : Prop where
  intNonTerminator : ∀ v g, H.handleIntGuardsForNonTerminator v g = g
  sexpNonTerminator : ∀ v g, H.handleSEXPGuardsForNonTerminator v g = g
  neverConsume : H.NeverConsume

/-- The allocating calls of block `b`, by the handles of the module `cm`: `t` is
the handle of a direct call instruction of the block whose function is in
`allocatingFunctions`. -/
def allocatingCallIn (isInstallConstantCall : llvm.Value → Option String)
    (cm : CalledModuleTy) (F : llvm.Function) (b : Nat) (t : Nat) : Prop :=
  ∃ v ∈ F.block b, (cm.getCalledFunction_Value isInstallConstantCall v).1 = some t ∧
    cm.isAllocating (cm.funOf t) = true

/-! ## Example functions for the engine -/

/-- Helpers with inert guard handlers, no install-constant calls, the given
error blocks and the given possibly returned slots. -/
def inertHelpers (errorBlocks possiblyReturned : List Nat) : Helpers where
  isInstallConstantCall := fun _ => none
  findErrorBasicBlocks := fun _ _ => errorBlocks
  findPossiblyReturnedVariables := fun _ => possiblyReturned
  handleIntGuardsForNonTerminator := fun _ g => g
  handleSEXPGuardsForNonTerminator := fun _ g => g
  handleSEXPGuardsForTerminator := fun _ _ => none
  handleIntGuardsForTerminator := fun _ _ => none

/-- A called module over the module `m` as the constructor leaves it when no
call site has been seen: the tables hold the handle `0` of the GC function `3`
with its one-argument no-context.  Functions `1`, `2` and `3` are allocating,
`1` and `2` are possible allocators, `4` is an error function. -/
def engineCM (m : llvm.Module) : CalledModuleTy where
  this := 0
  argInfoHeap := []
  calledFunctionsTable := [{ fun_ := some 3, argInfo := 0, module := 0 }]
  argInfosTable := [[none]]
  argInfoTable := []
  symbolsMap := fun _ => none
  m := m
  errorFunctions := [4]
  possibleAllocators := [1, 2]
  allocatingFunctions := [1, 2, 3]
  gcFunction := 0

/-- The engine state the driver passes in: empty result sets. -/
def engineStart (m : llvm.Module) : EngineState where
  cm := engineCM m
  workList := []
  doneSet := []
  called := []
  wrapped := []
  errors := []

/-- A module whose function `0` returns a managed value and has the given
blocks; the functions `1` and `2` are allocators without parameters, `3` is the
GC function with one parameter, `4` an error function. -/
def moduleWith (blocks : List llvm.BasicBlock) : llvm.Module where
  fn := fun i =>
    match i with
    | 0 => { arg_size := 0, returnsSEXP := true, blocks := blocks }
    | 1 => { arg_size := 0, returnsSEXP := true }
    | 2 => { arg_size := 0, returnsSEXP := true }
    | 3 => { arg_size := 1 }
    | _ => { arg_size := 0 }
  size := 5

/-- The function `if (g == 0) return alloc1(); else return alloc2();`. -/
def guardedBranch : List llvm.BasicBlock :=
  [[llvm.Value.loadInst (llvm.Value.globalVariable 5), llvm.Value.other 0,
      llvm.Value.branchInst [1, 2]],
    [llvm.Value.callInst (some 1) [],
      llvm.Value.returnInst (some (llvm.Value.callInst (some 1) []))],
    [llvm.Value.callInst (some 2) [],
      llvm.Value.returnInst (some (llvm.Value.callInst (some 2) []))]]

/-- The function `y = alloc(); x = y; return x;` with the slots `x` and `y` and
the call `call` of the allocator. -/
def copyBody (x y : Nat) (call : llvm.Value) : List llvm.BasicBlock :=
  [[call,
    llvm.Value.storeInst call (llvm.Value.allocaInst y),
    llvm.Value.loadInst (llvm.Value.allocaInst y),
    llvm.Value.storeInst (llvm.Value.loadInst (llvm.Value.allocaInst y))
      (llvm.Value.allocaInst x),
    llvm.Value.loadInst (llvm.Value.allocaInst x),
    llvm.Value.returnInst (some (llvm.Value.loadInst (llvm.Value.allocaInst x)))]]

/-- The function `if (c) { gc(n); error(); } return x;`: the call of the GC
function is in block `1`, which ends in a call of an error function. -/
def gcOnErrorPath : List llvm.BasicBlock :=
  [[llvm.Value.other 0, llvm.Value.branchInst [1, 2]],
    [llvm.Value.callInst (some 3) [llvm.Value.other 1], llvm.Value.callInst (some 4) [],
      llvm.Value.branchInst []],
    [llvm.Value.loadInst (llvm.Value.allocaInst 0),
      llvm.Value.returnInst (some (llvm.Value.loadInst (llvm.Value.allocaInst 0)))]]

/-- The function `gc(n); return x;`. -/
def gcThenReturn : List llvm.BasicBlock :=
  [[llvm.Value.callInst (some 3) [llvm.Value.other 1],
    llvm.Value.loadInst (llvm.Value.allocaInst 0),
    llvm.Value.returnInst (some (llvm.Value.loadInst (llvm.Value.allocaInst 0)))]]

/-! ## Properties of runs used by the claims -/

/-- The values the engine passes to `getCalledFunction` when it visits the
instruction: the instruction itself, the value operand of a store, the operand
of a return. -/
def lookedUp : llvm.Value → List llvm.Value
  | .storeInst val ptr => [.storeInst val ptr, val]
  | .returnInst (some rv) => [.returnInst (some rv), rv]
  | v => [v]

/-- Every handle in the call set and in the origins of the state is `P`. -/
def CAllocStateTy.All (P : Nat → Prop) (s : CAllocStateTy) : Prop :=
  (∀ t ∈ s.called, P t) ∧ ∀ e ∈ s.varOrigins, ∀ t ∈ e.2, P t

/-- Every call the engine can record in the function goes to a handle that is
`P`: by the handles of `O`, for every value looked up at an instruction of `F`,
a handle that is allocating or a possible allocator is `P`. -/
def OnlyCalls (O : Oracle) (F : llvm.Function) (P : Nat → Prop) : Prop :=
  ∀ bb ∈ F.blocks, ∀ inst ∈ bb, ∀ v ∈ lookedUp inst, ∀ t, O.handle v = some t →
    (O.allocating t = true ∨ O.possibleAllocator t = true) → P t

/-- Contract of `findErrorBasicBlocks` (spec 4.4: the blocks on paths that end in
an error function): a block that ends in a return is not an error block. -/
def Helpers.ErrorBlocksNoReturn (H : Helpers) : Prop :=
  ∀ (F : llvm.Function) (errorFunctions : FunctionsSetTy) (b : Nat),
    b ∈ H.findErrorBasicBlocks F errorFunctions →
      ∀ rv, (F.block b).getTerminator ≠ some (llvm.Value.returnInst rv)

/-- Contract of the terminator handlers of `guards.h` (spec 4.4 and 6: they
enqueue edge-specific successor states): they only add states for successors
of the terminator. -/
structure Helpers.SuccessorsOnly (H : Helpers) : Prop where
  sexpTerminator : ∀ t s l, H.handleSEXPGuardsForTerminator t s = some l →
    ∀ g ∈ l, g.bb ∈ t.successors
  intTerminator : ∀ t s l, H.handleIntGuardsForTerminator t s = some l →
    ∀ g ∈ l, g.bb ∈ t.successors

/-! ## The run as a sequence of iterations -/

/-- One iteration of the worklist loop: the state popped from the worklist and
the engine state at the loop head, before the pop. -/
structure Iteration where
  popped : CAllocStateTy
  head : EngineState

/-- The worklist loop of lines 394-537 with a record of its iterations, the
first one first.  The engine state it returns is the one of `workLoop`. -/
def workLoopTrace (c : RunCtx) : Nat → EngineState → Option (List Iteration × EngineState)
  | 0, _ => none
  | fuel + 1, st =>
    match st.workList with
    | [] => some ([], st)
    | s :: rest =>
      let st1 : EngineState := { st with workList := rest }
      if c.errorBasicBlocks.contains s.bb then
        (workLoopTrace c fuel st1).map (fun r => (⟨s, st⟩ :: r.1, r.2))
      else if st1.doneSet.length > c.maxStates then
        some ([⟨s, st⟩],
          { st1 with errors := st1.errors ++ ["too many states (abstraction error?)"] })
      else (workLoopTrace c fuel (processState c s st1)).map (fun r => (⟨s, st⟩ :: r.1, r.2))

/-- The iteration got past the error-block test of lines 406-409 and reached
the cap check. -/
def Iteration.reachesCapCheck (c : RunCtx) (i : Iteration) : Bool :=
  !c.errorBasicBlocks.contains i.popped.bb

/-- The cap check of lines 411-414 fired in the iteration. -/
def Iteration.capFired (c : RunCtx) (i : Iteration) : Bool :=
  i.reachesCapCheck c && decide (i.head.doneSet.length > c.maxStates)

/-- Structural equality of two abstract states: same block, integer guards,
managed guards, call set and variable origins. -/
def CAllocStateTy.StructEq (a b : CAllocStateTy) : Prop :=
  a.bb = b.bb ∧ a.intGuards = b.intGuards ∧ a.sexpGuards = b.sexpGuards ∧
    a.called = b.called ∧ a.varOrigins = b.varOrigins

/-- The DoneSet holds no two distinct states that are equal by
`CAllocStatePtrTy_equal`. -/
def DoneSetTy.NoDuplicate (ds : DoneSetTy) : Prop :=
  ds.Pairwise (fun a b => CAllocStatePtrTy_equal a b = false)

/-! ## The driver (callocators.cpp 540-577) -/

/-- What `getCalledAllocators` has for one function after the engine returned:
the handle of the function and the two sets.  The lines it prints are made from
these. -/
structure FunctionReport where
  f : Nat
  called : CalledFunctionsOrderedSetTy
  wrapped : CalledFunctionsOrderedSetTy
deriving DecidableEq

/-- The loop of `getCalledAllocators`, lines 551-576, over the handles the
iterator of `calledFunctionsTable` gives, in that order (a number that is not a
handle of the table is passed over).  The module, the file-scope containers and
the messenger are threaded through; `called` and `wrapped` are fresh for every
function.  The result holds, for every function the engine was run on, what the
loop has in hand when it prints. -/
def getCalledAllocatorsLoop (H : Helpers) (fuel : Nat) :
    List Nat → EngineState → Option (List FunctionReport × EngineState)
  | [], st => some ([], st)
  | h :: rest, st =>
    match st.cm.calledFunctionsTable[h]? with
    | none => getCalledAllocatorsLoop H fuel rest st
    | some f =>
      match f.fun_ with
      | none => getCalledAllocatorsLoop H fuel rest st
      | some fn =>
        if (st.cm.m.fn fn).size = 0 then getCalledAllocatorsLoop H fuel rest st
        else
          match getCalledAndWrappedFunctions H fuel f { st with called := [], wrapped := [] } with
          | none => none
          | some r =>
            (getCalledAllocatorsLoop H fuel rest r).map
              (fun p => (⟨h, r.called, r.wrapped⟩ :: p.1, p.2))

/-- `getCalledAllocators`: the loop over the handles of the table as it is when
the loop starts, in table order.  (The order in which an `unordered_set` is
iterated is unspecified; the results below are proved for every order.) -/
def getCalledAllocators (H : Helpers) (fuel : Nat) (st : EngineState) :
    Option (List FunctionReport × EngineState) :=
  getCalledAllocatorsLoop H fuel (List.range st.cm.calledFunctionsTable.length) st

/-- `clearStates()`, lines 356-366: empty the DoneSet and the worklist. -/
def clearStates (st : EngineState) : EngineState :=
  { st with workList := [], doneSet := [] }

/-- `getCalledAndWrappedFunctions` with the state cap as a parameter and with
the record of the iterations of its loop (none when it returns at line 372). -/
def getCalledAndWrappedFunctionsTrace (H : Helpers) (maxStates : Nat) (fuel : Nat)
    (f : CalledFunctionTy) (st : EngineState) : Option (List Iteration × EngineState) :=
  match f.fun_ with
  | none => some ([], st)
  | some fn =>
    if (st.cm.m.fn fn).size = 0 then some ([], st)
    else workLoopTrace (RunCtx.make H st.cm fn maxStates) fuel (seedState st)

/-- The `error` line of the cap check, line 412. -/
def tooManyStates : String := "too many states (abstraction error?)"

/-- A function whose entry block branches to two blocks that each call the error
function `4`: `if (c) error(); else error();`. -/
def twoErrorBranches : List llvm.BasicBlock :=
  [[llvm.Value.other 0, llvm.Value.branchInst [1, 2]],
    [llvm.Value.callInst (some 4) [], llvm.Value.branchInst []],
    [llvm.Value.callInst (some 4) [], llvm.Value.branchInst []]]

/-! ## Variable origins -/

/-- Every slot with an entry in the map is one of `vars`. -/
def VarOriginsTy.Within (vars : List Nat) (vo : VarOriginsTy) : Prop :=
  ∀ e ∈ vo, e.1 ∈ vars

/-- The store instruction `dst <- load(src)` between two local slots. -/
def copyStore (src dst : Nat) : llvm.Value :=
  llvm.Value.storeInst (llvm.Value.loadInst (llvm.Value.allocaInst src))
    (llvm.Value.allocaInst dst)

/-- The origins a map has for a slot, an absent entry read as the empty set. -/
def VarOriginsTy.originsOf (vo : VarOriginsTy) (var : Nat) : CalledFunctionsOrderedSetTy :=
  (vo.find var).getD []

/-- The module of `moduleWith` but for the return type of function `0`, which is
not a managed value. -/
def moduleWithInt (blocks : List llvm.BasicBlock) : llvm.Module where
  fn := fun i =>
    match i with
    | 0 => { arg_size := 0, returnsSEXP := false, blocks := blocks }
    | 1 => { arg_size := 0, returnsSEXP := true }
    | 2 => { arg_size := 0, returnsSEXP := true }
    | 3 => { arg_size := 1 }
    | _ => { arg_size := 0 }
  size := 5

/-! ## Two runs -/

/-- Two engine states have the same worklist, DoneSet and result sets; the
modules and the diagnostics so far may differ. -/
def EngineState.Agree (a b : EngineState) : Prop :=
  a.workList = b.workList ∧ a.doneSet = b.doneSet ∧ a.called = b.called ∧
    a.wrapped = b.wrapped

/-- The called module of `engineCM` with a second entry in its table: the handle
`1` of function `0` with its empty no-context. -/
def driverCM (m : llvm.Module) : CalledModuleTy :=
  { engineCM m with
    calledFunctionsTable :=
      [{ fun_ := some 3, argInfo := 0, module := 0 }, { fun_ := some 0, argInfo := 1, module := 0 }]
    argInfosTable := [[none], []] }

/-- The engine state the driver starts from on `driverCM`. -/
def driverStart (m : llvm.Module) : EngineState :=
  { engineStart m with cm := driverCM m }

/-! ## The worklist discipline -/

/-- Taking the state at position `i` from a worklist that is not empty: the
state and the rest of the worklist.  The top is taken when there is no such
position. -/
def takeAt (i : Nat) (top : CAllocStateTy) (tl : List CAllocStateTy) :
    CAllocStateTy × List CAllocStateTy :=
  match (top :: tl)[i]? with
  | some s => (s, (top :: tl).eraseIdx i)
  | none => (top, tl)

/-- The worklist loop of lines 394-537 with the choice of the state to work on
left open: `pick` gives, from the engine state at the loop head, the position in
the worklist of the state to take.  New states are still pushed on top.  The
stack of the program is the choice of position `0`, a queue the choice of the
last position. -/
def workLoopWith (pick : EngineState → Nat) (c : RunCtx) : Nat → EngineState → Option EngineState
  | 0, _ => none
  | fuel + 1, st =>
    match st.workList with
    | [] => some st
    | top :: tl =>
      let p := takeAt (pick st) top tl
      let st1 : EngineState := { st with workList := p.2 }
      if c.errorBasicBlocks.contains p.1.bb then workLoopWith pick c fuel st1
      else if st1.doneSet.length > c.maxStates then
        some { st1 with errors := st1.errors ++ ["too many states (abstraction error?)"] }
      else workLoopWith pick c fuel (processState c p.1 st1)

/-- The stack discipline of the program: always the top. -/
def pickTop : EngineState → Nat := fun _ => 0

/-- The queue discipline: always the state that has waited longest. -/
def pickOldest : EngineState → Nat := fun st => st.workList.length - 1

/-- `getCalledAndWrappedFunctions` with the worklist discipline `pick`. -/
def getCalledAndWrappedFunctionsWith (pick : EngineState → Nat) (H : Helpers) (fuel : Nat)
    (f : CalledFunctionTy) (st : EngineState) : Option EngineState :=
  match f.fun_ with
  | none => some st
  | some fn =>
    if (st.cm.m.fn fn).size = 0 then some st
    else workLoopWith pick (RunCtx.make H st.cm fn MAX_STATES) fuel (seedState st)

/-- The origins the engine collects into the wrapped set from the returned value
when it processes `s`, over fixed handles: lines 495-514. -/
def returnedOrigins (c : RunCtx) (O : Oracle) (s : CAllocStateTy) :
    CalledFunctionsOrderedSetTy :=
  match (c.F.block s.bb).getTerminator with
  | some (.returnInst (some rv)) =>
    if c.trackOrigins then collectWrappedP O rv (blockEnd c O s) [] else []
  | _ => []

/-- The block of `s` ends in a return and origins are tracked: the GC test of
lines 489-494 is made when `s` is processed. -/
def returnsTracked (c : RunCtx) (s : CAllocStateTy) : Bool :=
  match (c.F.block s.bb).getTerminator with
  | some (.returnInst _) => c.trackOrigins
  | _ => false

/-- The invariant of the worklist loop for the wrapped set.  `wrapped0` is the
wrapped set passed in. -/
structure WrapInv (c : RunCtx) (O : Oracle) (wrapped0 : CalledFunctionsOrderedSetTy)
    (st : EngineState) : Prop where
  processed : ∀ s ∈ st.doneSet, s ∈ st.workList ∨ c.errorBasicBlocks.contains s.bb = true ∨
    ((∀ t ∈ returnedOrigins c O s, t ∈ st.wrapped) ∧
      (returnsTracked c s = true → O.gcFunction ∈ st.called → O.gcFunction ∈ st.wrapped))
  sound : ∀ t ∈ st.wrapped, t ∈ wrapped0 ∨
    ∃ s, Reach c O s ∧ c.errorBasicBlocks.contains s.bb = false ∧
      (t ∈ returnedOrigins c O s ∨
        (t = O.gcFunction ∧ returnsTracked c s = true ∧ O.gcFunction ∈ st.called))
  mono : ∀ t ∈ wrapped0, t ∈ st.wrapped

/-- Two readings of the handles agree at an instruction: on every value the
engine looks up there, and on the classification of the handle found. -/
def Oracle.AgreeAt (O O2 : Oracle) (inst : llvm.Value) : Prop :=
  ∀ v ∈ lookedUp inst, O.handle v = O2.handle v ∧
    ∀ t, O.handle v = some t →
      O.allocating t = O2.allocating t ∧ O.possibleAllocator t = O2.possibleAllocator t

/-- Two readings of the handles agree on a function. -/
def Oracle.AgreeOn (F : llvm.Function) (O O2 : Oracle) : Prop :=
  O.gcFunction = O2.gcFunction ∧ ∀ bb ∈ F.blocks, ∀ inst ∈ bb, O.AgreeAt O2 inst

/-- Every call site the engine looks up in the function is in the tables of the
module already (as the constructor of the module leaves them, lines 218-224):
looking it up finds its handle there. -/
def CalledModuleTy.Registered (isInstallConstantCall : llvm.Value → Option String)
    (cm : CalledModuleTy) (F : llvm.Function) : Prop :=
  ∀ bb ∈ F.blocks, ∀ inst ∈ bb, ∀ v ∈ lookedUp inst,
    (cm.getCalledFunction_Value isInstallConstantCall v).1 =
      cm.lookupHandle isInstallConstantCall v

/-- The called module of `engineCM` with the call sites `alloc1()` and
`alloc2()` registered: the handles `1` and `2`. -/
def registeredCM (m : llvm.Module) : CalledModuleTy :=
  { engineCM m with
    calledFunctionsTable :=
      [{ fun_ := some 3, argInfo := 0, module := 0 }, { fun_ := some 1, argInfo := 1, module := 0 },
        { fun_ := some 2, argInfo := 1, module := 0 }]
    argInfosTable := [[none], []] }

/-- The engine state the driver passes in on `registeredCM`. -/
def registeredStart (m : llvm.Module) : EngineState :=
  { engineStart m with cm := registeredCM m }

/-- The list is the content of a `std::set`: strictly increasing. -/
def CalledFunctionsOrderedSetTy.IsSet (l : CalledFunctionsOrderedSetTy) : Prop :=
  List.Sorted (fun a b => a < b) l

/-- The function `if (c) { gc(n); return x; } else return y;`. -/
def gcBranch : List llvm.BasicBlock :=
  [[llvm.Value.other 0, llvm.Value.branchInst [1, 2]],
    [llvm.Value.callInst (some 3) [llvm.Value.other 1],
      llvm.Value.loadInst (llvm.Value.allocaInst 0),
      llvm.Value.returnInst (some (llvm.Value.loadInst (llvm.Value.allocaInst 0)))],
    [llvm.Value.loadInst (llvm.Value.allocaInst 1),
      llvm.Value.returnInst (some (llvm.Value.loadInst (llvm.Value.allocaInst 1)))]]

/-! ## The hash of an abstract state (callocators.cpp 261-320) -/

/-- Modelled from the spec: `hash_combine` of `common.h`, which is not among the
sources: it folds one more value into a running hash (spec 4.3).  One field for
every kind of value the engine hashes: pointers, sizes, the two guard states as
`char`, strings. -/
structure HashCombine where
  pointer : Nat → Nat → Nat
  size : Nat → Nat → Nat
  intGuardState : Nat → IntGuardState → Nat
  sexpGuardState : Nat → SEXPGuardState → Nat
  string : Nat → String → Nat

/-- `CAllocStateTy::hash()`, lines 261-302: the value it stores in `hashcode`. -/
def CAllocStateTy.hash (hc : HashCombine) (s : CAllocStateTy) : Nat :=
  let res := hc.pointer 0 s.bb
  let res := hc.size res s.intGuards.length
  let res := s.intGuards.foldl (fun r g => hc.intGuardState (hc.pointer r g.1) g.2) res
  let res := hc.size res s.sexpGuards.length
  let res := s.sexpGuards.foldl
    (fun r g => hc.string (hc.sexpGuardState (hc.pointer r g.1) g.2.state) g.2.symbolName) res
  let res := hc.size res s.called.length
  let res := s.called.foldl (fun r f => hc.pointer r f) res
  let res := hc.size res s.varOrigins.length
  s.varOrigins.foldl
    (fun r o => o.2.foldl (fun r2 f => hc.pointer r2 f) (hc.size (hc.pointer r o.1) o.2.length))
    res

/-- A `CAllocStateTy` object held in the DoneSet, with its `hashcode` field:
`CAllocStatePtrTy_hash` reads the field. -/
structure HashedStateTy where
  state : CAllocStateTy
  hashcode : Nat

/-- `CAllocStateTy::add()` with the DoneSet as a hash table: `hash()` sets the
hash code of the state, and `insert` looks for an equivalent state among the
states whose hash code falls into the same bucket; `bucket` maps a hash code to
its bucket. -/
def CAllocStateTy.addHashed (hc : HashCombine) (bucket : Nat → Nat) (s : CAllocStateTy)
    (workList : WorkListTy) (doneSet : List HashedStateTy) :
    Bool × WorkListTy × List HashedStateTy :=
  let hashcode := s.hash hc
  match usetFind
      (fun e => decide (bucket e.hashcode = bucket hashcode) && CAllocStatePtrTy_equal e.state s)
      doneSet with
  | none => (true, s :: workList, doneSet ++ [⟨s, hashcode⟩])
  | some _ => (false, workList, doneSet)

/-! ## The hashes of the intern tables (callocators.cpp 66-78, 103-111) -/

/-- One iteration of the loop of `ArgInfosPtrTy_hash::operator()`, lines 70-75:
the running hash `res` and the count `cnt` after the entry `a`. -/
def ArgInfosPtrTy_hash.step (hc : HashCombine) (heap : List ArgInfoTy) (acc : Nat × Nat)
    (a : Option Nat) : Nat × Nat :=
  match a with
  | some p =>
    if isSymbolAt heap p then (hc.string acc.1 ((symbolNameAt heap p).getD ""), acc.2 + 1)
    else acc
  | none => acc

/-- `ArgInfosPtrTy_hash::operator()`. -/
def ArgInfosPtrTy_hash (hc : HashCombine) (heap : List ArgInfoTy) (t : ArgInfosTy) : Nat :=
  let r := t.foldl (ArgInfosPtrTy_hash.step hc heap) (0, 0)
  hc.size r.1 r.2

/-- `ArgInfoPtrTy_hash::operator()`. -/
def ArgInfoPtrTy_hash (hc : HashCombine) (heap : List ArgInfoTy) (t : Option Nat) : Nat :=
  match t with
  | none => 0
  | some p =>
    if !isSymbolAt heap p then 0
    else hc.string 0 ((symbolNameAt heap p).getD "")

/-- The symbol names of the Symbol entries of a context, in order. -/
def symbolNames (heap : List ArgInfoTy) (c : ArgInfosTy) : List String :=
  c.filterMap (fun a => a.bind (symbolNameAt heap))

/-- A `hash_combine` for the examples. -/
def exampleHash : HashCombine where
  pointer := fun r p => 31 * r + p + 1
  size := fun r n => 31 * r + n + 1
  intGuardState := fun r _ => 31 * r + 1
  sexpGuardState := fun r _ => 31 * r + 1
  string := fun r s => 31 * r + s.length + 1

/-! ## Classified handles -/

/-- The handle `t` is in `calledFunctionsTable` and its function is in
`allocatingFunctions`. -/
def CalledModuleTy.AllocatingHandle (cm : CalledModuleTy) (t : Nat) : Prop :=
  ∃ cf f, cm.calledFunctionsTable[t]? = some cf ∧ cf.fun_ = some f ∧
    f ∈ cm.allocatingFunctions

/-- The handle `t` is in `calledFunctionsTable` and its function is in
`possibleAllocators`. -/
def CalledModuleTy.PossibleAllocatorHandle (cm : CalledModuleTy) (t : Nat) : Prop :=
  ∃ cf f, cm.calledFunctionsTable[t]? = some cf ∧ cf.fun_ = some f ∧
    f ∈ cm.possibleAllocators

/-- The handles of the containers of the engine are classified, by the module
as it is at that point: those of the called set, of every state of the worklist
and of the DoneSet are allocating, those of the wrapped set are allocating or
possible allocators. -/
structure Classified (e : EngineState) : Prop where
  wf : e.cm.WF
  called : ∀ t ∈ e.called, e.cm.AllocatingHandle t
  wrapped : ∀ t ∈ e.wrapped, e.cm.AllocatingHandle t ∨ e.cm.PossibleAllocatorHandle t
  workList : ∀ s ∈ e.workList, s.All e.cm.AllocatingHandle
  doneSet : ∀ s ∈ e.doneSet, s.All e.cm.AllocatingHandle

/-! ## The constructor (callocators.cpp 213-227) -/

/-- The inner loop of the constructor, lines 221-224: `getCalledFunction` on every
user of one function, in the order of its use list. -/
def CalledModuleTy.registerUsers (isInstallConstantCall : llvm.Value → Option String)
    (cm : CalledModuleTy) : List llvm.Value → CalledModuleTy
  | [] => cm
  | u :: rest =>
    CalledModuleTy.registerUsers isInstallConstantCall
      (cm.getCalledFunction_Value isInstallConstantCall u).2 rest

/-- The outer loop of the constructor, lines 218-225, over the functions `funs`
of the module.  `users f` is the use list of the function `f`. -/
def CalledModuleTy.registerFunctions (isInstallConstantCall : llvm.Value → Option String)
    (users : Nat → List llvm.Value) (cm : CalledModuleTy) : List Nat → CalledModuleTy
  | [] => cm
  | f :: rest =>
    CalledModuleTy.registerFunctions isInstallConstantCall users
      (cm.registerUsers isInstallConstantCall (users f)) rest

/-- `CalledModuleTy::CalledModuleTy`, the constructor, for the object at the
address `this`.  The use lists of LLVM are given by `users`; `gcFun` is what
`getGCFunction(m)` of the absent `allocators.h` gives.  The tables start empty;
`gcFunction` is not read before line 226 sets it. -/
def newCalledModuleTy (isInstallConstantCall : llvm.Value → Option String) (this : Nat)
    (m : llvm.Module) (users : Nat → List llvm.Value) (symbolsMap : Nat → Option String)
    (errorFunctions possibleAllocators allocatingFunctions : FunctionsSetTy) (gcFun : Nat) :
    CalledModuleTy :=
  let cm0 : CalledModuleTy :=
    { this := this, argInfoHeap := [], calledFunctionsTable := [], argInfosTable := [],
      argInfoTable := [], symbolsMap := symbolsMap, m := m, errorFunctions := errorFunctions,
      possibleAllocators := possibleAllocators, allocatingFunctions := allocatingFunctions,
      gcFunction := 0 }
  let cm1 := cm0.registerFunctions isInstallConstantCall users (List.range m.size)
  let r := cm1.getCalledFunction_Function gcFun
  { r.2 with gcFunction := r.1 }

/-- What LLVM guarantees of the use lists: a direct call instruction is a user
of its callee, and the callee is a function of the module.  The call
instructions are the values the engine can look up in the bodies. -/
def UsersCover (m : llvm.Module) (users : Nat → List llvm.Value) : Prop :=
  ∀ fn, ∀ bb ∈ (m.fn fn).blocks, ∀ inst ∈ bb, ∀ v ∈ lookedUp inst, ∀ callee args,
    v.callSite = some (some callee, args) → callee < m.size ∧ v ∈ users callee

/-- The module `b` has the called-function table and the context table of the
module `a`. -/
def CalledModuleTy.SameTables (a b : CalledModuleTy) : Prop :=
  b.calledFunctionsTable = a.calledFunctionsTable ∧ b.argInfosTable = a.argInfosTable

/-- The function `f() { f(); return alloc(); }`: it calls itself and returns
what the allocator `1` returns. -/
def recursiveBody : List llvm.BasicBlock :=
  [[llvm.Value.callInst (some 0) [], llvm.Value.callInst (some 1) [],
    llvm.Value.returnInst (some (llvm.Value.callInst (some 1) []))]]

/-- The use lists of `moduleWith recursiveBody`: the two call instructions. -/
def recursiveUsers : Nat → List llvm.Value := fun f =>
  if f = 0 then [llvm.Value.callInst (some 0) []]
  else if f = 1 then [llvm.Value.callInst (some 1) []]
  else []

/-- The called module the constructor makes of `moduleWith recursiveBody`, with
the function sets of `engineCM` and the GC function `3`. -/
def recursiveCM : CalledModuleTy :=
  newCalledModuleTy (inertHelpers [] []).isInstallConstantCall 0 (moduleWith recursiveBody)
    recursiveUsers (fun _ => none) [4] [1, 2] [1, 2, 3] 3

/-! # Theorems -/

/-! ## Lemmas on the containers -/

theorem usetFind_eq_none {α : Type} (p : α → Bool) (l : List α) :
    usetFind p l = none ↔ ∀ e ∈ l, p e = false := by
  induction l with
  | nil => simp [usetFind]
  | cons a l ih =>
    by_cases h : p a = true
    · simp [usetFind, h]
    · simp [usetFind, h, ih]

theorem usetFind_lt {α : Type} (p : α → Bool) (l : List α) (i : Nat)
    (h : usetFind p l = some i) : i < l.length := by
  induction l generalizing i with
  | nil => simp [usetFind] at h
  | cons a l ih =>
    by_cases hp : p a = true
    · simp [usetFind, hp] at h
      subst h
      simp
    · simp only [usetFind, hp] at h
      cases hr : usetFind p l with
      | none => simp [hr] at h
      | some j =>
        simp [hr] at h
        subst h
        have := ih j hr
        simp
        omega

theorem usetFind_get {α : Type} (p : α → Bool) (l : List α) (i : Nat)
    (h : usetFind p l = some i) : ∃ e, l[i]? = some e ∧ p e = true := by
  induction l generalizing i with
  | nil => simp [usetFind] at h
  | cons a l ih =>
    by_cases hp : p a = true
    · simp [usetFind, hp] at h
      subst h
      exact ⟨a, by simp, hp⟩
    · simp only [usetFind, hp] at h
      cases hr : usetFind p l with
      | none => simp [hr] at h
      | some j =>
        simp [hr] at h
        subst h
        obtain ⟨e, he, hpe⟩ := ih j hr
        exact ⟨e, by simpa using he, hpe⟩

theorem usetFind_append {α : Type} (p : α → Bool) (l t : List α) :
    usetFind p (l ++ t) =
      match usetFind p l with
      | some i => some i
      | none => (usetFind p t).map (· + l.length) := by
  induction l with
  | nil => simp [usetFind]
  | cons a l ih =>
    by_cases hp : p a = true
    · simp [usetFind, hp]
    · have h1 : usetFind p (a :: l ++ t) = (usetFind p (l ++ t)).map (· + 1) := by
        simp [usetFind, hp]
      have h2 : usetFind p (a :: l) = (usetFind p l).map (· + 1) := by
        simp [usetFind, hp]
      rw [h1, h2, ih]
      cases usetFind p l with
      | some i => simp
      | none =>
        cases usetFind p t with
        | none => simp
        | some j => simp; omega

theorem usetFind_congr {α : Type} (p q : α → Bool) (l : List α)
    (h : ∀ e ∈ l, p e = q e) : usetFind p l = usetFind q l := by
  induction l with
  | nil => rfl
  | cons a l ih =>
    have ha : p a = q a := h a (by simp)
    have hl : usetFind p l = usetFind q l := ih (fun e he => h e (by simp [he]))
    simp [usetFind, ha, hl]

/-- A hit in a table stays the hit in every table that extends it. -/
theorem usetFind_grow {α : Type} (p : α → Bool) (l l2 : List α) (i : Nat)
    (h : usetFind p l = some i) (hp : l <+: l2) : usetFind p l2 = some i := by
  obtain ⟨t, rfl⟩ := hp
  rw [usetFind_append, h]

/-- The hit after a miss-and-append is the appended element. -/
theorem usetFind_append_self {α : Type} (p : α → Bool) (l : List α) (x : α)
    (h : usetFind p l = none) (hx : p x = true) :
    usetFind p (l ++ [x]) = some l.length := by
  rw [usetFind_append, h]
  simp [usetFind, hx]

/-- Lookups by a key: where the lookup of `a` hits, the lookup of `b` hits the
same place exactly when the keys are equal. -/
theorem usetFind_key_iff {α κ : Type} [DecidableEq κ] (k : α → κ) (l : List α) (a b : κ)
    (i : Nat) (h : usetFind (fun e => decide (k e = a)) l = some i) :
    usetFind (fun e => decide (k e = b)) l = some i ↔ a = b := by
  constructor
  · intro hb
    obtain ⟨e, he, hea⟩ := usetFind_get _ l i h
    obtain ⟨e2, he2, heb⟩ := usetFind_get _ l i hb
    rw [he] at he2
    cases he2
    simp at hea heb
    rw [← hea, ← heb]
  · intro hab
    subst hab
    exact h

theorem mem_orderedInsert (x t : Nat) (s : CalledFunctionsOrderedSetTy) :
    t ∈ CalledFunctionsOrderedSetTy.insert x s ↔ t = x ∨ t ∈ s := by
  induction s with
  | nil => simp [CalledFunctionsOrderedSetTy.insert]
  | cons y ys ih =>
    unfold CalledFunctionsOrderedSetTy.insert
    split
    · simp
    · split
      · rename_i h
        subst h
        simp
      · simp [ih]
        tauto

theorem mem_insertAll (src dst : CalledFunctionsOrderedSetTy) (t : Nat) :
    t ∈ CalledFunctionsOrderedSetTy.insertAll src dst ↔ t ∈ src ∨ t ∈ dst := by
  unfold CalledFunctionsOrderedSetTy.insertAll
  induction src generalizing dst with
  | nil => simp
  | cons a l ih =>
    simp only [List.foldl_cons, ih, mem_orderedInsert, List.mem_cons]
    tauto

/-! ## Lemmas on descriptors and contexts -/

theorem getElem?_grow {α : Type} {h h2 : List α} (hp : h <+: h2) {a : Nat} {x : α}
    (hx : h[a]? = some x) : h2[a]? = some x := by
  obtain ⟨t, rfl⟩ := hp
  have hlt : a < h.length := by
    by_contra hc
    have : h[a]? = none := by simp; omega
    rw [this] at hx
    cases hx
  rw [List.getElem?_append_left hlt]
  exact hx

theorem isSymbolAt_iff (heap : List ArgInfoTy) (a : Nat) :
    isSymbolAt heap a = true ↔ ∃ n, heap[a]? = some (ArgInfoTy.symbol n) := by
  unfold isSymbolAt
  cases h : heap[a]? with
  | none => simp
  | some o => cases o <;> simp [ArgInfoTy.isSymbol]

theorem symbolNameAt_of_get {heap : List ArgInfoTy} {a : Nat} {n : String}
    (h : heap[a]? = some (ArgInfoTy.symbol n)) : symbolNameAt heap a = some n := by
  simp [symbolNameAt, h]

theorem isSymbolAt_grow {h h2 : List ArgInfoTy} (hp : h <+: h2) {a : Nat}
    (ha : isSymbolAt h a = true) : isSymbolAt h2 a = true := by
  rw [isSymbolAt_iff] at ha ⊢
  obtain ⟨n, hn⟩ := ha
  exact ⟨n, getElem?_grow hp hn⟩

theorem symbolNameAt_grow {h h2 : List ArgInfoTy} (hp : h <+: h2) {a : Nat}
    (ha : isSymbolAt h a = true) : symbolNameAt h2 a = symbolNameAt h a := by
  rw [isSymbolAt_iff] at ha
  obtain ⟨n, hn⟩ := ha
  rw [symbolNameAt_of_get hn, symbolNameAt_of_get (getElem?_grow hp hn)]

theorem validEntry_grow {h h2 : List ArgInfoTy} (hp : h <+: h2) {e : Option Nat}
    (he : validEntry h e = true) : validEntry h2 e = true := by
  cases e with
  | none => rfl
  | some a => exact isSymbolAt_grow hp he

theorem descriptorOf_grow {h h2 : List ArgInfoTy} (hp : h <+: h2) {e : Option Nat}
    (he : validEntry h e = true) : descriptorOf h2 e = descriptorOf h e := by
  cases e with
  | none => rfl
  | some a =>
    simp only [descriptorOf]
    rw [symbolNameAt_grow hp he]

theorem validArgInfos_grow {h h2 : List ArgInfoTy} (hp : h <+: h2) {c : ArgInfosTy}
    (hc : validArgInfos h c = true) : validArgInfos h2 c = true := by
  simp only [validArgInfos, List.all_eq_true] at hc ⊢
  exact fun e he => validEntry_grow hp (hc e he)

theorem contextOf_grow {h h2 : List ArgInfoTy} (hp : h <+: h2) {c : ArgInfosTy}
    (hc : validArgInfos h c = true) : contextOf h2 c = contextOf h c := by
  simp only [validArgInfos, List.all_eq_true] at hc
  simp only [contextOf]
  exact List.map_congr_left (fun e he => descriptorOf_grow hp (hc e he))

/-- On two valid entries that are not the same pointer, the comparison of line
93-98 decides equality of the descriptors. -/
theorem descriptorOf_eq_iff (heap : List ArgInfoTy) (la ra : Option Nat)
    (hl : validEntry heap la = true) (hr : validEntry heap ra = true) :
    descriptorOf heap la = descriptorOf heap ra ↔
      (la = ra ∨ ∃ l r, la = some l ∧ ra = some r ∧
        symbolNameAt heap l = symbolNameAt heap r) := by
  cases la with
  | none =>
    cases ra with
    | none => simp
    | some r =>
      simp only [validEntry, isSymbolAt_iff] at hr
      obtain ⟨n, hn⟩ := hr
      simp [descriptorOf, symbolNameAt_of_get hn]
  | some l =>
    simp only [validEntry, isSymbolAt_iff] at hl
    obtain ⟨n, hn⟩ := hl
    cases ra with
    | none => simp [descriptorOf, symbolNameAt_of_get hn]
    | some r =>
      simp only [validEntry, isSymbolAt_iff] at hr
      obtain ⟨k, hk⟩ := hr
      simp only [descriptorOf, symbolNameAt_of_get hn, symbolNameAt_of_get hk]
      constructor
      · intro h
        right
        refine ⟨l, r, rfl, rfl, ?_⟩
        rw [symbolNameAt_of_get hn, symbolNameAt_of_get hk]
        simpa using h
      · rintro (h | ⟨l2, r2, h1, h2, h3⟩)
        · cases h
          rw [hn] at hk
          cases hk
          rfl
        · cases h1
          cases h2
          rw [symbolNameAt_of_get hn, symbolNameAt_of_get hk] at h3
          cases h3
          rfl

theorem ArgInfosPtrTy_equal_loop_cons (heap : List ArgInfoTy) (la ra : Option Nat)
    (ls rs : ArgInfosTy) :
    ArgInfosPtrTy_equal.loop heap (la :: ls) (ra :: rs) =
      if la = ra then ArgInfosPtrTy_equal.loop heap ls rs
      else
        match la, ra with
        | some l, some r =>
          if symbolNameAt heap l ≠ symbolNameAt heap r then false
          else ArgInfosPtrTy_equal.loop heap ls rs
        | _, _ => false := by
  cases la <;> cases ra <;> simp [ArgInfosPtrTy_equal.loop]

theorem ArgInfosPtrTy_equal_loop_iff (heap : List ArgInfoTy) (lhs rhs : ArgInfosTy)
    (hlen : lhs.length = rhs.length)
    (hl : validArgInfos heap lhs = true) (hr : validArgInfos heap rhs = true) :
    ArgInfosPtrTy_equal.loop heap lhs rhs = true ↔ contextOf heap lhs = contextOf heap rhs := by
  induction lhs generalizing rhs with
  | nil =>
    cases rhs with
    | nil => simp [ArgInfosPtrTy_equal.loop, contextOf]
    | cons r rs => simp at hlen
  | cons la ls ih =>
    cases rhs with
    | nil => simp at hlen
    | cons ra rs =>
      simp only [validArgInfos, List.all_cons, Bool.and_eq_true] at hl hr
      have hlen2 : ls.length = rs.length := by simpa using hlen
      have ih2 := ih rs hlen2 hl.2 hr.2
      have hd := descriptorOf_eq_iff heap la ra hl.1 hr.1
      simp only [contextOf, List.map_cons, List.cons.injEq] at ih2 ⊢
      rw [hd, ← ih2]
      rw [ArgInfosPtrTy_equal_loop_cons]
      by_cases hp : la = ra
      · simp [hp]
      · simp only [hp, if_false, false_or]
        cases la with
        | none => simp
        | some l =>
          cases ra with
          | none => simp
          | some r =>
            by_cases hn : symbolNameAt heap l = symbolNameAt heap r
            · simp [hn]
            · simp [hn]

/-- On valid contexts `ArgInfosPtrTy_equal` is equality of the descriptor
sequences. -/
theorem ArgInfosPtrTy_equal_iff (heap : List ArgInfoTy) (lhs rhs : ArgInfosTy)
    (hl : validArgInfos heap lhs = true) (hr : validArgInfos heap rhs = true) :
    ArgInfosPtrTy_equal heap lhs rhs = decide (contextOf heap lhs = contextOf heap rhs) := by
  unfold ArgInfosPtrTy_equal
  by_cases hlen : lhs.length = rhs.length
  · simp only [hlen, ne_eq, not_true_eq_false, if_false]
    rw [Bool.eq_iff_iff, ArgInfosPtrTy_equal_loop_iff heap lhs rhs hlen hl hr]
    simp
  · have hne : contextOf heap lhs ≠ contextOf heap rhs := by
      intro h
      apply hlen
      have := congrArg List.length h
      simpa [contextOf] using this
    simp [hlen, hne]

/-! ## Later states of a module -/

theorem CalledModuleTy.Ext.refl (cm : CalledModuleTy) : cm.Ext cm :=
  ⟨List.prefix_refl _, List.prefix_refl _, List.prefix_refl _, List.prefix_refl _,
    rfl, rfl, rfl, rfl, rfl, rfl, rfl⟩

theorem CalledModuleTy.Ext.trans {a b c : CalledModuleTy} (h1 : a.Ext b) (h2 : b.Ext c) :
    a.Ext c :=
  ⟨h1.argInfoHeap.trans h2.argInfoHeap, h1.calledFunctionsTable.trans h2.calledFunctionsTable,
    h1.argInfosTable.trans h2.argInfosTable, h1.argInfoTable.trans h2.argInfoTable,
    h1.this.trans h2.this, h1.symbolsMap.trans h2.symbolsMap, h1.m.trans h2.m,
    h1.errorFunctions.trans h2.errorFunctions, h1.possibleAllocators.trans h2.possibleAllocators,
    h1.allocatingFunctions.trans h2.allocatingFunctions, h1.gcFunction.trans h2.gcFunction⟩

/-! ## Interning of contexts -/

theorem intern_ArgInfosTy_eq (cm : CalledModuleTy) (x : ArgInfosTy) (hwf : cm.WF)
    (hx : validArgInfos cm.argInfoHeap x = true) :
    cm.intern_ArgInfosTy x =
      match cm.findContext (contextOf cm.argInfoHeap x) with
      | some ai => (ai, cm)
      | none =>
        (cm.argInfosTable.length, { cm with argInfosTable := cm.argInfosTable ++ [x] }) := by
  unfold CalledModuleTy.intern_ArgInfosTy CalledModuleTy.findContext
  rw [usetFind_congr _ (fun e => decide (contextOf cm.argInfoHeap e = contextOf cm.argInfoHeap x))
    cm.argInfosTable
    (fun e he => ArgInfosPtrTy_equal_iff cm.argInfoHeap e x (hwf.argInfos_valid e he) hx)]

theorem intern_ArgInfosTy_ext (cm : CalledModuleTy) (x : ArgInfosTy) :
    cm.Ext (cm.intern_ArgInfosTy x).2 := by
  unfold CalledModuleTy.intern_ArgInfosTy
  split
  · exact CalledModuleTy.Ext.refl cm
  · exact ⟨List.prefix_refl _, List.prefix_refl _, List.prefix_append _ _, List.prefix_refl _,
      rfl, rfl, rfl, rfl, rfl, rfl, rfl⟩

theorem intern_ArgInfosTy_heap (cm : CalledModuleTy) (x : ArgInfosTy) :
    (cm.intern_ArgInfosTy x).2.argInfoHeap = cm.argInfoHeap := by
  unfold CalledModuleTy.intern_ArgInfosTy
  split <;> rfl

theorem intern_ArgInfosTy_wf (cm : CalledModuleTy) (x : ArgInfosTy) (hwf : cm.WF)
    (hx : validArgInfos cm.argInfoHeap x = true) : (cm.intern_ArgInfosTy x).2.WF := by
  unfold CalledModuleTy.intern_ArgInfosTy
  split
  · exact hwf
  · refine ⟨?_, hwf.argInfo_valid, ?_⟩
    · intro c hc
      simp only [List.mem_append, List.mem_singleton] at hc
      rcases hc with hc | hc
      · exact hwf.argInfos_valid c hc
      · subst hc
        exact hx
    · intro cf hcf
      have := hwf.calledFunctions_valid cf hcf
      simp only [List.length_append, List.length_singleton]
      omega

/-- After interning `x`, the lookup of its descriptor sequence hits the returned
handle. -/
theorem findContext_intern (cm : CalledModuleTy) (x : ArgInfosTy) (hwf : cm.WF)
    (hx : validArgInfos cm.argInfoHeap x = true) :
    (cm.intern_ArgInfosTy x).2.findContext (contextOf cm.argInfoHeap x) =
      some (cm.intern_ArgInfosTy x).1 := by
  rw [intern_ArgInfosTy_eq cm x hwf hx]
  cases h : cm.findContext (contextOf cm.argInfoHeap x) with
  | some i => exact h
  | none =>
    simp only [CalledModuleTy.findContext] at h ⊢
    exact usetFind_append_self _ _ _ h (by simp)

/-- A hit of a context lookup stays the hit in every later state of the module. -/
theorem findContext_ext {cm cm2 : CalledModuleTy} (hwf : cm.WF) (hext : cm.Ext cm2)
    (k : List ArgDescriptor) (i : Nat) (h : cm.findContext k = some i) :
    cm2.findContext k = some i := by
  unfold CalledModuleTy.findContext at h ⊢
  obtain ⟨t, ht⟩ := hext.argInfosTable
  rw [← ht, usetFind_append]
  rw [usetFind_congr _ (fun e => decide (contextOf cm.argInfoHeap e = k)) cm.argInfosTable
    (fun e he => by rw [contextOf_grow hext.argInfoHeap (hwf.argInfos_valid e he)])]
  rw [h]

/-- Interning a context whose descriptor sequence is already in the table is a
pure read. -/
theorem intern_ArgInfosTy_hit (cm : CalledModuleTy) (y : ArgInfosTy) (hwf : cm.WF)
    (hy : validArgInfos cm.argInfoHeap y = true) (i : Nat)
    (h : cm.findContext (contextOf cm.argInfoHeap y) = some i) :
    cm.intern_ArgInfosTy y = (i, cm) := by
  rw [intern_ArgInfosTy_eq cm y hwf hy, h]

theorem intern_ArgInfosTy_lt (cm : CalledModuleTy) (x : ArgInfosTy) :
    (cm.intern_ArgInfosTy x).1 < (cm.intern_ArgInfosTy x).2.argInfosTable.length := by
  unfold CalledModuleTy.intern_ArgInfosTy
  split
  · rename_i i h
    exact usetFind_lt _ _ _ h
  · simp

/-- The context stored under the handle that interning returns has the
descriptor sequence of the argument. -/
theorem intern_ArgInfosTy_get (cm : CalledModuleTy) (x : ArgInfosTy) (hwf : cm.WF)
    (hx : validArgInfos cm.argInfoHeap x = true) :
    ∃ c, (cm.intern_ArgInfosTy x).2.argInfosTable[(cm.intern_ArgInfosTy x).1]? = some c ∧
      contextOf cm.argInfoHeap c = contextOf cm.argInfoHeap x := by
  obtain ⟨c, hc, hk⟩ := usetFind_get _ _ _ (findContext_intern cm x hwf hx)
  refine ⟨c, hc, ?_⟩
  rw [intern_ArgInfosTy_heap] at hk
  simpa using hk

/-! ## Interning of called functions -/

theorem CalledFunctionPtrTy_equal_iff (lhs rhs : CalledFunctionTy) :
    CalledFunctionPtrTy_equal lhs rhs = decide (lhs = rhs) := by
  cases lhs
  cases rhs
  simp only [CalledFunctionPtrTy_equal, CalledFunctionTy.mk.injEq]
  rw [Bool.eq_iff_iff]
  simp [and_assoc]

theorem intern_CalledFunctionTy_eq (cm : CalledModuleTy) (cf : CalledFunctionTy) :
    cm.intern_CalledFunctionTy cf =
      match cm.findCalledFunction cf with
      | some h => (h, cm)
      | none =>
        (cm.calledFunctionsTable.length,
          { cm with calledFunctionsTable := cm.calledFunctionsTable ++ [cf] }) := by
  unfold CalledModuleTy.intern_CalledFunctionTy CalledModuleTy.findCalledFunction
  rw [usetFind_congr _ (fun e => decide (e = cf)) cm.calledFunctionsTable
    (fun e _ => CalledFunctionPtrTy_equal_iff e cf)]

theorem findCalledFunction_intern (cm : CalledModuleTy) (cf : CalledFunctionTy) :
    (cm.intern_CalledFunctionTy cf).2.findCalledFunction cf =
      some (cm.intern_CalledFunctionTy cf).1 := by
  rw [intern_CalledFunctionTy_eq]
  cases h : cm.findCalledFunction cf with
  | some i => exact h
  | none =>
    simp only [CalledModuleTy.findCalledFunction] at h ⊢
    exact usetFind_append_self _ _ _ h (by simp)

theorem intern_CalledFunctionTy_ext (cm : CalledModuleTy) (cf : CalledFunctionTy) :
    cm.Ext (cm.intern_CalledFunctionTy cf).2 := by
  unfold CalledModuleTy.intern_CalledFunctionTy
  split
  · exact CalledModuleTy.Ext.refl cm
  · exact ⟨List.prefix_refl _, List.prefix_append _ _, List.prefix_refl _, List.prefix_refl _,
      rfl, rfl, rfl, rfl, rfl, rfl, rfl⟩

theorem intern_CalledFunctionTy_wf (cm : CalledModuleTy) (cf : CalledFunctionTy) (hwf : cm.WF)
    (hcf : cf.argInfo < cm.argInfosTable.length) : (cm.intern_CalledFunctionTy cf).2.WF := by
  unfold CalledModuleTy.intern_CalledFunctionTy
  split
  · exact hwf
  · refine ⟨hwf.argInfos_valid, hwf.argInfo_valid, ?_⟩
    intro c hc
    simp only [List.mem_append, List.mem_singleton] at hc
    rcases hc with hc | hc
    · exact hwf.calledFunctions_valid c hc
    · subst hc
      exact hcf

theorem intern_CalledFunctionTy_get (cm : CalledModuleTy) (cf : CalledFunctionTy) :
    (cm.intern_CalledFunctionTy cf).2.calledFunctionsTable[(cm.intern_CalledFunctionTy cf).1]? =
      some cf := by
  obtain ⟨c, hc, hk⟩ := usetFind_get _ _ _ (findCalledFunction_intern cm cf)
  simp only [decide_eq_true_eq] at hk
  rw [hc, hk]

theorem findCalledFunction_grow {cm cm2 : CalledModuleTy}
    (hp : cm.calledFunctionsTable <+: cm2.calledFunctionsTable) (cf : CalledFunctionTy)
    (i : Nat) (h : cm.findCalledFunction cf = some i) : cm2.findCalledFunction cf = some i :=
  usetFind_grow _ _ _ _ h hp

/-! ## Interning of symbol descriptors -/

theorem find?_congr_mem {α : Type} (p q : α → Bool) (l : List α)
    (h : ∀ e ∈ l, p e = q e) : l.find? p = l.find? q := by
  induction l with
  | nil => rfl
  | cons a l ih =>
    have ha : p a = q a := h a (by simp)
    have hl : l.find? p = l.find? q := ih (fun e he => h e (by simp [he]))
    simp [List.find?, ha, hl]

/-- Against the probe of `intern(SymbolArgInfoTy&)`, `ArgInfoPtrTy_equal`
compares the symbol name of a table entry with the name of the probe. -/
theorem ArgInfoPtrTy_equal_probe (heap : List ArgInfoTy) (name : String) (e : Nat)
    (he : isSymbolAt heap e = true) :
    ArgInfoPtrTy_equal (heap ++ [ArgInfoTy.symbol name]) (some e) (some heap.length) =
      decide (symbolNameAt heap e = some name) := by
  have hp : heap <+: heap ++ [ArgInfoTy.symbol name] := List.prefix_append _ _
  have h1 : isSymbolAt (heap ++ [ArgInfoTy.symbol name]) e = true := isSymbolAt_grow hp he
  have h2 : (heap ++ [ArgInfoTy.symbol name])[heap.length]? = some (ArgInfoTy.symbol name) := by
    simp
  have h3 : isSymbolAt (heap ++ [ArgInfoTy.symbol name]) heap.length = true :=
    (isSymbolAt_iff _ _).2 ⟨name, h2⟩
  simp only [ArgInfoPtrTy_equal, h1, h3, Bool.not_true, Bool.or_self, Bool.false_eq_true,
    if_false]
  rw [symbolNameAt_grow hp he, symbolNameAt_of_get h2]

theorem intern_SymbolArgInfoTy_eq (cm : CalledModuleTy) (name : String) (hwf : cm.WF) :
    cm.intern_SymbolArgInfoTy name =
      match cm.findSymbol name with
      | some ai => (ai, cm)
      | none =>
        (cm.argInfoHeap.length,
          { cm with
            argInfoHeap := cm.argInfoHeap ++ [ArgInfoTy.symbol name]
            argInfoTable := cm.argInfoTable ++ [cm.argInfoHeap.length] }) := by
  unfold CalledModuleTy.intern_SymbolArgInfoTy CalledModuleTy.findSymbol
  simp only
  rw [find?_congr_mem _ (fun e => decide (symbolNameAt cm.argInfoHeap e = some name))
    cm.argInfoTable
    (fun e he => ArgInfoPtrTy_equal_probe cm.argInfoHeap name e (hwf.argInfo_valid e he))]

theorem intern_SymbolArgInfoTy_ext (cm : CalledModuleTy) (name : String) :
    cm.Ext (cm.intern_SymbolArgInfoTy name).2 := by
  unfold CalledModuleTy.intern_SymbolArgInfoTy
  simp only
  split
  · exact CalledModuleTy.Ext.refl cm
  · exact ⟨List.prefix_append _ _, List.prefix_refl _, List.prefix_refl _, List.prefix_append _ _,
      rfl, rfl, rfl, rfl, rfl, rfl, rfl⟩

theorem intern_SymbolArgInfoTy_wf (cm : CalledModuleTy) (name : String) (hwf : cm.WF) :
    (cm.intern_SymbolArgInfoTy name).2.WF := by
  rw [intern_SymbolArgInfoTy_eq cm name hwf]
  split
  · exact hwf
  · have hp : cm.argInfoHeap <+: cm.argInfoHeap ++ [ArgInfoTy.symbol name] :=
      List.prefix_append _ _
    refine ⟨?_, ?_, hwf.calledFunctions_valid⟩
    · intro c hc
      exact validArgInfos_grow hp (hwf.argInfos_valid c hc)
    · intro a ha
      simp only [List.mem_append, List.mem_singleton] at ha
      rcases ha with ha | ha
      · exact isSymbolAt_grow hp (hwf.argInfo_valid a ha)
      · subst ha
        exact (isSymbolAt_iff _ _).2 ⟨name, by simp⟩

/-- After interning a name, the lookup of the name hits the returned handle,
and the handle points to a symbol of that name held by the table. -/
theorem findSymbol_intern (cm : CalledModuleTy) (name : String) (hwf : cm.WF) :
    (cm.intern_SymbolArgInfoTy name).2.findSymbol name = some (cm.intern_SymbolArgInfoTy name).1 ∧
      (cm.intern_SymbolArgInfoTy name).2.argInfoHeap[(cm.intern_SymbolArgInfoTy name).1]? =
        some (ArgInfoTy.symbol name) ∧
      (cm.intern_SymbolArgInfoTy name).1 ∈ (cm.intern_SymbolArgInfoTy name).2.argInfoTable := by
  rw [intern_SymbolArgInfoTy_eq cm name hwf]
  cases h : cm.findSymbol name with
  | some i =>
    refine ⟨h, ?_, ?_⟩
    · have hp := List.find?_some h
      have hm := List.mem_of_find?_eq_some h
      simp only [decide_eq_true_eq] at hp
      obtain ⟨n, hn⟩ := (isSymbolAt_iff _ _).1 (hwf.argInfo_valid i hm)
      rw [symbolNameAt_of_get hn] at hp
      cases hp
      exact hn
    · exact List.mem_of_find?_eq_some h
  | none =>
    refine ⟨?_, by simp, by simp⟩
    simp only [CalledModuleTy.findSymbol] at h ⊢
    rw [List.find?_append]
    have hp : cm.argInfoHeap <+: cm.argInfoHeap ++ [ArgInfoTy.symbol name] :=
      List.prefix_append _ _
    rw [find?_congr_mem _ (fun e => decide (symbolNameAt cm.argInfoHeap e = some name))
      cm.argInfoTable
      (fun e he => by rw [symbolNameAt_grow hp (hwf.argInfo_valid e he)])]
    rw [h]
    have : symbolNameAt (cm.argInfoHeap ++ [ArgInfoTy.symbol name]) cm.argInfoHeap.length =
        some name := symbolNameAt_of_get (by simp)
    simp [List.find?, this]

theorem findSymbol_ext {cm cm2 : CalledModuleTy} (hwf : cm.WF) (hext : cm.Ext cm2)
    (name : String) (i : Nat) (h : cm.findSymbol name = some i) :
    cm2.findSymbol name = some i := by
  unfold CalledModuleTy.findSymbol at h ⊢
  obtain ⟨t, ht⟩ := hext.argInfoTable
  rw [← ht, List.find?_append]
  rw [find?_congr_mem _ (fun e => decide (symbolNameAt cm.argInfoHeap e = some name))
    cm.argInfoTable
    (fun e he => by rw [symbolNameAt_grow hext.argInfoHeap (hwf.argInfo_valid e he)])]
  rw [h]
  rfl

/-! ## The registry: `getCalledFunction` -/

theorem classifyArg_ext {cm cm2 : CalledModuleTy} (hext : cm.Ext cm2)
    (icc : llvm.Value → Option String) (arg : llvm.Value) :
    cm2.classifyArg icc arg = cm.classifyArg icc arg := by
  unfold CalledModuleTy.classifyArg CalledModuleTy.symbolOfLoad
  rw [hext.symbolsMap]

theorem argInfoOf_spec (icc : llvm.Value → Option String) (cm : CalledModuleTy)
    (arg : llvm.Value) (hwf : cm.WF) :
    cm.Ext (cm.argInfoOf icc arg).2 ∧ (cm.argInfoOf icc arg).2.WF ∧
      validEntry (cm.argInfoOf icc arg).2.argInfoHeap (cm.argInfoOf icc arg).1 = true ∧
      descriptorOf (cm.argInfoOf icc arg).2.argInfoHeap (cm.argInfoOf icc arg).1 =
        cm.classifyArg icc arg ∧
      (cm.argInfoOf icc arg).2.argInfosTable = cm.argInfosTable ∧
      (cm.argInfoOf icc arg).2.calledFunctionsTable = cm.calledFunctionsTable := by
  unfold CalledModuleTy.argInfoOf CalledModuleTy.classifyArg
  cases hs : cm.symbolOfLoad arg with
  | some name =>
    simp only
    obtain ⟨_, hget, _⟩ := findSymbol_intern cm name hwf
    refine ⟨intern_SymbolArgInfoTy_ext cm name, intern_SymbolArgInfoTy_wf cm name hwf,
      (isSymbolAt_iff _ _).2 ⟨name, hget⟩, ?_, ?_, ?_⟩
    · simp [descriptorOf, symbolNameAt_of_get hget]
    · rw [intern_SymbolArgInfoTy_eq cm name hwf]
      split <;> rfl
    · rw [intern_SymbolArgInfoTy_eq cm name hwf]
      split <;> rfl
  | none =>
    simp only
    cases hi : icc arg with
    | some symbolName =>
      simp only
      have hp : cm.argInfoHeap <+: cm.argInfoHeap ++ [ArgInfoTy.symbol symbolName] :=
        List.prefix_append _ _
      have hget : (cm.argInfoHeap ++ [ArgInfoTy.symbol symbolName])[cm.argInfoHeap.length]? =
          some (ArgInfoTy.symbol symbolName) := by simp
      refine ⟨⟨hp, List.prefix_refl _, List.prefix_refl _, List.prefix_refl _,
        rfl, rfl, rfl, rfl, rfl, rfl, rfl⟩, ⟨?_, ?_, hwf.calledFunctions_valid⟩,
        (isSymbolAt_iff _ _).2 ⟨symbolName, hget⟩, ?_, by trivial, by trivial⟩
      · intro c hc
        exact validArgInfos_grow hp (hwf.argInfos_valid c hc)
      · intro a ha
        exact isSymbolAt_grow hp (hwf.argInfo_valid a ha)
      · simp [descriptorOf, symbolNameAt_of_get hget]
    | none =>
      simp only
      exact ⟨CalledModuleTy.Ext.refl cm, hwf, rfl, rfl, by trivial, by trivial⟩

theorem buildArgInfo_spec (icc : llvm.Value → Option String) (args : List llvm.Value)
    (cm : CalledModuleTy) (hwf : cm.WF) :
    cm.Ext (cm.buildArgInfo icc args).2 ∧ (cm.buildArgInfo icc args).2.WF ∧
      validArgInfos (cm.buildArgInfo icc args).2.argInfoHeap (cm.buildArgInfo icc args).1 = true ∧
      contextOf (cm.buildArgInfo icc args).2.argInfoHeap (cm.buildArgInfo icc args).1 =
        args.map (cm.classifyArg icc) ∧
      (cm.buildArgInfo icc args).1.length = args.length ∧
      (cm.buildArgInfo icc args).2.argInfosTable = cm.argInfosTable ∧
      (cm.buildArgInfo icc args).2.calledFunctionsTable = cm.calledFunctionsTable := by
  induction args generalizing cm with
  | nil =>
    exact ⟨CalledModuleTy.Ext.refl cm, hwf, rfl, rfl, rfl, rfl, rfl⟩
  | cons arg rest ih =>
    obtain ⟨he1, hw1, hv1, hd1, ht1, hc1⟩ := argInfoOf_spec icc cm arg hwf
    obtain ⟨he2, hw2, hv2, hd2, hl2, ht2, hc2⟩ := ih (cm.argInfoOf icc arg).2 hw1
    simp only [CalledModuleTy.buildArgInfo]
    refine ⟨he1.trans he2, hw2, ?_, ?_, ?_, ?_, ?_⟩
    · simp only [validArgInfos, List.all_cons, Bool.and_eq_true]
      exact ⟨validEntry_grow he2.argInfoHeap hv1, by simpa [validArgInfos] using hv2⟩
    · simp only [contextOf, List.map_cons, List.cons.injEq]
      refine ⟨?_, ?_⟩
      · rw [descriptorOf_grow he2.argInfoHeap hv1, hd1]
      · simp only [contextOf] at hd2
        rw [hd2]
        exact List.map_congr_left (fun a _ => classifyArg_ext he1 icc a)
    · simp [hl2]
    · rw [ht2, ht1]
    · rw [hc2, hc1]

theorem getCalledFunction_Value_none (icc : llvm.Value → Option String) (cm : CalledModuleTy)
    (inst : llvm.Value) :
    (cm.getCalledFunction_Value icc inst).1 = none ↔
      (inst.callSite = none ∨ ∃ args, inst.callSite = some (none, args)) := by
  unfold CalledModuleTy.getCalledFunction_Value
  cases h : inst.callSite with
  | none => simp
  | some p =>
    obtain ⟨callee, args⟩ := p
    cases callee <;> simp

theorem getCalledFunction_Value_of_none (icc : llvm.Value → Option String)
    (cm : CalledModuleTy) (inst : llvm.Value)
    (h : (cm.getCalledFunction_Value icc inst).1 = none) :
    cm.getCalledFunction_Value icc inst = (none, cm) := by
  unfold CalledModuleTy.getCalledFunction_Value at h ⊢
  cases hc : inst.callSite with
  | none => rfl
  | some p =>
    obtain ⟨callee, args⟩ := p
    cases callee with
    | none => rfl
    | some f => simp [hc] at h

/-- What `getCalledFunction(Value*)` does on a direct call. -/
theorem getCalledFunction_Value_spec (icc : llvm.Value → Option String) (cm : CalledModuleTy)
    (inst : llvm.Value) (f : Nat) (args : List llvm.Value) (hwf : cm.WF)
    (hcs : inst.callSite = some (some f, args)) :
    ∃ h ai c, cm.getCalledFunction_Value icc inst = (some h, (cm.getCalledFunction_Value icc inst).2) ∧
      cm.Ext (cm.getCalledFunction_Value icc inst).2 ∧
      (cm.getCalledFunction_Value icc inst).2.WF ∧
      (cm.getCalledFunction_Value icc inst).2.calledFunctionsTable[h]? =
        some { fun_ := some f, argInfo := ai, module := cm.this } ∧
      (cm.getCalledFunction_Value icc inst).2.argInfosTable[ai]? = some c ∧
      contextOf (cm.getCalledFunction_Value icc inst).2.argInfoHeap c =
        args.map (cm.classifyArg icc) ∧
      c.length = args.length ∧
      (cm.getCalledFunction_Value icc inst).2.lookupHandle icc inst = some h := by
  obtain ⟨he1, hw1, hv1, hd1, hl1, _, _⟩ := buildArgInfo_spec icc args cm hwf
  have he2 := intern_ArgInfosTy_ext (cm.buildArgInfo icc args).2 (cm.buildArgInfo icc args).1
  have hw2 := intern_ArgInfosTy_wf _ _ hw1 hv1
  have hh2 := intern_ArgInfosTy_heap (cm.buildArgInfo icc args).2 (cm.buildArgInfo icc args).1
  have hf2 := findContext_intern _ _ hw1 hv1
  obtain ⟨c, hc, hk⟩ := intern_ArgInfosTy_get _ _ hw1 hv1
  have hlt := intern_ArgInfosTy_lt (cm.buildArgInfo icc args).2 (cm.buildArgInfo icc args).1
  generalize hr : (cm.buildArgInfo icc args).2.intern_ArgInfosTy (cm.buildArgInfo icc args).1 = r
    at he2 hw2 hh2 hf2 hc hlt
  have he3 := intern_CalledFunctionTy_ext r.2 { fun_ := some f, argInfo := r.1, module := cm.this }
  have hw3 := intern_CalledFunctionTy_wf r.2
    { fun_ := some f, argInfo := r.1, module := cm.this } hw2 hlt
  have hg3 := intern_CalledFunctionTy_get r.2
    { fun_ := some f, argInfo := r.1, module := cm.this }
  have hf3 := findCalledFunction_intern r.2
    { fun_ := some f, argInfo := r.1, module := cm.this }
  have hres : cm.getCalledFunction_Value icc inst =
      (some (r.2.intern_CalledFunctionTy { fun_ := some f, argInfo := r.1, module := cm.this }).1,
        (r.2.intern_CalledFunctionTy { fun_ := some f, argInfo := r.1, module := cm.this }).2) := by
    simp only [CalledModuleTy.getCalledFunction_Value, hcs, hr]
  generalize hq : r.2.intern_CalledFunctionTy { fun_ := some f, argInfo := r.1, module := cm.this }
    = q at he3 hw3 hg3 hf3 hres
  rw [hres]
  have hheap : q.2.argInfoHeap = (cm.buildArgInfo icc args).2.argInfoHeap := by
    have h3 : r.2.argInfoHeap <+: q.2.argInfoHeap := he3.argInfoHeap
    have : q.2.argInfoHeap = r.2.argInfoHeap := by
      rw [← hq]
      unfold CalledModuleTy.intern_CalledFunctionTy
      split <;> rfl
    rw [this, hh2]
  have hthis : q.2.this = cm.this := by
    rw [← he3.this, ← he2.this, ← he1.this]
  have hext : cm.Ext q.2 := (he1.trans he2).trans he3
  refine ⟨q.1, r.1, c, rfl, hext, hw3, hg3, getElem?_grow he3.argInfosTable hc, ?_, ?_, ?_⟩
  · rw [hheap, hk, hd1]
  · have := congrArg List.length hk
    simp only [contextOf, List.length_map] at this
    rw [this, hl1]
  · simp only [CalledModuleTy.lookupHandle, hcs]
    have hcl : args.map (q.2.classifyArg icc) = args.map (cm.classifyArg icc) :=
      List.map_congr_left (fun a _ => classifyArg_ext hext icc a)
    rw [hcl, ← hd1]
    rw [findContext_ext hw2 he3 _ _ hf2]
    simp only [hthis]
    exact hf3

/-- A handle found in the tables is found in every later state of the module. -/
theorem lookupHandle_ext {cm cm2 : CalledModuleTy} (hwf : cm.WF) (hext : cm.Ext cm2)
    (icc : llvm.Value → Option String) (inst : llvm.Value) (h : Nat)
    (hl : cm.lookupHandle icc inst = some h) : cm2.lookupHandle icc inst = some h := by
  unfold CalledModuleTy.lookupHandle at hl ⊢
  cases hcs : inst.callSite with
  | none => simp [hcs] at hl
  | some p =>
    obtain ⟨callee, args⟩ := p
    cases callee with
    | none => simp [hcs] at hl
    | some f =>
      simp only [hcs] at hl ⊢
      have hcl : args.map (cm2.classifyArg icc) = args.map (cm.classifyArg icc) :=
        List.map_congr_left (fun a _ => classifyArg_ext hext icc a)
      rw [hcl]
      cases hf : cm.findContext (args.map (cm.classifyArg icc)) with
      | none => simp [hf] at hl
      | some ai =>
        simp only [hf] at hl
        rw [findContext_ext hwf hext _ _ hf]
        simp only [← hext.this]
        exact findCalledFunction_grow hext.calledFunctionsTable _ _ hl

/-- Looking up a call site that is already in the tables returns its handle and
leaves the context table and the called-function table as they are. -/
theorem getCalledFunction_Value_hit (icc : llvm.Value → Option String) (cm : CalledModuleTy)
    (inst : llvm.Value) (h : Nat) (hwf : cm.WF) (hl : cm.lookupHandle icc inst = some h) :
    (cm.getCalledFunction_Value icc inst).1 = some h ∧
      (cm.getCalledFunction_Value icc inst).2.calledFunctionsTable = cm.calledFunctionsTable ∧
      (cm.getCalledFunction_Value icc inst).2.argInfosTable = cm.argInfosTable := by
  unfold CalledModuleTy.lookupHandle at hl
  cases hcs : inst.callSite with
  | none => simp [hcs] at hl
  | some p =>
    obtain ⟨callee, args⟩ := p
    cases callee with
    | none => simp [hcs] at hl
    | some f =>
      simp only [hcs] at hl
      cases hf : cm.findContext (args.map (cm.classifyArg icc)) with
      | none => simp [hf] at hl
      | some ai =>
        simp only [hf] at hl
        obtain ⟨he1, hw1, hv1, hd1, _, ht1, hc1⟩ := buildArgInfo_spec icc args cm hwf
        have hf1 := findContext_ext hwf he1 _ _ hf
        rw [← hd1] at hf1
        have hi := intern_ArgInfosTy_hit _ _ hw1 hv1 ai hf1
        have hl1 := findCalledFunction_grow he1.calledFunctionsTable _ _ hl
        have hq : (cm.buildArgInfo icc args).2.intern_CalledFunctionTy
            { fun_ := some f, argInfo := ai, module := cm.this } =
            (h, (cm.buildArgInfo icc args).2) := by
          rw [intern_CalledFunctionTy_eq, hl1]
        simp only [CalledModuleTy.getCalledFunction_Value, hcs, hi, hq]
        exact ⟨by trivial, hc1, ht1⟩

/-- The handle `getCalledFunction(Value*)` returns is the one every later state
of the module returns for the same value. -/
theorem getCalledFunction_Value_stable (icc : llvm.Value → Option String)
    (cm cm2 : CalledModuleTy) (inst : llvm.Value) (hwf : cm.WF)
    (hext : (cm.getCalledFunction_Value icc inst).2.Ext cm2) (hwf2 : cm2.WF) :
    (cm2.getCalledFunction_Value icc inst).1 = (cm.getCalledFunction_Value icc inst).1 := by
  cases hcs : inst.callSite with
  | none => simp [CalledModuleTy.getCalledFunction_Value, hcs]
  | some p =>
    obtain ⟨callee, args⟩ := p
    cases callee with
    | none => simp [CalledModuleTy.getCalledFunction_Value, hcs]
    | some f =>
      obtain ⟨h, ai, c, hres, _, hw1, _, _, _, _, hl⟩ :=
        getCalledFunction_Value_spec icc cm inst f args hwf hcs
      have hl2 := lookupHandle_ext hw1 hext icc inst h hl
      rw [(getCalledFunction_Value_hit icc cm2 inst h hwf2 hl2).1, hres]

theorem getCalledFunction_Value_ext (icc : llvm.Value → Option String) (cm : CalledModuleTy)
    (inst : llvm.Value) (hwf : cm.WF) :
    cm.Ext (cm.getCalledFunction_Value icc inst).2 ∧ (cm.getCalledFunction_Value icc inst).2.WF := by
  cases hcs : inst.callSite with
  | none =>
    simp only [CalledModuleTy.getCalledFunction_Value, hcs]
    exact ⟨CalledModuleTy.Ext.refl cm, hwf⟩
  | some p =>
    obtain ⟨callee, args⟩ := p
    cases callee with
    | none =>
      simp only [CalledModuleTy.getCalledFunction_Value, hcs]
      exact ⟨CalledModuleTy.Ext.refl cm, hwf⟩
    | some f =>
      obtain ⟨h, ai, c, _, he, hw1, _⟩ :=
        getCalledFunction_Value_spec icc cm inst f args hwf hcs
      exact ⟨he, hw1⟩

theorem exampleCM_wf : exampleCM.WF :=
  ⟨by decide, by decide, by decide⟩

theorem getCalledFunction_Function_ext (cm : CalledModuleTy) (f : Nat) (hwf : cm.WF) :
    cm.Ext (cm.getCalledFunction_Function f).2 ∧ (cm.getCalledFunction_Function f).2.WF := by
  have hv : validArgInfos cm.argInfoHeap (List.replicate (cm.m.fn f).arg_size none) = true := by
    simp only [validArgInfos, List.all_eq_true]
    intro e he
    rw [(List.mem_replicate.1 he).2]
    rfl
  have he1 := intern_ArgInfosTy_ext cm (List.replicate (cm.m.fn f).arg_size none)
  have hw1 := intern_ArgInfosTy_wf cm _ hwf hv
  have hlt := intern_ArgInfosTy_lt cm (List.replicate (cm.m.fn f).arg_size none)
  unfold CalledModuleTy.getCalledFunction_Function
  simp only
  exact ⟨he1.trans (intern_CalledFunctionTy_ext _ _), intern_CalledFunctionTy_wf _ _ hw1 hlt⟩

/-! ## The engine only extends the module -/

theorem handleStoreOfCall_ext (c : RunCtx) (val : llvm.Value) (dst : Nat)
    (cm : CalledModuleTy) (s : CAllocStateTy) (hwf : cm.WF) :
    cm.Ext (handleStoreOfCall c val dst cm s).2.1 ∧ (handleStoreOfCall c val dst cm s).2.1.WF := by
  have h := getCalledFunction_Value_ext c.H.isInstallConstantCall cm val hwf
  unfold handleStoreOfCall
  simp only
  split
  · split <;> exact h
  · exact h

theorem handleStore_ext (c : RunCtx) (inst : llvm.Value) (cm : CalledModuleTy)
    (s : CAllocStateTy) (hwf : cm.WF) :
    cm.Ext (handleStore c inst cm s).2.1 ∧ (handleStore c inst cm s).2.1.WF := by
  have hid : cm.Ext cm ∧ cm.WF := ⟨CalledModuleTy.Ext.refl cm, hwf⟩
  unfold handleStore
  split
  · split
    · split
      · exact hid
      · exact handleStoreOfCall_ext c _ _ cm s hwf
    · exact hid
  · exact hid

theorem handleCall_ext (c : RunCtx) (inst : llvm.Value) (cm : CalledModuleTy)
    (s : CAllocStateTy) (hwf : cm.WF) :
    cm.Ext (handleCall c inst cm s).1 ∧ (handleCall c inst cm s).1.WF := by
  have h := getCalledFunction_Value_ext c.H.isInstallConstantCall cm inst hwf
  unfold handleCall
  simp only
  split
  · split <;> exact h
  · exact h

theorem visitInstruction_ext (c : RunCtx) (inst : llvm.Value) (cm : CalledModuleTy)
    (s : CAllocStateTy) (hwf : cm.WF) :
    cm.Ext (visitInstruction c inst cm s).1 ∧ (visitInstruction c inst cm s).1.WF := by
  unfold visitInstruction
  simp only
  split
  · have h1 := handleStore_ext c inst cm
      { s with
        intGuards := c.H.handleIntGuardsForNonTerminator inst s.intGuards
        sexpGuards := c.H.handleSEXPGuardsForNonTerminator inst s.sexpGuards } hwf
    split
    · exact h1
    · have h2 := handleCall_ext c inst _ (handleStore c inst cm
        { s with
          intGuards := c.H.handleIntGuardsForNonTerminator inst s.intGuards
          sexpGuards := c.H.handleSEXPGuardsForNonTerminator inst s.sexpGuards }).2.2 h1.2
      exact ⟨h1.1.trans h2.1, h2.2⟩
  · exact handleCall_ext c inst cm _ hwf

theorem visitBlock_ext (c : RunCtx) (insts : List llvm.Value) (cm : CalledModuleTy)
    (s : CAllocStateTy) (hwf : cm.WF) :
    cm.Ext (visitBlock c insts cm s).1 ∧ (visitBlock c insts cm s).1.WF := by
  induction insts generalizing cm s with
  | nil => exact ⟨CalledModuleTy.Ext.refl cm, hwf⟩
  | cons inst rest ih =>
    have h1 := visitInstruction_ext c inst cm s hwf
    have h2 := ih (visitInstruction c inst cm s).1 (visitInstruction c inst cm s).2 h1.2
    simp only [visitBlock]
    exact ⟨h1.1.trans h2.1, h2.2⟩

theorem collectWrapped_ext (c : RunCtx) (rv : llvm.Value) (cm : CalledModuleTy)
    (s : CAllocStateTy) (w : CalledFunctionsOrderedSetTy) (hwf : cm.WF) :
    cm.Ext (collectWrapped c rv cm s w).1 ∧ (collectWrapped c rv cm s w).1.WF := by
  have h := getCalledFunction_Value_ext c.H.isInstallConstantCall cm rv hwf
  unfold collectWrapped
  simp only
  split
  · split <;> exact h
  · exact h

theorem handleReturn_ext (c : RunCtx) (t : llvm.Value) (s : CAllocStateTy) (st : EngineState)
    (hwf : st.cm.WF) :
    st.cm.Ext (handleReturn c t s st).cm ∧ (handleReturn c t s st).cm.WF := by
  have hid : st.cm.Ext st.cm ∧ st.cm.WF := ⟨CalledModuleTy.Ext.refl _, hwf⟩
  unfold handleReturn
  split
  · simp only
    split
    · split
      · exact collectWrapped_ext c _ st.cm s _ hwf
      · exact hid
    · exact hid
  · exact hid

theorem processState_ext (c : RunCtx) (s : CAllocStateTy) (st : EngineState) (hwf : st.cm.WF) :
    st.cm.Ext (processState c s st).cm ∧ (processState c s st).cm.WF := by
  have h1 := visitBlock_ext c (c.F.block s.bb) st.cm s hwf
  unfold processState
  simp only
  split
  · exact h1
  · rename_i t _
    have h2 := handleReturn_ext c t (visitBlock c (c.F.block s.bb) st.cm s).2
      { st with cm := (visitBlock c (c.F.block s.bb) st.cm s).1 } h1.2
    exact ⟨h1.1.trans h2.1, h2.2⟩

theorem workLoop_nil (c : RunCtx) (fuel : Nat) (st : EngineState) (hw : st.workList = []) :
    workLoop c (fuel + 1) st = some st := by
  simp only [workLoop, hw]

theorem workLoop_error (c : RunCtx) (fuel : Nat) (st : EngineState) (s : CAllocStateTy)
    (rest : List CAllocStateTy) (hw : st.workList = s :: rest)
    (herr : c.errorBasicBlocks.contains s.bb = true) :
    workLoop c (fuel + 1) st = workLoop c fuel { st with workList := rest } := by
  simp only [workLoop, hw, herr, if_true]

theorem workLoop_abort (c : RunCtx) (fuel : Nat) (st : EngineState) (s : CAllocStateTy)
    (rest : List CAllocStateTy) (hw : st.workList = s :: rest)
    (herr : c.errorBasicBlocks.contains s.bb = false)
    (hcap : st.doneSet.length > c.maxStates) :
    workLoop c (fuel + 1) st =
      some { st with
        workList := rest
        errors := st.errors ++ ["too many states (abstraction error?)"] } := by
  simp only [workLoop, hw, herr, hcap, if_true, Bool.false_eq_true, if_false]

theorem workLoop_step (c : RunCtx) (fuel : Nat) (st : EngineState) (s : CAllocStateTy)
    (rest : List CAllocStateTy) (hw : st.workList = s :: rest)
    (herr : c.errorBasicBlocks.contains s.bb = false)
    (hcap : ¬ st.doneSet.length > c.maxStates) :
    workLoop c (fuel + 1) st =
      workLoop c fuel (processState c s { st with workList := rest }) := by
  simp only [workLoop, hw, herr, hcap, Bool.false_eq_true, if_false]

/-- The four ways one iteration of the worklist loop can go. -/
theorem workLoop_cases (c : RunCtx) (st : EngineState) :
    st.workList = [] ∨
      (∃ s rest, st.workList = s :: rest ∧ c.errorBasicBlocks.contains s.bb = true) ∨
      (∃ s rest, st.workList = s :: rest ∧ c.errorBasicBlocks.contains s.bb = false ∧
        st.doneSet.length > c.maxStates) ∨
      (∃ s rest, st.workList = s :: rest ∧ c.errorBasicBlocks.contains s.bb = false ∧
        ¬ st.doneSet.length > c.maxStates) := by
  cases hw : st.workList with
  | nil => exact Or.inl rfl
  | cons s rest =>
    right
    cases herr : c.errorBasicBlocks.contains s.bb with
    | true => exact Or.inl ⟨s, rest, rfl, herr⟩
    | false =>
      right
      by_cases hcap : st.doneSet.length > c.maxStates
      · exact Or.inl ⟨s, rest, rfl, herr, hcap⟩
      · exact Or.inr ⟨s, rest, rfl, herr, hcap⟩

theorem workLoop_ext (c : RunCtx) (fuel : Nat) (st r : EngineState) (hwf : st.cm.WF)
    (h : workLoop c fuel st = some r) : st.cm.Ext r.cm ∧ r.cm.WF := by
  induction fuel generalizing st with
  | zero => simp [workLoop] at h
  | succ n ih =>
    rcases workLoop_cases c st with hw | ⟨s, rest, hw, herr⟩ | ⟨s, rest, hw, herr, hcap⟩ |
      ⟨s, rest, hw, herr, hcap⟩
    · rw [workLoop_nil c n st hw] at h
      cases h
      exact ⟨CalledModuleTy.Ext.refl _, hwf⟩
    · rw [workLoop_error c n st s rest hw herr] at h
      exact ih { st with workList := rest } hwf h
    · rw [workLoop_abort c n st s rest hw herr hcap] at h
      cases h
      exact ⟨CalledModuleTy.Ext.refl _, hwf⟩
    · rw [workLoop_step c n st s rest hw herr hcap] at h
      have h1 := processState_ext c s { st with workList := rest } hwf
      have h2 := ih _ h1.2 h
      exact ⟨h1.1.trans h2.1, h2.2⟩

/-! ## Termination of the worklist loop -/

theorem add_spec (s : CAllocStateTy) (wl : WorkListTy) (ds : DoneSetTy) :
    (s.add wl ds = (true, s :: wl, ds ++ [s]) ∧ ∀ e ∈ ds, e ≠ s) ∨
      (s.add wl ds = (false, wl, ds) ∧ s ∈ ds) := by
  unfold CAllocStateTy.add
  have hp : ∀ e : CAllocStateTy, CAllocStatePtrTy_equal e s = decide (e = s) := by
    intro e
    obtain ⟨⟨b1, i1, g1⟩, c1, v1⟩ := e
    obtain ⟨⟨b2, i2, g2⟩, c2, v2⟩ := s
    simp only [CAllocStatePtrTy_equal, CAllocStateTy.mk.injEq, StateWithGuardsTy.mk.injEq]
    rw [Bool.eq_iff_iff]
    simp [and_assoc]
  rw [usetFind_congr _ (fun e => decide (e = s)) ds (fun e _ => hp e)]
  cases h : usetFind (fun e => decide (e = s)) ds with
  | none =>
    left
    refine ⟨rfl, ?_⟩
    intro e he
    have := (usetFind_eq_none _ _).1 h e he
    simpa using this
  | some i =>
    right
    refine ⟨rfl, ?_⟩
    obtain ⟨e, he, hes⟩ := usetFind_get _ _ _ h
    simp only [decide_eq_true_eq] at hes
    subst hes
    exact List.getElem?_mem he

/-- Admitting states pushes exactly as many states as the DoneSet grows by. -/
theorem addAll_length (l : List CAllocStateTy) (wl : WorkListTy) (ds : DoneSetTy) :
    ∃ k, (addAll l wl ds).1.length = wl.length + k ∧ (addAll l wl ds).2.length = ds.length + k := by
  induction l generalizing wl ds with
  | nil => exact ⟨0, rfl, rfl⟩
  | cons s rest ih =>
    simp only [addAll]
    rcases add_spec s wl ds with ⟨h, _⟩ | ⟨h, _⟩
    · rw [h]
      obtain ⟨k, h1, h2⟩ := ih (s :: wl) (ds ++ [s])
      refine ⟨k + 1, ?_, ?_⟩
      · rw [h1]
        simp
        omega
      · rw [h2]
        simp
        omega
    · rw [h]
      exact ih wl ds

theorem processState_length (c : RunCtx) (s : CAllocStateTy) (st : EngineState) :
    ∃ k, (processState c s st).workList.length = st.workList.length + k ∧
      (processState c s st).doneSet.length = st.doneSet.length + k := by
  have hr : ∀ (t : llvm.Value) (x : CAllocStateTy) (e : EngineState),
      (handleReturn c t x e).workList = e.workList ∧
        (handleReturn c t x e).doneSet = e.doneSet := by
    intro t x e
    unfold handleReturn
    split
    · simp only
      split
      · split <;> exact ⟨rfl, rfl⟩
      · exact ⟨rfl, rfl⟩
    · exact ⟨rfl, rfl⟩
  unfold processState
  simp only
  split
  · exact ⟨0, rfl, rfl⟩
  · rename_i t _
    simp only [(hr t _ _).1, (hr t _ _).2]
    exact addAll_length _ _ _

/-- The worklist loop halts: with enough fuel it returns a result.  The measure
is the room left under the cap, then the length of the worklist. -/
theorem workLoop_terminates (c : RunCtx) (st : EngineState) :
    ∃ fuel r, workLoop c fuel st = some r := by
  generalize hm : c.maxStates + 1 - st.doneSet.length = m
  induction m using Nat.strong_induction_on generalizing st with
  | _ m ihm =>
    generalize hn : st.workList.length = n
    induction n using Nat.strong_induction_on generalizing st with
    | _ n ihn =>
      rcases workLoop_cases c st with hw | ⟨s, rest, hw, herr⟩ | ⟨s, rest, hw, herr, hcap⟩ |
        ⟨s, rest, hw, herr, hcap⟩
      · exact ⟨1, st, workLoop_nil c 0 st hw⟩
      · obtain ⟨fuel, r, hr⟩ := ihn rest.length (by rw [← hn, hw]; simp)
          { st with workList := rest } hm rfl
        exact ⟨fuel + 1, r, by rw [workLoop_error c fuel st s rest hw herr]; exact hr⟩
      · exact ⟨1, _, workLoop_abort c 0 st s rest hw herr hcap⟩
      · obtain ⟨k, hk1, hk2⟩ := processState_length c s { st with workList := rest }
        have hstep : ∃ fuel r, workLoop c fuel
            (processState c s { st with workList := rest }) = some r := by
          by_cases hk : k = 0
          · subst hk
            apply ihn rest.length (by rw [← hn, hw]; simp)
            · rw [hk2]
              exact hm
            · rw [hk1]
              rfl
          · apply ihm (c.maxStates + 1 - (processState c s { st with workList := rest
              }).doneSet.length) _ _ rfl
            rw [hk2, ← hm]
            simp only
            omega
        obtain ⟨fuel, r, hr⟩ := hstep
        exact ⟨fuel + 1, r, by rw [workLoop_step c fuel st s rest hw herr hcap]; exact hr⟩

theorem workLoop_fuel_mono (c : RunCtx) (fuel k : Nat) (st r : EngineState)
    (h : workLoop c fuel st = some r) : workLoop c (fuel + k) st = some r := by
  induction fuel generalizing st with
  | zero => simp [workLoop] at h
  | succ n ih =>
    have e : n + 1 + k = (n + k) + 1 := by omega
    rw [e]
    rcases workLoop_cases c st with hw | ⟨s, rest, hw, herr⟩ | ⟨s, rest, hw, herr, hcap⟩ |
      ⟨s, rest, hw, herr, hcap⟩
    · rw [workLoop_nil c n st hw] at h
      rw [workLoop_nil c (n + k) st hw]
      exact h
    · rw [workLoop_error c n st s rest hw herr] at h
      rw [workLoop_error c (n + k) st s rest hw herr]
      exact ih _ h
    · rw [workLoop_abort c n st s rest hw herr hcap] at h
      rw [workLoop_abort c (n + k) st s rest hw herr hcap]
      exact h
    · rw [workLoop_step c n st s rest hw herr hcap] at h
      rw [workLoop_step c (n + k) st s rest hw herr hcap]
      exact ih _ h

/-! ## Simulation: a run computes with the handles of its final module -/

theorem getCalledFunction_Value_valid (icc : llvm.Value → Option String) (cm : CalledModuleTy)
    (inst : llvm.Value) (h : Nat) (hh : (cm.getCalledFunction_Value icc inst).1 = some h) :
    ∃ cf, (cm.getCalledFunction_Value icc inst).2.calledFunctionsTable[h]? = some cf := by
  unfold CalledModuleTy.getCalledFunction_Value at hh ⊢
  cases hc : inst.callSite with
  | none => simp [hc] at hh
  | some p =>
    obtain ⟨callee, args⟩ := p
    cases callee with
    | none => simp [hc] at hh
    | some f =>
      simp only [hc] at hh ⊢
      cases hh
      exact ⟨_, intern_CalledFunctionTy_get _ _⟩

theorem funOf_grow {cm cm2 : CalledModuleTy} (hext : cm.Ext cm2) (t : Nat) (cf : CalledFunctionTy)
    (h : cm.calledFunctionsTable[t]? = some cf) : cm2.funOf t = cm.funOf t := by
  unfold CalledModuleTy.funOf
  rw [h, getElem?_grow hext.calledFunctionsTable h]

/-- The classification of a handle that `getCalledFunction(Value*)` returned is
the same in every later state of the module. -/
theorem classify_stable (icc : llvm.Value → Option String) (cm cmF : CalledModuleTy)
    (inst : llvm.Value) (t : Nat) (hext : (cm.getCalledFunction_Value icc inst).2.Ext cmF)
    (ht : (cm.getCalledFunction_Value icc inst).1 = some t) :
    (cm.getCalledFunction_Value icc inst).2.isAllocating
        ((cm.getCalledFunction_Value icc inst).2.funOf t) = cmF.isAllocating (cmF.funOf t) ∧
      (cm.getCalledFunction_Value icc inst).2.isPossibleAllocator
        ((cm.getCalledFunction_Value icc inst).2.funOf t) =
          cmF.isPossibleAllocator (cmF.funOf t) := by
  obtain ⟨cf, hcf⟩ := getCalledFunction_Value_valid icc cm inst t ht
  rw [funOf_grow hext t cf hcf]
  unfold CalledModuleTy.isAllocating CalledModuleTy.isPossibleAllocator
  rw [hext.allocatingFunctions, hext.possibleAllocators]
  exact ⟨rfl, rfl⟩

theorem handleCall_fst (c : RunCtx) (inst : llvm.Value) (cm : CalledModuleTy)
    (s : CAllocStateTy) :
    (handleCall c inst cm s).1 = (cm.getCalledFunction_Value c.H.isInstallConstantCall inst).2 := by
  unfold handleCall
  simp only
  split
  · split <;> rfl
  · rfl

theorem handleCall_sim (c : RunCtx) (inst : llvm.Value) (cm cmF : CalledModuleTy)
    (s : CAllocStateTy) (hwf : cm.WF) (hext : (handleCall c inst cm s).1.Ext cmF)
    (hwfF : cmF.WF) :
    (handleCall c inst cm s).2 =
      handleCallP (Oracle.ofModule c.H.isInstallConstantCall cmF) inst s := by
  rw [handleCall_fst] at hext
  have hst := getCalledFunction_Value_stable c.H.isInstallConstantCall cm cmF inst hwf hext hwfF
  unfold handleCall handleCallP Oracle.ofModule
  simp only [hst]
  cases h : (cm.getCalledFunction_Value c.H.isInstallConstantCall inst).1 with
  | none => rfl
  | some tgt =>
    simp only
    rw [(classify_stable c.H.isInstallConstantCall cm cmF inst tgt hext h).1]
    split <;> rfl

theorem handleStoreOfCall_fst (c : RunCtx) (val : llvm.Value) (dst : Nat)
    (cm : CalledModuleTy) (s : CAllocStateTy) :
    (handleStoreOfCall c val dst cm s).2.1 =
      (cm.getCalledFunction_Value c.H.isInstallConstantCall val).2 := by
  unfold handleStoreOfCall
  simp only
  split
  · split <;> rfl
  · rfl

theorem handleStoreOfCall_sim (c : RunCtx) (val : llvm.Value) (dst : Nat)
    (cm cmF : CalledModuleTy) (s : CAllocStateTy) (hwf : cm.WF)
    (hext : (handleStoreOfCall c val dst cm s).2.1.Ext cmF) (hwfF : cmF.WF) :
    ((handleStoreOfCall c val dst cm s).1, (handleStoreOfCall c val dst cm s).2.2) =
      handleStoreOfCallP (Oracle.ofModule c.H.isInstallConstantCall cmF) val dst s := by
  rw [handleStoreOfCall_fst] at hext
  have hst := getCalledFunction_Value_stable c.H.isInstallConstantCall cm cmF val hwf hext hwfF
  unfold handleStoreOfCall handleStoreOfCallP Oracle.ofModule
  simp only [hst]
  cases h : (cm.getCalledFunction_Value c.H.isInstallConstantCall val).1 with
  | none => rfl
  | some tgt =>
    simp only
    rw [(classify_stable c.H.isInstallConstantCall cm cmF val tgt hext h).1]
    split <;> rfl

theorem handleStore_sim (c : RunCtx) (inst : llvm.Value) (cm cmF : CalledModuleTy)
    (s : CAllocStateTy) (hwf : cm.WF) (hext : (handleStore c inst cm s).2.1.Ext cmF)
    (hwfF : cmF.WF) :
    ((handleStore c inst cm s).1, (handleStore c inst cm s).2.2) =
      handleStoreP c (Oracle.ofModule c.H.isInstallConstantCall cmF) inst s := by
  cases inst with
  | storeInst val ptr =>
    cases ptr with
    | allocaInst dst =>
      simp only [handleStore, handleStoreP] at hext ⊢
      by_cases hc : c.possiblyReturnedVars.contains dst = true
      · simp only [hc, if_true] at hext ⊢
        cases val with
        | loadInst src => rfl
        | _ => exact handleStoreOfCall_sim c _ _ cm cmF s hwf hext hwfF
      · simp only [hc, Bool.false_eq_true, if_false]
    | _ => rfl
  | _ => rfl

theorem visitInstruction_sim (c : RunCtx) (inst : llvm.Value) (cm cmF : CalledModuleTy)
    (s : CAllocStateTy) (hwf : cm.WF) (hext : (visitInstruction c inst cm s).1.Ext cmF)
    (hwfF : cmF.WF) :
    (visitInstruction c inst cm s).2 =
      visitInstructionP c (Oracle.ofModule c.H.isInstallConstantCall cmF) inst s := by
  unfold visitInstruction visitInstructionP at *
  simp only at hext ⊢
  split
  · rename_i htrack
    simp only [htrack, if_true] at hext
    generalize hs1 : ({ s with
        intGuards := c.H.handleIntGuardsForNonTerminator inst s.intGuards
        sexpGuards := c.H.handleSEXPGuardsForNonTerminator inst s.sexpGuards } : CAllocStateTy)
      = s1 at hext ⊢
    have hse := handleStore_ext c inst cm s1 hwf
    by_cases hcont : (handleStore c inst cm s1).1 = true
    · simp only [hcont, if_true] at hext ⊢
      have hsim := handleStore_sim c inst cm cmF s1 hwf hext hwfF
      rw [← hsim]
      simp [hcont]
    · simp only [hcont, if_false] at hext ⊢
      have hce := handleCall_ext c inst (handleStore c inst cm s1).2.1
        (handleStore c inst cm s1).2.2 hse.2
      have hsim := handleStore_sim c inst cm cmF s1 hwf (hce.1.trans hext) hwfF
      rw [← hsim]
      simp only [hcont, if_false]
      exact handleCall_sim c inst _ cmF _ hse.2 hext hwfF
  · rename_i htrack
    simp only [htrack, if_false] at hext
    exact handleCall_sim c inst cm cmF _ hwf hext hwfF

theorem visitBlock_sim (c : RunCtx) (insts : List llvm.Value) (cm cmF : CalledModuleTy)
    (s : CAllocStateTy) (hwf : cm.WF) (hext : (visitBlock c insts cm s).1.Ext cmF)
    (hwfF : cmF.WF) :
    (visitBlock c insts cm s).2 =
      visitBlockP c (Oracle.ofModule c.H.isInstallConstantCall cmF) insts s := by
  induction insts generalizing cm s with
  | nil => rfl
  | cons inst rest ih =>
    simp only [visitBlock, visitBlockP] at hext ⊢
    have h1 := visitInstruction_ext c inst cm s hwf
    have h2 := visitBlock_ext c rest (visitInstruction c inst cm s).1
      (visitInstruction c inst cm s).2 h1.2
    rw [ih _ _ h1.2 hext, visitInstruction_sim c inst cm cmF s hwf (h2.1.trans hext) hwfF]

theorem collectWrapped_fst (c : RunCtx) (rv : llvm.Value) (cm : CalledModuleTy)
    (s : CAllocStateTy) (w : CalledFunctionsOrderedSetTy) :
    (collectWrapped c rv cm s w).1 =
      (cm.getCalledFunction_Value c.H.isInstallConstantCall rv).2 := by
  unfold collectWrapped
  simp only
  split
  · split <;> rfl
  · rfl

theorem collectWrapped_sim (c : RunCtx) (rv : llvm.Value) (cm cmF : CalledModuleTy)
    (s : CAllocStateTy) (w : CalledFunctionsOrderedSetTy) (hwf : cm.WF)
    (hext : (collectWrapped c rv cm s w).1.Ext cmF) (hwfF : cmF.WF) :
    (collectWrapped c rv cm s w).2 =
      collectWrappedP (Oracle.ofModule c.H.isInstallConstantCall cmF) rv s w := by
  rw [collectWrapped_fst] at hext
  have hst := getCalledFunction_Value_stable c.H.isInstallConstantCall cm cmF rv hwf hext hwfF
  unfold collectWrapped collectWrappedP Oracle.ofModule
  simp only [hst]
  cases h : (cm.getCalledFunction_Value c.H.isInstallConstantCall rv).1 with
  | none => rfl
  | some tgt =>
    simp only
    rw [(classify_stable c.H.isInstallConstantCall cm cmF rv tgt hext h).2]
    split <;> rfl

theorem handleReturn_sim (c : RunCtx) (t : llvm.Value) (s : CAllocStateTy) (st : EngineState)
    (cmF : CalledModuleTy) (hwf : st.cm.WF) (hext : (handleReturn c t s st).cm.Ext cmF)
    (hwfF : cmF.WF) :
    handleReturn c t s st =
      { handleReturnP c (Oracle.ofModule c.H.isInstallConstantCall cmF) t s st with
        cm := (handleReturn c t s st).cm } := by
  have hgc : st.cm.gcFunction = cmF.gcFunction :=
    ((handleReturn_ext c t s st hwf).1.trans hext).gcFunction
  unfold handleReturn handleReturnP at *
  split
  · simp only at hext ⊢
    split
    · rename_i htrack
      simp only [htrack, if_true] at hext
      split
      · rename_i rv
        simp only at hext
        rw [collectWrapped_sim c rv st.cm cmF s _ hwf hext hwfF]
        simp only [Oracle.ofModule, hgc]
      · simp only [Oracle.ofModule, hgc]
    · rfl
  · rfl

theorem processState_sim (c : RunCtx) (s : CAllocStateTy) (st : EngineState)
    (cmF : CalledModuleTy) (hwf : st.cm.WF) (hext : (processState c s st).cm.Ext cmF)
    (hwfF : cmF.WF) :
    processState c s st =
      { processStateP c (Oracle.ofModule c.H.isInstallConstantCall cmF) s st with
        cm := (processState c s st).cm } := by
  have h1 := visitBlock_ext c (c.F.block s.bb) st.cm s hwf
  unfold processState processStateP at *
  simp only at hext ⊢
  split
  · rfl
  · rename_i t ht
    simp only [ht] at hext
    have h2 := handleReturn_ext c t (visitBlock c (c.F.block s.bb) st.cm s).2
      { st with cm := (visitBlock c (c.F.block s.bb) st.cm s).1 } h1.2
    have hv := visitBlock_sim c (c.F.block s.bb) st.cm cmF s hwf (h2.1.trans hext) hwfF
    have hr := handleReturn_sim c t (visitBlock c (c.F.block s.bb) st.cm s).2
      { st with cm := (visitBlock c (c.F.block s.bb) st.cm s).1 } cmF h1.2 hext hwfF
    rw [hr, hv]
    have hp : ∀ (O : Oracle) (x : CAllocStateTy) (e : EngineState) (m : CalledModuleTy),
        handleReturnP c O t x { e with cm := m } =
          { handleReturnP c O t x e with cm := m } := by
      intro O x e m
      unfold handleReturnP
      split
      · simp only
        split
        · split <;> rfl
        · rfl
      · rfl
    rw [hp]

/-! ## The worklist loop computes the reachable states -/

theorem addAll_spec (l : List CAllocStateTy) (wl : WorkListTy) (ds : DoneSetTy) :
    (∀ x ∈ ds, x ∈ (addAll l wl ds).2) ∧ (∀ x ∈ wl, x ∈ (addAll l wl ds).1) ∧
      (∀ x ∈ l, x ∈ (addAll l wl ds).2) ∧
      (∀ x ∈ (addAll l wl ds).2, x ∈ ds ∨ (x ∈ l ∧ x ∈ (addAll l wl ds).1)) ∧
      (∀ x ∈ (addAll l wl ds).1, x ∈ wl ∨ (x ∈ l ∧ x ∈ (addAll l wl ds).2)) := by
  induction l generalizing wl ds with
  | nil => simp [addAll]
  | cons s rest ih =>
    simp only [addAll]
    rcases add_spec s wl ds with ⟨h, _⟩ | ⟨h, hmem⟩
    · rw [h]
      obtain ⟨h1, h2, h3, h4, h5⟩ := ih (s :: wl) (ds ++ [s])
      refine ⟨?_, ?_, ?_, ?_, ?_⟩
      · intro x hx
        exact h1 x (by simp [hx])
      · intro x hx
        exact h2 x (by simp [hx])
      · intro x hx
        simp only [List.mem_cons] at hx
        rcases hx with hx | hx
        · subst hx
          exact h1 x (by simp)
        · exact h3 x hx
      · intro x hx
        rcases h4 x hx with h | ⟨ha, hb⟩
        · simp only [List.mem_append, List.mem_singleton] at h
          rcases h with h | h
          · exact Or.inl h
          · subst h
            exact Or.inr ⟨by simp, h2 x (by simp)⟩
        · exact Or.inr ⟨by simp [ha], hb⟩
      · intro x hx
        rcases h5 x hx with h | ⟨ha, hb⟩
        · simp only [List.mem_cons] at h
          rcases h with h | h
          · subst h
            exact Or.inr ⟨by simp, h1 x (by simp)⟩
          · exact Or.inl h
        · exact Or.inr ⟨by simp [ha], hb⟩
    · rw [h]
      obtain ⟨h1, h2, h3, h4, h5⟩ := ih wl ds
      refine ⟨h1, h2, ?_, ?_, ?_⟩
      · intro x hx
        simp only [List.mem_cons] at hx
        rcases hx with hx | hx
        · subst hx
          exact h1 x hmem
        · exact h3 x hx
      · intro x hx
        rcases h4 x hx with h | ⟨ha, hb⟩
        · exact Or.inl h
        · exact Or.inr ⟨by simp [ha], hb⟩
      · intro x hx
        rcases h5 x hx with h | ⟨ha, hb⟩
        · exact Or.inl h
        · exact Or.inr ⟨by simp [ha], hb⟩

/-- What `handleReturnP` does to the called set, and that it leaves the
containers alone. -/
theorem handleReturnP_called (c : RunCtx) (O : Oracle) (t : llvm.Value) (s : CAllocStateTy)
    (st : EngineState) :
    (handleReturnP c O t s st).called =
        (match t with
          | .returnInst _ => CalledFunctionsOrderedSetTy.insertAll s.called st.called
          | _ => st.called) ∧
      (handleReturnP c O t s st).workList = st.workList ∧
      (handleReturnP c O t s st).doneSet = st.doneSet ∧
      (handleReturnP c O t s st).errors = st.errors := by
  unfold handleReturnP
  split
  · simp only
    split
    · split <;> exact ⟨rfl, rfl, rfl, rfl⟩
    · exact ⟨rfl, rfl, rfl, rfl⟩
  · exact ⟨rfl, rfl, rfl, rfl⟩

/-- The called set after processing `s`, over fixed handles. -/
theorem processStateP_called (c : RunCtx) (O : Oracle) (s : CAllocStateTy) (st : EngineState)
    (t : Nat) :
    t ∈ (processStateP c O s st).called ↔ t ∈ returnedCalls c O s ∨ t ∈ st.called := by
  unfold processStateP returnedCalls
  cases ht : (c.F.block s.bb).getTerminator with
  | none => simp
  | some tm =>
    simp only
    rw [(handleReturnP_called c O tm _ st).1]
    cases tm <;> simp [mem_insertAll, blockEnd]

theorem processStateP_containers (c : RunCtx) (O : Oracle) (s : CAllocStateTy)
    (st : EngineState) :
    (processStateP c O s st).workList = (addAll (nextStates c O s) st.workList st.doneSet).1 ∧
      (processStateP c O s st).doneSet = (addAll (nextStates c O s) st.workList st.doneSet).2 ∧
      (processStateP c O s st).errors = st.errors := by
  unfold processStateP nextStates
  cases ht : (c.F.block s.bb).getTerminator with
  | none => exact ⟨rfl, rfl, rfl⟩
  | some tm =>
    simp only
    obtain ⟨_, h2, h3, h4⟩ := handleReturnP_called c O tm (visitBlockP c O (c.F.block s.bb) s) st
    rw [h2, h3]
    exact ⟨rfl, rfl, h4⟩

/-- Processing a state keeps the invariant of the loop. -/
theorem LoopInv.step (c : RunCtx) (O : Oracle) (called0 : CalledFunctionsOrderedSetTy)
    (st : EngineState) (s : CAllocStateTy) (rest : List CAllocStateTy)
    (hw : st.workList = s :: rest) (herr : c.errorBasicBlocks.contains s.bb = false)
    (hinv : LoopInv c O called0 st) :
    LoopInv c O called0 (processStateP c O s { st with workList := rest }) := by
  obtain ⟨hwl, hds, _⟩ := processStateP_containers c O s { st with workList := rest }
  obtain ⟨a1, a2, a3, a4, a5⟩ := addAll_spec (nextStates c O s) rest st.doneSet
  have hs_done : s ∈ st.doneSet := hinv.work_done s (by rw [hw]; simp)
  have hs_reach : Reach c O s := hinv.reach s hs_done
  refine ⟨?_, ?_, ?_, ?_, ?_, ?_⟩
  · intro x hx
    rw [hwl] at hx
    rw [hds]
    rcases a5 x hx with h | ⟨_, h⟩
    · exact a1 x (hinv.work_done x (by rw [hw]; simp [h]))
    · exact h
  · intro x hx
    rw [hds] at hx
    rw [hwl, hds]
    rcases a4 x hx with h | ⟨_, h⟩
    · rcases hinv.processed x h with h1 | h1 | ⟨h1, h2⟩
      · rw [hw] at h1
        simp only [List.mem_cons] at h1
        rcases h1 with h1 | h1
        · subst h1
          right
          right
          refine ⟨?_, ?_⟩
          · intro t ht
            exact (processStateP_called c O x _ t).2 (Or.inl ht)
          · intro s2 hs2
            exact a3 s2 hs2
        · exact Or.inl (a2 x h1)
      · exact Or.inr (Or.inl h1)
      · right
        right
        refine ⟨?_, ?_⟩
        · intro t ht
          exact (processStateP_called c O s _ t).2 (Or.inr (h1 t ht))
        · intro s2 hs2
          exact a1 s2 (h2 s2 hs2)
    · exact Or.inl h
  · intro x hx
    rw [hds] at hx
    rcases a4 x hx with h | ⟨h, _⟩
    · exact hinv.reach x h
    · exact Reach.next s x hs_reach herr h
  · intro t ht
    rcases (processStateP_called c O s _ t).1 ht with h | h
    · exact Or.inr ⟨s, hs_reach, herr, h⟩
    · exact hinv.called_sound t h
  · rw [hds]
    exact a1 _ hinv.seed_done
  · intro t ht
    exact (processStateP_called c O s _ t).2 (Or.inr (hinv.called_mono t ht))

/-- Dropping a state on an error block keeps the invariant of the loop. -/
theorem LoopInv.drop (c : RunCtx) (O : Oracle) (called0 : CalledFunctionsOrderedSetTy)
    (st : EngineState) (s : CAllocStateTy) (rest : List CAllocStateTy)
    (hw : st.workList = s :: rest) (herr : c.errorBasicBlocks.contains s.bb = true)
    (hinv : LoopInv c O called0 st) :
    LoopInv c O called0 { st with workList := rest } := by
  refine ⟨?_, ?_, hinv.reach, hinv.called_sound, hinv.seed_done, hinv.called_mono⟩
  · intro x hx
    exact hinv.work_done x (by rw [hw]; simp [hx])
  · intro x hx
    rcases hinv.processed x hx with h1 | h1 | h1
    · rw [hw] at h1
      simp only [List.mem_cons] at h1
      rcases h1 with h1 | h1
      · subst h1
        exact Or.inr (Or.inl herr)
      · exact Or.inl h1
    · exact Or.inr (Or.inl h1)
    · exact Or.inr (Or.inr h1)

theorem LoopInv.congr (c : RunCtx) (O : Oracle) (called0 : CalledFunctionsOrderedSetTy)
    (st st2 : EngineState) (hw : st2.workList = st.workList) (hd : st2.doneSet = st.doneSet)
    (hc : st2.called = st.called) (hinv : LoopInv c O called0 st) : LoopInv c O called0 st2 := by
  obtain ⟨h1, h2, h3, h4, h5, h6⟩ := hinv
  refine ⟨?_, ?_, ?_, ?_, ?_, ?_⟩
  · rw [hw, hd]
    exact h1
  · rw [hw, hd, hc]
    exact h2
  · rw [hd]
    exact h3
  · rw [hc]
    exact h4
  · rw [hd]
    exact h5
  · rw [hc]
    exact h6

/-- A run that ends without tripping the cap ends with an empty worklist and
with the invariant, taken over the handles of the final module. -/
theorem workLoop_inv (c : RunCtx) (called0 : CalledFunctionsOrderedSetTy) (fuel : Nat)
    (st r : EngineState) (hwf : st.cm.WF) (h : workLoop c fuel st = some r)
    (hno : r.errors = st.errors)
    (hinv : LoopInv c (Oracle.ofModule c.H.isInstallConstantCall r.cm) called0 st) :
    r.workList = [] ∧ LoopInv c (Oracle.ofModule c.H.isInstallConstantCall r.cm) called0 r := by
  induction fuel generalizing st with
  | zero => simp [workLoop] at h
  | succ n ih =>
    rcases workLoop_cases c st with hw | ⟨s, rest, hw, herr⟩ | ⟨s, rest, hw, herr, hcap⟩ |
      ⟨s, rest, hw, herr, hcap⟩
    · rw [workLoop_nil c n st hw] at h
      cases h
      exact ⟨hw, hinv⟩
    · rw [workLoop_error c n st s rest hw herr] at h
      exact ih { st with workList := rest } hwf h hno (LoopInv.drop c _ called0 st s rest hw herr hinv)
    · rw [workLoop_abort c n st s rest hw herr hcap] at h
      cases h
      simp at hno
    · rw [workLoop_step c n st s rest hw herr hcap] at h
      have h1 := processState_ext c s { st with workList := rest } hwf
      have h2 := workLoop_ext c n _ r h1.2 h
      have hsim := processState_sim c s { st with workList := rest } r.cm hwf h2.1 h2.2
      have hstep := LoopInv.step c _ called0 st s rest hw herr hinv
      have herrs : (processState c s { st with workList := rest }).errors = st.errors := by
        rw [hsim]
        exact (processStateP_containers c _ s { st with workList := rest }).2.2
      apply ih (processState c s { st with workList := rest }) h1.2 h (by rw [hno, herrs])
      apply LoopInv.congr c _ called0 _ _ _ _ _ hstep
      · rw [hsim]
      · rw [hsim]
      · rw [hsim]

/-- At the end of a run every reached state is in the DoneSet. -/
theorem LoopInv.reach_done (c : RunCtx) (O : Oracle) (called0 : CalledFunctionsOrderedSetTy)
    (r : EngineState) (hw : r.workList = []) (hinv : LoopInv c O called0 r)
    (s : CAllocStateTy) (hs : Reach c O s) : s ∈ r.doneSet := by
  induction hs with
  | seed => exact hinv.seed_done
  | next s s2 _ herr hnext ih =>
    rcases hinv.processed s ih with h | h | ⟨_, h⟩
    · rw [hw] at h
      cases h
    · rw [herr] at h
      cases h
    · exact h s2 hnext

/-- The called set of a run that does not trip the cap: the calls passed in, and
the calls returned by the reached states on blocks that are not error blocks. -/
theorem workLoop_called (c : RunCtx) (called0 : CalledFunctionsOrderedSetTy) (fuel : Nat)
    (st r : EngineState) (hwf : st.cm.WF) (h : workLoop c fuel st = some r)
    (hno : r.errors = st.errors)
    (hinv : LoopInv c (Oracle.ofModule c.H.isInstallConstantCall r.cm) called0 st) (t : Nat) :
    t ∈ r.called ↔ t ∈ called0 ∨
      ∃ s, Reach c (Oracle.ofModule c.H.isInstallConstantCall r.cm) s ∧
        c.errorBasicBlocks.contains s.bb = false ∧
        t ∈ returnedCalls c (Oracle.ofModule c.H.isInstallConstantCall r.cm) s := by
  obtain ⟨hw, hr⟩ := workLoop_inv c called0 fuel st r hwf h hno hinv
  constructor
  · exact hr.called_sound t
  · rintro (h0 | ⟨s, hs, herr, ht⟩)
    · exact hr.called_mono t h0
    · have hd := LoopInv.reach_done c _ called0 r hw hr s hs
      rcases hr.processed s hd with h1 | h1 | ⟨h1, _⟩
      · rw [hw] at h1
        cases h1
      · rw [herr] at h1
        cases h1
      · exact h1 t ht

/-! ## Reached states and paths of the control-flow graph -/

theorem handleCallP_bb (O : Oracle) (inst : llvm.Value) (s : CAllocStateTy) :
    (handleCallP O inst s).bb = s.bb := by
  unfold handleCallP
  split
  · split <;> rfl
  · rfl

theorem handleCallP_mem (O : Oracle) (inst : llvm.Value) (s : CAllocStateTy) (t : Nat) :
    t ∈ (handleCallP O inst s).called ↔
      t ∈ s.called ∨ (O.handle inst = some t ∧ O.allocating t = true) := by
  unfold handleCallP
  cases h : O.handle inst with
  | none => simp
  | some tgt =>
    simp only
    by_cases ha : O.allocating tgt = true
    · simp only [ha, if_true, mem_orderedInsert, Option.some.injEq]
      constructor
      · rintro (h1 | h1)
        · subst h1
          exact Or.inr ⟨rfl, ha⟩
        · exact Or.inl h1
      · rintro (h1 | ⟨h1, _⟩)
        · exact Or.inr h1
        · exact Or.inl h1.symm
    · simp only [ha, if_false, Option.some.injEq]
      constructor
      · intro h1
        exact Or.inl h1
      · rintro (h1 | ⟨h1, h2⟩)
        · exact h1
        · subst h1
          exact absurd h2 ha

theorem handleCallP_called (O : Oracle) (inst : llvm.Value) (s : CAllocStateTy) (t : Nat) :
    (handleCallP O inst s).bb = s.bb ∧
      (t ∈ (handleCallP O inst s).called ↔
        t ∈ s.called ∨ (O.handle inst = some t ∧ O.allocating t = true)) :=
  ⟨handleCallP_bb O inst s, handleCallP_mem O inst s t⟩

theorem handleStoreP_called (c : RunCtx) (O : Oracle) (inst : llvm.Value) (s : CAllocStateTy) :
    (handleStoreP c O inst s).2.bb = s.bb ∧ (handleStoreP c O inst s).2.called = s.called := by
  unfold handleStoreP
  split
  · split
    · split
      · unfold handleStoreOfLoad
        split <;> exact ⟨rfl, rfl⟩
      · unfold handleStoreOfCallP
        split
        · split <;> exact ⟨rfl, rfl⟩
        · exact ⟨rfl, rfl⟩
    · exact ⟨rfl, rfl⟩
  · exact ⟨rfl, rfl⟩

theorem handleStoreP_continue (c : RunCtx) (O : Oracle) (inst : llvm.Value) (s : CAllocStateTy)
    (h : (handleStoreP c O inst s).1 = true) : inst.callSite = none := by
  unfold handleStoreP at h
  split at h
  · rfl
  · simp at h

/-- The oracle of a module gives no handle to a value that is not a call site. -/
theorem Oracle.ofModule_handle_none (icc : llvm.Value → Option String) (cm : CalledModuleTy)
    (v : llvm.Value) (h : v.callSite = none) : (Oracle.ofModule icc cm).handle v = none := by
  simp [Oracle.ofModule, CalledModuleTy.getCalledFunction_Value, h]

theorem visitInstructionP_called (c : RunCtx) (O : Oracle)
    (hO : ∀ v, v.callSite = none → O.handle v = none) (inst : llvm.Value) (s : CAllocStateTy)
    (t : Nat) :
    (visitInstructionP c O inst s).bb = s.bb ∧
      (t ∈ (visitInstructionP c O inst s).called ↔
        t ∈ s.called ∨ (O.handle inst = some t ∧ O.allocating t = true)) := by
  unfold visitInstructionP
  simp only
  generalize hs1 : ({ s with
      intGuards := c.H.handleIntGuardsForNonTerminator inst s.intGuards
      sexpGuards := c.H.handleSEXPGuardsForNonTerminator inst s.sexpGuards } : CAllocStateTy) = s1
  have hbb : s1.bb = s.bb := by rw [← hs1]
  have hcalled : s1.called = s.called := by rw [← hs1]
  split
  · obtain ⟨hb, hc⟩ := handleStoreP_called c O inst s1
    by_cases hcont : (handleStoreP c O inst s1).1 = true
    · simp only [hcont, if_true]
      have hn := hO inst (handleStoreP_continue c O inst s1 hcont)
      rw [hb, hc, hbb, hcalled, hn]
      simp
    · simp only [hcont, Bool.false_eq_true, if_false]
      obtain ⟨h1, h2⟩ := handleCallP_called O inst (handleStoreP c O inst s1).2 t
      rw [h1, h2, hb, hc, hbb, hcalled]
      exact ⟨rfl, Iff.rfl⟩
  · obtain ⟨h1, h2⟩ := handleCallP_called O inst s1 t
    rw [h1, h2, hbb, hcalled]
    exact ⟨rfl, Iff.rfl⟩

theorem visitBlockP_called (c : RunCtx) (O : Oracle)
    (hO : ∀ v, v.callSite = none → O.handle v = none) (insts : List llvm.Value)
    (s : CAllocStateTy) (t : Nat) :
    (visitBlockP c O insts s).bb = s.bb ∧
      (t ∈ (visitBlockP c O insts s).called ↔
        t ∈ s.called ∨ ∃ v ∈ insts, O.handle v = some t ∧ O.allocating t = true) := by
  induction insts generalizing s with
  | nil => simp [visitBlockP]
  | cons inst rest ih =>
    obtain ⟨h1, h2⟩ := visitInstructionP_called c O hO inst s t
    obtain ⟨h3, h4⟩ := ih (visitInstructionP c O inst s)
    simp only [visitBlockP]
    rw [h3, h4, h1, h2]
    refine ⟨rfl, ?_⟩
    simp only [List.mem_cons, exists_eq_or_imp]
    tauto

theorem nextStates_of_neverConsume (c : RunCtx) (O : Oracle) (hH : c.H.NeverConsume)
    (s s2 : CAllocStateTy) :
    s2 ∈ nextStates c O s ↔
      ∃ t b2, (c.F.block s.bb).getTerminator = some t ∧ b2 ∈ t.successors ∧
        s2 = (blockEnd c O s).clone b2 := by
  unfold nextStates
  cases ht : (c.F.block s.bb).getTerminator with
  | none => simp
  | some t =>
    simp only [successorStates, hH.sexpTerminator, hH.intTerminator, List.mem_map]
    constructor
    · rintro ⟨b2, hb, rfl⟩
      exact ⟨t, b2, rfl, hb, rfl⟩
    · rintro ⟨t2, b2, ht2, hb, rfl⟩
      cases ht2
      exact ⟨b2, hb, rfl⟩

/-- A reached state lies at the end of a path of the control-flow graph through
blocks that are not error blocks, and its call set holds the allocating calls of
the blocks of the path. -/
theorem Reach.path (c : RunCtx) (O : Oracle)
    (hO : ∀ v, v.callSite = none → O.handle v = none) (hH : c.H.NeverConsume)
    (s : CAllocStateTy) (hs : Reach c O s) :
    ∃ p, CFGPath c.F s.bb p ∧ (∀ x ∈ p, c.errorBasicBlocks.contains x = false) ∧
      ∀ t, t ∈ s.called ↔
        ∃ x ∈ p, ∃ v ∈ c.F.block x, O.handle v = some t ∧ O.allocating t = true := by
  induction hs with
  | seed => exact ⟨[], CFGPath.entry, by simp, by simp [CAllocStateTy.init]⟩
  | next s s2 _ herr hnext ih =>
    obtain ⟨p, hp, hne, hc⟩ := ih
    obtain ⟨t, b2, ht, hb2, rfl⟩ := (nextStates_of_neverConsume c O hH s s2).1 hnext
    refine ⟨s.bb :: p, CFGPath.step s.bb b2 p t hp ht hb2, ?_, ?_⟩
    · intro x hx
      simp only [List.mem_cons] at hx
      rcases hx with hx | hx
      · rw [hx]
        exact herr
      · exact hne x hx
    · intro u
      simp only [CAllocStateTy.clone, blockEnd]
      rw [(visitBlockP_called c O hO (c.F.block s.bb) s u).2, hc u]
      simp only [List.mem_cons, exists_eq_or_imp]
      exact or_comm

/-- Every path of the control-flow graph through blocks that are not error
blocks ends in a reached state whose call set holds the allocating calls of the
blocks of the path. -/
theorem Reach.of_path (c : RunCtx) (O : Oracle)
    (hO : ∀ v, v.callSite = none → O.handle v = none) (hH : c.H.NeverConsume)
    (b : Nat) (p : List Nat) (hp : CFGPath c.F b p)
    (hne : ∀ x ∈ p, c.errorBasicBlocks.contains x = false) :
    ∃ s, Reach c O s ∧ s.bb = b ∧
      ∀ t, t ∈ s.called ↔
        ∃ x ∈ p, ∃ v ∈ c.F.block x, O.handle v = some t ∧ O.allocating t = true := by
  induction hp with
  | entry => exact ⟨CAllocStateTy.init 0, Reach.seed, rfl, by simp [CAllocStateTy.init]⟩
  | step b b2 p t _ ht hb2 ih =>
    obtain ⟨s, hs, hbb, hc⟩ := ih (fun x hx => hne x (by simp [hx]))
    have herr : c.errorBasicBlocks.contains s.bb = false := by
      rw [hbb]
      exact hne b (by simp)
    refine ⟨(blockEnd c O s).clone b2, Reach.next s _ hs herr ?_, rfl, ?_⟩
    · rw [nextStates_of_neverConsume c O hH]
      exact ⟨t, b2, by rw [hbb]; exact ht, hb2, rfl⟩
    · intro u
      simp only [CAllocStateTy.clone, blockEnd]
      rw [(visitBlockP_called c O hO (c.F.block s.bb) s u).2, hc u, hbb]
      simp only [List.mem_cons, exists_eq_or_imp]
      exact or_comm

/-- The calls returned by reached states, in terms of paths: `t` is returned by
a reached state on a block that is not an error block exactly when a path from
the entry block to a block ending in a return, through no error block, contains
an allocating call with handle `t`. -/
theorem returnedCalls_iff_path (c : RunCtx) (O : Oracle)
    (hO : ∀ v, v.callSite = none → O.handle v = none) (hH : c.H.NeverConsume) (t : Nat) :
    (∃ s, Reach c O s ∧ c.errorBasicBlocks.contains s.bb = false ∧ t ∈ returnedCalls c O s) ↔
      ∃ b p, CFGPath c.F b p ∧ (∀ x ∈ b :: p, c.errorBasicBlocks.contains x = false) ∧
        (∃ rv, (c.F.block b).getTerminator = some (llvm.Value.returnInst rv)) ∧
        ∃ x ∈ b :: p, ∃ v ∈ c.F.block x, O.handle v = some t ∧ O.allocating t = true := by
  have hret : ∀ s : CAllocStateTy, t ∈ returnedCalls c O s ↔
      ((∃ rv, (c.F.block s.bb).getTerminator = some (llvm.Value.returnInst rv)) ∧
        t ∈ (blockEnd c O s).called) := by
    intro s
    unfold returnedCalls
    cases ht : (c.F.block s.bb).getTerminator with
    | none => simp
    | some tm => cases tm <;> simp
  constructor
  · rintro ⟨s, hs, herr, ht⟩
    obtain ⟨p, hp, hne, hc⟩ := Reach.path c O hO hH s hs
    obtain ⟨hrv, hmem⟩ := (hret s).1 ht
    refine ⟨s.bb, p, hp, ?_, hrv, ?_⟩
    · intro x hx
      simp only [List.mem_cons] at hx
      rcases hx with hx | hx
      · rw [hx]
        exact herr
      · exact hne x hx
    · simp only [blockEnd] at hmem
      rw [(visitBlockP_called c O hO (c.F.block s.bb) s t).2, hc t] at hmem
      simp only [List.mem_cons, exists_eq_or_imp]
      exact hmem.symm
  · rintro ⟨b, p, hp, hne, hrv, hx⟩
    obtain ⟨s, hs, hbb, hc⟩ := Reach.of_path c O hO hH b p hp (fun x hx => hne x (by simp [hx]))
    refine ⟨s, hs, ?_, ?_⟩
    · rw [hbb]
      exact hne b (by simp)
    · rw [hret s]
      refine ⟨by rw [hbb]; exact hrv, ?_⟩
      simp only [blockEnd]
      rw [(visitBlockP_called c O hO (c.F.block s.bb) s t).2, hc t, hbb]
      simp only [List.mem_cons, exists_eq_or_imp] at hx
      exact hx.symm

/-- The invariant of the loop holds after the seeding. -/
theorem LoopInv.seed (c : RunCtx) (O : Oracle) (st : EngineState) :
    LoopInv c O st.called (seedState st) := by
  have hs : seedState st =
      { st with workList := [CAllocStateTy.init 0], doneSet := [CAllocStateTy.init 0] } := by
    simp [seedState, CAllocStateTy.add, usetFind]
  rw [hs]
  refine ⟨?_, ?_, ?_, ?_, ?_, ?_⟩
  · intro s h
    exact h
  · intro s h
    exact Or.inl h
  · intro s h
    simp only [List.mem_singleton] at h
    rw [h]
    exact Reach.seed
  · intro t h
    exact Or.inl h
  · simp
  · intro t h
    exact h

/-! ## The called set of `getCalledAndWrappedFunctions` -/

theorem getCalledAndWrappedFunctions_eq (H : Helpers) (fuel : Nat) (f : CalledFunctionTy)
    (fn : Nat) (st : EngineState) (hf : f.fun_ = some fn) (hbody : (st.cm.m.fn fn).size ≠ 0) :
    getCalledAndWrappedFunctions H fuel f st =
      workLoop (RunCtx.make H st.cm fn MAX_STATES) fuel (seedState st) := by
  simp only [getCalledAndWrappedFunctions, getCalledAndWrappedFunctionsCap, hf, hbody, if_false]

/-- `getCalledAndWrappedFunctions` returns: with enough fuel the result is
there. -/
theorem getCalledAndWrappedFunctions_terminates (H : Helpers) (f : CalledFunctionTy)
    (st : EngineState) : ∃ fuel r, getCalledAndWrappedFunctions H fuel f st = some r := by
  unfold getCalledAndWrappedFunctions getCalledAndWrappedFunctionsCap
  cases hf : f.fun_ with
  | none => exact ⟨0, st, rfl⟩
  | some fn =>
    simp only
    by_cases hb : (st.cm.m.fn fn).size = 0
    · exact ⟨0, st, by simp [hb]⟩
    · simp only [hb, if_false]
      exact workLoop_terminates _ _

theorem contains_eq_false_iff (l : List Nat) (x : Nat) : l.contains x = false ↔ x ∉ l := by
  simp

/-- The called set of a run that does not trip the cap, when the terminator
handlers consume nothing: the calls passed in, and the allocating calls on the
paths from the entry block to a return through no error block. -/
theorem called_iff_path (H : Helpers) (f : CalledFunctionTy) (fn : Nat) (st : EngineState)
    (hwf : st.cm.WF) (hf : f.fun_ = some fn) (hbody : (st.cm.m.fn fn).size ≠ 0)
    (hH : H.NeverConsume) (fuel : Nat) (r : EngineState)
    (hr : getCalledAndWrappedFunctions H fuel f st = some r) (hno : r.errors = st.errors)
    (t : Nat) :
    t ∈ r.called ↔ t ∈ st.called ∨
      ∃ b p, CFGPath (st.cm.m.fn fn) b p ∧
        (∀ x ∈ b :: p, x ∉ H.findErrorBasicBlocks (st.cm.m.fn fn) st.cm.errorFunctions) ∧
        (∃ rv, ((st.cm.m.fn fn).block b).getTerminator = some (llvm.Value.returnInst rv)) ∧
        ∃ x ∈ b :: p, allocatingCallIn H.isInstallConstantCall r.cm (st.cm.m.fn fn) x t := by
  rw [getCalledAndWrappedFunctions_eq H fuel f fn st hf hbody] at hr
  have hseed : (seedState st).cm = st.cm := rfl
  have hcalled : (seedState st).called = st.called := rfl
  have herrs : (seedState st).errors = st.errors := rfl
  have hinv := LoopInv.seed (RunCtx.make H st.cm fn MAX_STATES)
    (Oracle.ofModule H.isInstallConstantCall r.cm) st
  rw [workLoop_called (RunCtx.make H st.cm fn MAX_STATES) st.called fuel (seedState st) r
    hwf hr (by rw [hno, herrs]) hinv t]
  rw [returnedCalls_iff_path (RunCtx.make H st.cm fn MAX_STATES)
    (Oracle.ofModule (RunCtx.make H st.cm fn MAX_STATES).H.isInstallConstantCall r.cm)
    (Oracle.ofModule_handle_none _ r.cm) hH t]
  simp only [RunCtx.make, contains_eq_false_iff, allocatingCallIn, Oracle.ofModule]

/-! ## Invariants of the loop over fixed handles -/

/-- Induction over a run: a property of the engine state that does not look at
the module, survives popping a state and emitting an error line, and is kept by
processing a popped state with the handles of the final module, holds at the
end. -/
theorem workLoop_induct (c : RunCtx) (P : EngineState → Prop) (fuel : Nat)
    (st r : EngineState) (hwf : st.cm.WF) (h : workLoop c fuel st = some r)
    (hcm : ∀ e m, P e → P { e with cm := m })
    (hdrop : ∀ e s rest, e.workList = s :: rest → P e → P { e with workList := rest })
    (herrs : ∀ e l, P e → P { e with errors := l })
    (hstep : ∀ e s rest, e.workList = s :: rest → P e →
      P (processStateP c (Oracle.ofModule c.H.isInstallConstantCall r.cm) s
        { e with workList := rest }))
    (hP : P st) : P r := by
  induction fuel generalizing st with
  | zero => simp [workLoop] at h
  | succ n ih =>
    rcases workLoop_cases c st with hw | ⟨s, rest, hw, herr⟩ | ⟨s, rest, hw, herr, hcap⟩ |
      ⟨s, rest, hw, herr, hcap⟩
    · rw [workLoop_nil c n st hw] at h
      cases h
      exact hP
    · rw [workLoop_error c n st s rest hw herr] at h
      exact ih { st with workList := rest } hwf h (hdrop st s rest hw hP)
    · rw [workLoop_abort c n st s rest hw herr hcap] at h
      cases h
      exact herrs _ _ (hdrop st s rest hw hP)
    · rw [workLoop_step c n st s rest hw herr hcap] at h
      have h1 := processState_ext c s { st with workList := rest } hwf
      have h2 := workLoop_ext c n _ r h1.2 h
      have hsim := processState_sim c s { st with workList := rest } r.cm hwf h2.1 h2.2
      apply ih (processState c s { st with workList := rest }) h1.2 h
      rw [hsim]
      exact hcm _ _ (hstep st s rest hw hP)

theorem VarOriginsTy.find_mem (vo : VarOriginsTy) (k : Nat) (o : CalledFunctionsOrderedSetTy)
    (h : vo.find k = some o) : (k, o) ∈ vo := by
  unfold VarOriginsTy.find at h
  induction vo with
  | nil => simp [List.lookup] at h
  | cons e rest ih =>
    obtain ⟨k2, v2⟩ := e
    simp only [List.lookup] at h
    by_cases hk : k = k2
    · subst hk
      simp at h
      subst h
      simp
    · have hb : (k == k2) = false := by simpa using hk
      rw [hb] at h
      simp only [List.mem_cons]
      exact Or.inr (ih h)

theorem VarOriginsTy.set_mem (k : Nat) (v : CalledFunctionsOrderedSetTy) (vo : VarOriginsTy)
    (e : Nat × CalledFunctionsOrderedSetTy) (h : e ∈ VarOriginsTy.set k v vo) :
    e = (k, v) ∨ e ∈ vo := by
  induction vo with
  | nil =>
    simp only [VarOriginsTy.set, List.mem_singleton] at h
    exact Or.inl h
  | cons e2 rest ih =>
    obtain ⟨k2, v2⟩ := e2
    simp only [VarOriginsTy.set] at h
    split at h
    · simp only [List.mem_cons] at h ⊢
      tauto
    · split at h
      · simp only [List.mem_cons] at h ⊢
        tauto
      · simp only [List.mem_cons] at h ⊢
        rcases h with h | h
        · exact Or.inr (Or.inl h)
        · rcases ih h with h2 | h2
          · exact Or.inl h2
          · exact Or.inr (Or.inr h2)

theorem VarOriginsTy.find_set_self (k : Nat) (v : CalledFunctionsOrderedSetTy)
    (vo : VarOriginsTy) : (VarOriginsTy.set k v vo).find k = some v := by
  unfold VarOriginsTy.find
  induction vo with
  | nil => simp [VarOriginsTy.set, List.lookup]
  | cons e2 rest ih =>
    obtain ⟨k2, v2⟩ := e2
    simp only [VarOriginsTy.set]
    split
    · simp [List.lookup]
    · split
      · simp [List.lookup]
      · rename_i h1 h2
        have hb : (k == k2) = false := by simpa using h2
        simp only [List.lookup, hb]
        exact ih

theorem copyOrigins_all (P : Nat → Prop) (vo : VarOriginsTy) (src dst : Nat)
    (h : ∀ e ∈ vo, ∀ t ∈ e.2, P t) : ∀ e ∈ copyOrigins vo src dst, ∀ t ∈ e.2, P t := by
  unfold copyOrigins
  cases hs : vo.find src with
  | none => exact h
  | some srcOrigs =>
    have h1 := h _ (VarOriginsTy.find_mem vo src srcOrigs hs)
    simp only
    cases hd : vo.find dst with
    | none =>
      intro e he t ht
      rcases VarOriginsTy.set_mem _ _ _ e he with h2 | h2
      · subst h2
        exact h1 t ht
      · exact h e h2 t ht
    | some dstOrigs =>
      have h3 := h _ (VarOriginsTy.find_mem vo dst dstOrigs hd)
      intro e he t ht
      rcases VarOriginsTy.set_mem _ _ _ e he with h2 | h2
      · subst h2
        rcases (mem_insertAll _ _ t).1 ht with h4 | h4
        · exact h1 t h4
        · exact h3 t h4
      · exact h e h2 t ht

theorem addOrigin_all (P : Nat → Prop) (vo : VarOriginsTy) (dst tgt : Nat) (htgt : P tgt)
    (h : ∀ e ∈ vo, ∀ t ∈ e.2, P t) : ∀ e ∈ addOrigin vo dst tgt, ∀ t ∈ e.2, P t := by
  unfold addOrigin
  cases hd : vo.find dst with
  | none =>
    intro e he t ht
    rcases VarOriginsTy.set_mem _ _ _ e he with h2 | h2
    · subst h2
      rcases (mem_orderedInsert _ _ _).1 ht with h4 | h4
      · rw [h4]
        exact htgt
      · cases h4
    · exact h e h2 t ht
  | some existing =>
    have h3 := h _ (VarOriginsTy.find_mem vo dst existing hd)
    intro e he t ht
    rcases VarOriginsTy.set_mem _ _ _ e he with h2 | h2
    · subst h2
      rcases (mem_orderedInsert _ _ _).1 ht with h4 | h4
      · rw [h4]
        exact htgt
      · exact h3 t h4
    · exact h e h2 t ht

theorem handleStoreP_all (c : RunCtx) (O : Oracle) (P : Nat → Prop) (inst : llvm.Value)
    (s : CAllocStateTy)
    (hv : ∀ v ∈ lookedUp inst, ∀ t, O.handle v = some t →
      (O.allocating t = true ∨ O.possibleAllocator t = true) → P t)
    (hs : s.All P) : (handleStoreP c O inst s).2.All P := by
  unfold handleStoreP
  split
  · rename_i val dst
    split
    · split
      · rename_i src
        unfold handleStoreOfLoad
        split
        · exact ⟨hs.1, copyOrigins_all P _ _ _ hs.2⟩
        · exact hs
      · unfold handleStoreOfCallP
        split
        · rename_i tgt htgt
          split
          · rename_i halloc
            exact ⟨hs.1, addOrigin_all P _ _ _
              (hv val (by simp [lookedUp]) tgt htgt (Or.inl halloc)) hs.2⟩
          · exact hs
        · exact hs
    · exact hs
  · exact hs

theorem handleCallP_all (O : Oracle) (P : Nat → Prop) (inst : llvm.Value) (s : CAllocStateTy)
    (hv : ∀ t, O.handle inst = some t → O.allocating t = true → P t)
    (hs : s.All P) : (handleCallP O inst s).All P := by
  unfold handleCallP
  split
  · rename_i tgt htgt
    split
    · rename_i halloc
      refine ⟨?_, hs.2⟩
      intro t ht
      rcases (mem_orderedInsert _ _ _).1 ht with h4 | h4
      · rw [h4]
        exact hv tgt htgt halloc
      · exact hs.1 t h4
    · exact hs
  · exact hs

theorem lookedUp_self (inst : llvm.Value) : inst ∈ lookedUp inst := by
  unfold lookedUp
  split <;> simp

theorem visitInstructionP_all (c : RunCtx) (O : Oracle) (P : Nat → Prop) (inst : llvm.Value)
    (s : CAllocStateTy)
    (hv : ∀ v ∈ lookedUp inst, ∀ t, O.handle v = some t →
      (O.allocating t = true ∨ O.possibleAllocator t = true) → P t)
    (hs : s.All P) : (visitInstructionP c O inst s).All P := by
  have hc : ∀ x : CAllocStateTy, x.All P → (handleCallP O inst x).All P := fun x hx =>
    handleCallP_all O P inst x
      (fun t h1 h2 => hv inst (lookedUp_self inst) t h1 (Or.inl h2)) hx
  unfold visitInstructionP
  simp only
  have hs1 : CAllocStateTy.All P { s with
      intGuards := c.H.handleIntGuardsForNonTerminator inst s.intGuards
      sexpGuards := c.H.handleSEXPGuardsForNonTerminator inst s.sexpGuards } := hs
  split
  · have h1 := handleStoreP_all c O P inst _ hv hs1
    split
    · exact h1
    · exact hc _ h1
  · exact hc _ hs1

theorem visitBlockP_all (c : RunCtx) (O : Oracle) (P : Nat → Prop) (insts : List llvm.Value)
    (s : CAllocStateTy)
    (hv : ∀ inst ∈ insts, ∀ v ∈ lookedUp inst, ∀ t, O.handle v = some t →
      (O.allocating t = true ∨ O.possibleAllocator t = true) → P t)
    (hs : s.All P) : (visitBlockP c O insts s).All P := by
  induction insts generalizing s with
  | nil => exact hs
  | cons inst rest ih =>
    simp only [visitBlockP]
    exact ih _ (fun i hi => hv i (by simp [hi]))
      (visitInstructionP_all c O P inst s (hv inst (by simp)) hs)

theorem block_mem (F : llvm.Function) (b : Nat) (inst : llvm.Value) (h : inst ∈ F.block b) :
    ∃ bb ∈ F.blocks, inst ∈ bb := by
  unfold llvm.Function.block at h
  by_cases hb : b < F.blocks.length
  · rw [List.getD_eq_getElem _ _ hb] at h
    exact ⟨_, List.getElem_mem _, h⟩
  · rw [List.getD_eq_default _ _ (by omega)] at h
    cases h

theorem getTerminator_mem (bb : llvm.BasicBlock) (t : llvm.Value)
    (h : bb.getTerminator = some t) : t ∈ bb := by
  unfold llvm.BasicBlock.getTerminator at h
  cases hl : bb.getLast? with
  | none => simp [hl] at h
  | some x =>
    simp only [hl] at h
    split at h
    · cases h
      exact List.mem_of_getLast?_eq_some hl
    · cases h

theorem blockEnd_all (c : RunCtx) (O : Oracle) (P : Nat → Prop) (s : CAllocStateTy)
    (hO : OnlyCalls O c.F P) (hs : s.All P) : (blockEnd c O s).All P := by
  unfold blockEnd
  apply visitBlockP_all c O P _ s _ hs
  intro inst hi v hv t ht hc
  obtain ⟨bb, hbb, hin⟩ := block_mem c.F s.bb inst hi
  exact hO bb hbb inst hin v hv t ht hc

theorem successorStates_all (c : RunCtx) (P : Nat → Prop) (t : llvm.Value) (s : CAllocStateTy)
    (hs : s.All P) : ∀ x ∈ successorStates c t s, x.All P := by
  intro x hx
  unfold successorStates at hx
  split at hx
  · simp only [List.mem_map] at hx
    obtain ⟨g, _, rfl⟩ := hx
    exact hs
  · split at hx
    · simp only [List.mem_map] at hx
      obtain ⟨g, _, rfl⟩ := hx
      exact hs
    · simp only [List.mem_map] at hx
      obtain ⟨g, _, rfl⟩ := hx
      exact hs

theorem collectWrappedP_mem (O : Oracle) (rv : llvm.Value) (s : CAllocStateTy)
    (w : CalledFunctionsOrderedSetTy) (t : Nat) (h : t ∈ collectWrappedP O rv s w) :
    t ∈ w ∨ (∃ e ∈ s.varOrigins, t ∈ e.2) ∨
      (O.handle rv = some t ∧ O.possibleAllocator t = true) := by
  unfold collectWrappedP at h
  simp only at h
  have h1 : ∀ u, u ∈ (match rv with
      | .loadInst (.allocaInst src) =>
        match s.varOrigins.find src with
        | some knownOrigins => CalledFunctionsOrderedSetTy.insertAll knownOrigins w
        | none => w
      | _ => w) → u ∈ w ∨ ∃ e ∈ s.varOrigins, u ∈ e.2 := by
    intro u hu
    split at hu
    · split at hu
      · rename_i ko hko
        rcases (mem_insertAll _ _ u).1 hu with h2 | h2
        · exact Or.inr ⟨_, VarOriginsTy.find_mem _ _ _ hko, h2⟩
        · exact Or.inl h2
      · exact Or.inl hu
    · exact Or.inl hu
  split at h
  · rename_i tgt htgt
    split at h
    · rename_i hp
      rcases (mem_orderedInsert _ _ _).1 h with h2 | h2
      · subst h2
        exact Or.inr (Or.inr ⟨htgt, hp⟩)
      · rcases h1 t h2 with h3 | h3
        · exact Or.inl h3
        · exact Or.inr (Or.inl h3)
    · rcases h1 t h with h3 | h3
      · exact Or.inl h3
      · exact Or.inr (Or.inl h3)
  · rcases h1 t h with h3 | h3
    · exact Or.inl h3
    · exact Or.inr (Or.inl h3)

theorem collectWrappedP_mono (O : Oracle) (rv : llvm.Value) (s : CAllocStateTy)
    (w : CalledFunctionsOrderedSetTy) (t : Nat) (h : t ∈ w) : t ∈ collectWrappedP O rv s w := by
  unfold collectWrappedP
  simp only
  have h1 : t ∈ (match rv with
      | .loadInst (.allocaInst src) =>
        match s.varOrigins.find src with
        | some knownOrigins => CalledFunctionsOrderedSetTy.insertAll knownOrigins w
        | none => w
      | _ => w) := by
    split
    · split
      · exact (mem_insertAll _ _ t).2 (Or.inr h)
      · exact h
    · exact h
  split
  · split
    · exact (mem_orderedInsert _ _ _).2 (Or.inr h1)
    · exact h1
  · exact h1

/-! ## What the result sets can hold -/

theorem handleReturnP_fields (c : RunCtx) (O : Oracle) (t : llvm.Value) (s : CAllocStateTy)
    (st : EngineState) :
    (handleReturnP c O t s st).wrapped =
      (match t with
        | .returnInst returnValue =>
          if c.trackOrigins then
            match returnValue with
            | some rv =>
              collectWrappedP O rv s
                (if (CalledFunctionsOrderedSetTy.insertAll s.called st.called).contains
                    O.gcFunction then
                  CalledFunctionsOrderedSetTy.insert O.gcFunction st.wrapped
                else st.wrapped)
            | none =>
              if (CalledFunctionsOrderedSetTy.insertAll s.called st.called).contains
                  O.gcFunction then
                CalledFunctionsOrderedSetTy.insert O.gcFunction st.wrapped
              else st.wrapped
          else st.wrapped
        | _ => st.wrapped) := by
  unfold handleReturnP
  split
  · simp only
    split
    · split <;> rfl
    · rfl
  · rfl

/-- The wrapped set after `handleReturnP` holds what it held, the GC handle when
the called set holds it, origins of the state, and a returned call of a possible
allocator. -/
theorem handleReturnP_wrapped_mem (c : RunCtx) (O : Oracle) (t : llvm.Value)
    (s : CAllocStateTy) (st : EngineState) (u : Nat)
    (h : u ∈ (handleReturnP c O t s st).wrapped) :
    u ∈ st.wrapped ∨ (u = O.gcFunction ∧ u ∈ (handleReturnP c O t s st).called) ∨
      (∃ e ∈ s.varOrigins, u ∈ e.2) ∨
      (∃ rv, t = llvm.Value.returnInst (some rv) ∧ O.handle rv = some u ∧
        O.possibleAllocator u = true) := by
  rw [handleReturnP_fields] at h
  rw [(handleReturnP_called c O t s st).1]
  have h0 : ∀ v, v ∈ (if (CalledFunctionsOrderedSetTy.insertAll s.called st.called).contains
        O.gcFunction then CalledFunctionsOrderedSetTy.insert O.gcFunction st.wrapped
      else st.wrapped) →
      v ∈ st.wrapped ∨ (v = O.gcFunction ∧
        v ∈ CalledFunctionsOrderedSetTy.insertAll s.called st.called) := by
    intro v hv
    split at hv
    · rename_i hc
      rcases (mem_orderedInsert _ _ _).1 hv with h1 | h1
      · subst h1
        exact Or.inr ⟨rfl, by simpa using hc⟩
      · exact Or.inl h1
    · exact Or.inl hv
  cases t with
  | returnInst returnValue =>
    simp only at h ⊢
    split at h
    · cases returnValue with
      | some rv =>
        simp only at h
        rcases collectWrappedP_mem O rv s _ u h with h1 | h1 | h1
        · rcases h0 u h1 with h2 | h2
          · exact Or.inl h2
          · exact Or.inr (Or.inl h2)
        · exact Or.inr (Or.inr (Or.inl h1))
        · exact Or.inr (Or.inr (Or.inr ⟨rv, rfl, h1⟩))
      | none =>
        simp only at h
        rcases h0 u h with h2 | h2
        · exact Or.inl h2
        · exact Or.inr (Or.inl h2)
    · exact Or.inl h
  | _ => exact Or.inl h

/-- With origin tracking, after `handleReturnP` the wrapped set holds the GC
handle when the called set does, and it has only grown. -/
theorem handleReturnP_gc (c : RunCtx) (O : Oracle) (t : llvm.Value) (s : CAllocStateTy)
    (st : EngineState) (htrack : c.trackOrigins = true)
    (h : O.gcFunction ∈ st.called → O.gcFunction ∈ st.wrapped) :
    O.gcFunction ∈ (handleReturnP c O t s st).called →
      O.gcFunction ∈ (handleReturnP c O t s st).wrapped := by
  rw [handleReturnP_fields, (handleReturnP_called c O t s st).1]
  cases t with
  | returnInst returnValue =>
    simp only [htrack, if_true]
    intro hc
    have hin : O.gcFunction ∈ (if (CalledFunctionsOrderedSetTy.insertAll s.called
          st.called).contains O.gcFunction then
        CalledFunctionsOrderedSetTy.insert O.gcFunction st.wrapped
      else st.wrapped) := by
      have hcont : (CalledFunctionsOrderedSetTy.insertAll s.called st.called).contains
          O.gcFunction = true := by simpa using hc
      rw [hcont]
      exact (mem_orderedInsert _ _ _).2 (Or.inl rfl)
    cases returnValue with
    | some rv => exact collectWrappedP_mono O rv s _ _ hin
    | none => exact hin
  | _ => exact h

theorem processStateP_fields (c : RunCtx) (O : Oracle) (s : CAllocStateTy) (st : EngineState) :
    processStateP c O s st =
      match (c.F.block s.bb).getTerminator with
      | none => st
      | some t =>
        { handleReturnP c O t (blockEnd c O s) st with
          workList := (addAll (successorStates c t (blockEnd c O s)) st.workList st.doneSet).1
          doneSet := (addAll (successorStates c t (blockEnd c O s)) st.workList st.doneSet).2 } := by
  unfold processStateP blockEnd
  split
  · rfl
  · rename_i t ht
    simp only
    obtain ⟨_, h2, h3, _⟩ := handleReturnP_called c O t (visitBlockP c O (c.F.block s.bb) s) st
    rw [h2, h3]

/-- The GC heuristic as an invariant of a run: with origin tracking, the wrapped
set holds the GC handle whenever the called set does. -/
theorem workLoop_gc (c : RunCtx) (fuel : Nat) (st r : EngineState) (hwf : st.cm.WF)
    (h : workLoop c fuel st = some r) (htrack : c.trackOrigins = true)
    (h0 : st.cm.gcFunction ∈ st.called → st.cm.gcFunction ∈ st.wrapped) :
    r.cm.gcFunction ∈ r.called → r.cm.gcFunction ∈ r.wrapped := by
  have hext := workLoop_ext c fuel st r hwf h
  apply workLoop_induct c
    (fun e => r.cm.gcFunction ∈ e.called → r.cm.gcFunction ∈ e.wrapped) fuel st r hwf h
  · intro e m he
    exact he
  · intro e s rest _ he
    exact he
  · intro e l he
    exact he
  · intro e s rest _ he
    rw [processStateP_fields]
    split
    · exact he
    · rename_i t _
      exact handleReturnP_gc c (Oracle.ofModule c.H.isInstallConstantCall r.cm) t _
        { e with workList := rest } htrack he
  · rw [← hext.1.gcFunction]
    exact h0

/-- When every call the engine can record goes to a handle that is `P`, the
result sets of a run started from sets of such handles hold only such
handles. -/
theorem workLoop_all (c : RunCtx) (P : Nat → Prop) (fuel : Nat) (st r : EngineState)
    (hwf : st.cm.WF) (h : workLoop c fuel st = some r)
    (hO : OnlyCalls (Oracle.ofModule c.H.isInstallConstantCall r.cm) c.F P)
    (hc : ∀ t ∈ st.called, P t) (hw : ∀ t ∈ st.wrapped, P t)
    (hl : ∀ s ∈ st.workList, s.All P) :
    (∀ t ∈ r.called, P t) ∧ (∀ t ∈ r.wrapped, P t) := by
  have key := workLoop_induct c
    (fun e => (∀ t ∈ e.called, P t) ∧ (∀ t ∈ e.wrapped, P t) ∧ ∀ s ∈ e.workList, s.All P)
    fuel st r hwf h ?_ ?_ ?_ ?_ ⟨hc, hw, hl⟩
  · exact ⟨key.1, key.2.1⟩
  · intro e m he
    exact he
  · intro e s rest hwl he
    exact ⟨he.1, he.2.1, fun x hx => he.2.2 x (by rw [hwl]; simp [hx])⟩
  · intro e l he
    exact he
  · intro e s rest hwl he
    obtain ⟨h1, h2, h3⟩ := he
    have hs : s.All P := h3 s (by rw [hwl]; simp)
    have hend := blockEnd_all c _ P s hO hs
    rw [processStateP_fields]
    cases ht : (c.F.block s.bb).getTerminator with
    | none => exact ⟨h1, h2, fun x hx => h3 x (by rw [hwl]; simp [hx])⟩
    | some t =>
      simp only
      have hcalled : ∀ u ∈ (handleReturnP c (Oracle.ofModule c.H.isInstallConstantCall r.cm) t
          (blockEnd c (Oracle.ofModule c.H.isInstallConstantCall r.cm) s)
          { e with workList := rest }).called, P u := by
        intro u hu
        rw [(handleReturnP_called c _ t _ _).1] at hu
        cases t with
        | returnInst rv =>
          simp only at hu
          rcases (mem_insertAll _ _ u).1 hu with h4 | h4
          · exact hend.1 u h4
          · exact h1 u h4
        | _ => exact h1 u hu
      refine ⟨hcalled, ?_, ?_⟩
      · intro u hu
        rcases handleReturnP_wrapped_mem c _ t _ _ u hu with h4 | ⟨_, h4⟩ | ⟨e2, he2, h4⟩ |
          ⟨rv, hrv, h4, h5⟩
        · exact h2 u h4
        · exact hcalled u h4
        · exact hend.2 e2 he2 u h4
        · obtain ⟨bb, hbb, hin⟩ := block_mem c.F s.bb t (getTerminator_mem _ t ht)
          exact hO bb hbb t hin rv (by rw [hrv]; simp [lookedUp]) u h4 (Or.inr h5)
      · intro x hx
        rcases (addAll_spec _ rest e.doneSet).2.2.2.2 x hx with h4 | ⟨h4, _⟩
        · exact h3 x (by rw [hwl]; simp [h4])
        · exact successorStates_all c P t _ hend x h4

/-! ## The run on `y = alloc(); x = y; return x;` -/

theorem successorStates_nil (c : RunCtx) (hS : c.H.SuccessorsOnly) (t : llvm.Value)
    (s : CAllocStateTy) (ht : t.successors = []) : successorStates c t s = [] := by
  have hnil : ∀ l : List StateWithGuardsTy, (∀ g ∈ l, g.bb ∈ t.successors) → l = [] := by
    intro l hl
    cases l with
    | nil => rfl
    | cons g rest =>
      have := hl g (by simp)
      rw [ht] at this
      cases this
  unfold successorStates
  cases h1 : c.H.handleSEXPGuardsForTerminator t s.toStateWithGuardsTy with
  | some l =>
    simp only
    rw [hnil l (hS.sexpTerminator t _ l h1)]
    rfl
  | none =>
    simp only
    cases h2 : c.H.handleIntGuardsForTerminator t s.toStateWithGuardsTy with
    | some l =>
      simp only
      rw [hnil l (hS.intTerminator t _ l h2)]
      rfl
    | none =>
      simp only
      rw [ht]
      rfl

/-- The effect of the block `call; store call, y; load y; store (load y), x;
load x; ret (load x)` on the call set and the origins, over fixed handles. -/
theorem copyBody_blockEnd (c : RunCtx) (O : Oracle) (x y h : Nat) (callee : Option Nat)
    (args : List llvm.Value) (htrack : c.trackOrigins = true)
    (hx : c.possiblyReturnedVars.contains x = true)
    (hy : c.possiblyReturnedVars.contains y = true)
    (hh : O.handle (llvm.Value.callInst callee args) = some h) (ha : O.allocating h = true)
    (hO : ∀ v, v.callSite = none → O.handle v = none) (s : CAllocStateTy) :
    (visitBlockP c O
        [llvm.Value.callInst callee args,
          llvm.Value.storeInst (llvm.Value.callInst callee args) (llvm.Value.allocaInst y),
          llvm.Value.loadInst (llvm.Value.allocaInst y),
          llvm.Value.storeInst (llvm.Value.loadInst (llvm.Value.allocaInst y))
            (llvm.Value.allocaInst x),
          llvm.Value.loadInst (llvm.Value.allocaInst x),
          llvm.Value.returnInst (some (llvm.Value.loadInst (llvm.Value.allocaInst x)))] s).called =
        CalledFunctionsOrderedSetTy.insert h s.called ∧
      (visitBlockP c O
        [llvm.Value.callInst callee args,
          llvm.Value.storeInst (llvm.Value.callInst callee args) (llvm.Value.allocaInst y),
          llvm.Value.loadInst (llvm.Value.allocaInst y),
          llvm.Value.storeInst (llvm.Value.loadInst (llvm.Value.allocaInst y))
            (llvm.Value.allocaInst x),
          llvm.Value.loadInst (llvm.Value.allocaInst x),
          llvm.Value.returnInst (some (llvm.Value.loadInst (llvm.Value.allocaInst x)))]
          s).varOrigins =
        copyOrigins (addOrigin s.varOrigins y h) y x := by
  have h1 : ∀ p, O.handle (llvm.Value.loadInst p) = none := fun p => hO _ rfl
  have h2 : ∀ rv, O.handle (llvm.Value.returnInst rv) = none := fun rv => hO _ rfl
  have hx2 : x ∈ c.possiblyReturnedVars := by simpa using hx
  have hy2 : y ∈ c.possiblyReturnedVars := by simpa using hy
  simp [visitBlockP, visitInstructionP, handleStoreP, handleCallP, handleStoreOfCallP,
    handleStoreOfLoad, htrack, hx2, hy2, hh, ha, h1, h2]

theorem copyOrigins_find (h x y : Nat) :
    (copyOrigins (addOrigin [] y h) y x).find x = some [h] := by
  have hadd : addOrigin [] y h = [(y, [h])] := by
    simp [addOrigin, VarOriginsTy.find, List.lookup, VarOriginsTy.set,
      CalledFunctionsOrderedSetTy.insert]
  rw [hadd]
  have hfy : VarOriginsTy.find [(y, [h])] y = some [h] := by
    simp [VarOriginsTy.find, List.lookup]
  unfold copyOrigins
  rw [hfy]
  simp only
  by_cases hxy : x = y
  · subst hxy
    rw [hfy]
    simp only
    rw [VarOriginsTy.find_set_self]
    simp [CalledFunctionsOrderedSetTy.insertAll, CalledFunctionsOrderedSetTy.insert]
  · have hfx : VarOriginsTy.find [(y, [h])] x = none := by
      have hb : (x == y) = false := by simpa using hxy
      simp [VarOriginsTy.find, List.lookup, hb]
    rw [hfx]
    simp only
    rw [VarOriginsTy.find_set_self]

theorem visitInstruction_call_fst (c : RunCtx) (callee : Option Nat) (args : List llvm.Value)
    (cm : CalledModuleTy) (s : CAllocStateTy) :
    (visitInstruction c (llvm.Value.callInst callee args) cm s).1 =
      (cm.getCalledFunction_Value c.H.isInstallConstantCall
        (llvm.Value.callInst callee args)).2 := by
  unfold visitInstruction
  simp only
  split
  · simp only [handleStore, Bool.false_eq_true, if_false]
    exact handleCall_fst c _ cm _
  · exact handleCall_fst c _ cm _

/-- Processing a state whose block starts with a call: the module at the end is
a later state of the module right after the lookup of that call. -/
theorem processState_first_call (c : RunCtx) (s : CAllocStateTy) (st : EngineState)
    (callee : Option Nat) (args : List llvm.Value) (rest : List llvm.Value) (hwf : st.cm.WF)
    (hb : c.F.block s.bb = llvm.Value.callInst callee args :: rest) :
    (st.cm.getCalledFunction_Value c.H.isInstallConstantCall
      (llvm.Value.callInst callee args)).2.Ext (processState c s st).cm := by
  have hv1 := visitInstruction_ext c (llvm.Value.callInst callee args) st.cm s hwf
  have hv2 := visitBlock_ext c rest _ (visitInstruction c (llvm.Value.callInst callee args)
    st.cm s).2 hv1.2
  rw [visitInstruction_call_fst] at hv2
  have hvb : visitBlock c (c.F.block s.bb) st.cm s =
      visitBlock c rest (visitInstruction c (llvm.Value.callInst callee args) st.cm s).1
        (visitInstruction c (llvm.Value.callInst callee args) st.cm s).2 := by
    rw [hb]
    rfl
  have hwf2 : (visitBlock c (c.F.block s.bb) st.cm s).1.WF :=
    (visitBlock_ext c (c.F.block s.bb) st.cm s hwf).2
  unfold processState
  simp only
  split
  · simp only
    rw [hvb, visitInstruction_call_fst]
    exact hv2.1
  · rename_i t _
    have hr := handleReturn_ext c t (visitBlock c (c.F.block s.bb) st.cm s).2
      { st with cm := (visitBlock c (c.F.block s.bb) st.cm s).1 } hwf2
    simp only
    refine CalledModuleTy.Ext.trans ?_ hr.1
    simp only
    rw [hvb, visitInstruction_call_fst]
    exact hv2.1

/-! ## Claims on interning (C1 - C3) -/

/-- C1. Context interning is canonical.  In a well-formed module, intern a
context `x` (entries `NULL` or pointers to symbol descriptors); let the module
evolve to any later well-formed state `cm2` (every operation of the module only
appends to heap and tables); intern a context `y` there.  The two handles are
the same exactly when `x` and `y` have the same descriptor sequence: the same
length and, position by position, both `Unknown` or both `Symbol` of the same
name.  Only the names count, not the identity of the descriptor objects. -/
theorem intern_ArgInfosTy_canonical (cm cm2 : CalledModuleTy) (x y : ArgInfosTy)
    (hwf : cm.WF) (hx : validArgInfos cm.argInfoHeap x = true)
    (hext : (cm.intern_ArgInfosTy x).2.Ext cm2) (hwf2 : cm2.WF)
    (hy : validArgInfos cm2.argInfoHeap y = true) :
    (cm.intern_ArgInfosTy x).1 = (cm2.intern_ArgInfosTy y).1 ↔
      contextOf cm2.argInfoHeap x = contextOf cm2.argInfoHeap y := by
  have hw1 := intern_ArgInfosTy_wf cm x hwf hx
  have hf1 := findContext_intern cm x hwf hx
  have hh1 := intern_ArgInfosTy_heap cm x
  have hf2 := findContext_ext hw1 hext _ _ hf1
  have hkx : contextOf cm2.argInfoHeap x = contextOf cm.argInfoHeap x := by
    have hp : cm.argInfoHeap <+: cm2.argInfoHeap := by
      rw [← hh1]
      exact hext.argInfoHeap
    exact contextOf_grow hp hx
  rw [← hkx] at hf2
  have hlt := usetFind_lt _ _ _ hf2
  rw [intern_ArgInfosTy_eq cm2 y hwf2 hy]
  have key := usetFind_key_iff (fun e => contextOf cm2.argInfoHeap e) cm2.argInfosTable
    (contextOf cm2.argInfoHeap x) (contextOf cm2.argInfoHeap y) _ hf2
  cases hfy : cm2.findContext (contextOf cm2.argInfoHeap y) with
  | some j =>
    simp only
    constructor
    · intro h
      rw [← h] at hfy
      exact key.1 hfy
    · intro h
      have := key.2 h
      simp only [CalledModuleTy.findContext] at hfy
      rw [hfy] at this
      exact (Option.some.inj this).symm
  | none =>
    simp only
    constructor
    · intro h
      omega
    · intro h
      have := key.2 h
      simp only [CalledModuleTy.findContext] at hfy
      rw [hfy] at this
      cases this

/-- Witness for C1: the contexts `[NULL, &d0]` and `[NULL, &d1]`, where `d0` and
`d1` are two distinct non-interned descriptor objects named `a`, get the same
handle. -/
theorem intern_ArgInfosTy_canonical_witness :
    exampleCM.WF ∧ validArgInfos exampleCM.argInfoHeap [none, some 0] = true ∧
      validArgInfos (exampleCM.intern_ArgInfosTy [none, some 0]).2.argInfoHeap
        [none, some 1] = true ∧
      ((exampleCM.intern_ArgInfosTy [none, some 0]).1 =
          ((exampleCM.intern_ArgInfosTy [none, some 0]).2.intern_ArgInfosTy [none, some 1]).1 ↔
        contextOf (exampleCM.intern_ArgInfosTy [none, some 0]).2.argInfoHeap [none, some 0] =
          contextOf (exampleCM.intern_ArgInfosTy [none, some 0]).2.argInfoHeap [none, some 1]) :=
  ⟨exampleCM_wf, by decide, by decide,
    intern_ArgInfosTy_canonical exampleCM (exampleCM.intern_ArgInfosTy [none, some 0]).2
      [none, some 0] [none, some 1] exampleCM_wf (by decide)
      (CalledModuleTy.Ext.refl _) (intern_ArgInfosTy_wf _ _ exampleCM_wf (by decide))
      (by decide)⟩

/-- C2. Called-function interning is canonical.  Intern `a`; let the table grow
in any way; intern `b`.  The handles are the same exactly when `a` and `b` have
the same function, the same context handle and the same module; and interning
`a` again returns the first handle and leaves the module, hence the table, as
it is. -/
theorem intern_CalledFunctionTy_canonical (cm cm2 : CalledModuleTy) (a b : CalledFunctionTy)
    (hext : (cm.intern_CalledFunctionTy a).2.calledFunctionsTable <+: cm2.calledFunctionsTable) :
    ((cm.intern_CalledFunctionTy a).1 = (cm2.intern_CalledFunctionTy b).1 ↔
        (a.fun_ = b.fun_ ∧ a.argInfo = b.argInfo ∧ a.module = b.module)) ∧
      cm2.intern_CalledFunctionTy a = ((cm.intern_CalledFunctionTy a).1, cm2) := by
  have hf1 := findCalledFunction_intern cm a
  have hf2 := findCalledFunction_grow hext a _ hf1
  have hlt := usetFind_lt _ _ _ hf2
  have key := usetFind_key_iff (fun e : CalledFunctionTy => e) cm2.calledFunctionsTable a b _ hf2
  have hab : (a.fun_ = b.fun_ ∧ a.argInfo = b.argInfo ∧ a.module = b.module) ↔ a = b := by
    cases a
    cases b
    simp
  rw [hab]
  refine ⟨?_, ?_⟩
  · rw [intern_CalledFunctionTy_eq cm2 b]
    cases hfb : cm2.findCalledFunction b with
    | some j =>
      simp only
      constructor
      · intro h
        rw [← h] at hfb
        exact key.1 hfb
      · intro h
        have := key.2 h
        simp only [CalledModuleTy.findCalledFunction] at hfb
        rw [hfb] at this
        exact (Option.some.inj this).symm
    | none =>
      simp only
      constructor
      · intro h
        omega
      · intro h
        have := key.2 h
        simp only [CalledModuleTy.findCalledFunction] at hfb
        rw [hfb] at this
        cases this
  · rw [intern_CalledFunctionTy_eq cm2 a, hf2]

/-- Witness for C2 on the example module. -/
theorem intern_CalledFunctionTy_canonical_witness :
    (exampleCM.intern_CalledFunctionTy ⟨some 0, 0, 0⟩).2.calledFunctionsTable <+:
        (exampleCM.intern_CalledFunctionTy ⟨some 0, 0, 0⟩).2.calledFunctionsTable ∧
      (((exampleCM.intern_CalledFunctionTy ⟨some 0, 0, 0⟩).1 =
          ((exampleCM.intern_CalledFunctionTy ⟨some 0, 0, 0⟩).2.intern_CalledFunctionTy
            ⟨some 2, 0, 0⟩).1 ↔
          ((some 0 : Option Nat) = some 2 ∧ 0 = 0 ∧ 0 = 0)) ∧
        (exampleCM.intern_CalledFunctionTy ⟨some 0, 0, 0⟩).2.intern_CalledFunctionTy
            ⟨some 0, 0, 0⟩ =
          ((exampleCM.intern_CalledFunctionTy ⟨some 0, 0, 0⟩).1,
            (exampleCM.intern_CalledFunctionTy ⟨some 0, 0, 0⟩).2)) :=
  ⟨List.prefix_refl _,
    intern_CalledFunctionTy_canonical exampleCM
      (exampleCM.intern_CalledFunctionTy ⟨some 0, 0, 0⟩).2 ⟨some 0, 0, 0⟩ ⟨some 2, 0, 0⟩
      (List.prefix_refl _)⟩

/-- What `ArgInfoPtrTy_equal::operator()` computes on two pointers: the same
pointer, or two symbols of the same name. -/
theorem ArgInfoPtrTy_equal_iff (heap : List ArgInfoTy) (lhs rhs : Option Nat) :
    ArgInfoPtrTy_equal heap lhs rhs = true ↔
      (lhs = rhs ∨ ∃ l r n, lhs = some l ∧ rhs = some r ∧
        heap[l]? = some (ArgInfoTy.symbol n) ∧ heap[r]? = some (ArgInfoTy.symbol n)) := by
  cases lhs with
  | none => cases rhs <;> simp [ArgInfoPtrTy_equal]
  | some l =>
    cases rhs with
    | none => simp [ArgInfoPtrTy_equal]
    | some r =>
      simp only [ArgInfoPtrTy_equal]
      by_cases hl : isSymbolAt heap l = true
      · by_cases hr : isSymbolAt heap r = true
        · obtain ⟨n, hn⟩ := (isSymbolAt_iff _ _).1 hl
          obtain ⟨k, hk⟩ := (isSymbolAt_iff _ _).1 hr
          simp only [hl, hr, Bool.not_true, Bool.or_self, Bool.false_eq_true, if_false,
            symbolNameAt_of_get hn, symbolNameAt_of_get hk, decide_eq_true_eq,
            Option.some.injEq]
          constructor
          · intro h
            subst h
            exact Or.inr ⟨l, r, n, rfl, rfl, hn, hk⟩
          · rintro (h | ⟨l2, r2, n2, h1, h2, h3, h4⟩)
            · cases h
              rw [hn] at hk
              cases hk
              rfl
            · cases h1
              cases h2
              rw [hn] at h3
              rw [hk] at h4
              cases h3
              cases h4
              rfl
        · have hr2 : isSymbolAt heap r = false := by simpa using hr
          simp only [hl, hr2, Bool.not_true, Bool.not_false, Bool.or_true, if_true,
            decide_eq_true_eq]
          constructor
          · intro h
            exact Or.inl h
          · rintro (h | ⟨l2, r2, n2, h1, h2, h3, h4⟩)
            · exact h
            · cases h2
              exact absurd ((isSymbolAt_iff _ _).2 ⟨n2, h4⟩) hr
      · have hl2 : isSymbolAt heap l = false := by simpa using hl
        simp only [hl2, Bool.not_false, Bool.true_or, if_true, decide_eq_true_eq]
        constructor
        · intro h
          exact Or.inl h
        · rintro (h | ⟨l2, r2, n2, h1, h2, h3, h4⟩)
          · exact h
          · cases h1
            exact absurd ((isSymbolAt_iff _ _).2 ⟨n2, h3⟩) hl

/-- C3. Descriptor interning is canonical, with structural equality in which all
`Unknown` values are equal.  A descriptor value is `NULL`, which is `Unknown`, or
a pointer to a `SymbolArgInfoTy`, the only descriptor objects the program makes
(lines 146, 195 and 203).  For all descriptor values `x` and `y`,
`ArgInfoPtrTy_equal(x, y)` holds exactly when they are structurally equal: both
`Unknown`, or both `Symbol` with the same name.  For symbol descriptors interning
is canonical: intern `a`, let the module evolve to any later well-formed state,
intern `b`; the handles are the same exactly when the names are.  The first
interning leaves a copy of the descriptor on the heap, held by `argInfoTable`,
and every later interning of the name returns that copy and changes nothing. -/
theorem ArgInfoPtrTy_equal_intern_canonical (heap : List ArgInfoTy) (lhs rhs : Option Nat)
    (cm cm2 : CalledModuleTy) (a b : String) (hl : validEntry heap lhs = true)
    (hr : validEntry heap rhs = true) (hwf : cm.WF)
    (hext : (cm.intern_SymbolArgInfoTy a).2.Ext cm2) (hwf2 : cm2.WF) :
    (ArgInfoPtrTy_equal heap lhs rhs = true ↔
        descriptorOf heap lhs = descriptorOf heap rhs) ∧
      (ArgInfoPtrTy_equal heap lhs rhs = true ↔
        ((descriptorOf heap lhs = ArgDescriptor.Unknown ∧
            descriptorOf heap rhs = ArgDescriptor.Unknown) ∨
          ∃ n, descriptorOf heap lhs = ArgDescriptor.Symbol n ∧
            descriptorOf heap rhs = ArgDescriptor.Symbol n)) ∧
      ((cm.intern_SymbolArgInfoTy a).1 = (cm2.intern_SymbolArgInfoTy b).1 ↔ a = b) ∧
      (cm.intern_SymbolArgInfoTy a).2.argInfoHeap[(cm.intern_SymbolArgInfoTy a).1]? =
        some (ArgInfoTy.symbol a) ∧
      (cm.intern_SymbolArgInfoTy a).1 ∈ (cm.intern_SymbolArgInfoTy a).2.argInfoTable ∧
      cm2.intern_SymbolArgInfoTy a = ((cm.intern_SymbolArgInfoTy a).1, cm2) := by
  have hchar := ArgInfoPtrTy_equal_iff heap lhs rhs
  have hstruct : ArgInfoPtrTy_equal heap lhs rhs = true ↔
      descriptorOf heap lhs = descriptorOf heap rhs := by
    rw [hchar, descriptorOf_eq_iff heap lhs rhs hl hr]
    constructor
    · rintro (h | ⟨l, r, n, h1, h2, h3, h4⟩)
      · exact Or.inl h
      · exact Or.inr ⟨l, r, h1, h2, by
          rw [symbolNameAt_of_get h3, symbolNameAt_of_get h4]⟩
    · rintro (h | ⟨l, r, h1, h2, h3⟩)
      · exact Or.inl h
      · subst h1
        subst h2
        obtain ⟨n, hn⟩ := (isSymbolAt_iff _ _).1 hl
        obtain ⟨k, hk⟩ := (isSymbolAt_iff _ _).1 hr
        rw [symbolNameAt_of_get hn, symbolNameAt_of_get hk] at h3
        cases h3
        exact Or.inr ⟨l, r, n, rfl, rfl, hn, hk⟩
  have hcases : descriptorOf heap lhs = descriptorOf heap rhs ↔
      ((descriptorOf heap lhs = ArgDescriptor.Unknown ∧
          descriptorOf heap rhs = ArgDescriptor.Unknown) ∨
        ∃ n, descriptorOf heap lhs = ArgDescriptor.Symbol n ∧
          descriptorOf heap rhs = ArgDescriptor.Symbol n) := by
    constructor
    · intro h
      cases hd : descriptorOf heap lhs with
      | Unknown => exact Or.inl ⟨rfl, by rw [← h, hd]⟩
      | Symbol n => exact Or.inr ⟨n, rfl, by rw [← h, hd]⟩
    · rintro (⟨h1, h2⟩ | ⟨n, h1, h2⟩)
      · rw [h1, h2]
      · rw [h1, h2]
  obtain ⟨hf1, hget, hmem⟩ := findSymbol_intern cm a hwf
  have hw1 := intern_SymbolArgInfoTy_wf cm a hwf
  have hf2 := findSymbol_ext hw1 hext a _ hf1
  have hget2 := getElem?_grow hext.argInfoHeap hget
  have hlt : (cm.intern_SymbolArgInfoTy a).1 < cm2.argInfoHeap.length := by
    by_contra hc
    have : cm2.argInfoHeap[(cm.intern_SymbolArgInfoTy a).1]? = none := by
      simp only [List.getElem?_eq_none_iff]
      omega
    rw [this] at hget2
    cases hget2
  refine ⟨hstruct, hstruct.trans hcases, ?_, hget, hmem, ?_⟩
  · rw [intern_SymbolArgInfoTy_eq cm2 b hwf2]
    cases hfb : cm2.findSymbol b with
    | some j =>
      simp only
      constructor
      · intro h
        rw [← h] at hfb
        have hp := List.find?_some hfb
        simp only [decide_eq_true_eq] at hp
        rw [symbolNameAt_of_get hget2] at hp
        exact Option.some.inj hp
      · intro h
        subst h
        rw [hf2] at hfb
        exact Option.some.inj hfb
    | none =>
      simp only
      constructor
      · intro h
        omega
      · intro h
        subst h
        rw [hf2] at hfb
        cases hfb
  · rw [intern_SymbolArgInfoTy_eq cm2 a hwf2, hf2]

/-- Witness for C3: two distinct symbol objects of the name `a` are equal
descriptors, and on the example module the names `a` and `b` get distinct
handles. -/
theorem ArgInfoPtrTy_equal_intern_canonical_witness :
    validEntry [ArgInfoTy.symbol "a", ArgInfoTy.symbol "a"] (some 0) = true ∧
      validEntry [ArgInfoTy.symbol "a", ArgInfoTy.symbol "a"] (some 1) = true ∧
      exampleCM.WF ∧ (exampleCM.intern_SymbolArgInfoTy "a").2.WF ∧
      ArgInfoPtrTy_equal [ArgInfoTy.symbol "a", ArgInfoTy.symbol "a"] (some 0) (some 1) = true ∧
      ((exampleCM.intern_SymbolArgInfoTy "a").1 =
        ((exampleCM.intern_SymbolArgInfoTy "a").2.intern_SymbolArgInfoTy "b").1 ↔ "a" = "b") :=
  ⟨by decide, by decide, exampleCM_wf, intern_SymbolArgInfoTy_wf _ _ exampleCM_wf, by decide,
    (ArgInfoPtrTy_equal_intern_canonical [ArgInfoTy.symbol "a", ArgInfoTy.symbol "a"] (some 0)
      (some 1) exampleCM (exampleCM.intern_SymbolArgInfoTy "a").2 "a" "b" (by decide)
      (by decide) exampleCM_wf (CalledModuleTy.Ext.refl _)
      (intern_SymbolArgInfoTy_wf _ _ exampleCM_wf)).2.2.1⟩

/-! ## Claims on the registry (C4 - C7) -/

theorem ArgInfosPtrTy_equal_loop_replicate (heap : List ArgInfoTy) (e : ArgInfosTy) :
    ArgInfosPtrTy_equal.loop heap e (List.replicate e.length none) = true ↔
      e = List.replicate e.length none := by
  induction e with
  | nil => simp [ArgInfosPtrTy_equal.loop]
  | cons la ls ih =>
    simp only [List.length_cons, List.replicate_succ, ArgInfosPtrTy_equal_loop_cons,
      List.cons.injEq]
    cases la with
    | none => simpa using ih
    | some l => simp

/-- Against the all-`NULL` context, `ArgInfosPtrTy_equal` is equality. -/
theorem ArgInfosPtrTy_equal_replicate (heap : List ArgInfoTy) (e : ArgInfosTy) (n : Nat) :
    ArgInfosPtrTy_equal heap e (List.replicate n none) = decide (e = List.replicate n none) := by
  unfold ArgInfosPtrTy_equal
  by_cases hlen : e.length = n
  · subst hlen
    simp only [List.length_replicate, ne_eq, not_true_eq_false, if_false]
    rw [Bool.eq_iff_iff, ArgInfosPtrTy_equal_loop_replicate]
    simp
  · have hne : e ≠ List.replicate n none := by
      intro h
      apply hlen
      rw [h]
      simp
    simp [hlen, hne]

/-- The handle and the module after `getCalledFunction(Function*)`, in terms of
table lookups. -/
theorem getCalledFunction_Function_get (cm : CalledModuleTy) (f : Nat) :
    ∃ ai, (cm.getCalledFunction_Function f).2.calledFunctionsTable[
          (cm.getCalledFunction_Function f).1]? =
        some { fun_ := some f, argInfo := ai, module := cm.this } ∧
      (cm.getCalledFunction_Function f).2.argInfosTable[ai]? =
        some (List.replicate (cm.m.fn f).arg_size none) ∧
      (cm.getCalledFunction_Function f).2.this = cm.this ∧
      (cm.getCalledFunction_Function f).2.m = cm.m ∧
      usetFind (fun e => decide (e = List.replicate (cm.m.fn f).arg_size none))
        (cm.getCalledFunction_Function f).2.argInfosTable = some ai ∧
      (cm.getCalledFunction_Function f).2.findCalledFunction
        { fun_ := some f, argInfo := ai, module := cm.this } =
          some (cm.getCalledFunction_Function f).1 := by
  unfold CalledModuleTy.getCalledFunction_Function
  simp only
  generalize hn : (cm.m.fn f).arg_size = n
  have hfind : usetFind (fun e => decide (e = List.replicate n none))
      (cm.intern_ArgInfosTy (List.replicate n none)).2.argInfosTable =
      some (cm.intern_ArgInfosTy (List.replicate n none)).1 := by
    unfold CalledModuleTy.intern_ArgInfosTy
    rw [usetFind_congr _ (fun e => decide (e = List.replicate n none)) cm.argInfosTable
      (fun e _ => ArgInfosPtrTy_equal_replicate cm.argInfoHeap e n)]
    cases h : usetFind (fun e => decide (e = List.replicate n none)) cm.argInfosTable with
    | some i => exact h
    | none => exact usetFind_append_self _ _ _ h (by simp)
  have he1 := intern_ArgInfosTy_ext cm (List.replicate n none)
  generalize cm.intern_ArgInfosTy (List.replicate n none) = r at hfind he1
  have he2 := intern_CalledFunctionTy_ext r.2 { fun_ := some f, argInfo := r.1, module := cm.this }
  have hg := intern_CalledFunctionTy_get r.2 { fun_ := some f, argInfo := r.1, module := cm.this }
  have hf := findCalledFunction_intern r.2 { fun_ := some f, argInfo := r.1, module := cm.this }
  obtain ⟨c, hc, hk⟩ := usetFind_get _ _ _ hfind
  simp only [decide_eq_true_eq] at hk
  subst hk
  refine ⟨r.1, hg, getElem?_grow he2.argInfosTable hc, ?_, ?_, ?_, hf⟩
  · rw [← he2.this, ← he1.this]
  · rw [← he2.m, ← he1.m]
  · exact usetFind_grow _ _ _ _ hfind he2.argInfosTable

/-- Interning the all-`NULL` context in a module whose table holds it is a pure
read. -/
theorem intern_ArgInfosTy_replicate_hit (cm : CalledModuleTy) (n ai : Nat)
    (h : usetFind (fun e => decide (e = List.replicate n none)) cm.argInfosTable = some ai) :
    cm.intern_ArgInfosTy (List.replicate n none) = (ai, cm) := by
  unfold CalledModuleTy.intern_ArgInfosTy
  rw [usetFind_congr _ (fun e => decide (e = List.replicate n none)) cm.argInfosTable
    (fun e _ => ArgInfosPtrTy_equal_replicate cm.argInfoHeap e n), h]

/-- C4. `getCalledFunction(Value*)` returns `NULL` exactly when the value is not
a call site or is a call site without a statically known callee.  On a direct
call it returns a handle whose function is the callee and whose module is this
module.  When it returns `NULL` the module, and so each of the three intern
tables, is unchanged. -/
theorem getCalledFunction_Value_none_iff (icc : llvm.Value → Option String)
    (cm : CalledModuleTy) (inst : llvm.Value) :
    ((cm.getCalledFunction_Value icc inst).1 = none ↔
        (inst.callSite = none ∨ ∃ args, inst.callSite = some (none, args))) ∧
      (∀ f args, inst.callSite = some (some f, args) →
        ∃ h cf, (cm.getCalledFunction_Value icc inst).1 = some h ∧
          (cm.getCalledFunction_Value icc inst).2.calledFunctionsTable[h]? = some cf ∧
          cf.fun_ = some f ∧ cf.module = cm.this) ∧
      ((cm.getCalledFunction_Value icc inst).1 = none →
        (cm.getCalledFunction_Value icc inst).2 = cm ∧
        (cm.getCalledFunction_Value icc inst).2.calledFunctionsTable = cm.calledFunctionsTable ∧
        (cm.getCalledFunction_Value icc inst).2.argInfosTable = cm.argInfosTable ∧
        (cm.getCalledFunction_Value icc inst).2.argInfoTable = cm.argInfoTable) := by
  refine ⟨getCalledFunction_Value_none icc cm inst, ?_, ?_⟩
  · intro f args hcs
    simp only [CalledModuleTy.getCalledFunction_Value, hcs]
    exact ⟨_, _, rfl, intern_CalledFunctionTy_get _ _, rfl, rfl⟩
  · intro h
    rw [getCalledFunction_Value_of_none icc cm inst h]
    exact ⟨rfl, rfl, rfl, rfl⟩

/-- C5. On a direct call the context of the returned handle has, at every
argument position: `Symbol n` when the argument is a load from a global that
`symbolsMap` maps to `n`; otherwise `Symbol n` when `isInstallConstantCall`
matches the argument with the constant `n`; otherwise `Unknown`.  The first rule
takes priority, and a load from a global that `symbolsMap` does not know falls
through to the later rules. -/
theorem getCalledFunction_Value_context (icc : llvm.Value → Option String)
    (cm : CalledModuleTy) (inst : llvm.Value) (f : Nat) (args : List llvm.Value)
    (hwf : cm.WF) (hcs : inst.callSite = some (some f, args)) :
    ∃ h cf ctx, (cm.getCalledFunction_Value icc inst).1 = some h ∧
      (cm.getCalledFunction_Value icc inst).2.calledFunctionsTable[h]? = some cf ∧
      (cm.getCalledFunction_Value icc inst).2.argInfosTable[cf.argInfo]? = some ctx ∧
      ∀ (i : Nat) (arg : llvm.Value), args[i]? = some arg →
        ∃ e, ctx[i]? = some e ∧
          (∀ g n, arg = llvm.Value.loadInst (llvm.Value.globalVariable g) →
            cm.symbolsMap g = some n →
            descriptorOf (cm.getCalledFunction_Value icc inst).2.argInfoHeap e =
              ArgDescriptor.Symbol n) ∧
          ((¬ ∃ g n, arg = llvm.Value.loadInst (llvm.Value.globalVariable g) ∧
              cm.symbolsMap g = some n) →
            ∀ n, icc arg = some n →
              descriptorOf (cm.getCalledFunction_Value icc inst).2.argInfoHeap e =
                ArgDescriptor.Symbol n) ∧
          ((¬ ∃ g n, arg = llvm.Value.loadInst (llvm.Value.globalVariable g) ∧
              cm.symbolsMap g = some n) →
            icc arg = none →
              descriptorOf (cm.getCalledFunction_Value icc inst).2.argInfoHeap e =
                ArgDescriptor.Unknown) := by
  obtain ⟨h, ai, ctx, hres, _, _, hg, hc, hk, hlen, _⟩ :=
    getCalledFunction_Value_spec icc cm inst f args hwf hcs
  refine ⟨h, _, ctx, by rw [hres], hg, hc, ?_⟩
  intro i arg hi
  have hilt : i < args.length := by
    by_contra hcon
    have : args[i]? = none := by
      simp only [List.getElem?_eq_none_iff]
      omega
    rw [this] at hi
    cases hi
  have hic : i < ctx.length := by omega
  refine ⟨ctx[i], by simp [hic], ?_⟩
  have hd : descriptorOf (cm.getCalledFunction_Value icc inst).2.argInfoHeap ctx[i] =
      cm.classifyArg icc arg := by
    have h1 := congrArg (fun l => l[i]?) hk
    simp only [contextOf, List.getElem?_map, hi, Option.map_some'] at h1
    rw [List.getElem?_eq_getElem hic] at h1
    simpa using h1
  rw [hd]
  unfold CalledModuleTy.classifyArg
  refine ⟨?_, ?_, ?_⟩
  · intro g n harg hs
    subst harg
    simp [CalledModuleTy.symbolOfLoad, hs]
  · intro hno n hn
    have hsl : cm.symbolOfLoad arg = none := by
      cases hs : cm.symbolOfLoad arg with
      | none => rfl
      | some k =>
        exfalso
        apply hno
        unfold CalledModuleTy.symbolOfLoad at hs
        split at hs
        · exact ⟨_, k, rfl, hs⟩
        · cases hs
    simp [hsl, hn]
  · intro hno hn
    have hsl : cm.symbolOfLoad arg = none := by
      cases hs : cm.symbolOfLoad arg with
      | none => rfl
      | some k =>
        exfalso
        apply hno
        unfold CalledModuleTy.symbolOfLoad at hs
        split at hs
        · exact ⟨_, k, rfl, hs⟩
        · cases hs
    simp [hsl, hn]

/-- Witness for C5: a call of function `0` with a load of the global `7`, which
`symbolsMap` knows. -/
theorem getCalledFunction_Value_context_witness :
    exampleCM.WF ∧
      (llvm.Value.callInst (some 0)
        [llvm.Value.loadInst (llvm.Value.globalVariable 7)]).callSite =
        some (some 0, [llvm.Value.loadInst (llvm.Value.globalVariable 7)]) ∧
      ∃ h cf c, (exampleCM.getCalledFunction_Value exampleInstall
          (llvm.Value.callInst (some 0)
            [llvm.Value.loadInst (llvm.Value.globalVariable 7)])).1 = some h ∧
        (exampleCM.getCalledFunction_Value exampleInstall
          (llvm.Value.callInst (some 0)
            [llvm.Value.loadInst (llvm.Value.globalVariable 7)])).2.calledFunctionsTable[h]? =
          some cf ∧
        (exampleCM.getCalledFunction_Value exampleInstall
          (llvm.Value.callInst (some 0)
            [llvm.Value.loadInst (llvm.Value.globalVariable 7)])).2.argInfosTable[cf.argInfo]? =
          some c := by
  refine ⟨exampleCM_wf, rfl, ?_⟩
  obtain ⟨h, cf, c, h1, h2, h3, _⟩ :=
    getCalledFunction_Value_context exampleInstall exampleCM
      (llvm.Value.callInst (some 0) [llvm.Value.loadInst (llvm.Value.globalVariable 7)])
      0 [llvm.Value.loadInst (llvm.Value.globalVariable 7)] exampleCM_wf rfl
  exact ⟨h, cf, c, h1, h2, h3⟩

/-- C6. `getCalledFunction(Function*)` returns a handle whose function is `f`,
whose module is this module and whose context has as many entries as `f` has
declared parameters, every entry `NULL`, that is `Unknown`; calling it again for
the same `f` returns the same handle and changes nothing. -/
theorem getCalledFunction_Function_spec (cm : CalledModuleTy) (f : Nat) :
    (∃ cf c, (cm.getCalledFunction_Function f).2.calledFunctionsTable[
          (cm.getCalledFunction_Function f).1]? = some cf ∧
        cf.fun_ = some f ∧ cf.module = cm.this ∧
        (cm.getCalledFunction_Function f).2.argInfosTable[cf.argInfo]? = some c ∧
        c.length = (cm.m.fn f).arg_size ∧
        (∀ e ∈ c, e = none) ∧
        ∀ e ∈ c, descriptorOf (cm.getCalledFunction_Function f).2.argInfoHeap e =
          ArgDescriptor.Unknown) ∧
      (cm.getCalledFunction_Function f).2.getCalledFunction_Function f =
        cm.getCalledFunction_Function f := by
  obtain ⟨ai, hg, hc, hthis, hm, hfc, hff⟩ := getCalledFunction_Function_get cm f
  refine ⟨⟨_, _, hg, rfl, rfl, hc, by simp, ?_, ?_⟩, ?_⟩
  · intro e he
    exact (List.mem_replicate.1 he).2
  · intro e he
    rw [(List.mem_replicate.1 he).2]
    rfl
  · generalize cm.getCalledFunction_Function f = q at hg hc hthis hm hfc hff
    unfold CalledModuleTy.getCalledFunction_Function
    simp only
    rw [hm, hthis, intern_ArgInfosTy_replicate_hit q.2 _ ai hfc]
    simp only
    rw [intern_CalledFunctionTy_eq, hff]

/-- C7, counterexample.  Function `1` of the example module is variadic with one
declared parameter.  A well-formed direct call of it with two unrecognised
arguments gets a context of length two, and its handle is not the handle of
`getCalledFunction(Function*)` for function `1`. -/
theorem getCalledFunction_Value_length_ne_arity :
    wellFormedCall exampleCM.m 1 [llvm.Value.other 0, llvm.Value.other 1] ∧
      ∃ h cf c, (exampleCM.getCalledFunction_Value exampleInstall
          (llvm.Value.callInst (some 1) [llvm.Value.other 0, llvm.Value.other 1])).1 = some h ∧
        (exampleCM.getCalledFunction_Value exampleInstall
          (llvm.Value.callInst (some 1)
            [llvm.Value.other 0, llvm.Value.other 1])).2.calledFunctionsTable[h]? = some cf ∧
        (exampleCM.getCalledFunction_Value exampleInstall
          (llvm.Value.callInst (some 1)
            [llvm.Value.other 0, llvm.Value.other 1])).2.argInfosTable[cf.argInfo]? = some c ∧
        c.length ≠ (exampleCM.m.fn 1).arg_size ∧
        ((exampleCM.getCalledFunction_Value exampleInstall
          (llvm.Value.callInst (some 1)
            [llvm.Value.other 0, llvm.Value.other 1])).2.getCalledFunction_Function 1).1 ≠ h := by
  refine ⟨Or.inr ⟨rfl, by decide⟩, 0, ⟨some 1, 0, 0⟩, [none, none], ?_, ?_, ?_, ?_, ?_⟩ <;>
    decide

/-- C7, amended.  On a direct call the context of the returned handle has as
many entries as the call site has arguments.  That is the declared arity when
the callee is not variadic (and the call is well formed); and when the number of
arguments is the declared arity and no argument is recognised, the handle is the
one `getCalledFunction(Function*)` returns for the callee. -/
theorem getCalledFunction_Value_context_length (icc : llvm.Value → Option String)
    (cm : CalledModuleTy) (inst : llvm.Value) (f : Nat) (args : List llvm.Value)
    (hwf : cm.WF) (hcs : inst.callSite = some (some f, args)) :
    ∃ h cf c, (cm.getCalledFunction_Value icc inst).1 = some h ∧
      (cm.getCalledFunction_Value icc inst).2.calledFunctionsTable[h]? = some cf ∧
      (cm.getCalledFunction_Value icc inst).2.argInfosTable[cf.argInfo]? = some c ∧
      c.length = args.length ∧
      ((cm.m.fn f).isVarArg = false → wellFormedCall cm.m f args →
        c.length = (cm.m.fn f).arg_size) ∧
      (args.length = (cm.m.fn f).arg_size →
        (∀ arg ∈ args, cm.symbolOfLoad arg = none ∧ icc arg = none) →
        ((cm.getCalledFunction_Value icc inst).2.getCalledFunction_Function f).1 = h) := by
  obtain ⟨h, ai, c, hres, hext, hw, hg, hc, hk, hlen, hl⟩ :=
    getCalledFunction_Value_spec icc cm inst f args hwf hcs
  refine ⟨h, _, c, by rw [hres], hg, hc, hlen, ?_, ?_⟩
  · intro hv hwfc
    rcases hwfc with h1 | ⟨h1, _⟩
    · rw [hlen, h1]
    · rw [hv] at h1
      cases h1
  · intro harity hun
    generalize cm.getCalledFunction_Value icc inst = q at hext hw hg hc hk hl
    have hcl : args.map (q.2.classifyArg icc) = List.replicate (q.2.m.fn f).arg_size
        ArgDescriptor.Unknown := by
      rw [← hext.m, ← harity]
      apply List.ext_getElem
      · simp
      · intro i h1 h2
        simp only [List.getElem_map, List.getElem_replicate]
        have hi : i < args.length := by simpa using h1
        have hmem : args[i] ∈ args := List.getElem_mem _
        obtain ⟨ha, hb⟩ := hun _ hmem
        have hsl : q.2.symbolOfLoad args[i] = none := by
          unfold CalledModuleTy.symbolOfLoad
          rw [← hext.symbolsMap]
          exact ha
        simp [CalledModuleTy.classifyArg, hsl, hb]
    simp only [CalledModuleTy.lookupHandle, hcs, hcl] at hl
    cases hfc : q.2.findContext
        (List.replicate (q.2.m.fn f).arg_size ArgDescriptor.Unknown) with
    | none => simp [hfc] at hl
    | some ai2 =>
      simp only [hfc] at hl
      have hvalid : validArgInfos q.2.argInfoHeap
          (List.replicate (q.2.m.fn f).arg_size none) = true := by
        simp only [validArgInfos, List.all_eq_true]
        intro e he
        rw [(List.mem_replicate.1 he).2]
        rfl
      have hctx : contextOf q.2.argInfoHeap (List.replicate (q.2.m.fn f).arg_size none) =
          List.replicate (q.2.m.fn f).arg_size ArgDescriptor.Unknown := by
        simp [contextOf, descriptorOf]
      have hi := intern_ArgInfosTy_hit q.2 _ hw hvalid ai2 (by rw [hctx]; exact hfc)
      unfold CalledModuleTy.getCalledFunction_Function
      simp only
      rw [hi]
      simp only
      rw [intern_CalledFunctionTy_eq, hl]

/-- Witness for the amended C7: a call of the one-parameter function `0` of the
example module with one unrecognised argument. -/
theorem getCalledFunction_Value_context_length_witness :
    exampleCM.WF ∧
      (llvm.Value.callInst (some 0) [llvm.Value.other 0]).callSite =
        some (some 0, [llvm.Value.other 0]) ∧
      ∃ h, (exampleCM.getCalledFunction_Value exampleInstall
          (llvm.Value.callInst (some 0) [llvm.Value.other 0])).1 = some h := by
  refine ⟨exampleCM_wf, rfl, ?_⟩
  obtain ⟨h, _, _, h1, _⟩ :=
    getCalledFunction_Value_context_length exampleInstall exampleCM
      (llvm.Value.callInst (some 0) [llvm.Value.other 0]) 0 [llvm.Value.other 0]
      exampleCM_wf rfl
  exact ⟨h, h1⟩

/-! ## Claims on the engine (C8 - C10) -/

/-- C8. Summary contract for the called set.  For a function with a body,
analysed in a well-formed module from empty result sets, with guard handlers
that leave the guard maps unchanged and never consume a terminator:
`getCalledAndWrappedFunctions` returns, and when the cap was not tripped (no
error line was emitted) the called set holds exactly the handles `t` for which
there is a path in the control-flow graph from the entry block to a block ending
in a return, through no block of `errorBasicBlocks`, with a block that contains
a direct call instruction whose handle is `t` and whose function is in
`allocatingFunctions`. -/
theorem getCalledAndWrappedFunctions_called (H : Helpers) (f : CalledFunctionTy) (fn : Nat)
    (st : EngineState) (hwf : st.cm.WF) (hf : f.fun_ = some fn)
    (hbody : (st.cm.m.fn fn).size ≠ 0) (hempty : st.called = [] ∧ st.wrapped = [])
    (hH : H.GuardsInert) :
    (∃ fuel r, getCalledAndWrappedFunctions H fuel f st = some r) ∧
      ∀ fuel r, getCalledAndWrappedFunctions H fuel f st = some r → r.errors = st.errors →
        ∀ t, t ∈ r.called ↔
          ∃ b p, CFGPath (st.cm.m.fn fn) b p ∧
            (∀ x ∈ b :: p,
              x ∉ H.findErrorBasicBlocks (st.cm.m.fn fn) st.cm.errorFunctions) ∧
            (∃ rv, ((st.cm.m.fn fn).block b).getTerminator =
              some (llvm.Value.returnInst rv)) ∧
            ∃ x ∈ b :: p,
              allocatingCallIn H.isInstallConstantCall r.cm (st.cm.m.fn fn) x t := by
  refine ⟨getCalledAndWrappedFunctions_terminates H f st, ?_⟩
  intro fuel r hr hno t
  rw [called_iff_path H f fn st hwf hf hbody hH.neverConsume fuel r hr hno t, hempty.1]
  simp

theorem engineCM_wf (m : llvm.Module) : (engineCM m).WF := by
  refine ⟨?_, ?_, ?_⟩
  · intro x hx
    simp only [engineCM, List.mem_singleton] at hx
    subst hx
    rfl
  · intro a ha
    simp [engineCM] at ha
  · intro cf hcf
    simp only [engineCM, List.mem_singleton] at hcf
    subst hcf
    simp [engineCM]

theorem inertHelpers_inert (e p : List Nat) : (inertHelpers e p).GuardsInert :=
  ⟨fun _ _ => rfl, fun _ _ => rfl, ⟨fun _ _ => rfl, fun _ _ => rfl⟩⟩

/-- Witness for C8: the guarded branch `if (g == 0) return alloc1(); else return
alloc2();`.  The run returns, trips no cap, and the called set holds the handles
`1` and `2` of the two calls. -/
theorem getCalledAndWrappedFunctions_called_witness :
    (engineStart (moduleWith guardedBranch)).cm.WF ∧
      (((engineStart (moduleWith guardedBranch)).cm.m.fn 0).size ≠ 0) ∧
      (inertHelpers [] []).GuardsInert ∧
      (getCalledAndWrappedFunctions (inertHelpers [] []) 10 ⟨some 0, 0, 0⟩
          (engineStart (moduleWith guardedBranch))).map (fun r => (r.called, r.errors)) =
        some ([1, 2], []) ∧
      ∃ fuel r, getCalledAndWrappedFunctions (inertHelpers [] []) fuel ⟨some 0, 0, 0⟩
        (engineStart (moduleWith guardedBranch)) = some r :=
  ⟨engineCM_wf _, by decide, inertHelpers_inert _ _, by decide,
    (getCalledAndWrappedFunctions_called (inertHelpers [] []) ⟨some 0, 0, 0⟩ 0
      (engineStart (moduleWith guardedBranch)) (engineCM_wf _) rfl (by decide) ⟨rfl, rfl⟩
      (inertHelpers_inert _ _)).1⟩

/-- C10, counterexample.  The function `if (c) { gc(n); error(); } return x;`
returns a managed value and calls the GC function (the call has the GC handle)
and no other allocator (function `4` is neither allocating nor a possible
allocator), but the call lies in an error block: the run ends normally with an
empty called set and an empty wrapped set. -/
theorem getCalledAndWrappedFunctions_gc_on_error_path :
    ((moduleWith gcOnErrorPath).fn 0).returnsSEXP = true ∧
      llvm.Value.callInst (some 3) [llvm.Value.other 1] ∈
        ((moduleWith gcOnErrorPath).fn 0).block 1 ∧
      (engineCM (moduleWith gcOnErrorPath)).isAllocating (some 4) = false ∧
      (engineCM (moduleWith gcOnErrorPath)).isPossibleAllocator (some 4) = false ∧
      (getCalledAndWrappedFunctions (inertHelpers [1] [0]) 10 ⟨some 0, 0, 0⟩
          (engineStart (moduleWith gcOnErrorPath))).map
        (fun r => (r.called, r.wrapped, r.errors,
          decide ((r.cm.getCalledFunction_Value (inertHelpers [1] [0]).isInstallConstantCall
            (llvm.Value.callInst (some 3) [llvm.Value.other 1])).1 = some r.cm.gcFunction))) =
        some ([], [], [], true) :=
  ⟨by decide, List.mem_cons_self _ _, by decide, by decide, by decide⟩

/-- C10, amended.  For a function whose return type is a managed value,
analysed in a well-formed module from empty result sets,
`getCalledAndWrappedFunctions` returns, and for every result, after a normal end
or a cap abort: if the called set holds the GC handle, so does the wrapped set.
When moreover every call the engine can record in the function has the GC
handle, the called set and the wrapped set hold nothing but the GC handle; they
are both exactly `{GC}` as soon as the called set holds the GC handle, and it
does when the terminator handlers consume nothing, the cap is not tripped and a
call with the GC handle lies on a path from the entry block to a block ending in
a return through no error block. -/
theorem getCalledAndWrappedFunctions_gc (H : Helpers) (f : CalledFunctionTy) (fn : Nat)
    (st : EngineState) (hwf : st.cm.WF) (hf : f.fun_ = some fn)
    (hsexp : (st.cm.m.fn fn).returnsSEXP = true)
    (hempty : st.called = [] ∧ st.wrapped = []) :
    (∃ fuel r, getCalledAndWrappedFunctions H fuel f st = some r) ∧
      ∀ fuel r, getCalledAndWrappedFunctions H fuel f st = some r →
        (r.cm.gcFunction ∈ r.called → r.cm.gcFunction ∈ r.wrapped) ∧
        (OnlyCalls (Oracle.ofModule H.isInstallConstantCall r.cm) (st.cm.m.fn fn)
            (fun t => t = r.cm.gcFunction) →
          (∀ t ∈ r.called, t = r.cm.gcFunction) ∧ (∀ t ∈ r.wrapped, t = r.cm.gcFunction) ∧
          (r.cm.gcFunction ∈ r.called →
            (∀ t, t ∈ r.called ↔ t = r.cm.gcFunction) ∧
            (∀ t, t ∈ r.wrapped ↔ t = r.cm.gcFunction)) ∧
          (H.NeverConsume → r.errors = st.errors →
            (∃ b p, CFGPath (st.cm.m.fn fn) b p ∧
              (∀ x ∈ b :: p,
                x ∉ H.findErrorBasicBlocks (st.cm.m.fn fn) st.cm.errorFunctions) ∧
              (∃ rv, ((st.cm.m.fn fn).block b).getTerminator =
                some (llvm.Value.returnInst rv)) ∧
              ∃ x ∈ b :: p, allocatingCallIn H.isInstallConstantCall r.cm (st.cm.m.fn fn) x
                r.cm.gcFunction) →
            (∀ t, t ∈ r.called ↔ t = r.cm.gcFunction) ∧
            (∀ t, t ∈ r.wrapped ↔ t = r.cm.gcFunction))) := by
  refine ⟨getCalledAndWrappedFunctions_terminates H f st, ?_⟩
  intro fuel r hr
  by_cases hbody : (st.cm.m.fn fn).size = 0
  · have hrst : r = st := by
      simp only [getCalledAndWrappedFunctions, getCalledAndWrappedFunctionsCap, hf, hbody,
        if_true, Option.some.injEq] at hr
      exact hr.symm
    subst hrst
    have hnc : ∀ t, t ∉ r.called := by
      intro t ht
      rw [hempty.1] at ht
      cases ht
    have hnw : ∀ t, t ∉ r.wrapped := by
      intro t ht
      rw [hempty.2] at ht
      cases ht
    have hblock : ∀ b, (r.cm.m.fn fn).block b = [] := by
      intro b
      have : (r.cm.m.fn fn).blocks = [] := List.length_eq_zero.1 hbody
      simp [llvm.Function.block, this]
    refine ⟨fun h => absurd h (hnc _), fun _ => ⟨fun t ht => absurd ht (hnc t),
      fun t ht => absurd ht (hnw t), fun h => absurd h (hnc _), ?_⟩⟩
    rintro _ _ ⟨b, p, _, _, ⟨rv, hrv⟩, _⟩
    rw [hblock b] at hrv
    simp [llvm.BasicBlock.getTerminator] at hrv
  have hr2 := hr
  rw [getCalledAndWrappedFunctions_eq H fuel f fn st hf hbody] at hr2
  have hgc : r.cm.gcFunction ∈ r.called → r.cm.gcFunction ∈ r.wrapped := by
    apply workLoop_gc (RunCtx.make H st.cm fn MAX_STATES) fuel (seedState st) r hwf hr2 hsexp
    intro h0
    have : (seedState st).called = [] := hempty.1
    rw [this] at h0
    cases h0
  refine ⟨hgc, ?_⟩
  intro hO
  have hall := workLoop_all (RunCtx.make H st.cm fn MAX_STATES) (fun t => t = r.cm.gcFunction)
    fuel (seedState st) r hwf hr2 hO
    (by
      intro t ht
      have : (seedState st).called = [] := hempty.1
      rw [this] at ht
      cases ht)
    (by
      intro t ht
      have : (seedState st).wrapped = [] := hempty.2
      rw [this] at ht
      cases ht)
    (by
      intro s hs
      have : (seedState st).workList = [CAllocStateTy.init 0] := by
        simp [seedState, CAllocStateTy.add, usetFind]
      rw [this] at hs
      simp only [List.mem_singleton] at hs
      subst hs
      exact ⟨by simp [CAllocStateTy.init], by simp [CAllocStateTy.init]⟩)
  have hexact : r.cm.gcFunction ∈ r.called →
      (∀ t, t ∈ r.called ↔ t = r.cm.gcFunction) ∧
        (∀ t, t ∈ r.wrapped ↔ t = r.cm.gcFunction) := by
    intro hin
    refine ⟨fun t => ⟨hall.1 t, ?_⟩, fun t => ⟨hall.2 t, ?_⟩⟩
    · intro ht
      rw [ht]
      exact hin
    · intro ht
      rw [ht]
      exact hgc hin
  refine ⟨hall.1, hall.2, hexact, ?_⟩
  intro hH hno hpath
  apply hexact
  rw [called_iff_path H f fn st hwf hf hbody hH fuel r hr hno r.cm.gcFunction]
  exact Or.inr hpath

/-- Witness for the amended C10: the function `gc(n); return x;`.  The run
returns with called set and wrapped set both holding exactly the GC handle
`0`. -/
theorem getCalledAndWrappedFunctions_gc_witness :
    (engineStart (moduleWith gcThenReturn)).cm.WF ∧
      (((engineStart (moduleWith gcThenReturn)).cm.m.fn 0).size ≠ 0) ∧
      ((engineStart (moduleWith gcThenReturn)).cm.m.fn 0).returnsSEXP = true ∧
      (getCalledAndWrappedFunctions (inertHelpers [] [0]) 10 ⟨some 0, 0, 0⟩
          (engineStart (moduleWith gcThenReturn))).map
        (fun r => (r.called, r.wrapped, r.cm.gcFunction)) = some ([0], [0], 0) ∧
      ∃ fuel r, getCalledAndWrappedFunctions (inertHelpers [] [0]) fuel ⟨some 0, 0, 0⟩
        (engineStart (moduleWith gcThenReturn)) = some r :=
  ⟨engineCM_wf _, by decide, by decide, by decide,
    (getCalledAndWrappedFunctions_gc (inertHelpers [] [0]) ⟨some 0, 0, 0⟩ 0
      (engineStart (moduleWith gcThenReturn)) (engineCM_wf _) rfl (by decide)
      ⟨rfl, rfl⟩).1⟩

/-- The run on `y = alloc(); x = y; return x;` with fuel for two iterations. -/
theorem copy_run (H : Helpers) (f : CalledFunctionTy) (fn x y alloc h : Nat)
    (args : List llvm.Value) (st : EngineState) (hwf : st.cm.WF) (hf : f.fun_ = some fn)
    (hsexp : (st.cm.m.fn fn).returnsSEXP = true)
    (hblocks : (st.cm.m.fn fn).blocks =
      copyBody x y (llvm.Value.callInst (some alloc) args))
    (hx : x ∈ H.findPossiblyReturnedVariables (st.cm.m.fn fn))
    (hy : y ∈ H.findPossiblyReturnedVariables (st.cm.m.fn fn))
    (hallocating : alloc ∈ st.cm.allocatingFunctions)
    (hh : (st.cm.getCalledFunction_Value H.isInstallConstantCall
      (llvm.Value.callInst (some alloc) args)).1 = some h)
    (hgc : h ≠ st.cm.gcFunction) (hempty : st.called = [] ∧ st.wrapped = [])
    (herr : 0 ∉ H.findErrorBasicBlocks (st.cm.m.fn fn) st.cm.errorFunctions)
    (hS : H.SuccessorsOnly) :
    ∃ r, getCalledAndWrappedFunctions H 2 f st = some r ∧ r.called = [h] ∧ r.wrapped = [h] ∧
      r.errors = st.errors ∧
      (r.cm.getCalledFunction_Value H.isInstallConstantCall
        (llvm.Value.callInst (some alloc) args)).1 = some h := by
  have hbody : (st.cm.m.fn fn).size ≠ 0 := by
    simp [llvm.Function.size, hblocks, copyBody]
  rw [getCalledAndWrappedFunctions_eq H 2 f fn st hf hbody]
  generalize hcdef : RunCtx.make H st.cm fn MAX_STATES = c
  have hcH : c.H = H := by rw [← hcdef]; rfl
  have hcF : c.F = st.cm.m.fn fn := by rw [← hcdef]; rfl
  have htrack : c.trackOrigins = true := by rw [← hcdef]; exact hsexp
  have hx2 : c.possiblyReturnedVars.contains x = true := by
    rw [← hcdef]
    simpa [RunCtx.make] using hx
  have hy2 : c.possiblyReturnedVars.contains y = true := by
    rw [← hcdef]
    simpa [RunCtx.make] using hy
  have herr2 : c.errorBasicBlocks.contains (CAllocStateTy.init 0).bb = false := by
    rw [← hcdef]
    simpa [RunCtx.make, CAllocStateTy.init] using herr
  have hblock0 : c.F.block (CAllocStateTy.init 0).bb =
      llvm.Value.callInst (some alloc) args ::
        [llvm.Value.storeInst (llvm.Value.callInst (some alloc) args) (llvm.Value.allocaInst y),
          llvm.Value.loadInst (llvm.Value.allocaInst y),
          llvm.Value.storeInst (llvm.Value.loadInst (llvm.Value.allocaInst y))
            (llvm.Value.allocaInst x),
          llvm.Value.loadInst (llvm.Value.allocaInst x),
          llvm.Value.returnInst (some (llvm.Value.loadInst (llvm.Value.allocaInst x)))] := by
    rw [hcF]
    simp [llvm.Function.block, hblocks, copyBody, CAllocStateTy.init]
  have hterm : (c.F.block (CAllocStateTy.init 0).bb).getTerminator =
      some (llvm.Value.returnInst (some (llvm.Value.loadInst (llvm.Value.allocaInst x)))) := by
    rw [hblock0]
    simp [llvm.BasicBlock.getTerminator, llvm.Value.isTerminator]
  have hseed : seedState st =
      { st with workList := [CAllocStateTy.init 0], doneSet := [CAllocStateTy.init 0] } := by
    simp [seedState, CAllocStateTy.add, usetFind]
  have hcap : ¬ (seedState st).doneSet.length > c.maxStates := by
    rw [hseed, ← hcdef]
    simp [RunCtx.make, MAX_STATES]
  have hw : (seedState st).workList = CAllocStateTy.init 0 :: [] := by rw [hseed]
  rw [workLoop_step c 1 (seedState st) (CAllocStateTy.init 0) [] hw herr2 hcap]
  generalize hst1 : ({ seedState st with workList := [] } : EngineState) = st1
  have hst1cm : st1.cm = st.cm := by rw [← hst1]; rfl
  have hst1called : st1.called = [] := by rw [← hst1]; exact hempty.1
  have hst1wrapped : st1.wrapped = [] := by rw [← hst1]; exact hempty.2
  have hst1wl : st1.workList = [] := by rw [← hst1]
  have hst1errors : st1.errors = st.errors := by rw [← hst1]; rfl
  have hwf1 : st1.cm.WF := by rw [hst1cm]; exact hwf
  have hE := processState_ext c (CAllocStateTy.init 0) st1 hwf1
  have hsim := processState_sim c (CAllocStateTy.init 0) st1
    (processState c (CAllocStateTy.init 0) st1).cm hwf1 (CalledModuleTy.Ext.refl _) hE.2
  have hfirst := processState_first_call c (CAllocStateTy.init 0) st1 (some alloc) args _
    hwf1 hblock0
  generalize hr0 : processState c (CAllocStateTy.init 0) st1 = r0 at hE hsim hfirst
  rw [hst1cm] at hE hfirst
  rw [hcH] at hfirst hsim
  have hO1 : (Oracle.ofModule H.isInstallConstantCall r0.cm).handle
      (llvm.Value.callInst (some alloc) args) = some h := by
    show (r0.cm.getCalledFunction_Value H.isInstallConstantCall _).1 = some h
    rw [getCalledFunction_Value_stable H.isInstallConstantCall st.cm r0.cm _ hwf hfirst hE.2, hh]
  have hO2 : (Oracle.ofModule H.isInstallConstantCall r0.cm).allocating h = true := by
    show r0.cm.isAllocating (r0.cm.funOf h) = true
    rw [← (classify_stable H.isInstallConstantCall st.cm r0.cm _ h hfirst hh).1]
    obtain ⟨h2, ai, ctx, hres, hext1, _, hget, _⟩ :=
      getCalledFunction_Value_spec H.isInstallConstantCall st.cm
        (llvm.Value.callInst (some alloc) args) alloc args hwf rfl
    rw [hres] at hh
    simp only [Option.some.injEq] at hh
    subst hh
    simp only [CalledModuleTy.funOf, hget, CalledModuleTy.isAllocating,
      ← hext1.allocatingFunctions]
    simpa using hallocating
  have hO3 : (Oracle.ofModule H.isInstallConstantCall r0.cm).gcFunction = st.cm.gcFunction :=
    hE.1.gcFunction.symm
  have hend := copyBody_blockEnd c (Oracle.ofModule H.isInstallConstantCall r0.cm) x y h
    (some alloc) args htrack hx2 hy2 hO1 hO2
    (Oracle.ofModule_handle_none H.isInstallConstantCall r0.cm) (CAllocStateTy.init 0)
  have hbe : blockEnd c (Oracle.ofModule H.isInstallConstantCall r0.cm)
      (CAllocStateTy.init 0) = visitBlockP c (Oracle.ofModule H.isInstallConstantCall r0.cm)
        (llvm.Value.callInst (some alloc) args ::
          [llvm.Value.storeInst (llvm.Value.callInst (some alloc) args)
              (llvm.Value.allocaInst y),
            llvm.Value.loadInst (llvm.Value.allocaInst y),
            llvm.Value.storeInst (llvm.Value.loadInst (llvm.Value.allocaInst y))
              (llvm.Value.allocaInst x),
            llvm.Value.loadInst (llvm.Value.allocaInst x),
            llvm.Value.returnInst (some (llvm.Value.loadInst (llvm.Value.allocaInst x)))])
        (CAllocStateTy.init 0) := by
    unfold blockEnd
    rw [hblock0]
  have hbec : (blockEnd c (Oracle.ofModule H.isInstallConstantCall r0.cm)
      (CAllocStateTy.init 0)).called = [h] := by
    rw [hbe, hend.1]
    simp [CAllocStateTy.init, CalledFunctionsOrderedSetTy.insert]
  have hbev : (blockEnd c (Oracle.ofModule H.isInstallConstantCall r0.cm)
      (CAllocStateTy.init 0)).varOrigins.find x = some [h] := by
    rw [hbe, hend.2]
    exact copyOrigins_find h x y
  have hP := processStateP_fields c (Oracle.ofModule H.isInstallConstantCall r0.cm)
    (CAllocStateTy.init 0) st1
  rw [hterm] at hP
  simp only at hP
  rw [successorStates_nil c (by rw [hcH]; exact hS)
    (llvm.Value.returnInst (some (llvm.Value.loadInst (llvm.Value.allocaInst x)))) _ rfl] at hP
  generalize blockEnd c (Oracle.ofModule H.isInstallConstantCall r0.cm)
    (CAllocStateTy.init 0) = sP at hbec hbev hP
  have hcalledP : (handleReturnP c (Oracle.ofModule H.isInstallConstantCall r0.cm)
      (llvm.Value.returnInst (some (llvm.Value.loadInst (llvm.Value.allocaInst x)))) sP
      st1).called = [h] := by
    rw [(handleReturnP_called _ _ _ _ _).1]
    simp only
    rw [hbec, hst1called]
    simp [CalledFunctionsOrderedSetTy.insert, CalledFunctionsOrderedSetTy.insertAll]
  have hwrappedP : (handleReturnP c (Oracle.ofModule H.isInstallConstantCall r0.cm)
      (llvm.Value.returnInst (some (llvm.Value.loadInst (llvm.Value.allocaInst x)))) sP
      st1).wrapped = [h] := by
    rw [handleReturnP_fields]
    simp only [htrack, if_true]
    rw [hbec, hst1called, hst1wrapped, hO3]
    have hnc : (CalledFunctionsOrderedSetTy.insertAll [h] []).contains
        st.cm.gcFunction = false := by
      simp [CalledFunctionsOrderedSetTy.insert, CalledFunctionsOrderedSetTy.insertAll]
      exact fun e => hgc e.symm
    rw [hnc]
    simp only [Bool.false_eq_true, if_false]
    unfold collectWrappedP
    simp only
    rw [hbev, Oracle.ofModule_handle_none H.isInstallConstantCall r0.cm
      (llvm.Value.loadInst (llvm.Value.allocaInst x)) rfl]
    simp [CalledFunctionsOrderedSetTy.insert, CalledFunctionsOrderedSetTy.insertAll]
  have hr0fields : r0.called = [h] ∧ r0.wrapped = [h] ∧ r0.workList = [] ∧
      r0.errors = st.errors := by
    rw [hsim, hP]
    refine ⟨hcalledP, hwrappedP, ?_, ?_⟩
    · simp only [addAll]
      exact hst1wl
    · simp only
      rw [(handleReturnP_called _ _ _ _ _).2.2.2]
      exact hst1errors
  refine ⟨r0, workLoop_nil c 0 r0 hr0fields.2.2.1, hr0fields.1, hr0fields.2.1,
    hr0fields.2.2.2, hO1⟩

/-- C9. Origin propagation through a copy.  For a function with managed return
type whose body is `y = alloc(); x = y; return x;`, with `x` and `y` in
`possiblyReturnedVars`, `alloc` in `allocatingFunctions`, and the handle `h` of
the call site not the GC handle, analysed in a well-formed module from empty
result sets: `getCalledAndWrappedFunctions` returns, and every result has
`called = {h}` and `wrapped = {h}`, where `h` is also the handle the module
gives the call site after the run.  The guard handlers are arbitrary but for the
contracts of the helpers that are not among the sources: a block ending in a
return is not an error block, and the terminator handlers add states for
successors only. -/
theorem getCalledAndWrappedFunctions_copy (H : Helpers) (f : CalledFunctionTy)
    (fn x y alloc h : Nat) (args : List llvm.Value) (st : EngineState) (hwf : st.cm.WF)
    (hf : f.fun_ = some fn) (hsexp : (st.cm.m.fn fn).returnsSEXP = true)
    (hblocks : (st.cm.m.fn fn).blocks =
      copyBody x y (llvm.Value.callInst (some alloc) args))
    (hx : x ∈ H.findPossiblyReturnedVariables (st.cm.m.fn fn))
    (hy : y ∈ H.findPossiblyReturnedVariables (st.cm.m.fn fn))
    (hallocating : alloc ∈ st.cm.allocatingFunctions)
    (hh : (st.cm.getCalledFunction_Value H.isInstallConstantCall
      (llvm.Value.callInst (some alloc) args)).1 = some h)
    (hgc : h ≠ st.cm.gcFunction) (hempty : st.called = [] ∧ st.wrapped = [])
    (hE : H.ErrorBlocksNoReturn) (hS : H.SuccessorsOnly) :
    (∃ fuel r, getCalledAndWrappedFunctions H fuel f st = some r) ∧
      ∀ fuel r, getCalledAndWrappedFunctions H fuel f st = some r →
        r.called = [h] ∧ r.wrapped = [h] ∧
        (r.cm.getCalledFunction_Value H.isInstallConstantCall
          (llvm.Value.callInst (some alloc) args)).1 = some h := by
  have herr : 0 ∉ H.findErrorBasicBlocks (st.cm.m.fn fn) st.cm.errorFunctions := by
    intro hmem
    apply hE (st.cm.m.fn fn) st.cm.errorFunctions 0 hmem
      (some (llvm.Value.loadInst (llvm.Value.allocaInst x)))
    simp [llvm.Function.block, hblocks, copyBody, llvm.BasicBlock.getTerminator,
      llvm.Value.isTerminator]
  obtain ⟨r0, hr0, h1, h2, _, h4⟩ := copy_run H f fn x y alloc h args st hwf hf hsexp hblocks
    hx hy hallocating hh hgc hempty herr hS
  refine ⟨⟨2, r0, hr0⟩, ?_⟩
  intro fuel r hr
  have hbody : (st.cm.m.fn fn).size ≠ 0 := by
    simp [llvm.Function.size, hblocks, copyBody]
  rw [getCalledAndWrappedFunctions_eq H _ f fn st hf hbody] at hr hr0
  have e1 := workLoop_fuel_mono _ 2 fuel _ _ hr0
  have e2 := workLoop_fuel_mono _ fuel 2 _ _ hr
  rw [Nat.add_comm] at e2
  rw [e1] at e2
  cases e2
  exact ⟨h1, h2, h4⟩

theorem inertHelpers_successorsOnly (e p : List Nat) :
    (inertHelpers e p).SuccessorsOnly := by
  refine ⟨?_, ?_⟩ <;> intro t s l h <;> cases h

theorem inertHelpers_noReturn (e p : List Nat) (he : e = []) :
    (inertHelpers e p).ErrorBlocksNoReturn := by
  intro F errs b hb
  subst he
  cases hb

/-- Witness for C9: slots `x = 0` and `y = 1`, the allocator is function `1`,
its call site gets the handle `1`; the GC handle is `0`. -/
theorem getCalledAndWrappedFunctions_copy_witness :
    (engineStart (moduleWith (copyBody 0 1 (llvm.Value.callInst (some 1) [])))).cm.WF ∧
      (getCalledAndWrappedFunctions (inertHelpers [] [0, 1]) 10 ⟨some 0, 0, 0⟩
          (engineStart (moduleWith (copyBody 0 1 (llvm.Value.callInst (some 1) []))))).map
        (fun r => (r.called, r.wrapped)) = some ([1], [1]) ∧
      ∃ fuel r, getCalledAndWrappedFunctions (inertHelpers [] [0, 1]) fuel ⟨some 0, 0, 0⟩
        (engineStart (moduleWith (copyBody 0 1 (llvm.Value.callInst (some 1) [])))) = some r :=
  ⟨engineCM_wf _, by decide,
    (getCalledAndWrappedFunctions_copy (inertHelpers [] [0, 1]) ⟨some 0, 0, 0⟩ 0 0 1 1 1 []
      (engineStart (moduleWith (copyBody 0 1 (llvm.Value.callInst (some 1) []))))
      (engineCM_wf _) rfl rfl rfl (by decide) (by decide) (by decide) (by decide) (by decide)
      ⟨rfl, rfl⟩ (inertHelpers_noReturn [] [0, 1] (by simp))
      (inertHelpers_successorsOnly _ _)).1⟩

/-! ## The run as a sequence of iterations -/

theorem workLoopTrace_snd (c : RunCtx) (fuel : Nat) (st : EngineState) :
    (workLoopTrace c fuel st).map Prod.snd = workLoop c fuel st := by
  induction fuel generalizing st with
  | zero => rfl
  | succ n ih =>
    unfold workLoopTrace workLoop
    cases hw : st.workList with
    | nil => rfl
    | cons s rest =>
      simp only
      split
      · rw [← ih]
        cases workLoopTrace c n { st with workList := rest } <;> rfl
      · split
        · rfl
        · rw [← ih]
          cases workLoopTrace c n (processState c s { st with workList := rest }) <;> rfl

theorem workLoopTrace_some (c : RunCtx) (fuel : Nat) (st r : EngineState)
    (h : workLoop c fuel st = some r) : ∃ tr, workLoopTrace c fuel st = some (tr, r) := by
  rw [← workLoopTrace_snd] at h
  cases ht : workLoopTrace c fuel st with
  | none => simp [ht] at h
  | some p =>
    obtain ⟨tr, r2⟩ := p
    simp [ht] at h
    subst h
    exact ⟨tr, rfl⟩

theorem workLoopTrace_workLoop (c : RunCtx) (fuel : Nat) (st r : EngineState)
    (tr : List Iteration) (h : workLoopTrace c fuel st = some (tr, r)) :
    workLoop c fuel st = some r := by
  rw [← workLoopTrace_snd, h]
  rfl

theorem workLoopTrace_nil (c : RunCtx) (fuel : Nat) (st : EngineState) (hw : st.workList = []) :
    workLoopTrace c (fuel + 1) st = some ([], st) := by
  simp [workLoopTrace, hw]

theorem workLoopTrace_error (c : RunCtx) (fuel : Nat) (st : EngineState) (s : CAllocStateTy)
    (rest : List CAllocStateTy) (hw : st.workList = s :: rest)
    (herr : c.errorBasicBlocks.contains s.bb = true) :
    workLoopTrace c (fuel + 1) st =
      (workLoopTrace c fuel { st with workList := rest }).map
        (fun r => (⟨s, st⟩ :: r.1, r.2)) := by
  simp only [workLoopTrace, hw, herr, if_true]

theorem workLoopTrace_abort (c : RunCtx) (fuel : Nat) (st : EngineState) (s : CAllocStateTy)
    (rest : List CAllocStateTy) (hw : st.workList = s :: rest)
    (herr : c.errorBasicBlocks.contains s.bb = false)
    (hcap : st.doneSet.length > c.maxStates) :
    workLoopTrace c (fuel + 1) st =
      some ([⟨s, st⟩],
        { st with
          workList := rest
          errors := st.errors ++ ["too many states (abstraction error?)"] }) := by
  simp only [workLoopTrace, hw, herr, hcap, if_true, Bool.false_eq_true, if_false]

theorem workLoopTrace_step (c : RunCtx) (fuel : Nat) (st : EngineState) (s : CAllocStateTy)
    (rest : List CAllocStateTy) (hw : st.workList = s :: rest)
    (herr : c.errorBasicBlocks.contains s.bb = false)
    (hcap : ¬ st.doneSet.length > c.maxStates) :
    workLoopTrace c (fuel + 1) st =
      (workLoopTrace c fuel (processState c s { st with workList := rest })).map
        (fun r => (⟨s, st⟩ :: r.1, r.2)) := by
  simp only [workLoopTrace, hw, herr, hcap, Bool.false_eq_true, if_false]

theorem option_map_eq_some_pair {α β γ : Type} (o : Option (α × β)) (g : α × β → γ) (x : γ)
    (h : o.map g = some x) : ∃ a b, o = some (a, b) ∧ g (a, b) = x := by
  cases o with
  | none => simp at h
  | some p =>
    obtain ⟨a, b⟩ := p
    simp only [Option.map_some', Option.some.injEq] at h
    exact ⟨a, b, rfl, h⟩

/-- Induction over the iterations of a run: a property of the engine state that
survives a pop, an error line and the processing of a popped state holds at the
head of every iteration and at the end; every iteration pops the top of the
worklist at its head. -/
theorem workLoopTrace_induct (c : RunCtx) (P : EngineState → Prop)
    (hdrop : ∀ e s rest, e.workList = s :: rest → P e → P { e with workList := rest })
    (herrs : ∀ e l, P e → P { e with errors := l })
    (hstep : ∀ e s rest, e.workList = s :: rest → P e →
      P (processState c s { e with workList := rest }))
    (fuel : Nat) (st r : EngineState) (tr : List Iteration) (hP : P st)
    (h : workLoopTrace c fuel st = some (tr, r)) :
    (∀ i ∈ tr, P i.head ∧ i.head.workList.head? = some i.popped) ∧ P r := by
  induction fuel generalizing st tr with
  | zero => simp [workLoopTrace] at h
  | succ n ih =>
    rcases workLoop_cases c st with hw | ⟨s, rest, hw, herr⟩ | ⟨s, rest, hw, herr, hcap⟩ |
      ⟨s, rest, hw, herr, hcap⟩
    · rw [workLoopTrace_nil c n st hw] at h
      cases h
      exact ⟨fun i hi => absurd hi (List.not_mem_nil i), hP⟩
    · rw [workLoopTrace_error c n st s rest hw herr] at h
      obtain ⟨tr2, r2, h2, he⟩ := option_map_eq_some_pair _ _ _ h
      cases he
      obtain ⟨h3, h4⟩ := ih _ tr2 (hdrop st s rest hw hP) h2
      refine ⟨?_, h4⟩
      intro i hi
      rcases List.mem_cons.1 hi with rfl | hi
      · exact ⟨hP, by simp [hw]⟩
      · exact h3 i hi
    · rw [workLoopTrace_abort c n st s rest hw herr hcap] at h
      cases h
      refine ⟨?_, herrs _ _ (hdrop st s rest hw hP)⟩
      intro i hi
      rcases List.mem_cons.1 hi with rfl | hi
      · exact ⟨hP, by simp [hw]⟩
      · cases hi
    · rw [workLoopTrace_step c n st s rest hw herr hcap] at h
      obtain ⟨tr2, r2, h2, he⟩ := option_map_eq_some_pair _ _ _ h
      cases he
      obtain ⟨h3, h4⟩ := ih _ tr2 (hstep st s rest hw hP) h2
      refine ⟨?_, h4⟩
      intro i hi
      rcases List.mem_cons.1 hi with rfl | hi
      · exact ⟨hP, by simp [hw]⟩
      · exact h3 i hi

/-! ## What one iteration does to the containers -/

theorem handleReturn_containers (c : RunCtx) (t : llvm.Value) (x : CAllocStateTy)
    (e : EngineState) :
    (handleReturn c t x e).workList = e.workList ∧ (handleReturn c t x e).doneSet = e.doneSet ∧
      (handleReturn c t x e).errors = e.errors := by
  unfold handleReturn
  split
  · simp only
    split
    · split <;> exact ⟨rfl, rfl, rfl⟩
    · exact ⟨rfl, rfl, rfl⟩
  · exact ⟨rfl, rfl, rfl⟩

/-- The states admitted at the end of the iteration that processes `s`. -/
theorem processState_containers (c : RunCtx) (s : CAllocStateTy) (e : EngineState) :
    ∃ l : List CAllocStateTy,
      (∀ x ∈ l, ∃ t, (c.F.block s.bb).getTerminator = some t ∧
        x ∈ successorStates c t (visitBlock c (c.F.block s.bb) e.cm s).2) ∧
      (processState c s e).workList = (addAll l e.workList e.doneSet).1 ∧
      (processState c s e).doneSet = (addAll l e.workList e.doneSet).2 ∧
      (processState c s e).errors = e.errors := by
  unfold processState
  simp only
  split
  · exact ⟨[], fun x hx => absurd hx (List.not_mem_nil x), rfl, rfl, rfl⟩
  · rename_i t ht
    refine ⟨successorStates c t (visitBlock c (c.F.block s.bb) e.cm s).2, ?_, ?_, ?_, ?_⟩
    · intro x hx
      exact ⟨t, ht, hx⟩
    · simp only [(handleReturn_containers c t _ _).1, (handleReturn_containers c t _ _).2.1]
    · simp only [(handleReturn_containers c t _ _).1, (handleReturn_containers c t _ _).2.1]
    · simp only [(handleReturn_containers c t _ _).2.2]

theorem add_noDuplicate (s : CAllocStateTy) (wl : WorkListTy) (ds : DoneSetTy)
    (h : DoneSetTy.NoDuplicate ds) :
    DoneSetTy.NoDuplicate (s.add wl ds).2.2 ∧ ds <+: (s.add wl ds).2.2 := by
  unfold CAllocStateTy.add
  cases hf : usetFind (fun e => CAllocStatePtrTy_equal e s) ds with
  | none =>
    have hn := (usetFind_eq_none _ _).1 hf
    refine ⟨?_, List.prefix_append _ _⟩
    unfold DoneSetTy.NoDuplicate
    rw [List.pairwise_append]
    refine ⟨h, List.pairwise_singleton _ _, ?_⟩
    intro a ha b hb
    rw [List.mem_singleton.1 hb]
    exact hn a ha
  | some i => exact ⟨h, List.prefix_refl _⟩

theorem addAll_noDuplicate (l : List CAllocStateTy) (wl : WorkListTy) (ds : DoneSetTy)
    (h : DoneSetTy.NoDuplicate ds) :
    DoneSetTy.NoDuplicate (addAll l wl ds).2 ∧ ds <+: (addAll l wl ds).2 := by
  induction l generalizing wl ds with
  | nil => exact ⟨h, List.prefix_refl _⟩
  | cons s rest ih =>
    simp only [addAll]
    obtain ⟨h1, h2⟩ := add_noDuplicate s wl ds h
    obtain ⟨h3, h4⟩ := ih (s.add wl ds).2.1 (s.add wl ds).2.2 h1
    exact ⟨h3, h2.trans h4⟩

theorem processState_noDuplicate (c : RunCtx) (s : CAllocStateTy) (e : EngineState)
    (h : DoneSetTy.NoDuplicate e.doneSet) :
    DoneSetTy.NoDuplicate (processState c s e).doneSet ∧
      e.doneSet <+: (processState c s e).doneSet := by
  obtain ⟨l, _, _, hd, _⟩ := processState_containers c s e
  rw [hd]
  exact addAll_noDuplicate l _ _ h

/-- A property of abstract states kept by the instruction step and by the
states admitted at the end of a block holds for every state of the containers
after an iteration. -/
theorem processState_forall (c : RunCtx) (Q : CAllocStateTy → Prop)
    (hvisit : ∀ inst cm s, Q s → Q (visitInstruction c inst cm s).2)
    (hsucc : ∀ t s, Q s → ∀ x ∈ successorStates c t s, Q x)
    (s : CAllocStateTy) (e : EngineState) (hs : Q s) (hw : ∀ x ∈ e.workList, Q x)
    (hd : ∀ x ∈ e.doneSet, Q x) :
    (∀ x ∈ (processState c s e).workList, Q x) ∧ (∀ x ∈ (processState c s e).doneSet, Q x) := by
  have hblock : ∀ (insts : List llvm.Value) (cm : CalledModuleTy) (x : CAllocStateTy),
      Q x → Q (visitBlock c insts cm x).2 := by
    intro insts
    induction insts with
    | nil => intro cm x hx; exact hx
    | cons inst rest ih =>
      intro cm x hx
      simp only [visitBlock]
      exact ih _ _ (hvisit inst cm x hx)
  obtain ⟨l, hl, hwl, hds, _⟩ := processState_containers c s e
  have hQl : ∀ x ∈ l, Q x := by
    intro x hx
    obtain ⟨t, _, hxt⟩ := hl x hx
    exact hsucc t _ (hblock _ _ _ hs) x hxt
  obtain ⟨_, _, _, h4, h5⟩ := addAll_spec l e.workList e.doneSet
  rw [hwl, hds]
  constructor
  · intro x hx
    rcases h5 x hx with h | ⟨h, _⟩
    · exact hw x h
    · exact hQl x h
  · intro x hx
    rcases h4 x hx with h | ⟨h, _⟩
    · exact hd x h
    · exact hQl x h

theorem successorStates_forall (c : RunCtx) (Q : CAllocStateTy → Prop)
    (hclone : ∀ (s : CAllocStateTy) b, Q s → Q (s.clone b))
    (hguards : ∀ (s : CAllocStateTy) g, Q s → Q (s.withGuards g))
    (t : llvm.Value) (s : CAllocStateTy) (hs : Q s) : ∀ x ∈ successorStates c t s, Q x := by
  intro x hx
  unfold successorStates at hx
  split at hx
  · obtain ⟨g, _, rfl⟩ := List.mem_map.1 hx
    exact hguards s g hs
  · split at hx
    · obtain ⟨g, _, rfl⟩ := List.mem_map.1 hx
      exact hguards s g hs
    · obtain ⟨b, _, rfl⟩ := List.mem_map.1 hx
      exact hclone s b hs

/-! ## The run of `getCalledAndWrappedFunctions` -/

theorem seedState_clearStates (st : EngineState) :
    seedState st =
      { clearStates st with
        workList := ((CAllocStateTy.init 0).add (clearStates st).workList
          (clearStates st).doneSet).2.1
        doneSet := ((CAllocStateTy.init 0).add (clearStates st).workList
          (clearStates st).doneSet).2.2 } := rfl

theorem seedState_fields (st : EngineState) :
    (seedState st).workList = [CAllocStateTy.init 0] ∧
      (seedState st).doneSet = [CAllocStateTy.init 0] ∧ (seedState st).cm = st.cm ∧
      (seedState st).called = st.called ∧ (seedState st).wrapped = st.wrapped ∧
      (seedState st).errors = st.errors :=
  ⟨rfl, rfl, rfl, rfl, rfl, rfl⟩

theorem getCalledAndWrappedFunctionsTrace_snd (H : Helpers) (maxStates fuel : Nat)
    (f : CalledFunctionTy) (st : EngineState) :
    (getCalledAndWrappedFunctionsTrace H maxStates fuel f st).map Prod.snd =
      getCalledAndWrappedFunctionsCap H maxStates fuel f st := by
  unfold getCalledAndWrappedFunctionsTrace getCalledAndWrappedFunctionsCap
  cases f.fun_ with
  | none => rfl
  | some fn =>
    simp only
    split
    · rfl
    · exact workLoopTrace_snd _ _ _

theorem getCalledAndWrappedFunctionsTrace_eq (H : Helpers) (maxStates fuel : Nat)
    (f : CalledFunctionTy) (fn : Nat) (st : EngineState) (hf : f.fun_ = some fn)
    (hbody : (st.cm.m.fn fn).size ≠ 0) :
    getCalledAndWrappedFunctionsTrace H maxStates fuel f st =
      workLoopTrace (RunCtx.make H st.cm fn maxStates) fuel (seedState st) := by
  simp [getCalledAndWrappedFunctionsTrace, hf, hbody]

theorem getCalledAndWrappedFunctionsCap_eq (H : Helpers) (maxStates fuel : Nat)
    (f : CalledFunctionTy) (fn : Nat) (st : EngineState) (hf : f.fun_ = some fn)
    (hbody : (st.cm.m.fn fn).size ≠ 0) :
    getCalledAndWrappedFunctionsCap H maxStates fuel f st =
      workLoop (RunCtx.make H st.cm fn maxStates) fuel (seedState st) := by
  simp [getCalledAndWrappedFunctionsCap, hf, hbody]

/-- The run with the record of its iterations returns whenever the engine does,
and with the same engine state. -/
theorem getCalledAndWrappedFunctionsTrace_some (H : Helpers) (maxStates fuel : Nat)
    (f : CalledFunctionTy) (st r : EngineState) :
    getCalledAndWrappedFunctionsCap H maxStates fuel f st = some r ↔
      ∃ tr, getCalledAndWrappedFunctionsTrace H maxStates fuel f st = some (tr, r) := by
  rw [← getCalledAndWrappedFunctionsTrace_snd]
  cases getCalledAndWrappedFunctionsTrace H maxStates fuel f st with
  | none => simp
  | some p =>
    obtain ⟨tr, r2⟩ := p
    simp

theorem getCalledAndWrappedFunctionsCap_terminates (H : Helpers) (maxStates : Nat)
    (f : CalledFunctionTy) (st : EngineState) :
    ∃ fuel r, getCalledAndWrappedFunctionsCap H maxStates fuel f st = some r := by
  unfold getCalledAndWrappedFunctionsCap
  cases f.fun_ with
  | none => exact ⟨0, st, rfl⟩
  | some fn =>
    simp only
    split
    · exact ⟨0, st, rfl⟩
    · exact workLoop_terminates _ _

/-! ## The DoneSet as a hash table -/

/-- With the hash codes of the states in the DoneSet as `hash()` computed them,
`add()` through the hash table is `add()` by the contract of the set: equal
states have equal hash codes, so the equivalent state is in the bucket searched.
The hash codes of the DoneSet stay as computed. -/
theorem addHashed_refines (hc : HashCombine) (bucket : Nat → Nat) (s : CAllocStateTy)
    (workList : WorkListTy) (doneSet : List HashedStateTy)
    (h : ∀ e ∈ doneSet, e.hashcode = e.state.hash hc) :
    (s.addHashed hc bucket workList doneSet).1 =
        (s.add workList (doneSet.map (fun e => e.state))).1 ∧
      (s.addHashed hc bucket workList doneSet).2.1 =
        (s.add workList (doneSet.map (fun e => e.state))).2.1 ∧
      (s.addHashed hc bucket workList doneSet).2.2.map (fun e => e.state) =
        (s.add workList (doneSet.map (fun e => e.state))).2.2 ∧
      ∀ e ∈ (s.addHashed hc bucket workList doneSet).2.2, e.hashcode = e.state.hash hc := by
  have hfind : ∀ l : List HashedStateTy, (∀ e ∈ l, e.hashcode = e.state.hash hc) →
      usetFind (fun e => decide (bucket e.hashcode = bucket (s.hash hc)) &&
          CAllocStatePtrTy_equal e.state s) l =
        usetFind (fun e => CAllocStatePtrTy_equal e s) (l.map (fun e => e.state)) := by
    intro l
    induction l with
    | nil => intro _; rfl
    | cons e rest ih =>
      intro hl
      have he := hl e (List.mem_cons_self _ _)
      have hp : (decide (bucket e.hashcode = bucket (s.hash hc)) &&
          CAllocStatePtrTy_equal e.state s) = CAllocStatePtrTy_equal e.state s := by
        cases heq : CAllocStatePtrTy_equal e.state s with
        | false => simp
        | true =>
          have : e.state = s := by
            unfold CAllocStatePtrTy_equal at heq
            simp only [Bool.and_eq_true, decide_eq_true_eq] at heq
            obtain ⟨⟨⟨⟨h1, h2⟩, h3⟩, h4⟩, h5⟩ := heq
            obtain ⟨⟨b1, i1, g1⟩, c1, v1⟩ := s
            obtain ⟨⟨⟨b2, i2, g2⟩, c2, v2⟩, hh⟩ := e
            simp only at h1 h2 h3 h4 h5
            subst h1 h2 h3 h4 h5
            rfl
          rw [he, this]
          simp
      simp only [usetFind, List.map_cons, hp]
      rw [ih (fun x hx => hl x (List.mem_cons_of_mem _ hx))]
  unfold CAllocStateTy.addHashed CAllocStateTy.add
  simp only
  rw [hfind doneSet h]
  cases usetFind (fun e => CAllocStatePtrTy_equal e s) (doneSet.map (fun e => e.state)) with
  | none =>
    refine ⟨rfl, rfl, by simp, ?_⟩
    intro e he
    rcases List.mem_append.1 he with he | he
    · exact h e he
    · rw [List.mem_singleton.1 he]
  | some i => exact ⟨rfl, rfl, rfl, h⟩

/-! ## The cap check and the number of iterations -/

/-- The cap check fires in the last iteration or not at all; when it fires the
run ends with the engine state of the head of that iteration, the popped state
taken off the worklist and one error line added. -/
theorem workLoopTrace_cap (c : RunCtx) (fuel : Nat) (st r : EngineState) (tr : List Iteration)
    (h : workLoopTrace c fuel st = some (tr, r)) :
    ((∀ i ∈ tr, i.capFired c = false) ∧ r.errors = st.errors ∧ r.workList = []) ∨
      ∃ tr0 i, tr = tr0 ++ [i] ∧ (∀ j ∈ tr0, j.capFired c = false) ∧ i.capFired c = true ∧
        i.head.errors = st.errors ∧
        r = { i.head with
              workList := i.head.workList.tail
              errors := st.errors ++ [tooManyStates] } := by
  induction fuel generalizing st tr with
  | zero => simp [workLoopTrace] at h
  | succ n ih =>
    rcases workLoop_cases c st with hw | ⟨s, rest, hw, herr⟩ | ⟨s, rest, hw, herr, hcap⟩ |
      ⟨s, rest, hw, herr, hcap⟩
    · rw [workLoopTrace_nil c n st hw] at h
      cases h
      exact Or.inl ⟨fun i hi => absurd hi (List.not_mem_nil i), rfl, hw⟩
    · rw [workLoopTrace_error c n st s rest hw herr] at h
      obtain ⟨tr2, r2, h2, he⟩ := option_map_eq_some_pair _ _ _ h
      cases he
      have hfirst : Iteration.capFired c ⟨s, st⟩ = false := by
        show (!(c.errorBasicBlocks.contains s.bb) && _) = false
        rw [herr]
        rfl
      rcases ih _ tr2 h2 with ⟨h3, h4, h5⟩ | ⟨tr0, i, h3, h4, h5, h6, h7⟩
      · left
        refine ⟨?_, h4, h5⟩
        intro i hi
        rcases List.mem_cons.1 hi with rfl | hi
        · exact hfirst
        · exact h3 i hi
      · right
        refine ⟨⟨s, st⟩ :: tr0, i, by rw [h3]; rfl, ?_, h5, h6, h7⟩
        intro j hj
        rcases List.mem_cons.1 hj with rfl | hj
        · exact hfirst
        · exact h4 j hj
    · rw [workLoopTrace_abort c n st s rest hw herr hcap] at h
      cases h
      right
      refine ⟨[], ⟨s, st⟩, rfl, fun j hj => absurd hj (List.not_mem_nil j), ?_, rfl, ?_⟩
      · show (!(c.errorBasicBlocks.contains s.bb) &&
          decide (st.doneSet.length > c.maxStates)) = true
        rw [herr]
        simpa using hcap
      · simp [hw, tooManyStates]
    · rw [workLoopTrace_step c n st s rest hw herr hcap] at h
      obtain ⟨tr2, r2, h2, he⟩ := option_map_eq_some_pair _ _ _ h
      cases he
      have hfirst : Iteration.capFired c ⟨s, st⟩ = false := by
        show (!(c.errorBasicBlocks.contains s.bb) &&
          decide (st.doneSet.length > c.maxStates)) = false
        rw [herr]
        simpa using hcap
      obtain ⟨_, _, _, _, herrs⟩ := processState_containers c s { st with workList := rest }
      rcases ih _ tr2 h2 with ⟨h3, h4, h5⟩ | ⟨tr0, i, h3, h4, h5, h6, h7⟩
      · left
        refine ⟨?_, by rw [h4, herrs], h5⟩
        intro i hi
        rcases List.mem_cons.1 hi with rfl | hi
        · exact hfirst
        · exact h3 i hi
      · right
        rw [herrs] at h6 h7
        refine ⟨⟨s, st⟩ :: tr0, i, by rw [h3]; rfl, ?_, h5, h6, h7⟩
        intro j hj
        rcases List.mem_cons.1 hj with rfl | hj
        · exact hfirst
        · exact h4 j hj

/-- Every iteration takes one state off the worklist and every admitted state
goes on the worklist and into the DoneSet together. -/
theorem workLoopTrace_length (c : RunCtx) (fuel : Nat) (st r : EngineState)
    (tr : List Iteration) (h : workLoopTrace c fuel st = some (tr, r)) :
    tr.length + r.workList.length + st.doneSet.length =
      r.doneSet.length + st.workList.length := by
  induction fuel generalizing st tr with
  | zero => simp [workLoopTrace] at h
  | succ n ih =>
    rcases workLoop_cases c st with hw | ⟨s, rest, hw, herr⟩ | ⟨s, rest, hw, herr, hcap⟩ |
      ⟨s, rest, hw, herr, hcap⟩
    · rw [workLoopTrace_nil c n st hw] at h
      cases h
      simp
      omega
    · rw [workLoopTrace_error c n st s rest hw herr] at h
      obtain ⟨tr2, r2, h2, he⟩ := option_map_eq_some_pair _ _ _ h
      cases he
      have := ih _ tr2 h2
      simp only [List.length_cons, hw] at this ⊢
      omega
    · rw [workLoopTrace_abort c n st s rest hw herr hcap] at h
      cases h
      simp only [List.length_cons, List.length_nil, hw]
      omega
    · rw [workLoopTrace_step c n st s rest hw herr hcap] at h
      obtain ⟨tr2, r2, h2, he⟩ := option_map_eq_some_pair _ _ _ h
      cases he
      have := ih _ tr2 h2
      obtain ⟨k, hk1, hk2⟩ := processState_length c s { st with workList := rest }
      rw [hk1, hk2] at this
      simp only [List.length_cons, hw] at this ⊢
      omega

/-- At most `maxStates + 1` iterations reach the cap check. -/
theorem workLoopTrace_reaching (c : RunCtx) (fuel : Nat) (st r : EngineState)
    (tr : List Iteration) (k : Nat) (h : workLoopTrace c fuel st = some (tr, r))
    (hk : k + st.workList.length ≤ st.doneSet.length) (hkc : k ≤ c.maxStates) :
    (tr.filter (fun i => i.reachesCapCheck c)).length + k ≤ c.maxStates + 1 := by
  induction fuel generalizing st tr k with
  | zero => simp [workLoopTrace] at h
  | succ n ih =>
    rcases workLoop_cases c st with hw | ⟨s, rest, hw, herr⟩ | ⟨s, rest, hw, herr, hcap⟩ |
      ⟨s, rest, hw, herr, hcap⟩
    · rw [workLoopTrace_nil c n st hw] at h
      cases h
      simp
      omega
    · rw [workLoopTrace_error c n st s rest hw herr] at h
      obtain ⟨tr2, r2, h2, he⟩ := option_map_eq_some_pair _ _ _ h
      cases he
      have hk2 : k + rest.length ≤ st.doneSet.length := by
        rw [hw] at hk
        simp only [List.length_cons] at hk
        omega
      have := ih { st with workList := rest } tr2 k h2 hk2 hkc
      have hf : Iteration.reachesCapCheck c ⟨s, st⟩ = false := by
        show (!(c.errorBasicBlocks.contains s.bb)) = false
        rw [herr]
        rfl
      rw [List.filter_cons, hf]
      exact this
    · rw [workLoopTrace_abort c n st s rest hw herr hcap] at h
      cases h
      have hf : Iteration.reachesCapCheck c ⟨s, st⟩ = true := by
        show (!(c.errorBasicBlocks.contains s.bb)) = true
        rw [herr]
        rfl
      rw [List.filter_cons, hf]
      simp only [if_true, List.filter_nil, List.length_cons, List.length_nil]
      omega
    · rw [workLoopTrace_step c n st s rest hw herr hcap] at h
      obtain ⟨tr2, r2, h2, he⟩ := option_map_eq_some_pair _ _ _ h
      cases he
      obtain ⟨j, hj1, hj2⟩ := processState_length c s { st with workList := rest }
      rw [hw] at hk
      simp only [List.length_cons] at hk
      have hk2 : (k + 1) + (processState c s { st with workList := rest }).workList.length ≤
          (processState c s { st with workList := rest }).doneSet.length := by
        rw [hj1, hj2]
        simp only
        omega
      have := ih _ tr2 (k + 1) h2 hk2 (by omega)
      have hf : Iteration.reachesCapCheck c ⟨s, st⟩ = true := by
        show (!(c.errorBasicBlocks.contains s.bb)) = true
        rw [herr]
        rfl
      rw [List.filter_cons, hf]
      simp only [if_true, List.length_cons]
      omega

/-! ## Variable origins in a run -/

theorem VarOriginsTy.find_set_other (k k2 : Nat) (v : CalledFunctionsOrderedSetTy)
    (vo : VarOriginsTy) (h : k2 ≠ k) : (VarOriginsTy.set k v vo).find k2 = vo.find k2 := by
  unfold VarOriginsTy.find
  have hb : (k2 == k) = false := by simpa using h
  induction vo with
  | nil => simp [VarOriginsTy.set, List.lookup, hb]
  | cons e rest ih =>
    obtain ⟨k3, v3⟩ := e
    simp only [VarOriginsTy.set]
    split
    · simp only [List.lookup, hb]
    · split
      · rename_i h1 h2
        subst h2
        simp only [List.lookup, hb]
      · simp only [List.lookup]
        rw [ih]

theorem VarOriginsTy.set_within (vars : List Nat) (k : Nat) (v : CalledFunctionsOrderedSetTy)
    (vo : VarOriginsTy) (hk : k ∈ vars) (h : VarOriginsTy.Within vars vo) :
    VarOriginsTy.Within vars (VarOriginsTy.set k v vo) := by
  intro e he
  rcases VarOriginsTy.set_mem k v vo e he with rfl | he
  · exact hk
  · exact h e he

theorem copyOrigins_within (vars : List Nat) (vo : VarOriginsTy) (src dst : Nat)
    (hk : dst ∈ vars) (h : VarOriginsTy.Within vars vo) :
    VarOriginsTy.Within vars (copyOrigins vo src dst) := by
  unfold copyOrigins
  cases vo.find src with
  | none => exact h
  | some srcOrigs =>
    simp only
    cases vo.find dst with
    | none => exact VarOriginsTy.set_within vars dst _ vo hk h
    | some dstOrigs => exact VarOriginsTy.set_within vars dst _ vo hk h

theorem addOrigin_within (vars : List Nat) (vo : VarOriginsTy) (dst tgt : Nat)
    (hk : dst ∈ vars) (h : VarOriginsTy.Within vars vo) :
    VarOriginsTy.Within vars (addOrigin vo dst tgt) := by
  unfold addOrigin
  cases vo.find dst with
  | none => exact VarOriginsTy.set_within vars dst _ vo hk h
  | some o => exact VarOriginsTy.set_within vars dst _ vo hk h

theorem handleCall_varOrigins (c : RunCtx) (inst : llvm.Value) (cm : CalledModuleTy)
    (s : CAllocStateTy) :
    (handleCall c inst cm s).2.varOrigins = s.varOrigins ∧
      (handleCall c inst cm s).2.bb = s.bb := by
  unfold handleCall
  simp only
  split
  · split <;> exact ⟨rfl, rfl⟩
  · exact ⟨rfl, rfl⟩

theorem handleStore_within (c : RunCtx) (inst : llvm.Value) (cm : CalledModuleTy)
    (s : CAllocStateTy) (h : VarOriginsTy.Within c.possiblyReturnedVars s.varOrigins) :
    VarOriginsTy.Within c.possiblyReturnedVars (handleStore c inst cm s).2.2.varOrigins := by
  unfold handleStore
  split
  · rename_i val dst
    split
    · rename_i hdst
      have hmem : dst ∈ c.possiblyReturnedVars := by simpa using hdst
      split
      · rename_i src
        unfold handleStoreOfLoad
        split
        · exact copyOrigins_within _ _ _ _ hmem h
        · exact h
      · unfold handleStoreOfCall
        simp only
        split
        · split
          · exact addOrigin_within _ _ _ _ hmem h
          · exact h
        · exact h
    · exact h
  · exact h

/-- The instruction step only makes entries for slots of
`possiblyReturnedVars`. -/
theorem visitInstruction_within (c : RunCtx) (inst : llvm.Value) (cm : CalledModuleTy)
    (s : CAllocStateTy) (h : VarOriginsTy.Within c.possiblyReturnedVars s.varOrigins) :
    VarOriginsTy.Within c.possiblyReturnedVars (visitInstruction c inst cm s).2.varOrigins := by
  unfold visitInstruction
  simp only
  split
  · split
    · exact handleStore_within c inst cm _ h
    · rw [(handleCall_varOrigins c inst _ _).1]
      exact handleStore_within c inst cm _ h
  · rw [(handleCall_varOrigins c inst _ _).1]
    exact h

/-- Without origin tracking the instruction step leaves the origins as they
are. -/
theorem visitInstruction_noTrack (c : RunCtx) (inst : llvm.Value) (cm : CalledModuleTy)
    (s : CAllocStateTy) (h : c.trackOrigins = false) :
    (visitInstruction c inst cm s).2.varOrigins = s.varOrigins := by
  unfold visitInstruction
  simp only [h, Bool.false_eq_true, if_false]
  rw [(handleCall_varOrigins c inst _ _).1]

theorem visitBlock_forall (c : RunCtx) (Q : CAllocStateTy → Prop)
    (hvisit : ∀ inst cm s, Q s → Q (visitInstruction c inst cm s).2)
    (insts : List llvm.Value) (cm : CalledModuleTy) (x : CAllocStateTy) (hx : Q x) :
    Q (visitBlock c insts cm x).2 := by
  induction insts generalizing cm x with
  | nil => exact hx
  | cons inst rest ih =>
    simp only [visitBlock]
    exact ih _ _ (hvisit inst cm x hx)

theorem handleReturn_noTrack (c : RunCtx) (t : llvm.Value) (s : CAllocStateTy)
    (e : EngineState) (h : c.trackOrigins = false) :
    (handleReturn c t s e).wrapped = e.wrapped := by
  unfold handleReturn
  split
  · simp only [h, Bool.false_eq_true, if_false]
  · rfl

theorem processState_noTrack (c : RunCtx) (s : CAllocStateTy) (e : EngineState)
    (h : c.trackOrigins = false) : (processState c s e).wrapped = e.wrapped := by
  unfold processState
  simp only
  split
  · rfl
  · simp only [handleReturn_noTrack c _ _ _ h]

/-- A property of abstract states that the instruction step, `clone` and the
tailoring of the guards keep, and that the entry state has, holds in a run of
the loop from the seeded containers for every state of the DoneSet at the end
and, in every iteration, for the popped state, for the state after every
instruction of its block, and for every successor state made at the end. -/
theorem workLoopTrace_states (c : RunCtx) (Q : CAllocStateTy → Prop)
    (hvisit : ∀ inst cm s, Q s → Q (visitInstruction c inst cm s).2)
    (hclone : ∀ (s : CAllocStateTy) b, Q s → Q (s.clone b))
    (hguards : ∀ (s : CAllocStateTy) g, Q s → Q (s.withGuards g))
    (fuel : Nat) (st r : EngineState) (tr : List Iteration)
    (hw : ∀ s ∈ st.workList, Q s) (hd : ∀ s ∈ st.doneSet, Q s)
    (h : workLoopTrace c fuel st = some (tr, r)) :
    (∀ s ∈ r.doneSet, Q s) ∧
      ∀ i ∈ tr, Q i.popped ∧
        (∀ k, Q (visitBlock c ((c.F.block i.popped.bb).take k) i.head.cm i.popped).2) ∧
        ∀ t, ∀ x ∈ successorStates c t
          (visitBlock c (c.F.block i.popped.bb) i.head.cm i.popped).2, Q x := by
  have hsucc := successorStates_forall c Q hclone hguards
  obtain ⟨h1, h2⟩ := workLoopTrace_induct c
    (fun e => (∀ s ∈ e.workList, Q s) ∧ ∀ s ∈ e.doneSet, Q s)
    (fun e s rest hwl hP => ⟨fun x hx => hP.1 x (by rw [hwl]; exact List.mem_cons_of_mem _ hx),
      hP.2⟩)
    (fun e l hP => hP)
    (fun e s rest hwl hP =>
      processState_forall c Q hvisit hsucc s { e with workList := rest }
        (hP.1 s (by rw [hwl]; exact List.mem_cons_self _ _))
        (fun x hx => hP.1 x (by rw [hwl]; exact List.mem_cons_of_mem _ hx)) hP.2)
    fuel st r tr ⟨hw, hd⟩ h
  refine ⟨h2.2, ?_⟩
  intro i hi
  obtain ⟨⟨hwl, _⟩, hpop⟩ := h1 i hi
  have hQ : Q i.popped := by
    apply hwl
    cases hl : i.head.workList with
    | nil => simp [hl] at hpop
    | cons a rest =>
      simp only [hl, List.head?_cons, Option.some.injEq] at hpop
      rw [hpop]
      exact List.mem_cons_self _ _
  exact ⟨hQ, fun k => visitBlock_forall c Q hvisit _ _ _ hQ,
    fun t => hsucc t _ (visitBlock_forall c Q hvisit _ _ _ hQ)⟩

/-! ## A run repeated on a later state of the module -/

theorem processStateP_agree (c : RunCtx) (O : Oracle) (s : CAllocStateTy) (a b : EngineState)
    (h : a.Agree b) : (processStateP c O s a).Agree (processStateP c O s b) := by
  obtain ⟨cm1, wl1, ds1, c1, w1, e1⟩ := a
  obtain ⟨cm2, wl2, ds2, c2, w2, e2⟩ := b
  obtain ⟨h1, h2, h3, h4⟩ := h
  simp only at h1 h2 h3 h4
  subst h1 h2 h3 h4
  rw [processStateP_fields, processStateP_fields]
  split
  · exact ⟨rfl, rfl, rfl, rfl⟩
  · rename_i t ht
    refine ⟨rfl, rfl, ?_, ?_⟩
    · simp only
      rw [(handleReturnP_called c O t _ _).1, (handleReturnP_called c O t _ _).1]
    · simp only
      rw [handleReturnP_fields, handleReturnP_fields]

theorem processState_agree (c : RunCtx) (s : CAllocStateTy) (a b : EngineState)
    (hwa : a.cm.WF) (hwb : b.cm.WF) (cmF : CalledModuleTy) (hwF : cmF.WF)
    (ha : (processState c s a).cm.Ext cmF) (hb : (processState c s b).cm.Ext cmF)
    (h : a.Agree b) : (processState c s a).Agree (processState c s b) := by
  rw [processState_sim c s a cmF hwa ha hwF, processState_sim c s b cmF hwb hb hwF]
  exact processStateP_agree c _ s a b h

/-- A run repeated on a later state of the module, from containers and result
sets that agree, ends with containers and result sets that agree, and with an
error line added in both runs or in none. -/
theorem workLoop_agree (c : RunCtx) (fuel : Nat) (st st2 r : EngineState) (hwf : st.cm.WF)
    (hwf2 : st2.cm.WF) (h : workLoop c fuel st = some r) (hext : r.cm.Ext st2.cm)
    (hag : st.Agree st2) :
    ∃ r2, workLoop c fuel st2 = some r2 ∧ r.Agree r2 ∧
      (r.errors = st.errors ↔ r2.errors = st2.errors) := by
  induction fuel generalizing st st2 with
  | zero => simp [workLoop] at h
  | succ n ih =>
    obtain ⟨hwl, hds, hc, hw⟩ := hag
    rcases workLoop_cases c st with hw1 | ⟨s, rest, hw1, herr⟩ | ⟨s, rest, hw1, herr, hcap⟩ |
      ⟨s, rest, hw1, herr, hcap⟩
    · rw [workLoop_nil c n st hw1] at h
      cases h
      exact ⟨st2, workLoop_nil c n st2 (hwl ▸ hw1), ⟨hwl, hds, hc, hw⟩, by simp⟩
    · rw [workLoop_error c n st s rest hw1 herr] at h
      rw [workLoop_error c n st2 s rest (hwl ▸ hw1) herr]
      exact ih { st with workList := rest } { st2 with workList := rest } hwf hwf2 h hext
        ⟨rfl, hds, hc, hw⟩
    · rw [workLoop_abort c n st s rest hw1 herr hcap] at h
      cases h
      rw [workLoop_abort c n st2 s rest (hwl ▸ hw1) herr (hds ▸ hcap)]
      exact ⟨_, rfl, ⟨rfl, hds, hc, hw⟩, by simp⟩
    · rw [workLoop_step c n st s rest hw1 herr hcap] at h
      rw [workLoop_step c n st2 s rest (hwl ▸ hw1) herr (hds ▸ hcap)]
      have h1 := processState_ext c s { st with workList := rest } hwf
      have h2 := processState_ext c s { st2 with workList := rest } hwf2
      have h3 := workLoop_ext c n _ r h1.2 h
      have hpp : (processState c s { st with workList := rest }).cm.Ext
          (processState c s { st2 with workList := rest }).cm :=
        (h3.1.trans hext).trans h2.1
      have hag2 := processState_agree c s { st with workList := rest }
        { st2 with workList := rest } hwf hwf2 _ h2.2 hpp (CalledModuleTy.Ext.refl _)
        ⟨rfl, hds, hc, hw⟩
      obtain ⟨r2, hr2, hagr, herrs⟩ := ih _ _ h1.2 h2.2 h (hext.trans h2.1) hag2
      refine ⟨r2, hr2, hagr, ?_⟩
      have e1 : (processState c s { st with workList := rest }).errors = st.errors :=
        (processState_containers c s _).choose_spec.2.2.2
      have e2 : (processState c s { st2 with workList := rest }).errors = st2.errors :=
        (processState_containers c s _).choose_spec.2.2.2
      rw [e1, e2] at herrs
      exact herrs

theorem getCalledAndWrappedFunctionsCap_ext (H : Helpers) (maxStates fuel : Nat)
    (f : CalledFunctionTy) (st r : EngineState) (hwf : st.cm.WF)
    (h : getCalledAndWrappedFunctionsCap H maxStates fuel f st = some r) :
    st.cm.Ext r.cm ∧ r.cm.WF := by
  unfold getCalledAndWrappedFunctionsCap at h
  cases hf : f.fun_ with
  | none =>
    simp only [hf, Option.some.injEq] at h
    subst h
    exact ⟨CalledModuleTy.Ext.refl _, hwf⟩
  | some fn =>
    simp only [hf] at h
    split at h
    · simp only [Option.some.injEq] at h
      subst h
      exact ⟨CalledModuleTy.Ext.refl _, hwf⟩
    · exact workLoop_ext _ fuel (seedState st) r hwf h

theorem RunCtx.make_ext (H : Helpers) (cm cm2 : CalledModuleTy) (fn maxStates : Nat)
    (hext : cm.Ext cm2) : RunCtx.make H cm2 fn maxStates = RunCtx.make H cm fn maxStates := by
  unfold RunCtx.make
  rw [← hext.m, ← hext.errorFunctions]

/-- The engine run again on a later state of the module, from the same result
sets and whatever the worklist and the DoneSet hold, returns the same result
sets. -/
theorem getCalledAndWrappedFunctionsCap_agree (H : Helpers) (maxStates fuel fuel2 : Nat)
    (f : CalledFunctionTy) (fn : Nat) (st st2 r r2 : EngineState) (hwf : st.cm.WF)
    (hwf2 : st2.cm.WF) (hf : f.fun_ = some fn) (hbody : (st.cm.m.fn fn).size ≠ 0)
    (h : getCalledAndWrappedFunctionsCap H maxStates fuel f st = some r)
    (hext : r.cm.Ext st2.cm) (hc : st.called = st2.called) (hw : st.wrapped = st2.wrapped)
    (h2 : getCalledAndWrappedFunctionsCap H maxStates fuel2 f st2 = some r2) :
    r2.called = r.called ∧ r2.wrapped = r.wrapped := by
  have hext0 := (getCalledAndWrappedFunctionsCap_ext H maxStates fuel f st r hwf h).1
  have hm : st2.cm.m = st.cm.m := (hext0.trans hext).m.symm
  have hbody2 : (st2.cm.m.fn fn).size ≠ 0 := by rw [hm]; exact hbody
  rw [getCalledAndWrappedFunctionsCap_eq H maxStates fuel f fn st hf hbody] at h
  rw [getCalledAndWrappedFunctionsCap_eq H maxStates fuel2 f fn st2 hf hbody2,
    RunCtx.make_ext H st.cm st2.cm fn maxStates (hext0.trans hext)] at h2
  obtain ⟨r3, hr3, hag, _⟩ := workLoop_agree _ fuel (seedState st) (seedState st2) r hwf hwf2 h
    hext ⟨rfl, rfl, hc, hw⟩
  have e1 := workLoop_fuel_mono _ fuel fuel2 _ _ hr3
  have e2 := workLoop_fuel_mono _ fuel2 fuel _ _ h2
  rw [Nat.add_comm] at e2
  rw [e1] at e2
  cases e2
  exact ⟨hag.2.2.1.symm, hag.2.2.2.symm⟩

theorem getCalledAndWrappedFunctionsCap_fuel_mono (H : Helpers) (maxStates fuel k : Nat)
    (f : CalledFunctionTy) (st r : EngineState)
    (h : getCalledAndWrappedFunctionsCap H maxStates fuel f st = some r) :
    getCalledAndWrappedFunctionsCap H maxStates (fuel + k) f st = some r := by
  unfold getCalledAndWrappedFunctionsCap at h ⊢
  cases hf : f.fun_ with
  | none => simpa [hf] using h
  | some fn =>
    simp only [hf] at h ⊢
    split
    · rename_i hs
      simpa [hs] using h
    · rename_i hs
      simp only [hs, if_false] at h
      exact workLoop_fuel_mono _ fuel k _ _ h

/-! ## The driver -/

theorem getCalledAllocatorsLoop_cons (H : Helpers) (fuel : Nat) (hd : Nat) (rest : List Nat)
    (st : EngineState) :
    getCalledAllocatorsLoop H fuel (hd :: rest) st =
      match st.cm.calledFunctionsTable[hd]? with
      | none => getCalledAllocatorsLoop H fuel rest st
      | some f =>
        match f.fun_ with
        | none => getCalledAllocatorsLoop H fuel rest st
        | some fn =>
          if (st.cm.m.fn fn).size = 0 then getCalledAllocatorsLoop H fuel rest st
          else
            match getCalledAndWrappedFunctions H fuel f
              { st with called := [], wrapped := [] } with
            | none => none
            | some r =>
              (getCalledAllocatorsLoop H fuel rest r).map
                (fun p => (⟨hd, r.called, r.wrapped⟩ :: p.1, p.2)) := by
  rw [getCalledAllocatorsLoop]

/-- The cases of one step of the loop of the driver: the handle is skipped, or
the engine is run on its function. -/
theorem getCalledAllocatorsLoop_cases (H : Helpers) (fuel : Nat) (hd : Nat) (rest : List Nat)
    (st : EngineState) :
    (getCalledAllocatorsLoop H fuel (hd :: rest) st = getCalledAllocatorsLoop H fuel rest st ∧
        ∀ f fn, st.cm.calledFunctionsTable[hd]? = some f → f.fun_ = some fn →
          (st.cm.m.fn fn).size = 0) ∨
      ∃ f fn, st.cm.calledFunctionsTable[hd]? = some f ∧ f.fun_ = some fn ∧
        (st.cm.m.fn fn).size ≠ 0 ∧
        getCalledAllocatorsLoop H fuel (hd :: rest) st =
          match getCalledAndWrappedFunctions H fuel f { st with called := [], wrapped := [] } with
          | none => none
          | some r =>
            (getCalledAllocatorsLoop H fuel rest r).map
              (fun p => (⟨hd, r.called, r.wrapped⟩ :: p.1, p.2)) := by
  cases ht : st.cm.calledFunctionsTable[hd]? with
  | none =>
    left
    refine ⟨?_, fun f fn h => by cases h⟩
    rw [getCalledAllocatorsLoop_cons]
    simp only [ht]
  | some f =>
    cases hf : f.fun_ with
    | none =>
      left
      refine ⟨?_, ?_⟩
      · rw [getCalledAllocatorsLoop_cons]
        simp only [ht, hf]
      · intro f2 fn h2 hf2
        cases h2
        rw [hf] at hf2
        cases hf2
    | some fn =>
      by_cases hs : (st.cm.m.fn fn).size = 0
      · left
        refine ⟨?_, ?_⟩
        · rw [getCalledAllocatorsLoop_cons]
          simp only [ht, hf, hs, if_true]
        · intro f2 fn2 h2 hf2
          cases h2
          rw [hf] at hf2
          cases hf2
          exact hs
      · right
        refine ⟨f, fn, rfl, hf, hs, ?_⟩
        rw [getCalledAllocatorsLoop_cons]
        simp only [ht, hf, hs, if_false]

/-- What the loop of the driver reports: a report is for a handle of the
iteration order and holds the result sets of the engine run on the function of
the handle, from empty sets, in some state of the module between the start and
the end of the loop; and every handle of the order whose function has a body is
reported. -/
theorem getCalledAllocatorsLoop_spec (H : Helpers) (fuel : Nat) (o : List Nat)
    (st st2 : EngineState) (rep : List FunctionReport) (hwf : st.cm.WF)
    (h : getCalledAllocatorsLoop H fuel o st = some (rep, st2)) :
    st.cm.Ext st2.cm ∧ st2.cm.WF ∧
      (∀ x ∈ rep, x.f ∈ o ∧ ∃ (e r : EngineState) (f : CalledFunctionTy) (fn : Nat),
        st.cm.Ext e.cm ∧ e.cm.WF ∧ r.cm.Ext st2.cm ∧
        e.cm.calledFunctionsTable[x.f]? = some f ∧ f.fun_ = some fn ∧
        (e.cm.m.fn fn).size ≠ 0 ∧
        getCalledAndWrappedFunctions H fuel f { e with called := [], wrapped := [] } = some r ∧
        x.called = r.called ∧ x.wrapped = r.wrapped) ∧
      ∀ hd ∈ o, ∀ f fn, st.cm.calledFunctionsTable[hd]? = some f → f.fun_ = some fn →
        (st.cm.m.fn fn).size ≠ 0 → ∃ x ∈ rep, x.f = hd := by
  induction o generalizing st rep with
  | nil =>
    simp only [getCalledAllocatorsLoop, Option.some.injEq, Prod.mk.injEq] at h
    obtain ⟨h1, h2⟩ := h
    subst h1 h2
    exact ⟨CalledModuleTy.Ext.refl _, hwf, fun x hx => absurd hx (List.not_mem_nil x),
      fun hd hhd => absurd hhd (List.not_mem_nil hd)⟩
  | cons hd rest ih =>
    rcases getCalledAllocatorsLoop_cases H fuel hd rest st with ⟨heq, hskip⟩ |
      ⟨f, fn, ht, hf, hs, heq⟩
    · rw [heq] at h
      obtain ⟨h1, h2, h3, h4⟩ := ih st rep hwf h
      refine ⟨h1, h2, ?_, ?_⟩
      · intro x hx
        obtain ⟨hm, hrest⟩ := h3 x hx
        exact ⟨List.mem_cons_of_mem _ hm, hrest⟩
      · intro h0 hh0 f fn htab hfun hsz
        rcases List.mem_cons.1 hh0 with rfl | hh0
        · exact absurd (hskip f fn htab hfun) hsz
        · exact h4 h0 hh0 f fn htab hfun hsz
    · rw [heq] at h
      cases hrun : getCalledAndWrappedFunctions H fuel f { st with called := [], wrapped := [] } with
      | none => simp [hrun] at h
      | some r =>
        simp only [hrun] at h
        obtain ⟨rep2, st3, hloop, hp⟩ := option_map_eq_some_pair _ _ _ h
        simp only [Prod.mk.injEq] at hp
        obtain ⟨hp1, hp2⟩ := hp
        subst hp1 hp2
        have hrext := getCalledAndWrappedFunctionsCap_ext H MAX_STATES fuel f
          { st with called := [], wrapped := [] } r hwf hrun
        obtain ⟨h1, h2, h3, h4⟩ := ih r rep2 hrext.2 hloop
        refine ⟨hrext.1.trans h1, h2, ?_, ?_⟩
        · intro x hx
          rcases List.mem_cons.1 hx with rfl | hx
          · exact ⟨List.mem_cons_self _ _, st, r, f, fn, CalledModuleTy.Ext.refl _, hwf, h1, ht, hf,
              hs, hrun, rfl, rfl⟩
          · obtain ⟨hm, e, r3, f3, fn3, he1, he2, he3, he4⟩ := h3 x hx
            exact ⟨List.mem_cons_of_mem _ hm, e, r3, f3, fn3, hrext.1.trans he1, he2, he3, he4⟩
        · intro h0 hh0 f0 fn0 htab hfun hsz
          rcases List.mem_cons.1 hh0 with rfl | hh0
          · exact ⟨_, List.mem_cons_self _ _, rfl⟩
          · have htab2 : r.cm.calledFunctionsTable[h0]? = some f0 :=
              getElem?_grow hrext.1.calledFunctionsTable htab
            have hsz2 : (r.cm.m.fn fn0).size ≠ 0 := by
              rw [← hrext.1.m]
              exact hsz
            obtain ⟨x, hx, hxf⟩ := h4 h0 hh0 f0 fn0 htab2 hfun hsz2
            exact ⟨x, List.mem_cons_of_mem _ hx, hxf⟩

/-- The loop of the driver returns: every run of the engine does. -/
theorem getCalledAllocatorsLoop_terminates (H : Helpers) (o : List Nat) (st : EngineState) :
    ∃ fuel0, ∀ k, ∃ rep st2, getCalledAllocatorsLoop H (fuel0 + k) o st = some (rep, st2) := by
  induction o generalizing st with
  | nil => exact ⟨0, fun k => ⟨[], st, rfl⟩⟩
  | cons hd rest ih =>
    by_cases hcase : ∃ f fn, st.cm.calledFunctionsTable[hd]? = some f ∧ f.fun_ = some fn ∧
        (st.cm.m.fn fn).size ≠ 0
    · obtain ⟨f, fn, ht, hf, hs⟩ := hcase
      obtain ⟨fa, r, hr⟩ := getCalledAndWrappedFunctions_terminates H f
        { st with called := [], wrapped := [] }
      obtain ⟨fb, hb⟩ := ih r
      refine ⟨fa + fb, ?_⟩
      intro k
      rcases getCalledAllocatorsLoop_cases H (fa + fb + k) hd rest st with ⟨_, hskip⟩ |
        ⟨f2, fn2, ht2, hf2, hs2, heq⟩
      · exact absurd (hskip f fn ht hf) hs
      · rw [ht] at ht2
        cases ht2
        have hr2 : getCalledAndWrappedFunctions H (fa + fb + k) f
            { st with called := [], wrapped := [] } = some r := by
          have := getCalledAndWrappedFunctionsCap_fuel_mono H MAX_STATES fa (fb + k) f _ r hr
          rw [← Nat.add_assoc] at this
          exact this
        obtain ⟨rep, st2, hl⟩ := hb (fa + k)
        have e : fb + (fa + k) = fa + fb + k := by omega
        rw [e] at hl
        rw [heq, hr2]
        simp only [hl, Option.map_some']
        exact ⟨_, _, rfl⟩
    · obtain ⟨fb, hb⟩ := ih st
      refine ⟨fb, ?_⟩
      intro k
      rcases getCalledAllocatorsLoop_cases H (fb + k) hd rest st with ⟨heq, _⟩ |
        ⟨f2, fn2, ht2, hf2, hs2, _⟩
      · rw [heq]
        exact hb k
      · exact absurd ⟨f2, fn2, ht2, hf2, hs2⟩ hcase

theorem getCalledAllocatorsLoop_fuel_mono (H : Helpers) (fuel k : Nat) (o : List Nat)
    (e : EngineState) (p : List FunctionReport × EngineState)
    (hp : getCalledAllocatorsLoop H fuel o e = some p) :
    getCalledAllocatorsLoop H (fuel + k) o e = some p := by
  induction o generalizing e p with
  | nil => simpa [getCalledAllocatorsLoop] using hp
  | cons hd rest ih =>
    rcases getCalledAllocatorsLoop_cases H fuel hd rest e with ⟨heq, hskip⟩ |
      ⟨f, fn, ht, hf, hs, heq⟩
    · rcases getCalledAllocatorsLoop_cases H (fuel + k) hd rest e with ⟨heq2, _⟩ |
        ⟨f, fn, ht, hf, hs, _⟩
      · rw [heq2]
        rw [heq] at hp
        exact ih e p hp
      · exact absurd (hskip f fn ht hf) hs
    · rcases getCalledAllocatorsLoop_cases H (fuel + k) hd rest e with ⟨_, hskip⟩ |
        ⟨f2, fn2, ht2, hf2, hs2, heq2⟩
      · exact absurd (hskip f fn ht hf) hs
      · rw [ht] at ht2
        cases ht2
        rw [heq] at hp
        rw [heq2]
        cases hrun : getCalledAndWrappedFunctions H fuel f
            { e with called := [], wrapped := [] } with
        | none => simp [hrun] at hp
        | some r =>
          have hrun2 : getCalledAndWrappedFunctions H (fuel + k) f
              { e with called := [], wrapped := [] } = some r :=
            getCalledAndWrappedFunctionsCap_fuel_mono H MAX_STATES fuel k f _ r hrun
          simp only [hrun] at hp
          simp only [hrun2]
          obtain ⟨rep, e2, hl, hpe⟩ := option_map_eq_some_pair _ _ _ hp
          rw [ih r (rep, e2) hl]
          simpa using hpe

/-! ## The worklist loop with any discipline -/

theorem takeAt_perm (i : Nat) (top : CAllocStateTy) (tl : List CAllocStateTy) :
    List.Perm ((takeAt i top tl).1 :: (takeAt i top tl).2) (top :: tl) := by
  unfold takeAt
  cases h : (top :: tl)[i]? with
  | none => exact List.Perm.refl _
  | some s =>
    simp only
    obtain ⟨hi, hs⟩ := List.getElem?_eq_some_iff.1 h
    have h1 : top :: tl = (top :: tl).take i ++ s :: (top :: tl).drop (i + 1) := by
      rw [← hs, ← List.drop_eq_getElem_cons hi, List.take_append_drop]
    rw [List.eraseIdx_eq_take_drop_succ]
    conv_rhs => rw [h1]
    exact List.perm_middle.symm

/-- The ways one iteration of the loop can go, whatever state is taken from the
worklist. -/
theorem workLoopWith_cases (pick : EngineState → Nat) (c : RunCtx) (st : EngineState) :
    (st.workList = [] ∧ ∀ fuel, workLoopWith pick c (fuel + 1) st = some st) ∨
      ∃ s rest, List.Perm (s :: rest) st.workList ∧
        ((c.errorBasicBlocks.contains s.bb = true ∧
            ∀ fuel, workLoopWith pick c (fuel + 1) st =
              workLoopWith pick c fuel { st with workList := rest }) ∨
          (c.errorBasicBlocks.contains s.bb = false ∧ st.doneSet.length > c.maxStates ∧
            ∀ fuel, workLoopWith pick c (fuel + 1) st =
              some { st with
                workList := rest
                errors := st.errors ++ ["too many states (abstraction error?)"] }) ∨
          (c.errorBasicBlocks.contains s.bb = false ∧ ¬ st.doneSet.length > c.maxStates ∧
            ∀ fuel, workLoopWith pick c (fuel + 1) st =
              workLoopWith pick c fuel (processState c s { st with workList := rest }))) := by
  cases hw : st.workList with
  | nil =>
    left
    exact ⟨rfl, fun fuel => by simp only [workLoopWith, hw]⟩
  | cons top tl =>
    right
    refine ⟨(takeAt (pick st) top tl).1, (takeAt (pick st) top tl).2, takeAt_perm _ _ _, ?_⟩
    cases herr : c.errorBasicBlocks.contains (takeAt (pick st) top tl).1.bb with
    | true =>
      left
      exact ⟨rfl, fun fuel => by simp only [workLoopWith, hw, herr, if_true]⟩
    | false =>
      right
      by_cases hcap : st.doneSet.length > c.maxStates
      · left
        exact ⟨rfl, hcap, fun fuel => by
          simp only [workLoopWith, hw, herr, hcap, if_true, Bool.false_eq_true, if_false]⟩
      · right
        exact ⟨rfl, hcap, fun fuel => by
          simp only [workLoopWith, hw, herr, hcap, Bool.false_eq_true, if_false]⟩

/-- The loop of the program is the loop that always takes the top. -/
theorem workLoopWith_pickTop (c : RunCtx) (fuel : Nat) (st : EngineState) :
    workLoopWith pickTop c fuel st = workLoop c fuel st := by
  induction fuel generalizing st with
  | zero => rfl
  | succ n ih =>
    unfold workLoopWith workLoop
    cases hw : st.workList with
    | nil => rfl
    | cons top tl =>
      simp only [pickTop, takeAt, List.getElem?_cons_zero, List.eraseIdx_cons_zero]
      rw [ih, ih]

theorem workLoopWith_ext (pick : EngineState → Nat) (c : RunCtx) (fuel : Nat)
    (st r : EngineState) (hwf : st.cm.WF) (h : workLoopWith pick c fuel st = some r) :
    st.cm.Ext r.cm ∧ r.cm.WF := by
  induction fuel generalizing st with
  | zero => simp [workLoopWith] at h
  | succ n ih =>
    rcases workLoopWith_cases pick c st with ⟨_, heq⟩ | ⟨s, rest, _, ⟨_, heq⟩ | ⟨_, _, heq⟩ |
      ⟨_, _, heq⟩⟩
    · rw [heq n] at h
      cases h
      exact ⟨CalledModuleTy.Ext.refl _, hwf⟩
    · rw [heq n] at h
      exact ih { st with workList := rest } hwf h
    · rw [heq n] at h
      cases h
      exact ⟨CalledModuleTy.Ext.refl _, hwf⟩
    · rw [heq n] at h
      have h1 := processState_ext c s { st with workList := rest } hwf
      have h2 := ih _ h1.2 h
      exact ⟨h1.1.trans h2.1, h2.2⟩

/-- The loop halts whatever the discipline. -/
theorem workLoopWith_terminates (pick : EngineState → Nat) (c : RunCtx) (st : EngineState) :
    ∃ fuel r, workLoopWith pick c fuel st = some r := by
  generalize hm : c.maxStates + 1 - st.doneSet.length = m
  induction m using Nat.strong_induction_on generalizing st with
  | _ m ihm =>
    generalize hn : st.workList.length = n
    induction n using Nat.strong_induction_on generalizing st with
    | _ n ihn =>
      rcases workLoopWith_cases pick c st with ⟨_, heq⟩ | ⟨s, rest, hp, ⟨_, heq⟩ | ⟨_, _, heq⟩ |
        ⟨_, hcap, heq⟩⟩
      · exact ⟨1, st, heq 0⟩
      · have hlen : rest.length < n := by
          rw [← hn, ← hp.length_eq]
          simp
        obtain ⟨fuel, r, hr⟩ := ihn rest.length hlen { st with workList := rest } hm rfl
        exact ⟨fuel + 1, r, by rw [heq fuel]; exact hr⟩
      · exact ⟨1, _, heq 0⟩
      · have hlen : rest.length < n := by
          rw [← hn, ← hp.length_eq]
          simp
        obtain ⟨k, hk1, hk2⟩ := processState_length c s { st with workList := rest }
        have hstep : ∃ fuel r, workLoopWith pick c fuel
            (processState c s { st with workList := rest }) = some r := by
          by_cases hk : k = 0
          · subst hk
            apply ihn rest.length hlen
            · rw [hk2]
              exact hm
            · rw [hk1]
              rfl
          · apply ihm (c.maxStates + 1 - (processState c s { st with workList := rest
              }).doneSet.length) _ _ rfl
            rw [hk2, ← hm]
            simp only
            omega
        obtain ⟨fuel, r, hr⟩ := hstep
        exact ⟨fuel + 1, r, by rw [heq fuel]; exact hr⟩

theorem workLoopWith_fuel_mono (pick : EngineState → Nat) (c : RunCtx) (fuel k : Nat)
    (st r : EngineState) (h : workLoopWith pick c fuel st = some r) :
    workLoopWith pick c (fuel + k) st = some r := by
  induction fuel generalizing st with
  | zero => simp [workLoopWith] at h
  | succ n ih =>
    have e : n + 1 + k = (n + k) + 1 := by omega
    rw [e]
    rcases workLoopWith_cases pick c st with ⟨_, heq⟩ | ⟨s, rest, _, ⟨_, heq⟩ | ⟨_, _, heq⟩ |
      ⟨_, _, heq⟩⟩
    · rw [heq n] at h
      rw [heq (n + k)]
      exact h
    · rw [heq n] at h
      rw [heq (n + k)]
      exact ih _ h
    · rw [heq n] at h
      rw [heq (n + k)]
      exact h
    · rw [heq n] at h
      rw [heq (n + k)]
      exact ih _ h

/-! ## Two readings of the handles that agree on the function -/

theorem handleCallP_congr (O O2 : Oracle) (inst : llvm.Value) (s : CAllocStateTy)
    (h : O.AgreeAt O2 inst) : handleCallP O inst s = handleCallP O2 inst s := by
  obtain ⟨h1, h2⟩ := h inst (lookedUp_self inst)
  unfold handleCallP
  rw [← h1]
  cases ht : O.handle inst with
  | none => rfl
  | some t =>
    simp only
    rw [(h2 t ht).1]

theorem handleStoreOfCallP_congr (O O2 : Oracle) (val : llvm.Value) (dst : Nat)
    (s : CAllocStateTy)
    (h : O.handle val = O2.handle val ∧ ∀ t, O.handle val = some t →
      O.allocating t = O2.allocating t ∧ O.possibleAllocator t = O2.possibleAllocator t) :
    handleStoreOfCallP O val dst s = handleStoreOfCallP O2 val dst s := by
  obtain ⟨h1, h2⟩ := h
  unfold handleStoreOfCallP
  rw [← h1]
  cases ht : O.handle val with
  | none => rfl
  | some t =>
    simp only
    rw [(h2 t ht).1]

theorem handleStoreP_congr (c : RunCtx) (O O2 : Oracle) (inst : llvm.Value) (s : CAllocStateTy)
    (h : O.AgreeAt O2 inst) : handleStoreP c O inst s = handleStoreP c O2 inst s := by
  unfold handleStoreP
  split
  · rename_i val dst
    split
    · split
      · rfl
      · exact handleStoreOfCallP_congr O O2 val dst s (h val (by simp [lookedUp]))
    · rfl
  · rfl

theorem visitInstructionP_congr (c : RunCtx) (O O2 : Oracle) (inst : llvm.Value)
    (s : CAllocStateTy) (h : O.AgreeAt O2 inst) :
    visitInstructionP c O inst s = visitInstructionP c O2 inst s := by
  unfold visitInstructionP
  simp only
  rw [handleStoreP_congr c O O2 inst _ h]
  split
  · split
    · rfl
    · exact handleCallP_congr O O2 inst _ h
  · exact handleCallP_congr O O2 inst _ h

theorem visitBlockP_congr (c : RunCtx) (O O2 : Oracle) (insts : List llvm.Value)
    (s : CAllocStateTy) (h : ∀ inst ∈ insts, O.AgreeAt O2 inst) :
    visitBlockP c O insts s = visitBlockP c O2 insts s := by
  induction insts generalizing s with
  | nil => rfl
  | cons inst rest ih =>
    simp only [visitBlockP]
    rw [visitInstructionP_congr c O O2 inst s (h inst (List.mem_cons_self _ _))]
    exact ih _ (fun i hi => h i (List.mem_cons_of_mem _ hi))

theorem collectWrappedP_congr (O O2 : Oracle) (rv : llvm.Value) (s : CAllocStateTy)
    (w : CalledFunctionsOrderedSetTy) (h : O.AgreeAt O2 (llvm.Value.returnInst (some rv))) :
    collectWrappedP O rv s w = collectWrappedP O2 rv s w := by
  obtain ⟨h1, h2⟩ := h rv (by simp [lookedUp])
  unfold collectWrappedP
  simp only
  rw [← h1]
  cases ht : O.handle rv with
  | none => rfl
  | some t =>
    simp only
    rw [(h2 t ht).2]

theorem handleReturnP_congr (c : RunCtx) (O O2 : Oracle) (t : llvm.Value) (s : CAllocStateTy)
    (st : EngineState) (hgc : O.gcFunction = O2.gcFunction) (h : O.AgreeAt O2 t) :
    handleReturnP c O t s st = handleReturnP c O2 t s st := by
  unfold handleReturnP
  split
  · rename_i returnValue
    simp only
    rw [hgc]
    split
    · cases returnValue with
      | none => rfl
      | some rv =>
        simp only
        rw [collectWrappedP_congr O O2 rv s _ h]
    · rfl
  · rfl

theorem blockEnd_congr (c : RunCtx) (O O2 : Oracle) (s : CAllocStateTy)
    (h : O.AgreeOn c.F O2) : blockEnd c O s = blockEnd c O2 s := by
  unfold blockEnd
  apply visitBlockP_congr
  intro inst hinst
  obtain ⟨bb, hbb, hi⟩ := block_mem c.F s.bb inst hinst
  exact h.2 bb hbb inst hi

/-- Processing a state gives the same engine state under two readings of the
handles that agree on the function. -/
theorem processStateP_congr (c : RunCtx) (O O2 : Oracle) (s : CAllocStateTy) (st : EngineState)
    (h : O.AgreeOn c.F O2) : processStateP c O s st = processStateP c O2 s st := by
  rw [processStateP_fields, processStateP_fields, blockEnd_congr c O O2 s h]
  cases ht : (c.F.block s.bb).getTerminator with
  | none => rfl
  | some t =>
    simp only
    obtain ⟨bb, hbb, hi⟩ := block_mem c.F s.bb t (getTerminator_mem _ t ht)
    rw [handleReturnP_congr c O O2 t _ st h.1 (h.2 bb hbb t hi)]

theorem lookupHandle_get (icc : llvm.Value → Option String) (cm : CalledModuleTy)
    (v : llvm.Value) (h : Nat) (hl : cm.lookupHandle icc v = some h) :
    ∃ cf, cm.calledFunctionsTable[h]? = some cf := by
  unfold CalledModuleTy.lookupHandle at hl
  split at hl
  · split at hl
    · obtain ⟨e, he, _⟩ := usetFind_get _ _ _ hl
      exact ⟨e, he⟩
    · cases hl
  · cases hl

/-- In a module where the call sites of the function are registered, every
later state of the module reads the handles as the module does. -/
theorem ofModule_agreeOn (icc : llvm.Value → Option String) (cm cm2 : CalledModuleTy)
    (F : llvm.Function) (hwf : cm.WF) (hext : cm.Ext cm2) (hwf2 : cm2.WF)
    (hreg : cm.Registered icc F) :
    (Oracle.ofModule icc cm2).AgreeOn F (Oracle.ofModule icc cm) := by
  refine ⟨hext.gcFunction.symm, ?_⟩
  intro bb hbb inst hinst v hv
  have hr := hreg bb hbb inst hinst v hv
  simp only [Oracle.ofModule]
  cases hl : cm.lookupHandle icc v with
  | none =>
    rw [hl] at hr
    have h2 : (cm2.getCalledFunction_Value icc v).1 = none :=
      (getCalledFunction_Value_none icc cm2 v).2 ((getCalledFunction_Value_none icc cm v).1 hr)
    rw [h2, hr]
    exact ⟨rfl, fun t ht => by cases ht⟩
  | some h =>
    rw [hl] at hr
    have h2 := (getCalledFunction_Value_hit icc cm2 v h hwf2
      (lookupHandle_ext hwf hext icc v h hl)).1
    rw [h2, hr]
    refine ⟨rfl, ?_⟩
    intro t ht
    cases ht
    obtain ⟨cf, hcf⟩ := lookupHandle_get icc cm v h hl
    rw [funOf_grow hext h cf hcf]
    simp only [CalledModuleTy.isAllocating, CalledModuleTy.isPossibleAllocator,
      hext.allocatingFunctions, hext.possibleAllocators]
    exact ⟨by trivial, by trivial⟩

/-! ## The wrapped set of a run -/

theorem collectWrappedP_split (O : Oracle) (rv : llvm.Value) (x : CAllocStateTy)
    (w : CalledFunctionsOrderedSetTy) (u : Nat) :
    u ∈ collectWrappedP O rv x w ↔ u ∈ w ∨ u ∈ collectWrappedP O rv x [] := by
  have hw1 : ∀ w2 : CalledFunctionsOrderedSetTy,
      u ∈ (match rv with
        | .loadInst (.allocaInst src) =>
          match x.varOrigins.find src with
          | some knownOrigins => CalledFunctionsOrderedSetTy.insertAll knownOrigins w2
          | none => w2
        | _ => w2) ↔
      u ∈ w2 ∨ u ∈ (match rv with
        | .loadInst (.allocaInst src) =>
          match x.varOrigins.find src with
          | some knownOrigins => CalledFunctionsOrderedSetTy.insertAll knownOrigins []
          | none => []
        | _ => []) := by
    intro w2
    split
    · split
      · simp only [mem_insertAll, List.not_mem_nil, or_false]
        exact or_comm
      · simp
    · simp
  unfold collectWrappedP
  simp only
  cases O.handle rv with
  | none =>
    simp only
    exact hw1 w
  | some t =>
    simp only
    split
    · simp only [mem_orderedInsert]
      rw [hw1 w]
      constructor
      · rintro (h | h | h)
        · exact Or.inr (Or.inl h)
        · exact Or.inl h
        · exact Or.inr (Or.inr h)
      · rintro (h | h | h)
        · exact Or.inr (Or.inl h)
        · exact Or.inl h
        · exact Or.inr (Or.inr h)
    · exact hw1 w

theorem contains_iff_mem (l : List Nat) (x : Nat) : l.contains x = true ↔ x ∈ l := by
  simp

/-- The wrapped set after processing `s`, over fixed handles. -/
theorem processStateP_wrapped (c : RunCtx) (O : Oracle) (s : CAllocStateTy) (st : EngineState)
    (u : Nat) :
    u ∈ (processStateP c O s st).wrapped ↔
      u ∈ st.wrapped ∨ u ∈ returnedOrigins c O s ∨
        (u = O.gcFunction ∧ returnsTracked c s = true ∧
          O.gcFunction ∈ (processStateP c O s st).called) := by
  rw [processStateP_fields]
  unfold returnedOrigins returnsTracked
  cases ht : (c.F.block s.bb).getTerminator with
  | none => simp
  | some t =>
    simp only
    rw [handleReturnP_fields, (handleReturnP_called c O t _ st).1]
    cases t with
    | returnInst rvo =>
      simp only
      cases htrack : c.trackOrigins with
      | false => cases rvo <;> simp
      | true =>
        simp only [if_true]
        by_cases hgc : (CalledFunctionsOrderedSetTy.insertAll (blockEnd c O s).called
            st.called).contains O.gcFunction = true
        · have hmem := (contains_iff_mem _ _).1 hgc
          simp only [hgc, if_true]
          cases rvo with
          | none =>
            simp only [mem_orderedInsert, List.not_mem_nil, false_or]
            constructor
            · rintro (h | h)
              · exact Or.inr ⟨h, by trivial, hmem⟩
              · exact Or.inl h
            · rintro (h | ⟨h, _⟩)
              · exact Or.inr h
              · exact Or.inl h
          | some rv =>
            simp only
            rw [collectWrappedP_split, mem_orderedInsert]
            constructor
            · rintro ((h | h) | h)
              · exact Or.inr (Or.inr ⟨h, by trivial, hmem⟩)
              · exact Or.inl h
              · exact Or.inr (Or.inl h)
            · rintro (h | h | ⟨h, _⟩)
              · exact Or.inl (Or.inr h)
              · exact Or.inr h
              · exact Or.inl (Or.inl h)
        · have hmem : O.gcFunction ∉ CalledFunctionsOrderedSetTy.insertAll
              (blockEnd c O s).called st.called := fun h => hgc ((contains_iff_mem _ _).2 h)
          simp only [hgc, if_false]
          cases rvo with
          | none =>
            simp only [List.not_mem_nil, false_or]
            constructor
            · exact fun h => Or.inl h
            · rintro (h | ⟨_, _, h⟩)
              · exact h
              · exact absurd h hmem
          | some rv =>
            simp only
            rw [collectWrappedP_split]
            constructor
            · rintro (h | h)
              · exact Or.inl h
              · exact Or.inr (Or.inl h)
            · rintro (h | h | ⟨_, _, h⟩)
              · exact Or.inl h
              · exact Or.inr h
              · exact absurd h hmem
    | globalVariable g => simp
    | allocaInst a => simp
    | loadInst p => simp
    | storeInst v p => simp
    | callInst f a => simp
    | invokeInst f a su => simp
    | branchInst su => simp
    | other tag => simp

/-- A state whose block does not end in a return gives nothing to the called
set. -/
theorem returnedCalls_of_not_return (c : RunCtx) (O : Oracle) (s : CAllocStateTy)
    (htrack : c.trackOrigins = true) (h : returnsTracked c s = false) :
    returnedCalls c O s = [] := by
  unfold returnsTracked at h
  unfold returnedCalls
  cases ht : (c.F.block s.bb).getTerminator with
  | none => rfl
  | some t =>
    cases t with
    | returnInst rvo =>
      simp only [ht, htrack] at h
      cases h
    | globalVariable g => rfl
    | allocaInst a => rfl
    | loadInst p => rfl
    | storeInst v p => rfl
    | callInst f a => rfl
    | invokeInst f a su => rfl
    | branchInst su => rfl
    | other tag => rfl

theorem returnsTracked_track (c : RunCtx) (s : CAllocStateTy) (h : returnsTracked c s = true) :
    c.trackOrigins = true := by
  unfold returnsTracked at h
  split at h
  · exact h
  · cases h

/-- Processing a state keeps the invariant for the wrapped set. -/
theorem wrapInv_step (c : RunCtx) (O : Oracle) (called0 wrapped0 : CalledFunctionsOrderedSetTy)
    (st : EngineState) (s : CAllocStateTy) (rest : List CAllocStateTy)
    (hw : st.workList = s :: rest) (herr : c.errorBasicBlocks.contains s.bb = false)
    (hinv : LoopInv c O called0 st) (hwi : WrapInv c O wrapped0 st) :
    WrapInv c O wrapped0 (processStateP c O s { st with workList := rest }) := by
  obtain ⟨hwl, hds, _⟩ := processStateP_containers c O s { st with workList := rest }
  obtain ⟨a1, a2, a3, a4, a5⟩ := addAll_spec (nextStates c O s) rest st.doneSet
  have hs_done : s ∈ st.doneSet := hinv.work_done s (by rw [hw]; simp)
  have hs_reach : Reach c O s := hinv.reach s hs_done
  have hwr := processStateP_wrapped c O s { st with workList := rest }
  have hca := processStateP_called c O s { st with workList := rest }
  have hgc_new : returnsTracked c s = true →
      O.gcFunction ∈ (processStateP c O s { st with workList := rest }).called →
      O.gcFunction ∈ (processStateP c O s { st with workList := rest }).wrapped :=
    fun h1 h2 => (hwr _).2 (Or.inr (Or.inr ⟨rfl, h1, h2⟩))
  refine ⟨?_, ?_, ?_⟩
  · intro x hx
    rw [hds] at hx
    rw [hwl]
    rcases a4 x hx with h | ⟨_, h⟩
    · rcases hwi.processed x h with h1 | h1 | ⟨h1, h2⟩
      · rw [hw] at h1
        simp only [List.mem_cons] at h1
        rcases h1 with h1 | h1
        · subst h1
          right
          right
          exact ⟨fun t ht => (hwr t).2 (Or.inr (Or.inl ht)), hgc_new⟩
        · exact Or.inl (a2 x h1)
      · exact Or.inr (Or.inl h1)
      · right
        right
        refine ⟨fun t ht => (hwr t).2 (Or.inl (h1 t ht)), ?_⟩
        intro hx_ret hgc
        cases hs_ret : returnsTracked c s with
        | true => exact hgc_new hs_ret hgc
        | false =>
          have hnone := returnedCalls_of_not_return c O s (returnsTracked_track c x hx_ret) hs_ret
          rcases (hca _).1 hgc with h3 | h3
          · rw [hnone] at h3
            cases h3
          · exact (hwr _).2 (Or.inl (h2 hx_ret h3))
    · exact Or.inl h
  · intro t ht
    rcases (hwr t).1 ht with h | h | ⟨h1, h2, h3⟩
    · rcases hwi.sound t h with h0 | ⟨x, hx1, hx2, hx3 | ⟨hx3, hx4, hx5⟩⟩
      · exact Or.inl h0
      · exact Or.inr ⟨x, hx1, hx2, Or.inl hx3⟩
      · exact Or.inr ⟨x, hx1, hx2, Or.inr ⟨hx3, hx4, (hca _).2 (Or.inr hx5)⟩⟩
    · exact Or.inr ⟨s, hs_reach, herr, Or.inl h⟩
    · exact Or.inr ⟨s, hs_reach, herr, Or.inr ⟨h1, h2, h3⟩⟩
  · intro t ht
    exact (hwr t).2 (Or.inl (hwi.mono t ht))

/-- Dropping a state on an error block keeps the invariant for the wrapped
set. -/
theorem wrapInv_drop (c : RunCtx) (O : Oracle) (wrapped0 : CalledFunctionsOrderedSetTy)
    (st : EngineState) (s : CAllocStateTy) (rest : List CAllocStateTy)
    (hw : st.workList = s :: rest) (herr : c.errorBasicBlocks.contains s.bb = true)
    (hwi : WrapInv c O wrapped0 st) : WrapInv c O wrapped0 { st with workList := rest } := by
  refine ⟨?_, hwi.sound, hwi.mono⟩
  intro x hx
  rcases hwi.processed x hx with h1 | h1 | h1
  · rw [hw] at h1
    simp only [List.mem_cons] at h1
    rcases h1 with h1 | h1
    · subst h1
      exact Or.inr (Or.inl herr)
    · exact Or.inl h1
  · exact Or.inr (Or.inl h1)
  · exact Or.inr (Or.inr h1)

/-- The invariants only look at which states are on the worklist. -/
theorem wrapInv_congr (c : RunCtx) (O : Oracle) (wrapped0 : CalledFunctionsOrderedSetTy)
    (st st2 : EngineState) (hw : ∀ x, x ∈ st2.workList ↔ x ∈ st.workList)
    (hd : st2.doneSet = st.doneSet) (hc : st2.called = st.called)
    (hwr : st2.wrapped = st.wrapped) (hwi : WrapInv c O wrapped0 st) :
    WrapInv c O wrapped0 st2 := by
  obtain ⟨h1, h2, h3⟩ := hwi
  refine ⟨?_, ?_, ?_⟩
  · intro x hx
    rw [hd] at hx
    rw [hc, hwr]
    rcases h1 x hx with h | h | h
    · exact Or.inl ((hw x).2 h)
    · exact Or.inr (Or.inl h)
    · exact Or.inr (Or.inr h)
  · rw [hwr, hc]
    exact h2
  · rw [hwr]
    exact h3

theorem LoopInv.congr_mem (c : RunCtx) (O : Oracle) (called0 : CalledFunctionsOrderedSetTy)
    (st st2 : EngineState) (hw : ∀ x, x ∈ st2.workList ↔ x ∈ st.workList)
    (hd : st2.doneSet = st.doneSet) (hc : st2.called = st.called)
    (hinv : LoopInv c O called0 st) : LoopInv c O called0 st2 := by
  obtain ⟨h1, h2, h3, h4, h5, h6⟩ := hinv
  refine ⟨?_, ?_, ?_, ?_, ?_, ?_⟩
  · intro x hx
    rw [hd]
    exact h1 x ((hw x).1 hx)
  · intro x hx
    rw [hd] at hx
    rw [hd, hc]
    rcases h2 x hx with h | h | h
    · exact Or.inl ((hw x).2 h)
    · exact Or.inr (Or.inl h)
    · exact Or.inr (Or.inr h)
  · rw [hd]
    exact h3
  · rw [hc]
    exact h4
  · rw [hd]
    exact h5
  · rw [hc]
    exact h6

theorem wrapInv_seed (c : RunCtx) (O : Oracle) (st : EngineState) :
    WrapInv c O st.wrapped (seedState st) := by
  refine ⟨?_, fun t ht => Or.inl ht, fun t ht => ht⟩
  intro x hx
  exact Or.inl hx

/-! ## Result sets are sets -/

theorem insert_isSet (x : Nat) (l : CalledFunctionsOrderedSetTy)
    (h : CalledFunctionsOrderedSetTy.IsSet l) :
    CalledFunctionsOrderedSetTy.IsSet (CalledFunctionsOrderedSetTy.insert x l) := by
  unfold CalledFunctionsOrderedSetTy.IsSet at h ⊢
  induction l with
  | nil => simp [CalledFunctionsOrderedSetTy.insert]
  | cons y ys ih =>
    have hy := List.sorted_cons.1 h
    simp only [CalledFunctionsOrderedSetTy.insert]
    split
    · rename_i hlt
      refine List.sorted_cons.2 ⟨?_, h⟩
      intro b hb
      rcases List.mem_cons.1 hb with rfl | hb
      · exact hlt
      · exact Nat.lt_trans hlt (hy.1 b hb)
    · split
      · exact h
      · rename_i h1 h2
        refine List.sorted_cons.2 ⟨?_, ih hy.2⟩
        intro b hb
        rcases (mem_orderedInsert x b ys).1 hb with rfl | hb
        · omega
        · exact hy.1 b hb

theorem insertAll_isSet (src dst : CalledFunctionsOrderedSetTy)
    (h : CalledFunctionsOrderedSetTy.IsSet dst) :
    CalledFunctionsOrderedSetTy.IsSet (CalledFunctionsOrderedSetTy.insertAll src dst) := by
  unfold CalledFunctionsOrderedSetTy.insertAll
  induction src generalizing dst with
  | nil => exact h
  | cons x rest ih =>
    simp only [List.foldl_cons]
    exact ih _ (insert_isSet x dst h)

theorem isSet_ext (l1 l2 : CalledFunctionsOrderedSetTy)
    (h1 : CalledFunctionsOrderedSetTy.IsSet l1) (h2 : CalledFunctionsOrderedSetTy.IsSet l2)
    (h : ∀ t, t ∈ l1 ↔ t ∈ l2) : l1 = l2 :=
  List.eq_of_perm_of_sorted ((List.perm_ext_iff_of_nodup h1.nodup h2.nodup).2 h) h1 h2

theorem collectWrappedP_isSet (O : Oracle) (rv : llvm.Value) (x : CAllocStateTy)
    (w : CalledFunctionsOrderedSetTy) (h : CalledFunctionsOrderedSetTy.IsSet w) :
    CalledFunctionsOrderedSetTy.IsSet (collectWrappedP O rv x w) := by
  have hw1 : CalledFunctionsOrderedSetTy.IsSet
      (match rv with
        | .loadInst (.allocaInst src) =>
          match x.varOrigins.find src with
          | some knownOrigins => CalledFunctionsOrderedSetTy.insertAll knownOrigins w
          | none => w
        | _ => w) := by
    split
    · split
      · exact insertAll_isSet _ _ h
      · exact h
    · exact h
  unfold collectWrappedP
  simp only
  split
  · split
    · exact insert_isSet _ _ hw1
    · exact hw1
  · exact hw1

theorem processStateP_isSet (c : RunCtx) (O : Oracle) (s : CAllocStateTy) (st : EngineState)
    (hc : CalledFunctionsOrderedSetTy.IsSet st.called)
    (hw : CalledFunctionsOrderedSetTy.IsSet st.wrapped) :
    CalledFunctionsOrderedSetTy.IsSet (processStateP c O s st).called ∧
      CalledFunctionsOrderedSetTy.IsSet (processStateP c O s st).wrapped := by
  rw [processStateP_fields]
  cases ht : (c.F.block s.bb).getTerminator with
  | none => exact ⟨hc, hw⟩
  | some t =>
    simp only
    rw [handleReturnP_fields, (handleReturnP_called c O t _ st).1]
    have hw0 : CalledFunctionsOrderedSetTy.IsSet
        (if (CalledFunctionsOrderedSetTy.insertAll (blockEnd c O s).called st.called).contains
            O.gcFunction then
          CalledFunctionsOrderedSetTy.insert O.gcFunction st.wrapped
        else st.wrapped) := by
      split
      · exact insert_isSet _ _ hw
      · exact hw
    constructor
    · split
      · exact insertAll_isSet _ _ hc
      · exact hc
    · split
      · split
        · split
          · exact collectWrappedP_isSet _ _ _ _ hw0
          · exact hw0
        · exact hw
      · exact hw

/-! ## The result of a run with any discipline -/

/-- A run with any discipline that ends without tripping the cap ends with an
empty worklist and with the invariants of the loop, over a reading of the
handles that every later state of the module agrees with. -/
theorem workLoopWith_inv (pick : EngineState → Nat) (c : RunCtx) (O : Oracle)
    (called0 wrapped0 : CalledFunctionsOrderedSetTy) (fuel : Nat) (st r : EngineState)
    (hwf : st.cm.WF)
    (hag : ∀ cm2, st.cm.Ext cm2 → cm2.WF →
      (Oracle.ofModule c.H.isInstallConstantCall cm2).AgreeOn c.F O)
    (h : workLoopWith pick c fuel st = some r) (hno : r.errors = st.errors)
    (hinv : LoopInv c O called0 st) (hwi : WrapInv c O wrapped0 st)
    (hsc : CalledFunctionsOrderedSetTy.IsSet st.called)
    (hsw : CalledFunctionsOrderedSetTy.IsSet st.wrapped) :
    r.workList = [] ∧ LoopInv c O called0 r ∧ WrapInv c O wrapped0 r ∧
      CalledFunctionsOrderedSetTy.IsSet r.called ∧
      CalledFunctionsOrderedSetTy.IsSet r.wrapped := by
  induction fuel generalizing st with
  | zero => simp [workLoopWith] at h
  | succ n ih =>
    rcases workLoopWith_cases pick c st with ⟨hw, heq⟩ | ⟨s, rest, hp, ⟨herr, heq⟩ |
      ⟨_, _, heq⟩ | ⟨herr, _, heq⟩⟩
    · rw [heq n] at h
      cases h
      exact ⟨hw, hinv, hwi, hsc, hsw⟩
    · rw [heq n] at h
      have hmem : ∀ x, x ∈ s :: rest ↔ x ∈ st.workList := fun x => hp.mem_iff
      have hinv2 := LoopInv.congr_mem c O called0 st { st with workList := s :: rest } hmem rfl
        rfl hinv
      have hwi2 := wrapInv_congr c O wrapped0 st { st with workList := s :: rest } hmem rfl rfl
        rfl hwi
      exact ih { st with workList := rest } hwf hag h hno
        (LoopInv.drop c O called0 { st with workList := s :: rest } s rest rfl herr hinv2)
        (wrapInv_drop c O wrapped0 { st with workList := s :: rest } s rest rfl herr hwi2)
        hsc hsw
    · rw [heq n] at h
      cases h
      simp at hno
    · rw [heq n] at h
      have hmem : ∀ x, x ∈ s :: rest ↔ x ∈ st.workList := fun x => hp.mem_iff
      have hinv2 := LoopInv.congr_mem c O called0 st { st with workList := s :: rest } hmem rfl
        rfl hinv
      have hwi2 := wrapInv_congr c O wrapped0 st { st with workList := s :: rest } hmem rfl rfl
        rfl hwi
      have h1 := processState_ext c s { st with workList := rest } hwf
      have hsim := processState_sim c s { st with workList := rest } _ hwf
        (CalledModuleTy.Ext.refl _) h1.2
      rw [processStateP_congr c _ O s _ (hag _ h1.1 h1.2)] at hsim
      have hstep1 := LoopInv.step c O called0 { st with workList := s :: rest } s rest rfl herr
        hinv2
      have hstep2 := wrapInv_step c O called0 wrapped0 { st with workList := s :: rest } s rest
        rfl herr hinv2 hwi2
      have hstep3 := processStateP_isSet c O s { st with workList := rest } hsc hsw
      have herrs : (processState c s { st with workList := rest }).errors = st.errors := by
        rw [hsim]
        exact (processStateP_containers c O s { st with workList := rest }).2.2
      apply ih (processState c s { st with workList := rest }) h1.2
        (fun cm2 he hw2 => hag cm2 (h1.1.trans he) hw2) h (by rw [hno, herrs])
      · apply LoopInv.congr c O called0 _ _ _ _ _ hstep1 <;> rw [hsim]
      · apply wrapInv_congr c O wrapped0 _ _ _ _ _ _ hstep2
        · intro x
          rw [hsim]
        · rw [hsim]
        · rw [hsim]
        · rw [hsim]
      · rw [hsim]
        exact hstep3.1
      · rw [hsim]
        exact hstep3.2

/-- The called set and the wrapped set of a run with any discipline that ends
without tripping the cap, in a module where the call sites of the function are
registered: they are given by the states the engine reaches, whatever the order
in which it works on them. -/
theorem workLoopWith_result (pick : EngineState → Nat) (c : RunCtx) (O : Oracle)
    (fuel : Nat) (st r : EngineState) (hwf : st.cm.WF)
    (hag : ∀ cm2, st.cm.Ext cm2 → cm2.WF →
      (Oracle.ofModule c.H.isInstallConstantCall cm2).AgreeOn c.F O)
    (h : workLoopWith pick c fuel (seedState st) = some r) (hno : r.errors = st.errors)
    (hsc : CalledFunctionsOrderedSetTy.IsSet st.called)
    (hsw : CalledFunctionsOrderedSetTy.IsSet st.wrapped) :
    CalledFunctionsOrderedSetTy.IsSet r.called ∧ CalledFunctionsOrderedSetTy.IsSet r.wrapped ∧
      (∀ t, t ∈ r.called ↔ t ∈ st.called ∨
        ∃ s, Reach c O s ∧ c.errorBasicBlocks.contains s.bb = false ∧
          t ∈ returnedCalls c O s) ∧
      ∀ t, t ∈ r.wrapped ↔ t ∈ st.wrapped ∨
        ∃ s, Reach c O s ∧ c.errorBasicBlocks.contains s.bb = false ∧
          (t ∈ returnedOrigins c O s ∨
            (t = O.gcFunction ∧ returnsTracked c s = true ∧ O.gcFunction ∈ r.called)) := by
  obtain ⟨hw, hinv, hwi, h1, h2⟩ := workLoopWith_inv pick c O st.called st.wrapped fuel
    (seedState st) r hwf hag h hno (LoopInv.seed c O st) (wrapInv_seed c O st) hsc hsw
  refine ⟨h1, h2, ?_, ?_⟩
  · intro t
    constructor
    · exact hinv.called_sound t
    · rintro (h0 | ⟨s, hs, herr, ht⟩)
      · exact hinv.called_mono t h0
      · have hd := LoopInv.reach_done c _ st.called r hw hinv s hs
        rcases hinv.processed s hd with h3 | h3 | ⟨h3, _⟩
        · rw [hw] at h3
          cases h3
        · rw [herr] at h3
          cases h3
        · exact h3 t ht
  · intro t
    constructor
    · exact hwi.sound t
    · rintro (h0 | ⟨s, hs, herr, ht⟩)
      · exact hwi.mono t h0
      · have hd := LoopInv.reach_done c _ st.called r hw hinv s hs
        rcases hwi.processed s hd with h3 | h3 | ⟨h3, h4⟩
        · rw [hw] at h3
          cases h3
        · rw [herr] at h3
          cases h3
        · rcases ht with ht | ⟨rfl, ht1, ht2⟩
          · exact h3 t ht
          · exact h4 ht1 ht2

/-! ## C11: functions without a body -/

theorem CAllocStatePtrTy_equal_iff (a b : CAllocStateTy) :
    CAllocStatePtrTy_equal a b = true ↔ a = b := by
  unfold CAllocStatePtrTy_equal
  simp only [Bool.and_eq_true, decide_eq_true_eq]
  constructor
  · rintro ⟨⟨⟨⟨h1, h2⟩, h3⟩, h4⟩, h5⟩
    obtain ⟨⟨b1, i1, g1⟩, c1, v1⟩ := a
    obtain ⟨⟨b2, i2, g2⟩, c2, v2⟩ := b
    simp only at h1 h2 h3 h4 h5
    subst h1 h2 h3 h4 h5
    rfl
  · rintro rfl
    exact ⟨⟨⟨⟨rfl, rfl⟩, rfl⟩, rfl⟩, rfl⟩

theorem structEq_iff (a b : CAllocStateTy) : a.StructEq b ↔ CAllocStatePtrTy_equal a b = true := by
  unfold CAllocStateTy.StructEq CAllocStatePtrTy_equal
  simp only [Bool.and_eq_true, decide_eq_true_eq]
  tauto

/-- C11. Empty body.  For a called function whose function pointer is null or
whose function has no basic blocks, `getCalledAndWrappedFunctions` returns at
once (whatever the bound on the iterations, also none at all) with the engine
state exactly as passed in: `called`, `wrapped`, the diagnostics, the worklist
and the DoneSet; and the loop of the driver skips the handle of such a function
without a report and without touching the state. -/
theorem getCalledAndWrappedFunctions_empty_body (H : Helpers) (f : CalledFunctionTy)
    (st : EngineState)
    (h : f.fun_ = none ∨ ∃ fn, f.fun_ = some fn ∧ (st.cm.m.fn fn).size = 0) :
    (∀ fuel, getCalledAndWrappedFunctions H fuel f st = some st) ∧
      ∀ fuel hd rest, st.cm.calledFunctionsTable[hd]? = some f →
        getCalledAllocatorsLoop H fuel (hd :: rest) st = getCalledAllocatorsLoop H fuel rest st := by
  constructor
  · intro fuel
    unfold getCalledAndWrappedFunctions getCalledAndWrappedFunctionsCap
    rcases h with h | ⟨fn, h, hs⟩
    · simp [h]
    · simp [h, hs]
  · intro fuel hd rest hf
    rw [getCalledAllocatorsLoop]
    rcases h with h | ⟨fn, h, hs⟩
    · simp [hf, h]
    · simp [hf, h, hs]

/-- Witness for C11: the declared function `1` of the example module has no
body; the engine returns the state passed in without any iteration. -/
theorem getCalledAndWrappedFunctions_empty_body_witness :
    (((engineStart (moduleWith [])).cm.m.fn 1).size = 0) ∧
      getCalledAndWrappedFunctions (inertHelpers [] []) 0 ⟨some 1, 0, 0⟩
        (engineStart (moduleWith [])) = some (engineStart (moduleWith [])) :=
  ⟨rfl, (getCalledAndWrappedFunctions_empty_body (inertHelpers [] []) ⟨some 1, 0, 0⟩
    (engineStart (moduleWith [])) (Or.inr ⟨1, rfl, rfl⟩)).1 0⟩

/-! ## C14: the admission protocol -/

/-- C14. Admission protocol.  For every state `s`, worklist and DoneSet,
`CAllocStateTy::add` returns true if and only if the DoneSet holds no state
structurally equal to `s`; when it returns true, `s` is added to the DoneSet and
pushed on top of the worklist, both otherwise as before; when it returns false,
the DoneSet and the worklist are unchanged. -/
theorem CAllocStateTy_add_protocol (s : CAllocStateTy) (workList : WorkListTy)
    (doneSet : DoneSetTy) :
    ((s.add workList doneSet).1 = true ↔ ¬ ∃ e ∈ doneSet, e.StructEq s) ∧
      ((s.add workList doneSet).1 = true →
        (s.add workList doneSet).2 = (s :: workList, doneSet ++ [s])) ∧
      ((s.add workList doneSet).1 = false → (s.add workList doneSet).2 = (workList, doneSet)) := by
  unfold CAllocStateTy.add
  cases hf : usetFind (fun e => CAllocStatePtrTy_equal e s) doneSet with
  | none =>
    have hn := (usetFind_eq_none _ _).1 hf
    refine ⟨⟨fun _ => ?_, fun _ => rfl⟩, fun _ => rfl, fun h => by simp at h⟩
    rintro ⟨e, he, heq⟩
    have := hn e he
    rw [(structEq_iff e s).1 heq] at this
    cases this
  | some i =>
    obtain ⟨e, he, hp⟩ := usetFind_get _ _ _ hf
    refine ⟨⟨fun h => by simp at h, fun h => ?_⟩, fun h => by simp at h, fun _ => rfl⟩
    exact absurd ⟨e, List.getElem?_mem he, (structEq_iff e s).2 hp⟩ h

/-! ## C13: no two equal states in the DoneSet -/

/-- C13. Deduplication invariant.  The DoneSet holds no two distinct states
equal by structural equality (`CAllocStatePtrTy_equal`): after `clearStates`;
after every `CAllocStateTy::add` on a DoneSet without duplicates and after every
loop iteration on one, both of which leave the states already held as they are
and in place and only append; `add` through the hash table, with the hash codes
that `hash()` cached, inserts exactly when `add` by the equality alone does, and
keeps the cached hash codes right; and so, for a function with a body, the run
of `getCalledAndWrappedFunctions` returns, with a DoneSet without duplicates at
the head of every iteration of its loop and at its end. -/
theorem doneSet_noDuplicate (H : Helpers) (f : CalledFunctionTy) (fn : Nat) (st : EngineState)
    (hf : f.fun_ = some fn) (hbody : (st.cm.m.fn fn).size ≠ 0) :
    DoneSetTy.NoDuplicate (clearStates st).doneSet ∧
      (∀ (s : CAllocStateTy) (wl : WorkListTy) (ds : DoneSetTy), DoneSetTy.NoDuplicate ds →
        DoneSetTy.NoDuplicate (s.add wl ds).2.2 ∧ ds <+: (s.add wl ds).2.2) ∧
      (∀ (hc : HashCombine) (bucket : Nat → Nat) (s : CAllocStateTy) (wl : WorkListTy)
        (ds : List HashedStateTy), (∀ e ∈ ds, e.hashcode = e.state.hash hc) →
        (s.addHashed hc bucket wl ds).1 = (s.add wl (ds.map (fun e => e.state))).1 ∧
          (s.addHashed hc bucket wl ds).2.2.map (fun e => e.state) =
            (s.add wl (ds.map (fun e => e.state))).2.2 ∧
          ∀ e ∈ (s.addHashed hc bucket wl ds).2.2, e.hashcode = e.state.hash hc) ∧
      (∀ (c : RunCtx) (s : CAllocStateTy) (e : EngineState), DoneSetTy.NoDuplicate e.doneSet →
        DoneSetTy.NoDuplicate (processState c s e).doneSet ∧
          e.doneSet <+: (processState c s e).doneSet) ∧
      (∃ fuel tr r, getCalledAndWrappedFunctionsTrace H MAX_STATES fuel f st = some (tr, r)) ∧
      ∀ fuel tr r, getCalledAndWrappedFunctionsTrace H MAX_STATES fuel f st = some (tr, r) →
        (∀ i ∈ tr, DoneSetTy.NoDuplicate i.head.doneSet) ∧ DoneSetTy.NoDuplicate r.doneSet := by
  refine ⟨List.Pairwise.nil, add_noDuplicate, ?_, processState_noDuplicate, ?_, ?_⟩
  · intro hc bucket s wl ds h
    obtain ⟨h1, _, h3, h4⟩ := addHashed_refines hc bucket s wl ds h
    exact ⟨h1, h3, h4⟩
  · obtain ⟨fuel, r, hr⟩ := getCalledAndWrappedFunctionsCap_terminates H MAX_STATES f st
    obtain ⟨tr, htr⟩ := (getCalledAndWrappedFunctionsTrace_some H MAX_STATES fuel f st r).1 hr
    exact ⟨fuel, tr, r, htr⟩
  · intro fuel tr r h
    rw [getCalledAndWrappedFunctionsTrace_eq H MAX_STATES fuel f fn st hf hbody] at h
    have hseed : DoneSetTy.NoDuplicate (seedState st).doneSet :=
      List.pairwise_singleton _ _
    obtain ⟨h1, h2⟩ := workLoopTrace_induct _ (fun e => DoneSetTy.NoDuplicate e.doneSet)
      (fun _ _ _ _ h => h) (fun _ _ h => h)
      (fun e s rest _ h => (processState_noDuplicate _ s { e with workList := rest } h).1)
      fuel (seedState st) r tr hseed h
    exact ⟨fun i hi => (h1 i hi).1, h2⟩

/-- Witness for C13: the run on the guarded branch ends with three states in the
DoneSet. -/
theorem doneSet_noDuplicate_witness :
    ((engineStart (moduleWith guardedBranch)).cm.m.fn 0).size ≠ 0 ∧
      (getCalledAndWrappedFunctionsTrace (inertHelpers [] []) MAX_STATES 10 ⟨some 0, 0, 0⟩
          (engineStart (moduleWith guardedBranch))).map
        (fun p => (p.1.length, p.2.doneSet.length)) = some (3, 3) ∧
      ∃ fuel tr r, getCalledAndWrappedFunctionsTrace (inertHelpers [] []) MAX_STATES fuel
        ⟨some 0, 0, 0⟩ (engineStart (moduleWith guardedBranch)) = some (tr, r) :=
  ⟨by decide, by decide,
    (doneSet_noDuplicate (inertHelpers [] []) ⟨some 0, 0, 0⟩ 0
      (engineStart (moduleWith guardedBranch)) rfl (by decide)).2.2.2.2.1⟩

/-! ## C12: the number of iterations -/

/-- C12, counterexample.  With the state cap `N = 1`, the run on the function
`if (c) error(); else error();`, whose two branch blocks are error blocks, pops
three states, more than `N + 1 = 2`: the entry state, and the two states of the
error blocks, which are dropped before the cap check.  The run ends with an
empty worklist and without an error line. -/
theorem iterations_exceed_cap :
    (getCalledAndWrappedFunctionsTrace (inertHelpers [1, 2] []) 1 10 ⟨some 0, 0, 0⟩
        (engineStart (moduleWith twoErrorBranches))).map
      (fun p => (p.1.length, p.2.workList.length, p.2.errors)) = some (3, 0, []) := by
  decide

/-- C12, amended.  For every function with a body and every state cap `N`, the
worklist loop of `getCalledAndWrappedFunctions` halts, with an empty worklist or
by the cap check; at most `N + 1` of its iterations get past the error-block
test and reach the cap check, so the loop makes at most `N + 1` iterations when
the function has no error block; the number of all iterations is the number of
states in the DoneSet at the end less the number left on the worklist. -/
theorem iterations_bound (H : Helpers) (maxStates : Nat) (f : CalledFunctionTy) (fn : Nat)
    (st : EngineState) (hf : f.fun_ = some fn) (hbody : (st.cm.m.fn fn).size ≠ 0) :
    (∃ fuel tr r, getCalledAndWrappedFunctionsTrace H maxStates fuel f st = some (tr, r)) ∧
      ∀ fuel tr r, getCalledAndWrappedFunctionsTrace H maxStates fuel f st = some (tr, r) →
        (tr.filter (fun i => i.reachesCapCheck (RunCtx.make H st.cm fn maxStates))).length ≤
            maxStates + 1 ∧
          (H.findErrorBasicBlocks (st.cm.m.fn fn) st.cm.errorFunctions = [] →
            tr.length ≤ maxStates + 1) ∧
          tr.length + r.workList.length = r.doneSet.length ∧
          (r.workList = [] ∨ r.errors = st.errors ++ [tooManyStates]) := by
  constructor
  · obtain ⟨fuel, r, hr⟩ := getCalledAndWrappedFunctionsCap_terminates H maxStates f st
    obtain ⟨tr, htr⟩ := (getCalledAndWrappedFunctionsTrace_some H maxStates fuel f st r).1 hr
    exact ⟨fuel, tr, r, htr⟩
  · intro fuel tr r h
    rw [getCalledAndWrappedFunctionsTrace_eq H maxStates fuel f fn st hf hbody] at h
    have h1 := workLoopTrace_reaching _ fuel (seedState st) r tr 0 h
      (by simp [(seedState_fields st).1, (seedState_fields st).2.1]) (Nat.zero_le _)
    have h2 := workLoopTrace_length _ fuel (seedState st) r tr h
    rw [(seedState_fields st).1, (seedState_fields st).2.1] at h2
    refine ⟨by simpa using h1, ?_, by omega, ?_⟩
    · intro hnone
      have hall : tr.filter (fun i => i.reachesCapCheck (RunCtx.make H st.cm fn maxStates)) =
          tr := by
        rw [List.filter_eq_self]
        intro i _
        simp [Iteration.reachesCapCheck, RunCtx.make, hnone]
      rw [hall] at h1
      simpa using h1
    · rcases workLoopTrace_cap _ fuel (seedState st) r tr h with ⟨_, _, hw⟩ |
        ⟨tr0, i, _, _, _, _, hr⟩
      · exact Or.inl hw
      · right
        rw [hr]
        rfl

/-- Witness for the amended C12: the run on `if (c) error(); else error();` with
the cap `1`. -/
theorem iterations_bound_witness :
    ((engineStart (moduleWith twoErrorBranches)).cm.m.fn 0).size ≠ 0 ∧
      (getCalledAndWrappedFunctionsTrace (inertHelpers [1, 2] []) 1 10 ⟨some 0, 0, 0⟩
          (engineStart (moduleWith twoErrorBranches))).map
        (fun p => ((p.1.filter (fun i => i.reachesCapCheck
            (RunCtx.make (inertHelpers [1, 2] []) (engineCM (moduleWith twoErrorBranches)) 0
              1))).length, p.1.length, p.2.doneSet.length)) = some (1, 3, 3) ∧
      ∃ fuel tr r, getCalledAndWrappedFunctionsTrace (inertHelpers [1, 2] []) 1 fuel
        ⟨some 0, 0, 0⟩ (engineStart (moduleWith twoErrorBranches)) = some (tr, r) :=
  ⟨by decide, by decide,
    (iterations_bound (inertHelpers [1, 2] []) 1 ⟨some 0, 0, 0⟩ 0
      (engineStart (moduleWith twoErrorBranches)) rfl (by decide)).1⟩

/-! ## C17: the cap abort -/

/-- C17. Cap abort.  In a run of `getCalledAndWrappedFunctions` on a function
with a body, for every state cap (`MAX_STATES` in the program): the run returns;
either the cap check fires in no iteration, and then no error line is emitted
and the worklist is empty at the end; or the DoneSet is larger than the cap at
the cap check of one iteration, which is the last one: the run emits exactly one
error line, `too many states (abstraction error?)`, and returns `called`,
`wrapped`, the module and the DoneSet exactly as they were at the head of that
iteration. -/
theorem cap_abort (H : Helpers) (maxStates : Nat) (f : CalledFunctionTy) (fn : Nat)
    (st : EngineState) (hf : f.fun_ = some fn) (hbody : (st.cm.m.fn fn).size ≠ 0) :
    (∃ fuel tr r, getCalledAndWrappedFunctionsTrace H maxStates fuel f st = some (tr, r)) ∧
      ∀ fuel tr r, getCalledAndWrappedFunctionsTrace H maxStates fuel f st = some (tr, r) →
        ((∀ i ∈ tr, i.capFired (RunCtx.make H st.cm fn maxStates) = false) ∧
            r.errors = st.errors ∧ r.workList = []) ∨
          ∃ tr0 i, tr = tr0 ++ [i] ∧
            (∀ j ∈ tr0, j.capFired (RunCtx.make H st.cm fn maxStates) = false) ∧
            i.head.doneSet.length > maxStates ∧
            i.popped.bb ∉ H.findErrorBasicBlocks (st.cm.m.fn fn) st.cm.errorFunctions ∧
            r.errors = st.errors ++ [tooManyStates] ∧
            r.called = i.head.called ∧ r.wrapped = i.head.wrapped ∧
            r.doneSet = i.head.doneSet ∧ r.cm = i.head.cm ∧
            r.workList = i.head.workList.tail := by
  constructor
  · obtain ⟨fuel, r, hr⟩ := getCalledAndWrappedFunctionsCap_terminates H maxStates f st
    obtain ⟨tr, htr⟩ := (getCalledAndWrappedFunctionsTrace_some H maxStates fuel f st r).1 hr
    exact ⟨fuel, tr, r, htr⟩
  · intro fuel tr r h
    rw [getCalledAndWrappedFunctionsTrace_eq H maxStates fuel f fn st hf hbody] at h
    rcases workLoopTrace_cap _ fuel (seedState st) r tr h with h1 | ⟨tr0, i, h1, h2, h3, _, h5⟩
    · exact Or.inl h1
    · right
      simp only [Iteration.capFired, Iteration.reachesCapCheck, Bool.and_eq_true,
        Bool.not_eq_true', decide_eq_true_eq] at h3
      subst h5
      exact ⟨tr0, i, h1, h2, h3.2, (contains_eq_false_iff _ _).1 h3.1, rfl, rfl, rfl, rfl, rfl,
        rfl⟩

/-- Witness for C17: with the cap `0` the run on the guarded branch aborts at the
first cap check, with one error line and empty result sets. -/
theorem cap_abort_witness :
    ((engineStart (moduleWith guardedBranch)).cm.m.fn 0).size ≠ 0 ∧
      (getCalledAndWrappedFunctionsTrace (inertHelpers [] []) 0 10 ⟨some 0, 0, 0⟩
          (engineStart (moduleWith guardedBranch))).map
        (fun p => (p.1.length, p.2.errors, p.2.called, p.2.wrapped)) =
          some (1, [tooManyStates], [], []) ∧
      ∃ fuel tr r, getCalledAndWrappedFunctionsTrace (inertHelpers [] []) 0 fuel
        ⟨some 0, 0, 0⟩ (engineStart (moduleWith guardedBranch)) = some (tr, r) :=
  ⟨by decide, by decide,
    (cap_abort (inertHelpers [] []) 0 ⟨some 0, 0, 0⟩ 0
      (engineStart (moduleWith guardedBranch)) rfl (by decide)).1⟩

/-! ## C18 - C20: variable origins -/

/-- C18. Origin tracking only for functions that return a managed value.  For
a function whose return type is not the managed-value type,
`getCalledAndWrappedFunctions` returns, leaves the wrapped set as passed in, and
no state has an entry in its variable origins: not the state popped in an
iteration, not the state after any number of instructions of its block, not a
successor state made at the end of the block, and no state of the DoneSet at the
end of a run on a function with a body. -/
theorem no_origin_tracking (H : Helpers) (f : CalledFunctionTy) (fn : Nat) (st : EngineState)
    (hf : f.fun_ = some fn) (hret : (st.cm.m.fn fn).returnsSEXP = false) :
    (∃ fuel tr r, getCalledAndWrappedFunctionsTrace H MAX_STATES fuel f st = some (tr, r)) ∧
      ∀ fuel tr r, getCalledAndWrappedFunctionsTrace H MAX_STATES fuel f st = some (tr, r) →
        r.wrapped = st.wrapped ∧
          (∀ i ∈ tr, i.popped.varOrigins = [] ∧
            (∀ k, (visitBlock (RunCtx.make H st.cm fn MAX_STATES)
              (((st.cm.m.fn fn).block i.popped.bb).take k) i.head.cm
                i.popped).2.varOrigins = []) ∧
            ∀ t, ∀ x ∈ successorStates (RunCtx.make H st.cm fn MAX_STATES) t
              (visitBlock (RunCtx.make H st.cm fn MAX_STATES)
                ((st.cm.m.fn fn).block i.popped.bb) i.head.cm i.popped).2,
              x.varOrigins = []) ∧
          ((st.cm.m.fn fn).size ≠ 0 → ∀ s ∈ r.doneSet, s.varOrigins = []) := by
  constructor
  · obtain ⟨fuel, r, hr⟩ := getCalledAndWrappedFunctionsCap_terminates H MAX_STATES f st
    obtain ⟨tr, htr⟩ := (getCalledAndWrappedFunctionsTrace_some H MAX_STATES fuel f st r).1 hr
    exact ⟨fuel, tr, r, htr⟩
  · intro fuel tr r h
    by_cases hbody : (st.cm.m.fn fn).size = 0
    · simp only [getCalledAndWrappedFunctionsTrace, hf, hbody, if_true, Option.some.injEq,
        Prod.mk.injEq] at h
      obtain ⟨h1, h2⟩ := h
      subst h1 h2
      exact ⟨rfl, fun i hi => absurd hi (List.not_mem_nil i), fun h => absurd hbody h⟩
    · rw [getCalledAndWrappedFunctionsTrace_eq H MAX_STATES fuel f fn st hf hbody] at h
      have htrack : (RunCtx.make H st.cm fn MAX_STATES).trackOrigins = false := hret
      have hseed : ∀ s ∈ [CAllocStateTy.init 0], s.varOrigins = [] := by
        intro s hs
        rw [List.mem_singleton.1 hs]
        rfl
      obtain ⟨h1, h2⟩ := workLoopTrace_states (RunCtx.make H st.cm fn MAX_STATES)
        (fun s => s.varOrigins = [])
        (fun inst cm s hs => (visitInstruction_noTrack _ inst cm s htrack).trans hs)
        (fun s b hs => hs) (fun s g hs => hs) fuel (seedState st) r tr hseed hseed h
      obtain ⟨_, h3⟩ := workLoopTrace_induct (RunCtx.make H st.cm fn MAX_STATES)
        (fun e => e.wrapped = st.wrapped) (fun _ _ _ _ h => h) (fun _ _ h => h)
        (fun e s rest _ h => (processState_noTrack _ s _ htrack).trans h)
        fuel (seedState st) r tr rfl h
      exact ⟨h3, h2, fun _ => h1⟩

/-- Witness for C18: `y = alloc(); x = y; return x;` in a function that returns
an integer: the call is recorded, nothing is wrapped. -/
theorem no_origin_tracking_witness :
    ((engineStart (moduleWithInt (copyBody 0 1 (llvm.Value.callInst (some 1) [])))).cm.m.fn
        0).returnsSEXP = false ∧
      (getCalledAndWrappedFunctionsTrace (inertHelpers [] [0, 1]) MAX_STATES 10 ⟨some 0, 0, 0⟩
          (engineStart (moduleWithInt (copyBody 0 1 (llvm.Value.callInst (some 1) []))))).map
        (fun p => (p.2.called, p.2.wrapped, p.2.doneSet.map (fun s => s.varOrigins))) =
          some ([1], [], [[]]) ∧
      ∃ fuel tr r, getCalledAndWrappedFunctionsTrace (inertHelpers [] [0, 1]) MAX_STATES fuel
        ⟨some 0, 0, 0⟩
        (engineStart (moduleWithInt (copyBody 0 1 (llvm.Value.callInst (some 1) [])))) =
          some (tr, r) :=
  ⟨rfl, by decide,
    (no_origin_tracking (inertHelpers [] [0, 1]) ⟨some 0, 0, 0⟩ 0
      (engineStart (moduleWithInt (copyBody 0 1 (llvm.Value.callInst (some 1) [])))) rfl
      rfl).1⟩

/-- C19. Variable-origins domain invariant.  In a run of
`getCalledAndWrappedFunctions` on a function with a body, every slot with an
entry in the variable origins of a state is in `possiblyReturnedVars`: for the
state popped in every iteration (the seed state and every admitted successor),
for the state after any number of instructions of its block, for every successor
state made at the end of the block, and for every state of the DoneSet at the
end; and the run returns. -/
theorem varOrigins_domain (H : Helpers) (f : CalledFunctionTy) (fn : Nat) (st : EngineState)
    (hf : f.fun_ = some fn) (hbody : (st.cm.m.fn fn).size ≠ 0) :
    (∃ fuel tr r, getCalledAndWrappedFunctionsTrace H MAX_STATES fuel f st = some (tr, r)) ∧
      ∀ fuel tr r, getCalledAndWrappedFunctionsTrace H MAX_STATES fuel f st = some (tr, r) →
        (∀ s ∈ r.doneSet,
          VarOriginsTy.Within (H.findPossiblyReturnedVariables (st.cm.m.fn fn)) s.varOrigins) ∧
        ∀ i ∈ tr,
          VarOriginsTy.Within (H.findPossiblyReturnedVariables (st.cm.m.fn fn))
            i.popped.varOrigins ∧
          (∀ k, VarOriginsTy.Within (H.findPossiblyReturnedVariables (st.cm.m.fn fn))
            (visitBlock (RunCtx.make H st.cm fn MAX_STATES)
              (((st.cm.m.fn fn).block i.popped.bb).take k) i.head.cm i.popped).2.varOrigins) ∧
          ∀ t, ∀ x ∈ successorStates (RunCtx.make H st.cm fn MAX_STATES) t
            (visitBlock (RunCtx.make H st.cm fn MAX_STATES)
              ((st.cm.m.fn fn).block i.popped.bb) i.head.cm i.popped).2,
            VarOriginsTy.Within (H.findPossiblyReturnedVariables (st.cm.m.fn fn))
              x.varOrigins := by
  constructor
  · obtain ⟨fuel, r, hr⟩ := getCalledAndWrappedFunctionsCap_terminates H MAX_STATES f st
    obtain ⟨tr, htr⟩ := (getCalledAndWrappedFunctionsTrace_some H MAX_STATES fuel f st r).1 hr
    exact ⟨fuel, tr, r, htr⟩
  · intro fuel tr r h
    rw [getCalledAndWrappedFunctionsTrace_eq H MAX_STATES fuel f fn st hf hbody] at h
    have hseed : ∀ s ∈ [CAllocStateTy.init 0],
        VarOriginsTy.Within (H.findPossiblyReturnedVariables (st.cm.m.fn fn)) s.varOrigins := by
      intro s hs
      rw [List.mem_singleton.1 hs]
      intro e he
      cases he
    exact workLoopTrace_states (RunCtx.make H st.cm fn MAX_STATES)
      (fun s => VarOriginsTy.Within (H.findPossiblyReturnedVariables (st.cm.m.fn fn))
        s.varOrigins)
      (fun inst cm s hs => visitInstruction_within (RunCtx.make H st.cm fn MAX_STATES) inst cm s hs)
      (fun s b hs => hs) (fun s g hs => hs) fuel (seedState st) r tr hseed hseed h

/-- Witness for C19: `y = alloc(); x = y; return x;` with `x` and `y` possibly
returned: the state of the DoneSet has no entry, the state at the end of the
block has entries for `x` and `y`. -/
theorem varOrigins_domain_witness :
    ((engineStart (moduleWith (copyBody 0 1 (llvm.Value.callInst (some 1) [])))).cm.m.fn
        0).size ≠ 0 ∧
      (getCalledAndWrappedFunctionsTrace (inertHelpers [] [0, 1]) MAX_STATES 10 ⟨some 0, 0, 0⟩
          (engineStart (moduleWith (copyBody 0 1 (llvm.Value.callInst (some 1) []))))).map
        (fun p => p.1.map (fun i =>
          (visitBlock (RunCtx.make (inertHelpers [] [0, 1])
              (engineCM (moduleWith (copyBody 0 1 (llvm.Value.callInst (some 1) [])))) 0
              MAX_STATES)
            (((moduleWith (copyBody 0 1 (llvm.Value.callInst (some 1) []))).fn 0).block 0)
            i.head.cm
            i.popped).2.varOrigins)) = some [[(0, [1]), (1, [1])]] ∧
      ∃ fuel tr r, getCalledAndWrappedFunctionsTrace (inertHelpers [] [0, 1]) MAX_STATES fuel
        ⟨some 0, 0, 0⟩
        (engineStart (moduleWith (copyBody 0 1 (llvm.Value.callInst (some 1) [])))) =
          some (tr, r) :=
  ⟨by decide, by decide,
    (varOrigins_domain (inertHelpers [] [0, 1]) ⟨some 0, 0, 0⟩ 0
      (engineStart (moduleWith (copyBody 0 1 (llvm.Value.callInst (some 1) [])))) rfl
      (by decide)).1⟩

theorem copyOrigins_find_other (vo : VarOriginsTy) (src dst v : Nat) (h : v ≠ dst) :
    (copyOrigins vo src dst).find v = vo.find v := by
  unfold copyOrigins
  cases vo.find src with
  | none => rfl
  | some srcOrigs =>
    simp only
    cases vo.find dst with
    | none => exact VarOriginsTy.find_set_other dst v _ vo h
    | some dstOrigs => exact VarOriginsTy.find_set_other dst v _ vo h

theorem copyOrigins_find_dst (vo : VarOriginsTy) (src dst : Nat) :
    (copyOrigins vo src dst).find dst =
      match vo.find src with
      | none => vo.find dst
      | some srcOrigs =>
        match vo.find dst with
        | none => some srcOrigs
        | some dstOrigs => some (CalledFunctionsOrderedSetTy.insertAll srcOrigs dstOrigs) := by
  unfold copyOrigins
  cases vo.find src with
  | none => rfl
  | some srcOrigs =>
    simp only
    cases hd : vo.find dst with
    | none => exact VarOriginsTy.find_set_self dst _ vo
    | some dstOrigs => exact VarOriginsTy.find_set_self dst _ vo

/-- What the engine does at a store `dst <- load(src)` of a tracked slot. -/
theorem visitInstruction_copyStore (c : RunCtx) (cm : CalledModuleTy) (s : CAllocStateTy)
    (src dst : Nat) (htrack : c.trackOrigins = true) (hdst : dst ∈ c.possiblyReturnedVars) :
    visitInstruction c (copyStore src dst) cm s =
      (cm, { s with
        intGuards := c.H.handleIntGuardsForNonTerminator (copyStore src dst) s.intGuards
        sexpGuards := c.H.handleSEXPGuardsForNonTerminator (copyStore src dst) s.sexpGuards
        varOrigins := copyOrigins s.varOrigins src dst }) := by
  simp [visitInstruction, htrack, copyStore, handleStore, hdst, handleStoreOfLoad]

/-- C20, counterexample.  In a function that returns a managed value, with the
slots `0` and `1` possibly returned, the store `0 <- load(1)` processed in a
state without any entry leaves the state without an entry for slot `0`: the
entry of the destination was absent and is not created. -/
theorem copy_step_creates_no_entry :
    (RunCtx.make (inertHelpers [] [0, 1]) (engineCM (moduleWith [])) 0 MAX_STATES).trackOrigins =
        true ∧
      0 ∈ (RunCtx.make (inertHelpers [] [0, 1]) (engineCM (moduleWith [])) 0
        MAX_STATES).possiblyReturnedVars ∧
      (CAllocStateTy.init 0).varOrigins.find 0 = none ∧
      (visitInstruction
        (RunCtx.make (inertHelpers [] [0, 1]) (engineCM (moduleWith [])) 0 MAX_STATES)
        (copyStore 1 0) (engineCM (moduleWith [])) (CAllocStateTy.init 0)).2.varOrigins.find 0 =
          none :=
  ⟨rfl, by decide, rfl, by decide⟩

/-- C20, amended.  Copy step.  For every state `s` of a function that returns
a managed value and every store `dst <- load(src)` with `dst` a local slot in
`possiblyReturnedVars` and `src` a local slot, after the engine has processed
the instruction: the origins of `dst` are the union of the previous origins of
`dst` and of `src`, an absent entry read as the empty set; `dst` has an entry
exactly when `dst` or `src` had one before, so an absent entry of `dst` is
created only when `src` has an entry, and nothing at all changes in the origins
when `src` has none; the entry of every other slot, the call set, the block and
the module are unchanged. -/
theorem copy_step (c : RunCtx) (cm : CalledModuleTy) (s : CAllocStateTy) (src dst : Nat)
    (htrack : c.trackOrigins = true) (hdst : dst ∈ c.possiblyReturnedVars) :
    (∀ t, t ∈ (visitInstruction c (copyStore src dst) cm s).2.varOrigins.originsOf dst ↔
        t ∈ s.varOrigins.originsOf dst ∨ t ∈ s.varOrigins.originsOf src) ∧
      (((visitInstruction c (copyStore src dst) cm s).2.varOrigins.find dst).isSome = true ↔
        (s.varOrigins.find dst).isSome = true ∨ (s.varOrigins.find src).isSome = true) ∧
      (s.varOrigins.find src = none →
        (visitInstruction c (copyStore src dst) cm s).2.varOrigins = s.varOrigins) ∧
      (∀ v, v ≠ dst →
        (visitInstruction c (copyStore src dst) cm s).2.varOrigins.find v =
          s.varOrigins.find v) ∧
      (visitInstruction c (copyStore src dst) cm s).2.called = s.called ∧
      (visitInstruction c (copyStore src dst) cm s).2.bb = s.bb ∧
      (visitInstruction c (copyStore src dst) cm s).1 = cm := by
  rw [visitInstruction_copyStore c cm s src dst htrack hdst]
  refine ⟨?_, ?_, ?_, fun v hv => copyOrigins_find_other _ _ _ _ hv, rfl, rfl, rfl⟩
  · intro t
    simp only [VarOriginsTy.originsOf]
    rw [copyOrigins_find_dst]
    cases hs : s.varOrigins.find src with
    | none => simp
    | some srcOrigs =>
      cases hd : s.varOrigins.find dst with
      | none => simp
      | some dstOrigs =>
        simp only [Option.getD_some, mem_insertAll]
        exact or_comm
  · rw [copyOrigins_find_dst]
    cases hs : s.varOrigins.find src with
    | none => simp
    | some srcOrigs =>
      cases hd : s.varOrigins.find dst with
      | none => simp
      | some dstOrigs => simp
  · intro hs
    simp only [copyOrigins, hs]

/-- Witness for the amended C20: the store `0 <- load(1)` in a state where slot
`1` has the origin `1` gives slot `0` the origin `1`. -/
theorem copy_step_witness :
    (RunCtx.make (inertHelpers [] [0, 1]) (engineCM (moduleWith [])) 0 MAX_STATES).trackOrigins =
        true ∧
      0 ∈ (RunCtx.make (inertHelpers [] [0, 1]) (engineCM (moduleWith [])) 0
        MAX_STATES).possiblyReturnedVars ∧
      (visitInstruction
        (RunCtx.make (inertHelpers [] [0, 1]) (engineCM (moduleWith [])) 0 MAX_STATES)
        (copyStore 1 0) (engineCM (moduleWith []))
        { CAllocStateTy.init 0 with varOrigins := [(1, [1])] }).2.varOrigins =
          [(0, [1]), (1, [1])] ∧
      (visitInstruction
        (RunCtx.make (inertHelpers [] [0, 1]) (engineCM (moduleWith [])) 0 MAX_STATES)
        (copyStore 1 0) (engineCM (moduleWith []))
        { CAllocStateTy.init 0 with varOrigins := [(1, [1])] }).2.called = [] :=
  ⟨rfl, by decide, by decide,
    (copy_step (RunCtx.make (inertHelpers [] [0, 1]) (engineCM (moduleWith [])) 0 MAX_STATES)
      (engineCM (moduleWith [])) { CAllocStateTy.init 0 with varOrigins := [(1, [1])] } 1 0
      rfl (by decide)).2.2.2.2.1⟩

/-! ## C16: repeatability -/

theorem driverCM_wf (m : llvm.Module) : (driverCM m).WF := by
  refine ⟨?_, ?_, ?_⟩
  · intro x hx
    simp only [driverCM, engineCM, List.mem_cons, List.mem_singleton, List.not_mem_nil,
      or_false] at hx
    rcases hx with rfl | rfl <;> rfl
  · intro a ha
    simp [driverCM, engineCM] at ha
  · intro cf hcf
    simp only [driverCM, engineCM, List.mem_cons, List.mem_singleton, List.not_mem_nil,
      or_false] at hcf
    rcases hcf with rfl | rfl <;> simp [driverCM, engineCM]

/-- C16. Repeatability.  In a well-formed module: the result of
`getCalledAndWrappedFunctions` (called, wrapped, the module, the diagnostics)
does not depend on what the file-scope worklist and DoneSet hold when it is
called; `getCalledAllocators` run twice, the second time on the state the first
left, returns both times; and for two consecutive runs of its loop, whatever the
iteration orders, the reports of the second run for a function reported by the
first hold the same called and wrapped sets, and every function the first run
reports is reported by the second when its handle is iterated over.  For
`getCalledAllocators` itself: the two runs report the same functions among the
handles of the table the first run started with, each with identical sets. -/
theorem repeatability (H : Helpers) (st : EngineState) (hwf : st.cm.WF) :
    (∀ f fuel wl ds,
      (getCalledAndWrappedFunctions H fuel f { st with workList := wl, doneSet := ds }).map
          (fun r => (r.called, r.wrapped, r.cm, r.errors)) =
        (getCalledAndWrappedFunctions H fuel f st).map
          (fun r => (r.called, r.wrapped, r.cm, r.errors))) ∧
      (∃ fuel rep1 st1 rep2 st2, getCalledAllocators H fuel st = some (rep1, st1) ∧
        getCalledAllocators H fuel st1 = some (rep2, st2)) ∧
      (∀ o1 o2 fuel1 fuel2 rep1 rep2 st1 st2,
        getCalledAllocatorsLoop H fuel1 o1 st = some (rep1, st1) →
        getCalledAllocatorsLoop H fuel2 o2 st1 = some (rep2, st2) →
        ∀ x ∈ rep1, (x.f ∈ o2 → ∃ y ∈ rep2, y.f = x.f) ∧
          ∀ y ∈ rep2, y.f = x.f → y.called = x.called ∧ y.wrapped = x.wrapped) ∧
      ∀ fuel1 fuel2 rep1 rep2 st1 st2, getCalledAllocators H fuel1 st = some (rep1, st1) →
        getCalledAllocators H fuel2 st1 = some (rep2, st2) →
        (∀ x ∈ rep1, ∃ y ∈ rep2, y.f = x.f) ∧
        (∀ y ∈ rep2, y.f < st.cm.calledFunctionsTable.length → ∃ x ∈ rep1, x.f = y.f) ∧
        ∀ x ∈ rep1, ∀ y ∈ rep2, y.f = x.f → y.called = x.called ∧ y.wrapped = x.wrapped := by
  have hloops : ∀ o1 o2 fuel1 fuel2 rep1 rep2 st1 st2,
      getCalledAllocatorsLoop H fuel1 o1 st = some (rep1, st1) →
      getCalledAllocatorsLoop H fuel2 o2 st1 = some (rep2, st2) →
      ∀ x ∈ rep1, (x.f ∈ o2 → ∃ y ∈ rep2, y.f = x.f) ∧
        ∀ y ∈ rep2, y.f = x.f → y.called = x.called ∧ y.wrapped = x.wrapped := by
    intro o1 o2 fuel1 fuel2 rep1 rep2 st1 st2 h1 h2 x hx
    obtain ⟨hext1, hwf1, hrep1, _⟩ := getCalledAllocatorsLoop_spec H fuel1 o1 st st1 rep1 hwf h1
    obtain ⟨_, _, hrep2, hall2⟩ := getCalledAllocatorsLoop_spec H fuel2 o2 st1 st2 rep2 hwf1 h2
    obtain ⟨_, e1, r1, f1, fn1, he1, hwe1, hr1, ht1, hf1, hs1, hrun1, hc1, hw1⟩ := hrep1 x hx
    have hext_e1r1 := (getCalledAndWrappedFunctionsCap_ext H MAX_STATES fuel1 f1
      { e1 with called := [], wrapped := [] } r1 hwe1 hrun1).1
    have hext_e1st1 : e1.cm.Ext st1.cm := hext_e1r1.trans hr1
    constructor
    · intro hmem
      have htab : st1.cm.calledFunctionsTable[x.f]? = some f1 :=
        getElem?_grow hext_e1st1.calledFunctionsTable ht1
      have hsz : (st1.cm.m.fn fn1).size ≠ 0 := by
        rw [← hext_e1st1.m]
        exact hs1
      exact hall2 x.f hmem f1 fn1 htab hf1 hsz
    · intro y hy hyx
      obtain ⟨_, e2, r2, f2, fn2, he2, hwe2, _, ht2, hf2, _, hrun2, hc2, hw2⟩ := hrep2 y hy
      have htab : e2.cm.calledFunctionsTable[x.f]? = some f1 :=
        getElem?_grow (hext_e1st1.trans he2).calledFunctionsTable ht1
      rw [hyx, htab] at ht2
      cases ht2
      obtain ⟨ha, hb⟩ := getCalledAndWrappedFunctionsCap_agree H MAX_STATES fuel1 fuel2 f1 fn1
        { e1 with called := [], wrapped := [] } { e2 with called := [], wrapped := [] } r1 r2
        hwe1 hwe2 hf1 hs1 hrun1 (hr1.trans he2) rfl rfl hrun2
      rw [hc1, hc2, hw1, hw2]
      exact ⟨ha, hb⟩
  refine ⟨?_, ?_, hloops, ?_⟩
  · intro f fuel wl ds
    unfold getCalledAndWrappedFunctions getCalledAndWrappedFunctionsCap
    cases f.fun_ with
    | none => rfl
    | some fn =>
      simp only
      split
      · rfl
      · rfl
  · obtain ⟨fa, ha⟩ := getCalledAllocatorsLoop_terminates H
      (List.range st.cm.calledFunctionsTable.length) st
    obtain ⟨rep1, st1, h1⟩ := ha 0
    obtain ⟨fb, hb⟩ := getCalledAllocatorsLoop_terminates H
      (List.range st1.cm.calledFunctionsTable.length) st1
    obtain ⟨rep1b, st1b, h1b⟩ := ha fb
    obtain ⟨rep2, st2, h2⟩ := hb fa
    have hsame : (rep1b, st1b) = (rep1, st1) := by
      have := getCalledAllocatorsLoop_fuel_mono H fa fb _ st (rep1, st1) (by simpa using h1)
      rw [h1b] at this
      simpa using this
    simp only [Prod.mk.injEq] at hsame
    obtain ⟨e1, e2⟩ := hsame
    subst e1 e2
    refine ⟨fa + fb, rep1b, st1b, rep2, st2, h1b, ?_⟩
    have e : fb + fa = fa + fb := by omega
    rw [← e]
    exact h2
  · intro fuel1 fuel2 rep1 rep2 st1 st2 h1 h2
    unfold getCalledAllocators at h1 h2
    obtain ⟨hext1, hwf1, hrep1, hall1⟩ := getCalledAllocatorsLoop_spec H fuel1 _ st st1 rep1 hwf h1
    obtain ⟨_, _, hrep2, _⟩ := getCalledAllocatorsLoop_spec H fuel2 _ st1 st2 rep2 hwf1 h2
    have hlen : st.cm.calledFunctionsTable.length ≤ st1.cm.calledFunctionsTable.length :=
      hext1.calledFunctionsTable.length_le
    refine ⟨?_, ?_, ?_⟩
    · intro x hx
      apply (hloops _ _ fuel1 fuel2 rep1 rep2 st1 st2 h1 h2 x hx).1
      have := (hrep1 x hx).1
      rw [List.mem_range] at this ⊢
      omega
    · intro y hy hlt
      obtain ⟨_, e2, r2, f2, fn2, he2, _, _, ht2, hf2, hs2, _⟩ := hrep2 y hy
      have hext : st.cm.Ext e2.cm := hext1.trans he2
      obtain ⟨f0, hf0⟩ : ∃ f0, st.cm.calledFunctionsTable[y.f]? = some f0 :=
        ⟨_, List.getElem?_eq_getElem hlt⟩
      have := getElem?_grow hext.calledFunctionsTable hf0
      rw [ht2] at this
      cases this
      apply hall1 y.f (List.mem_range.2 hlt) f2 fn2 hf0 hf2
      rw [hext.m]
      exact hs2
    · intro x hx y hy hyx
      exact (hloops _ _ fuel1 fuel2 rep1 rep2 st1 st2 h1 h2 x hx).2 y hy hyx

/-- Witness for C16: the driver run twice on the module with the guarded branch
reports the same sets for the function both times; the first run has added the
handles `2` and `3` of the two call sites to the table. -/
theorem repeatability_witness :
    (driverStart (moduleWith guardedBranch)).cm.WF ∧
      (getCalledAllocators (inertHelpers [] []) 10 (driverStart (moduleWith guardedBranch))).map
        (fun p => (p.1, p.2.cm.calledFunctionsTable.length)) =
          some ([⟨1, [2, 3], [2, 3]⟩], 4) ∧
      ((getCalledAllocators (inertHelpers [] []) 10
          (driverStart (moduleWith guardedBranch))).bind
        (fun p => getCalledAllocators (inertHelpers [] []) 10 p.2)).map (fun p => p.1) =
          some [⟨1, [2, 3], [2, 3]⟩] ∧
      ∃ fuel rep1 st1 rep2 st2,
        getCalledAllocators (inertHelpers [] []) fuel (driverStart (moduleWith guardedBranch)) =
          some (rep1, st1) ∧
        getCalledAllocators (inertHelpers [] []) fuel st1 = some (rep2, st2) :=
  ⟨driverCM_wf _, by decide, by decide,
    (repeatability (inertHelpers [] []) (driverStart (moduleWith guardedBranch))
      (driverCM_wf _)).2.1⟩

/-! ## C15: the worklist discipline -/

theorem registeredCM_wf (m : llvm.Module) : (registeredCM m).WF := by
  refine ⟨?_, ?_, ?_⟩
  · intro x hx
    simp only [registeredCM, engineCM, List.mem_cons, List.mem_singleton, List.not_mem_nil,
      or_false] at hx
    rcases hx with rfl | rfl <;> rfl
  · intro a ha
    simp [registeredCM, engineCM] at ha
  · intro cf hcf
    simp only [registeredCM, engineCM, List.mem_cons, List.mem_singleton, List.not_mem_nil,
      or_false] at hcf
    rcases hcf with rfl | rfl | rfl <;> simp [registeredCM, engineCM]

theorem getCalledAndWrappedFunctionsWith_eq (pick : EngineState → Nat) (H : Helpers)
    (fuel : Nat) (f : CalledFunctionTy) (fn : Nat) (st : EngineState) (hf : f.fun_ = some fn)
    (hbody : (st.cm.m.fn fn).size ≠ 0) :
    getCalledAndWrappedFunctionsWith pick H fuel f st =
      workLoopWith pick (RunCtx.make H st.cm fn MAX_STATES) fuel (seedState st) := by
  simp [getCalledAndWrappedFunctionsWith, hf, hbody]

/-- C15. Worklist-discipline invariance.  For a function with a body, analysed
in a well-formed module in which the call sites of the function are registered
(as the constructor of the module leaves them) and from result sets that are
sets: the engine with the discipline of taking the top of the worklist is
`getCalledAndWrappedFunctions`; with every discipline (any choice of the state
to take, from the engine state at the loop head) the engine returns; and two
runs with any two disciplines that both end without tripping the state cap
return the same called set and the same wrapped set.  The GC test reads the
called set accumulated so far, yet the GC handle is in the wrapped set of the one
run exactly when it is in that of the other. -/
theorem discipline_invariance (H : Helpers) (f : CalledFunctionTy) (fn : Nat)
    (st : EngineState) (hwf : st.cm.WF) (hf : f.fun_ = some fn)
    (hbody : (st.cm.m.fn fn).size ≠ 0)
    (hreg : st.cm.Registered H.isInstallConstantCall (st.cm.m.fn fn))
    (hsc : CalledFunctionsOrderedSetTy.IsSet st.called)
    (hsw : CalledFunctionsOrderedSetTy.IsSet st.wrapped) :
    (∀ fuel, getCalledAndWrappedFunctionsWith pickTop H fuel f st =
        getCalledAndWrappedFunctions H fuel f st) ∧
      (∀ pick, ∃ fuel r, getCalledAndWrappedFunctionsWith pick H fuel f st = some r) ∧
      ∀ pick1 pick2 fuel1 fuel2 r1 r2,
        getCalledAndWrappedFunctionsWith pick1 H fuel1 f st = some r1 →
        getCalledAndWrappedFunctionsWith pick2 H fuel2 f st = some r2 →
        r1.errors = st.errors → r2.errors = st.errors →
        r1.called = r2.called ∧ r1.wrapped = r2.wrapped ∧
          (st.cm.gcFunction ∈ r1.wrapped ↔ st.cm.gcFunction ∈ r2.wrapped) := by
  refine ⟨?_, ?_, ?_⟩
  · intro fuel
    rw [getCalledAndWrappedFunctionsWith_eq pickTop H fuel f fn st hf hbody,
      getCalledAndWrappedFunctions_eq H fuel f fn st hf hbody]
    exact workLoopWith_pickTop _ _ _
  · intro pick
    obtain ⟨fuel, r, hr⟩ := workLoopWith_terminates pick (RunCtx.make H st.cm fn MAX_STATES)
      (seedState st)
    exact ⟨fuel, r, by
      rw [getCalledAndWrappedFunctionsWith_eq pick H fuel f fn st hf hbody]; exact hr⟩
  · intro pick1 pick2 fuel1 fuel2 r1 r2 h1 h2 hno1 hno2
    rw [getCalledAndWrappedFunctionsWith_eq pick1 H fuel1 f fn st hf hbody] at h1
    rw [getCalledAndWrappedFunctionsWith_eq pick2 H fuel2 f fn st hf hbody] at h2
    have hag : ∀ cm2, st.cm.Ext cm2 → cm2.WF →
        (Oracle.ofModule (RunCtx.make H st.cm fn MAX_STATES).H.isInstallConstantCall
          cm2).AgreeOn (RunCtx.make H st.cm fn MAX_STATES).F
            (Oracle.ofModule H.isInstallConstantCall st.cm) :=
      fun cm2 he hw2 => ofModule_agreeOn H.isInstallConstantCall st.cm cm2 _ hwf he hw2 hreg
    obtain ⟨a1, a2, a3, a4⟩ := workLoopWith_result pick1 _
      (Oracle.ofModule H.isInstallConstantCall st.cm) fuel1 st r1 hwf hag h1 hno1 hsc hsw
    obtain ⟨b1, b2, b3, b4⟩ := workLoopWith_result pick2 _
      (Oracle.ofModule H.isInstallConstantCall st.cm) fuel2 st r2 hwf hag h2 hno2 hsc hsw
    have hc : r1.called = r2.called :=
      isSet_ext _ _ a1 b1 (fun t => by rw [a3 t, b3 t])
    have hw : r1.wrapped = r2.wrapped :=
      isSet_ext _ _ a2 b2 (fun t => by rw [a4 t, b4 t, hc])
    exact ⟨hc, hw, by rw [hw]⟩

theorem registeredCM_registered :
    (registeredStart (moduleWith gcBranch)).cm.Registered
      (inertHelpers [] [0, 1]).isInstallConstantCall
      ((registeredStart (moduleWith gcBranch)).cm.m.fn 0) := by
  unfold CalledModuleTy.Registered
  decide

/-- Witness for C15: `if (c) { gc(n); return x; } else return y;` with the
stack discipline, which works on the `else` branch first, and with the queue
discipline, which works on the branch with the GC call first: both runs end with
`called = {GC}` and `wrapped = {GC}`. -/
theorem discipline_invariance_witness :
    (registeredStart (moduleWith gcBranch)).cm.WF ∧
      (((registeredStart (moduleWith gcBranch)).cm.m.fn 0).size ≠ 0) ∧
      (getCalledAndWrappedFunctionsWith pickTop (inertHelpers [] [0, 1]) 10 ⟨some 0, 0, 0⟩
          (registeredStart (moduleWith gcBranch))).map
        (fun r => (r.called, r.wrapped, r.errors)) = some ([0], [0], []) ∧
      (getCalledAndWrappedFunctionsWith pickOldest (inertHelpers [] [0, 1]) 10 ⟨some 0, 0, 0⟩
          (registeredStart (moduleWith gcBranch))).map
        (fun r => (r.called, r.wrapped, r.errors)) = some ([0], [0], []) ∧
      ∃ fuel r, getCalledAndWrappedFunctionsWith pickOldest (inertHelpers [] [0, 1]) fuel
        ⟨some 0, 0, 0⟩ (registeredStart (moduleWith gcBranch)) = some r :=
  ⟨registeredCM_wf _, by decide, by decide, by decide,
    (discipline_invariance (inertHelpers [] [0, 1]) ⟨some 0, 0, 0⟩ 0
      (registeredStart (moduleWith gcBranch)) (registeredCM_wf _) rfl (by decide)
      registeredCM_registered List.sorted_nil List.sorted_nil).2.1 pickOldest⟩

/-! ## The hashes of the intern tables -/

theorem isSymbolAt_eq_isSome (heap : List ArgInfoTy) (p : Nat) :
    isSymbolAt heap p = (symbolNameAt heap p).isSome := by
  unfold isSymbolAt symbolNameAt
  cases heap[p]? with
  | none => rfl
  | some o => cases o <;> rfl

theorem ArgInfosPtrTy_hash_step (hc : HashCombine) (heap : List ArgInfoTy) (acc : Nat × Nat)
    (a : Option Nat) :
    ArgInfosPtrTy_hash.step hc heap acc a =
      match a.bind (symbolNameAt heap) with
      | some n => (hc.string acc.1 n, acc.2 + 1)
      | none => acc := by
  unfold ArgInfosPtrTy_hash.step
  cases a with
  | none => rfl
  | some p =>
    cases hs : symbolNameAt heap p <;> simp [isSymbolAt_eq_isSome, hs]

theorem ArgInfosPtrTy_hash_foldl (hc : HashCombine) (heap : List ArgInfoTy) (t : ArgInfosTy)
    (acc : Nat × Nat) :
    t.foldl (ArgInfosPtrTy_hash.step hc heap) acc =
      ((symbolNames heap t).foldl hc.string acc.1, acc.2 + (symbolNames heap t).length) := by
  induction t generalizing acc with
  | nil => rfl
  | cons a rest ih =>
    simp only [List.foldl_cons, ih, ArgInfosPtrTy_hash_step, symbolNames, List.filterMap_cons]
    cases a.bind (symbolNameAt heap) with
    | none => rfl
    | some n =>
      simp only [List.foldl_cons, List.length_cons]
      congr 1
      omega

/-- The hash of a context is made from the symbol names of its Symbol entries,
in order, and from their number. -/
theorem ArgInfosPtrTy_hash_names (hc : HashCombine) (heap : List ArgInfoTy) (t : ArgInfosTy) :
    ArgInfosPtrTy_hash hc heap t =
      hc.size ((symbolNames heap t).foldl hc.string 0) (symbolNames heap t).length := by
  unfold ArgInfosPtrTy_hash
  simp only [ArgInfosPtrTy_hash_foldl, Nat.zero_add]

theorem ArgInfosPtrTy_equal_loop_names (heap : List ArgInfoTy) (a b : ArgInfosTy)
    (hlen : a.length = b.length) (h : ArgInfosPtrTy_equal.loop heap a b = true) :
    symbolNames heap a = symbolNames heap b := by
  induction a generalizing b with
  | nil =>
    cases b with
    | nil => rfl
    | cons r rs => simp at hlen
  | cons la ls ih =>
    cases b with
    | nil => simp at hlen
    | cons ra rs =>
      simp only [List.length_cons, Nat.add_right_cancel_iff] at hlen
      rw [ArgInfosPtrTy_equal_loop_cons] at h
      simp only [symbolNames, List.filterMap_cons]
      by_cases he : la = ra
      · subst he
        simp only [if_true] at h
        have := ih rs hlen h
        simp only [symbolNames] at this
        rw [this]
      · simp only [he, if_false] at h
        cases la with
        | none => simp at h
        | some l =>
          cases ra with
          | none => simp at h
          | some r =>
            simp only at h
            by_cases hn : symbolNameAt heap l = symbolNameAt heap r
            · simp only [hn, ne_eq, not_true_eq_false, if_false] at h
              have := ih rs hlen h
              simp only [symbolNames] at this
              have hb : (some l).bind (symbolNameAt heap) = (some r).bind (symbolNameAt heap) :=
                hn
              rw [this, hb]
            · simp [hn] at h

theorem ArgInfosPtrTy_equal_names (heap : List ArgInfoTy) (a b : ArgInfosTy)
    (h : ArgInfosPtrTy_equal heap a b = true) : symbolNames heap a = symbolNames heap b := by
  unfold ArgInfosPtrTy_equal at h
  by_cases hlen : a.length = b.length
  · simp only [hlen, ne_eq, not_true_eq_false, if_false] at h
    exact ArgInfosPtrTy_equal_loop_names heap a b hlen h
  · simp [hlen] at h

theorem ArgInfoPtrTy_hash_descriptor (hc : HashCombine) (heap : List ArgInfoTy)
    (t : Option Nat) :
    ArgInfoPtrTy_hash hc heap t =
      match descriptorOf heap t with
      | .Unknown => 0
      | .Symbol n => hc.string 0 n := by
  unfold ArgInfoPtrTy_hash descriptorOf
  cases t with
  | none => rfl
  | some p =>
    simp only [isSymbolAt_eq_isSome]
    cases symbolNameAt heap p <;> rfl

theorem ArgInfoPtrTy_equal_hash (hc : HashCombine) (heap : List ArgInfoTy) (x y : Option Nat)
    (h : ArgInfoPtrTy_equal heap x y = true) :
    ArgInfoPtrTy_hash hc heap x = ArgInfoPtrTy_hash hc heap y := by
  unfold ArgInfoPtrTy_equal at h
  cases x with
  | none =>
    cases y with
    | none => rfl
    | some r => simp at h
  | some l =>
    cases y with
    | none => simp at h
    | some r =>
      simp only at h
      split at h
      · simp only [decide_eq_true_eq] at h
        rw [h]
      · rename_i hs
        simp only [decide_eq_true_eq] at h
        simp only [Bool.or_eq_true, Bool.not_eq_true', not_or, Bool.not_eq_false] at hs
        unfold ArgInfoPtrTy_hash
        simp only [hs.1, hs.2, Bool.not_true, Bool.false_eq_true, if_false, h]

/-! ## The result sets hold classified handles only -/

theorem allocatingHandle_iff (cm : CalledModuleTy) (t : Nat) :
    cm.AllocatingHandle t ↔ cm.isAllocating (cm.funOf t) = true := by
  unfold CalledModuleTy.AllocatingHandle CalledModuleTy.isAllocating CalledModuleTy.funOf
  cases cm.calledFunctionsTable[t]? with
  | none => simp
  | some cf =>
    cases hf : cf.fun_ with
    | none => simp [hf]
    | some f => simp [hf]

theorem possibleAllocatorHandle_iff (cm : CalledModuleTy) (t : Nat) :
    cm.PossibleAllocatorHandle t ↔ cm.isPossibleAllocator (cm.funOf t) = true := by
  unfold CalledModuleTy.PossibleAllocatorHandle CalledModuleTy.isPossibleAllocator
    CalledModuleTy.funOf
  cases cm.calledFunctionsTable[t]? with
  | none => simp
  | some cf =>
    cases hf : cf.fun_ with
    | none => simp [hf]
    | some f => simp [hf]

theorem allocatingHandle_mono {cm cm2 : CalledModuleTy} (hext : cm.Ext cm2) (t : Nat)
    (h : cm.AllocatingHandle t) : cm2.AllocatingHandle t := by
  obtain ⟨cf, f, h1, h2, h3⟩ := h
  exact ⟨cf, f, getElem?_grow hext.calledFunctionsTable h1, h2, hext.allocatingFunctions ▸ h3⟩

theorem possibleAllocatorHandle_mono {cm cm2 : CalledModuleTy} (hext : cm.Ext cm2) (t : Nat)
    (h : cm.PossibleAllocatorHandle t) : cm2.PossibleAllocatorHandle t := by
  obtain ⟨cf, f, h1, h2, h3⟩ := h
  exact ⟨cf, f, getElem?_grow hext.calledFunctionsTable h1, h2, hext.possibleAllocators ▸ h3⟩

theorem all_mono {P Q : Nat → Prop} (h : ∀ t, P t → Q t) (s : CAllocStateTy) (hs : s.All P) :
    s.All Q :=
  ⟨fun t ht => h t (hs.1 t ht), fun e he t ht => h t (hs.2 e he t ht)⟩

theorem handleCall_classified (c : RunCtx) (inst : llvm.Value) (cm : CalledModuleTy)
    (s : CAllocStateTy) (hwf : cm.WF) (hs : s.All cm.AllocatingHandle) :
    (handleCall c inst cm s).2.All (handleCall c inst cm s).1.AllocatingHandle := by
  have hext := (getCalledFunction_Value_ext c.H.isInstallConstantCall cm inst hwf).1
  have hs2 := all_mono (allocatingHandle_mono hext) s hs
  unfold handleCall
  simp only
  split
  · rename_i tgt _
    split
    · rename_i halloc
      refine ⟨?_, hs2.2⟩
      intro t ht
      rcases (mem_orderedInsert _ _ _).1 ht with h1 | h1
      · rw [h1]
        exact (allocatingHandle_iff _ _).2 halloc
      · exact hs2.1 t h1
    · exact hs2
  · exact hs2

theorem handleStoreOfCall_classified (c : RunCtx) (val : llvm.Value) (dst : Nat)
    (cm : CalledModuleTy) (s : CAllocStateTy) (hwf : cm.WF) (hs : s.All cm.AllocatingHandle) :
    (handleStoreOfCall c val dst cm s).2.2.All
      (handleStoreOfCall c val dst cm s).2.1.AllocatingHandle := by
  have hext := (getCalledFunction_Value_ext c.H.isInstallConstantCall cm val hwf).1
  have hs2 := all_mono (allocatingHandle_mono hext) s hs
  unfold handleStoreOfCall
  simp only
  split
  · rename_i tgt _
    split
    · rename_i halloc
      exact ⟨hs2.1, addOrigin_all _ _ dst tgt ((allocatingHandle_iff _ _).2 halloc) hs2.2⟩
    · exact hs2
  · exact hs2

theorem handleStore_classified (c : RunCtx) (inst : llvm.Value) (cm : CalledModuleTy)
    (s : CAllocStateTy) (hwf : cm.WF) (hs : s.All cm.AllocatingHandle) :
    (handleStore c inst cm s).2.2.All (handleStore c inst cm s).2.1.AllocatingHandle := by
  unfold handleStore
  split
  · split
    · split
      · rename_i src
        unfold handleStoreOfLoad
        split
        · exact ⟨hs.1, copyOrigins_all _ _ _ _ hs.2⟩
        · exact hs
      · exact handleStoreOfCall_classified c _ _ cm s hwf hs
    · exact hs
  · exact hs

theorem visitInstruction_classified (c : RunCtx) (inst : llvm.Value) (cm : CalledModuleTy)
    (s : CAllocStateTy) (hwf : cm.WF) (hs : s.All cm.AllocatingHandle) :
    (visitInstruction c inst cm s).2.All (visitInstruction c inst cm s).1.AllocatingHandle := by
  have hs1 : CAllocStateTy.All cm.AllocatingHandle
      { s with
        intGuards := c.H.handleIntGuardsForNonTerminator inst s.intGuards
        sexpGuards := c.H.handleSEXPGuardsForNonTerminator inst s.sexpGuards } := hs
  unfold visitInstruction
  simp only
  split
  · have h1 := handleStore_ext c inst cm
      { s with
        intGuards := c.H.handleIntGuardsForNonTerminator inst s.intGuards
        sexpGuards := c.H.handleSEXPGuardsForNonTerminator inst s.sexpGuards } hwf
    have h2 := handleStore_classified c inst cm _ hwf hs1
    split
    · exact h2
    · exact handleCall_classified c inst _ _ h1.2 h2
  · exact handleCall_classified c inst cm _ hwf hs1

theorem visitBlock_classified (c : RunCtx) (insts : List llvm.Value) (cm : CalledModuleTy)
    (s : CAllocStateTy) (hwf : cm.WF) (hs : s.All cm.AllocatingHandle) :
    (visitBlock c insts cm s).2.All (visitBlock c insts cm s).1.AllocatingHandle := by
  induction insts generalizing cm s with
  | nil => exact hs
  | cons inst rest ih =>
    simp only [visitBlock]
    exact ih _ _ (visitInstruction_ext c inst cm s hwf).2
      (visitInstruction_classified c inst cm s hwf hs)

theorem collectWrapped_classified (c : RunCtx) (rv : llvm.Value) (cm : CalledModuleTy)
    (s : CAllocStateTy) (w : CalledFunctionsOrderedSetTy) (hwf : cm.WF)
    (hs : s.All cm.AllocatingHandle)
    (hw : ∀ t ∈ w, cm.AllocatingHandle t ∨ cm.PossibleAllocatorHandle t) :
    ∀ t ∈ (collectWrapped c rv cm s w).2,
      (collectWrapped c rv cm s w).1.AllocatingHandle t ∨
        (collectWrapped c rv cm s w).1.PossibleAllocatorHandle t := by
  have hext := (getCalledFunction_Value_ext c.H.isInstallConstantCall cm rv hwf).1
  have hw1 : ∀ t ∈ (match rv with
      | .loadInst (.allocaInst src) =>
        match s.varOrigins.find src with
        | some knownOrigins => CalledFunctionsOrderedSetTy.insertAll knownOrigins w
        | none => w
      | _ => w),
      (cm.getCalledFunction_Value c.H.isInstallConstantCall rv).2.AllocatingHandle t ∨
        (cm.getCalledFunction_Value c.H.isInstallConstantCall rv).2.PossibleAllocatorHandle t := by
    have hw2 : ∀ t ∈ w,
        (cm.getCalledFunction_Value c.H.isInstallConstantCall rv).2.AllocatingHandle t ∨
        (cm.getCalledFunction_Value c.H.isInstallConstantCall rv).2.PossibleAllocatorHandle
          t := by
      intro t ht
      rcases hw t ht with h | h
      · exact Or.inl (allocatingHandle_mono hext t h)
      · exact Or.inr (possibleAllocatorHandle_mono hext t h)
    split
    · rename_i src
      split
      · rename_i knownOrigins hk
        intro t ht
        rcases (mem_insertAll _ _ _).1 ht with h | h
        · exact Or.inl (allocatingHandle_mono hext t
            (hs.2 _ (VarOriginsTy.find_mem _ _ _ hk) t h))
        · exact hw2 t h
      · exact hw2
    · exact hw2
  unfold collectWrapped
  simp only
  split
  · rename_i tgt _
    split
    · rename_i hposs
      intro t ht
      rcases (mem_orderedInsert _ _ _).1 ht with h | h
      · rw [h]
        exact Or.inr ((possibleAllocatorHandle_iff _ _).2 hposs)
      · exact hw1 t h
    · exact hw1
  · exact hw1

theorem classified_ext (e : EngineState) (cm2 : CalledModuleTy) (he : Classified e)
    (hext : e.cm.Ext cm2) (hwf : cm2.WF) : Classified { e with cm := cm2 } where
  wf := hwf
  called := fun t ht => allocatingHandle_mono hext t (he.called t ht)
  wrapped := fun t ht =>
    (he.wrapped t ht).imp (allocatingHandle_mono hext t) (possibleAllocatorHandle_mono hext t)
  workList := fun s hs => all_mono (allocatingHandle_mono hext) s (he.workList s hs)
  doneSet := fun s hs => all_mono (allocatingHandle_mono hext) s (he.doneSet s hs)

theorem handleReturn_classified (c : RunCtx) (t : llvm.Value) (s : CAllocStateTy)
    (st : EngineState) (hst : Classified st) (hs : s.All st.cm.AllocatingHandle) :
    Classified (handleReturn c t s st) := by
  have hcalled : ∀ x ∈ CalledFunctionsOrderedSetTy.insertAll s.called st.called,
      st.cm.AllocatingHandle x := by
    intro x hx
    rcases (mem_insertAll _ _ _).1 hx with h | h
    · exact hs.1 x h
    · exact hst.called x h
  have hwrapped0 : ∀ x ∈ (if (CalledFunctionsOrderedSetTy.insertAll s.called st.called).contains
        st.cm.gcFunction then CalledFunctionsOrderedSetTy.insert st.cm.gcFunction st.wrapped
      else st.wrapped), st.cm.AllocatingHandle x ∨ st.cm.PossibleAllocatorHandle x := by
    split
    · rename_i hgc
      intro x hx
      rcases (mem_orderedInsert _ _ _).1 hx with h | h
      · rw [h]
        exact Or.inl (hcalled _ ((contains_iff_mem _ _).1 hgc))
      · exact hst.wrapped x h
    · exact hst.wrapped
  unfold handleReturn
  split
  · rename_i returnValue
    simp only
    split
    · split
      · rename_i returnOperand
        have hext := collectWrapped_ext c returnOperand st.cm s
          (if (CalledFunctionsOrderedSetTy.insertAll s.called st.called).contains
              st.cm.gcFunction then
            CalledFunctionsOrderedSetTy.insert st.cm.gcFunction st.wrapped
          else st.wrapped) hst.wf
        exact {
          wf := hext.2
          called := fun x hx => allocatingHandle_mono hext.1 x (hcalled x hx)
          wrapped := collectWrapped_classified c returnOperand st.cm s _ hst.wf hs hwrapped0
          workList := fun x hx =>
            all_mono (allocatingHandle_mono hext.1) x (hst.workList x hx)
          doneSet := fun x hx =>
            all_mono (allocatingHandle_mono hext.1) x (hst.doneSet x hx) }
      · exact ⟨hst.wf, hcalled, hwrapped0, hst.workList, hst.doneSet⟩
    · exact ⟨hst.wf, hcalled, hst.wrapped, hst.workList, hst.doneSet⟩
  · exact hst

theorem processState_classified (c : RunCtx) (s : CAllocStateTy) (st : EngineState)
    (hst : Classified st) (hs : s.All st.cm.AllocatingHandle) :
    Classified (processState c s st) := by
  have h1 := visitBlock_ext c (c.F.block s.bb) st.cm s hst.wf
  have h2 := visitBlock_classified c (c.F.block s.bb) st.cm s hst.wf hs
  have h3 := classified_ext st _ hst h1.1 h1.2
  unfold processState
  simp only
  split
  · exact h3
  · rename_i t _
    have h4 := handleReturn_classified c t (visitBlock c (c.F.block s.bb) st.cm s).2
      { st with cm := (visitBlock c (c.F.block s.bb) st.cm s).1 } h3 h2
    have h5 := (handleReturn_ext c t (visitBlock c (c.F.block s.bb) st.cm s).2
      { st with cm := (visitBlock c (c.F.block s.bb) st.cm s).1 } h1.2).1
    have h6 := successorStates_all c _ t _ (all_mono (allocatingHandle_mono h5) _ h2)
    obtain ⟨_, _, _, h7, h8⟩ := addAll_spec
      (successorStates c t (visitBlock c (c.F.block s.bb) st.cm s).2)
      (handleReturn c t (visitBlock c (c.F.block s.bb) st.cm s).2
        { st with cm := (visitBlock c (c.F.block s.bb) st.cm s).1 }).workList
      (handleReturn c t (visitBlock c (c.F.block s.bb) st.cm s).2
        { st with cm := (visitBlock c (c.F.block s.bb) st.cm s).1 }).doneSet
    refine ⟨h4.wf, h4.called, h4.wrapped, ?_, ?_⟩
    · intro x hx
      rcases h8 x hx with h | h
      · exact h4.workList x h
      · exact h6 x h.1
    · intro x hx
      rcases h7 x hx with h | h
      · exact h4.doneSet x h
      · exact h6 x h.1

/-- Along a run of the worklist loop every engine state at a loop head, and the
final one, holds classified handles only, and the module has only grown. -/
theorem workLoopTrace_classified (c : RunCtx) (cm0 : CalledModuleTy) (fuel : Nat)
    (st r : EngineState) (tr : List Iteration) (hst : Classified st) (h0 : cm0.Ext st.cm)
    (h : workLoopTrace c fuel st = some (tr, r)) :
    (∀ i ∈ tr, (Classified i.head ∧ cm0.Ext i.head.cm) ∧
      i.head.workList.head? = some i.popped) ∧ Classified r ∧ cm0.Ext r.cm := by
  refine workLoopTrace_induct c (fun e => Classified e ∧ cm0.Ext e.cm) ?_ ?_ ?_ fuel st r tr
    ⟨hst, h0⟩ h
  · intro e s rest hw he
    refine ⟨⟨he.1.wf, he.1.called, he.1.wrapped, ?_, he.1.doneSet⟩, he.2⟩
    intro x hx
    exact he.1.workList x (by rw [hw]; exact List.mem_cons_of_mem _ hx)
  · intro e l he
    exact ⟨⟨he.1.wf, he.1.called, he.1.wrapped, he.1.workList, he.1.doneSet⟩, he.2⟩
  · intro e s rest hw he
    have hs : s.All e.cm.AllocatingHandle :=
      he.1.workList s (by rw [hw]; exact List.mem_cons_self _ _)
    have he2 : Classified { e with workList := rest } :=
      ⟨he.1.wf, he.1.called, he.1.wrapped,
        fun x hx => he.1.workList x (by rw [hw]; exact List.mem_cons_of_mem _ hx),
        he.1.doneSet⟩
    exact ⟨processState_classified c s _ he2 hs,
      he.2.trans (processState_ext c s { e with workList := rest } he.1.wf).1⟩

theorem seedState_classified (st : EngineState) (hwf : st.cm.WF) (hcalled : st.called = [])
    (hwrapped : st.wrapped = []) : Classified (seedState st) := by
  have hinit : ∀ s ∈ [CAllocStateTy.init 0], s.All st.cm.AllocatingHandle := by
    intro s hs
    rw [List.mem_singleton.1 hs]
    exact ⟨fun t ht => absurd ht (List.not_mem_nil t),
      fun e he => absurd he (List.not_mem_nil e)⟩
  refine ⟨hwf, ?_, ?_, hinit, hinit⟩
  · intro t ht
    rw [(seedState_fields st).2.2.2.1, hcalled] at ht
    exact absurd ht (List.not_mem_nil t)
  · intro t ht
    rw [(seedState_fields st).2.2.2.2.1, hwrapped] at ht
    exact absurd ht (List.not_mem_nil t)

/-! ## Lookups in a module that knows the call sites -/

theorem lookupHandle_of_none (icc : llvm.Value → Option String) (cm : CalledModuleTy)
    (v : llvm.Value) (h : (cm.getCalledFunction_Value icc v).1 = none) :
    cm.lookupHandle icc v = none := by
  unfold CalledModuleTy.lookupHandle
  rcases (getCalledFunction_Value_none icc cm v).1 h with hc | ⟨args, hc⟩ <;> rw [hc]

/-- A value that is looked up as the tables hold it stays so in every later
state of the module. -/
theorem known_ext (icc : llvm.Value → Option String) {cm cm2 : CalledModuleTy} (hwf : cm.WF)
    (hext : cm.Ext cm2) (hwf2 : cm2.WF) (v : llvm.Value)
    (hk : (cm.getCalledFunction_Value icc v).1 = cm.lookupHandle icc v) :
    (cm2.getCalledFunction_Value icc v).1 = cm2.lookupHandle icc v := by
  cases hl : cm.lookupHandle icc v with
  | none =>
    rw [hl] at hk
    have h2 : (cm2.getCalledFunction_Value icc v).1 = none :=
      (getCalledFunction_Value_none icc cm2 v).2 ((getCalledFunction_Value_none icc cm v).1 hk)
    rw [h2, lookupHandle_of_none icc cm2 v h2]
  | some h =>
    have hl2 := lookupHandle_ext hwf hext icc v h hl
    rw [hl2, (getCalledFunction_Value_hit icc cm2 v h hwf2 hl2).1]

theorem registered_ext (icc : llvm.Value → Option String) {cm cm2 : CalledModuleTy}
    (hwf : cm.WF) (hext : cm.Ext cm2) (hwf2 : cm2.WF) (F : llvm.Function)
    (hreg : cm.Registered icc F) : cm2.Registered icc F :=
  fun bb hbb inst hinst v hv => known_ext icc hwf hext hwf2 v (hreg bb hbb inst hinst v hv)

theorem sameTables_refl (cm : CalledModuleTy) : cm.SameTables cm := ⟨rfl, rfl⟩

theorem sameTables_trans {a b c : CalledModuleTy} (h1 : a.SameTables b) (h2 : b.SameTables c) :
    a.SameTables c := ⟨h2.1.trans h1.1, h2.2.trans h1.2⟩

/-- Looking up a value the module knows leaves the two tables as they are. -/
theorem known_sameTables (icc : llvm.Value → Option String) (cm : CalledModuleTy)
    (v : llvm.Value) (hwf : cm.WF)
    (hk : (cm.getCalledFunction_Value icc v).1 = cm.lookupHandle icc v) :
    cm.SameTables (cm.getCalledFunction_Value icc v).2 := by
  cases hl : cm.lookupHandle icc v with
  | none =>
    rw [hl] at hk
    rw [getCalledFunction_Value_of_none icc cm v hk]
    exact sameTables_refl cm
  | some h => exact (getCalledFunction_Value_hit icc cm v h hwf hl).2

theorem self_mem_lookedUp (inst : llvm.Value) : inst ∈ lookedUp inst := by
  unfold lookedUp
  split <;> simp

theorem handleCall_sameTables (c : RunCtx) (inst : llvm.Value) (cm : CalledModuleTy)
    (s : CAllocStateTy) (hwf : cm.WF)
    (hk : (cm.getCalledFunction_Value c.H.isInstallConstantCall inst).1 =
      cm.lookupHandle c.H.isInstallConstantCall inst) :
    cm.SameTables (handleCall c inst cm s).1 := by
  rw [handleCall_fst]
  exact known_sameTables _ cm inst hwf hk

theorem handleStore_sameTables (c : RunCtx) (inst : llvm.Value) (cm : CalledModuleTy)
    (s : CAllocStateTy) (hwf : cm.WF)
    (hk : ∀ v ∈ lookedUp inst, (cm.getCalledFunction_Value c.H.isInstallConstantCall v).1 =
      cm.lookupHandle c.H.isInstallConstantCall v) :
    cm.SameTables (handleStore c inst cm s).2.1 := by
  unfold handleStore
  split
  · rename_i val dst
    split
    · split
      · exact sameTables_refl cm
      · rw [handleStoreOfCall_fst]
        exact known_sameTables _ cm val hwf (hk val (by simp [lookedUp]))
    · exact sameTables_refl cm
  · exact sameTables_refl cm

theorem visitInstruction_sameTables (c : RunCtx) (inst : llvm.Value) (cm : CalledModuleTy)
    (s : CAllocStateTy) (hwf : cm.WF)
    (hk : ∀ v ∈ lookedUp inst, (cm.getCalledFunction_Value c.H.isInstallConstantCall v).1 =
      cm.lookupHandle c.H.isInstallConstantCall v) :
    cm.SameTables (visitInstruction c inst cm s).1 := by
  unfold visitInstruction
  simp only
  split
  · have h1 := handleStore_ext c inst cm
      { s with
        intGuards := c.H.handleIntGuardsForNonTerminator inst s.intGuards
        sexpGuards := c.H.handleSEXPGuardsForNonTerminator inst s.sexpGuards } hwf
    have h2 := handleStore_sameTables c inst cm
      { s with
        intGuards := c.H.handleIntGuardsForNonTerminator inst s.intGuards
        sexpGuards := c.H.handleSEXPGuardsForNonTerminator inst s.sexpGuards } hwf hk
    split
    · exact h2
    · exact sameTables_trans h2 (handleCall_sameTables c inst _ _ h1.2
        (known_ext _ hwf h1.1 h1.2 inst (hk inst (self_mem_lookedUp inst))))
  · exact handleCall_sameTables c inst cm _ hwf (hk inst (self_mem_lookedUp inst))

theorem visitBlock_sameTables (c : RunCtx) (insts : List llvm.Value) (cm : CalledModuleTy)
    (s : CAllocStateTy) (hwf : cm.WF)
    (hk : ∀ inst ∈ insts, ∀ v ∈ lookedUp inst,
      (cm.getCalledFunction_Value c.H.isInstallConstantCall v).1 =
        cm.lookupHandle c.H.isInstallConstantCall v) :
    cm.SameTables (visitBlock c insts cm s).1 := by
  induction insts generalizing cm s with
  | nil => exact sameTables_refl cm
  | cons inst rest ih =>
    have h1 := visitInstruction_ext c inst cm s hwf
    have h2 := visitInstruction_sameTables c inst cm s hwf (hk inst (List.mem_cons_self _ _))
    simp only [visitBlock]
    exact sameTables_trans h2 (ih _ _ h1.2 (fun i hi v hv =>
      known_ext _ hwf h1.1 h1.2 v (hk i (List.mem_cons_of_mem _ hi) v hv)))

theorem collectWrapped_sameTables (c : RunCtx) (rv : llvm.Value) (cm : CalledModuleTy)
    (s : CAllocStateTy) (w : CalledFunctionsOrderedSetTy) (hwf : cm.WF)
    (hk : (cm.getCalledFunction_Value c.H.isInstallConstantCall rv).1 =
      cm.lookupHandle c.H.isInstallConstantCall rv) :
    cm.SameTables (collectWrapped c rv cm s w).1 := by
  rw [collectWrapped_fst]
  exact known_sameTables _ cm rv hwf hk

theorem handleReturn_sameTables (c : RunCtx) (t : llvm.Value) (s : CAllocStateTy)
    (st : EngineState) (hwf : st.cm.WF)
    (hk : ∀ v ∈ lookedUp t, (st.cm.getCalledFunction_Value c.H.isInstallConstantCall v).1 =
      st.cm.lookupHandle c.H.isInstallConstantCall v) :
    st.cm.SameTables (handleReturn c t s st).cm := by
  unfold handleReturn
  split
  · simp only
    split
    · split
      · rename_i returnOperand
        exact collectWrapped_sameTables c returnOperand st.cm s _ hwf
          (hk returnOperand (by simp [lookedUp]))
      · exact sameTables_refl _
    · exact sameTables_refl _
  · exact sameTables_refl _

theorem processState_sameTables (c : RunCtx) (s : CAllocStateTy) (st : EngineState)
    (hwf : st.cm.WF) (hreg : st.cm.Registered c.H.isInstallConstantCall c.F) :
    st.cm.SameTables (processState c s st).cm := by
  have h1 := visitBlock_ext c (c.F.block s.bb) st.cm s hwf
  have h2 := visitBlock_sameTables c (c.F.block s.bb) st.cm s hwf (fun inst hi v hv => by
    obtain ⟨bb, hbb, hin⟩ := block_mem c.F s.bb inst hi
    exact hreg bb hbb inst hin v hv)
  unfold processState
  simp only
  split
  · exact h2
  · rename_i t ht
    obtain ⟨bb, hbb, hin⟩ := block_mem c.F s.bb t (getTerminator_mem _ t ht)
    have h3 := handleReturn_sameTables c t (visitBlock c (c.F.block s.bb) st.cm s).2
      { st with cm := (visitBlock c (c.F.block s.bb) st.cm s).1 } h1.2
      (fun v hv => known_ext _ hwf h1.1 h1.2 v (hreg bb hbb t hin v hv))
    exact sameTables_trans h2 h3

theorem workLoop_sameTables (c : RunCtx) (fuel : Nat) (st r : EngineState) (hwf : st.cm.WF)
    (hreg : st.cm.Registered c.H.isInstallConstantCall c.F)
    (h : workLoop c fuel st = some r) : st.cm.SameTables r.cm := by
  obtain ⟨tr, htr⟩ := workLoopTrace_some c fuel st r h
  refine (workLoopTrace_induct c
    (fun e => st.cm.Ext e.cm ∧ e.cm.WF ∧ st.cm.SameTables e.cm) ?_ ?_ ?_ fuel st r tr
    ⟨CalledModuleTy.Ext.refl _, hwf, sameTables_refl _⟩ htr).2.2.2
  · intro e s rest _ he
    exact he
  · intro e l he
    exact he
  · intro e s rest _ he
    have h1 := processState_ext c s { e with workList := rest } he.2.1
    have h2 := processState_sameTables c s { e with workList := rest } he.2.1
      (registered_ext _ hwf he.1 he.2.1 c.F hreg)
    exact ⟨he.1.trans h1.1, h1.2, sameTables_trans he.2.2 h2⟩

theorem getCalledAndWrappedFunctionsCap_sameTables (H : Helpers) (maxStates fuel : Nat)
    (f : CalledFunctionTy) (st r : EngineState) (hwf : st.cm.WF)
    (hreg : ∀ fn, f.fun_ = some fn → st.cm.Registered H.isInstallConstantCall (st.cm.m.fn fn))
    (h : getCalledAndWrappedFunctionsCap H maxStates fuel f st = some r) :
    st.cm.SameTables r.cm := by
  unfold getCalledAndWrappedFunctionsCap at h
  cases hf : f.fun_ with
  | none =>
    simp only [hf, Option.some.injEq] at h
    subst h
    exact sameTables_refl _
  | some fn =>
    simp only [hf] at h
    split at h
    · simp only [Option.some.injEq] at h
      subst h
      exact sameTables_refl _
    · have hreg2 : (seedState st).cm.Registered
          (RunCtx.make H st.cm fn maxStates).H.isInstallConstantCall
          (RunCtx.make H st.cm fn maxStates).F := hreg fn hf
      exact workLoop_sameTables (RunCtx.make H st.cm fn maxStates) fuel (seedState st) r hwf
        hreg2 h

/-- The loop of the driver over a module that knows the call sites of every
body leaves the called-function table and the context table as they are. -/
theorem getCalledAllocatorsLoop_sameTables (H : Helpers) (fuel : Nat) (o : List Nat)
    (st st2 : EngineState) (rep : List FunctionReport) (hwf : st.cm.WF)
    (hreg : ∀ fn, st.cm.Registered H.isInstallConstantCall (st.cm.m.fn fn))
    (h : getCalledAllocatorsLoop H fuel o st = some (rep, st2)) :
    st.cm.SameTables st2.cm := by
  induction o generalizing st rep with
  | nil =>
    simp only [getCalledAllocatorsLoop, Option.some.injEq, Prod.mk.injEq] at h
    rw [← h.2]
    exact sameTables_refl _
  | cons hd rest ih =>
    rcases getCalledAllocatorsLoop_cases H fuel hd rest st with ⟨heq, _⟩ |
      ⟨f, fn, ht, hf, hs, heq⟩
    · rw [heq] at h
      exact ih st rep hwf hreg h
    · rw [heq] at h
      cases hr : getCalledAndWrappedFunctions H fuel f { st with called := [], wrapped := [] } with
      | none => simp [hr] at h
      | some r =>
        simp only [hr] at h
        obtain ⟨p, hp, hpe⟩ := Option.map_eq_some'.1 h
        obtain ⟨rep2, st3⟩ := p
        simp only [Prod.mk.injEq] at hpe
        obtain ⟨_, hst3⟩ := hpe
        subst hst3
        have he := getCalledAndWrappedFunctionsCap_ext H MAX_STATES fuel f
          { st with called := [], wrapped := [] } r hwf hr
        have h1 := getCalledAndWrappedFunctionsCap_sameTables H MAX_STATES fuel f
          { st with called := [], wrapped := [] } r hwf (fun fn2 _ => hreg fn2) hr
        have hreg2 : ∀ fn, r.cm.Registered H.isInstallConstantCall (r.cm.m.fn fn) := by
          intro fn2
          rw [← he.1.m]
          exact registered_ext _ hwf he.1 he.2 _ (hreg fn2)
        exact sameTables_trans h1 (ih r rep2 he.2 hreg2 hp)

/-! ## The constructor -/

theorem registerUsers_ext (icc : llvm.Value → Option String) (cm : CalledModuleTy)
    (l : List llvm.Value) (hwf : cm.WF) :
    cm.Ext (cm.registerUsers icc l) ∧ (cm.registerUsers icc l).WF := by
  induction l generalizing cm with
  | nil => exact ⟨CalledModuleTy.Ext.refl cm, hwf⟩
  | cons u rest ih =>
    have h1 := getCalledFunction_Value_ext icc cm u hwf
    have h2 := ih _ h1.2
    simp only [CalledModuleTy.registerUsers]
    exact ⟨h1.1.trans h2.1, h2.2⟩

/-- After the inner loop of the constructor every direct call among the users
is in the tables. -/
theorem registerUsers_lookup (icc : llvm.Value → Option String) (cm : CalledModuleTy)
    (l : List llvm.Value) (v : llvm.Value) (callee : Nat) (args : List llvm.Value)
    (hwf : cm.WF) (hv : v ∈ l) (hcs : v.callSite = some (some callee, args)) :
    ∃ h, (cm.registerUsers icc l).lookupHandle icc v = some h := by
  induction l generalizing cm with
  | nil => exact absurd hv (List.not_mem_nil v)
  | cons u rest ih =>
    have h1 := getCalledFunction_Value_ext icc cm u hwf
    simp only [CalledModuleTy.registerUsers]
    rcases List.mem_cons.1 hv with hu | hu
    · subst hu
      obtain ⟨h, _, _, _, _, hw1, _, _, _, _, hl⟩ :=
        getCalledFunction_Value_spec icc cm v callee args hwf hcs
      exact ⟨h, lookupHandle_ext hw1 (registerUsers_ext icc _ rest hw1).1 icc v h hl⟩
    · exact ih _ h1.2 hu

theorem registerFunctions_ext (icc : llvm.Value → Option String)
    (users : Nat → List llvm.Value) (cm : CalledModuleTy) (fs : List Nat) (hwf : cm.WF) :
    cm.Ext (cm.registerFunctions icc users fs) ∧ (cm.registerFunctions icc users fs).WF := by
  induction fs generalizing cm with
  | nil => exact ⟨CalledModuleTy.Ext.refl cm, hwf⟩
  | cons f rest ih =>
    have h1 := registerUsers_ext icc cm (users f) hwf
    have h2 := ih _ h1.2
    simp only [CalledModuleTy.registerFunctions]
    exact ⟨h1.1.trans h2.1, h2.2⟩

/-- After the outer loop of the constructor every direct call among the users
of the functions visited is in the tables. -/
theorem registerFunctions_lookup (icc : llvm.Value → Option String)
    (users : Nat → List llvm.Value) (cm : CalledModuleTy) (fs : List Nat) (f : Nat)
    (v : llvm.Value) (callee : Nat) (args : List llvm.Value) (hwf : cm.WF) (hf : f ∈ fs)
    (hv : v ∈ users f) (hcs : v.callSite = some (some callee, args)) :
    ∃ h, (cm.registerFunctions icc users fs).lookupHandle icc v = some h := by
  induction fs generalizing cm with
  | nil => exact absurd hf (List.not_mem_nil f)
  | cons g rest ih =>
    have h1 := registerUsers_ext icc cm (users g) hwf
    simp only [CalledModuleTy.registerFunctions]
    rcases List.mem_cons.1 hf with hg | hg
    · subst hg
      obtain ⟨h, hl⟩ := registerUsers_lookup icc cm (users f) v callee args hwf hv hcs
      exact ⟨h, lookupHandle_ext h1.2 (registerFunctions_ext icc users _ rest h1.2).1 icc v h hl⟩
    · exact ih _ h1.2 hg

theorem wf_gcFunction (cm : CalledModuleTy) (g : Nat) (hwf : cm.WF) :
    CalledModuleTy.WF { cm with gcFunction := g } :=
  ⟨hwf.argInfos_valid, hwf.argInfo_valid, hwf.calledFunctions_valid⟩

/-- What the constructor leaves: a well-formed module over `m` with the sets
passed in, whose tables hold every direct call of the bodies and the handle of
the GC function. -/
theorem newCalledModuleTy_spec (icc : llvm.Value → Option String) (this : Nat)
    (m : llvm.Module) (users : Nat → List llvm.Value) (symbolsMap : Nat → Option String)
    (errorFunctions possibleAllocators allocatingFunctions : FunctionsSetTy) (gcFun : Nat)
    (hcover : UsersCover m users) :
    (newCalledModuleTy icc this m users symbolsMap errorFunctions possibleAllocators
        allocatingFunctions gcFun).WF ∧
      (newCalledModuleTy icc this m users symbolsMap errorFunctions possibleAllocators
        allocatingFunctions gcFun).m = m ∧
      (∃ cf, (newCalledModuleTy icc this m users symbolsMap errorFunctions possibleAllocators
        allocatingFunctions gcFun).calledFunctionsTable[(newCalledModuleTy icc this m users
          symbolsMap errorFunctions possibleAllocators allocatingFunctions gcFun).gcFunction]? =
          some cf ∧ cf.fun_ = some gcFun) ∧
      ∀ fn, ∀ bb ∈ (m.fn fn).blocks, ∀ inst ∈ bb, ∀ v ∈ lookedUp inst, ∀ callee args,
        v.callSite = some (some callee, args) →
        ∃ h, (newCalledModuleTy icc this m users symbolsMap errorFunctions possibleAllocators
          allocatingFunctions gcFun).lookupHandle icc v = some h := by
  have hwf0 : CalledModuleTy.WF
      { this := this, argInfoHeap := [], calledFunctionsTable := [], argInfosTable := [],
        argInfoTable := [], symbolsMap := symbolsMap, m := m, errorFunctions := errorFunctions,
        possibleAllocators := possibleAllocators, allocatingFunctions := allocatingFunctions,
        gcFunction := 0 } :=
    ⟨fun c hc => absurd hc (List.not_mem_nil c), fun a ha => absurd ha (List.not_mem_nil a),
      fun cf hcf => absurd hcf (List.not_mem_nil cf)⟩
  have h1 := registerFunctions_ext icc users _ (List.range m.size) hwf0
  have h2 := getCalledFunction_Function_ext _ gcFun h1.2
  refine ⟨wf_gcFunction _ _ h2.2, ?_, ?_, ?_⟩
  · exact (h2.1.m.symm.trans h1.1.m.symm)
  · obtain ⟨ai, hg, _⟩ := getCalledFunction_Function_get
      (CalledModuleTy.registerFunctions icc users
        { this := this, argInfoHeap := [], calledFunctionsTable := [], argInfosTable := [],
          argInfoTable := [], symbolsMap := symbolsMap, m := m,
          errorFunctions := errorFunctions, possibleAllocators := possibleAllocators,
          allocatingFunctions := allocatingFunctions, gcFunction := 0 }
        (List.range m.size)) gcFun
    exact ⟨_, hg, rfl⟩
  · intro fn bb hbb inst hinst v hv callee args hcs
    obtain ⟨hlt, hmem⟩ := hcover fn bb hbb inst hinst v hv callee args hcs
    obtain ⟨h, hl⟩ := registerFunctions_lookup icc users _ (List.range m.size) callee v callee
      args hwf0 (List.mem_range.2 hlt) hmem hcs
    exact ⟨h, lookupHandle_ext h1.2 h2.1 icc v h hl⟩

theorem prefix_antisymm {α : Type} {a b : List α} (h1 : a <+: b) (h2 : b <+: a) : b = a :=
  h2.eq_of_length (Nat.le_antisymm h2.length_le h1.length_le)

/-- A state of the module between two states with the same tables has those
tables. -/
theorem sameTables_between {a b c : CalledModuleTy} (hab : a.Ext b) (hbc : b.Ext c)
    (hac : a.SameTables c) : a.SameTables b :=
  ⟨prefix_antisymm hab.calledFunctionsTable (hac.1 ▸ hbc.calledFunctionsTable),
    prefix_antisymm hab.argInfosTable (hac.2 ▸ hbc.argInfosTable)⟩

/-- A module whose tables hold every direct call of a function knows its call
sites. -/
theorem registered_of_lookup (icc : llvm.Value → Option String) (cm : CalledModuleTy)
    (F : llvm.Function) (hwf : cm.WF)
    (h : ∀ bb ∈ F.blocks, ∀ inst ∈ bb, ∀ v ∈ lookedUp inst, ∀ callee args,
      v.callSite = some (some callee, args) → ∃ h, cm.lookupHandle icc v = some h) :
    cm.Registered icc F := by
  intro bb hbb inst hinst v hv
  cases hcs : v.callSite with
  | none =>
    have h1 := (getCalledFunction_Value_none icc cm v).2 (Or.inl hcs)
    rw [h1, lookupHandle_of_none icc cm v h1]
  | some p =>
    obtain ⟨callee, args⟩ := p
    cases callee with
    | none =>
      have h1 := (getCalledFunction_Value_none icc cm v).2 (Or.inr ⟨args, hcs⟩)
      rw [h1, lookupHandle_of_none icc cm v h1]
    | some f =>
      obtain ⟨x, hx⟩ := h bb hbb inst hinst v hv f args hcs
      rw [hx, (getCalledFunction_Value_hit icc cm v x hwf hx).1]

theorem recursiveUsers_cover : UsersCover (moduleWith recursiveBody) recursiveUsers := by
  intro fn bb hbb inst hinst v hv callee args hcs
  match fn with
  | 0 =>
    simp only [moduleWith, recursiveBody, List.mem_singleton] at hbb
    subst hbb
    simp only [List.mem_cons, List.mem_singleton, List.not_mem_nil, or_false] at hinst
    rcases hinst with rfl | rfl | rfl
    · simp only [lookedUp, List.mem_singleton] at hv
      subst hv
      cases hcs
      exact ⟨by decide, List.mem_cons_self _ _⟩
    · simp only [lookedUp, List.mem_singleton] at hv
      subst hv
      cases hcs
      exact ⟨by decide, List.mem_cons_self _ _⟩
    · simp only [lookedUp, List.mem_cons, List.mem_singleton, List.not_mem_nil,
        or_false] at hv
      rcases hv with rfl | rfl
      · cases hcs
      · cases hcs
        exact ⟨by decide, List.mem_cons_self _ _⟩
  | 1 => cases hbb
  | 2 => cases hbb
  | 3 => cases hbb
  | n + 4 => cases hbb

/-! ## C21: hash and equality on the intern tables -/

/-- C21. Hash agrees with equality on the intern tables, for every
`hash_combine`.  Two contexts equal by `ArgInfosPtrTy_equal` have the same
`ArgInfosPtrTy_hash`; the hash of a context is made from the symbol names of its
Symbol entries in order and from their number, and from nothing else, so two
contexts (in any two heaps) with the same names have the same hash;
`ArgInfoPtrTy_hash` is `0` for every Unknown descriptor and has one value for
all Symbol descriptors of one name; and two descriptors equal by
`ArgInfoPtrTy_equal` have the same hash. -/
theorem hash_agrees_with_equal (hc : HashCombine) (heap : List ArgInfoTy) (a b : ArgInfosTy)
    (h : ArgInfosPtrTy_equal heap a b = true) :
    ArgInfosPtrTy_hash hc heap a = ArgInfosPtrTy_hash hc heap b ∧
      (∀ (heap2 : List ArgInfoTy) (x : ArgInfosTy), ArgInfosPtrTy_hash hc heap2 x =
        hc.size ((symbolNames heap2 x).foldl hc.string 0) (symbolNames heap2 x).length) ∧
      (∀ (h1 h2 : List ArgInfoTy) (x y : ArgInfosTy), symbolNames h1 x = symbolNames h2 y →
        ArgInfosPtrTy_hash hc h1 x = ArgInfosPtrTy_hash hc h2 y) ∧
      (∀ t, descriptorOf heap t = ArgDescriptor.Unknown → ArgInfoPtrTy_hash hc heap t = 0) ∧
      (∀ x y n, descriptorOf heap x = ArgDescriptor.Symbol n →
        descriptorOf heap y = ArgDescriptor.Symbol n →
        ArgInfoPtrTy_hash hc heap x = ArgInfoPtrTy_hash hc heap y) ∧
      ∀ x y, ArgInfoPtrTy_equal heap x y = true →
        ArgInfoPtrTy_hash hc heap x = ArgInfoPtrTy_hash hc heap y := by
  refine ⟨?_, ArgInfosPtrTy_hash_names hc, ?_, ?_, ?_, ArgInfoPtrTy_equal_hash hc heap⟩
  · rw [ArgInfosPtrTy_hash_names, ArgInfosPtrTy_hash_names, ArgInfosPtrTy_equal_names heap a b h]
  · intro h1 h2 x y hxy
    rw [ArgInfosPtrTy_hash_names, ArgInfosPtrTy_hash_names, hxy]
  · intro t ht
    rw [ArgInfoPtrTy_hash_descriptor, ht]
  · intro x y n hx hy
    rw [ArgInfoPtrTy_hash_descriptor, ArgInfoPtrTy_hash_descriptor, hx, hy]

/-- Witness for C21: two contexts whose first entries are two distinct objects
for the symbol `a`. -/
theorem hash_agrees_with_equal_witness :
    ArgInfosPtrTy_equal [ArgInfoTy.symbol "a", ArgInfoTy.symbol "a"] [some 0, none]
        [some 1, none] = true ∧
      ArgInfosPtrTy_hash exampleHash [ArgInfoTy.symbol "a", ArgInfoTy.symbol "a"]
          [some 0, none] =
        ArgInfosPtrTy_hash exampleHash [ArgInfoTy.symbol "a", ArgInfoTy.symbol "a"]
          [some 1, none] :=
  ⟨by decide,
    (hash_agrees_with_equal exampleHash [ArgInfoTy.symbol "a", ArgInfoTy.symbol "a"]
      [some 0, none] [some 1, none] (by decide)).1⟩

/-! ## C23: the result sets range over classified functions -/

/-- C23. Result sets range over classified functions only.  Every run of
`getCalledAndWrappedFunctions` started with empty result sets returns, and then:
every handle of the returned called set is in `calledFunctionsTable` with its
function in `allocatingFunctions`; every handle of the returned wrapped set has
its function in `allocatingFunctions` or in `possibleAllocators` (the handle of
the GC function is entered only when it is in the called set, so it is among the
first); and the same holds, with `allocatingFunctions`, for the call set and
every variable-origins entry of every state: those of the worklist and of the
DoneSet at every loop head, the popped state, the state after any number of
instructions of its block, the successor states made at the end of the block,
and the states of the DoneSet at the end.  The module has only grown, so the
sets of functions are those of the start. -/
theorem results_classified (H : Helpers) (f : CalledFunctionTy) (st : EngineState)
    (hwf : st.cm.WF) (hcalled : st.called = []) (hwrapped : st.wrapped = []) :
    (∃ fuel tr r, getCalledAndWrappedFunctionsTrace H MAX_STATES fuel f st = some (tr, r)) ∧
      ∀ fuel tr r, getCalledAndWrappedFunctionsTrace H MAX_STATES fuel f st = some (tr, r) →
        st.cm.Ext r.cm ∧
        (∀ t ∈ r.called, r.cm.AllocatingHandle t) ∧
        (∀ t ∈ r.wrapped, r.cm.AllocatingHandle t ∨ r.cm.PossibleAllocatorHandle t) ∧
        (tr ≠ [] → ∀ s ∈ r.doneSet, s.All r.cm.AllocatingHandle) ∧
        ∀ fn, f.fun_ = some fn → ∀ i ∈ tr,
          st.cm.Ext i.head.cm ∧
          (∀ s ∈ i.head.workList, s.All i.head.cm.AllocatingHandle) ∧
          (∀ s ∈ i.head.doneSet, s.All i.head.cm.AllocatingHandle) ∧
          i.popped.All i.head.cm.AllocatingHandle ∧
          (∀ k, (visitBlock (RunCtx.make H st.cm fn MAX_STATES)
              (((st.cm.m.fn fn).block i.popped.bb).take k) i.head.cm i.popped).2.All
            (visitBlock (RunCtx.make H st.cm fn MAX_STATES)
              (((st.cm.m.fn fn).block i.popped.bb).take k) i.head.cm
              i.popped).1.AllocatingHandle) ∧
          ∀ t, ∀ x ∈ successorStates (RunCtx.make H st.cm fn MAX_STATES) t
            (visitBlock (RunCtx.make H st.cm fn MAX_STATES)
              ((st.cm.m.fn fn).block i.popped.bb) i.head.cm i.popped).2,
            x.All (visitBlock (RunCtx.make H st.cm fn MAX_STATES)
              ((st.cm.m.fn fn).block i.popped.bb) i.head.cm i.popped).1.AllocatingHandle := by
  constructor
  · obtain ⟨fuel, r, hr⟩ := getCalledAndWrappedFunctionsCap_terminates H MAX_STATES f st
    obtain ⟨tr, htr⟩ := (getCalledAndWrappedFunctionsTrace_some H MAX_STATES fuel f st r).1 hr
    exact ⟨fuel, tr, r, htr⟩
  · intro fuel tr r h
    have htriv : (tr, r) = ([], st) →
        st.cm.Ext r.cm ∧
        (∀ t ∈ r.called, r.cm.AllocatingHandle t) ∧
        (∀ t ∈ r.wrapped, r.cm.AllocatingHandle t ∨ r.cm.PossibleAllocatorHandle t) ∧
        (tr ≠ [] → ∀ s ∈ r.doneSet, s.All r.cm.AllocatingHandle) ∧
        ∀ i ∈ tr, i.popped.All i.head.cm.AllocatingHandle := by
      intro he
      cases he
      refine ⟨CalledModuleTy.Ext.refl _, ?_, ?_, fun hne => absurd rfl hne, ?_⟩
      · intro t ht
        rw [hcalled] at ht
        exact absurd ht (List.not_mem_nil t)
      · intro t ht
        rw [hwrapped] at ht
        exact absurd ht (List.not_mem_nil t)
      · intro i hi
        exact absurd hi (List.not_mem_nil i)
    cases hf : f.fun_ with
    | none =>
      simp only [getCalledAndWrappedFunctionsTrace, hf, Option.some.injEq] at h
      obtain ⟨h1, h2, h3, h4, _⟩ := htriv h.symm
      exact ⟨h1, h2, h3, h4, fun fn hfn => by cases hfn⟩
    | some fn0 =>
      by_cases hbody : (st.cm.m.fn fn0).size = 0
      · simp only [getCalledAndWrappedFunctionsTrace, hf, hbody, if_true,
          Option.some.injEq] at h
        have he := h.symm
        obtain ⟨h1, h2, h3, h4, _⟩ := htriv he
        refine ⟨h1, h2, h3, h4, ?_⟩
        intro fn _ i hi
        cases he
        exact absurd hi (List.not_mem_nil i)
      · rw [getCalledAndWrappedFunctionsTrace_eq H MAX_STATES fuel f fn0 st hf hbody] at h
        obtain ⟨h1, h2, h3⟩ := workLoopTrace_classified (RunCtx.make H st.cm fn0 MAX_STATES)
          st.cm fuel (seedState st) r tr (seedState_classified st hwf hcalled hwrapped)
          (CalledModuleTy.Ext.refl _) h
        refine ⟨h3, h2.called, h2.wrapped, fun _ => h2.doneSet, ?_⟩
        intro fn hfn i hi
        cases hfn
        obtain ⟨⟨hc, hext⟩, hpop⟩ := h1 i hi
        have hmem : i.popped ∈ i.head.workList := by
          cases hw : i.head.workList with
          | nil => simp [hw] at hpop
          | cons a l =>
            simp only [hw, List.head?_cons, Option.some.injEq] at hpop
            rw [hpop]
            exact List.mem_cons_self _ _
        have hp := hc.workList _ hmem
        refine ⟨hext, hc.workList, hc.doneSet, hp, ?_, ?_⟩
        · intro k
          exact visitBlock_classified _ _ _ _ hc.wf hp
        · intro t
          exact successorStates_all _ _ t _ (visitBlock_classified _ _ _ _ hc.wf hp)

/-- Witness for C23: `y = alloc(); x = y; return x;`: the run returns the handle
`1` of the allocator as called and as wrapped. -/
theorem results_classified_witness :
    (engineStart (moduleWith (copyBody 0 1 (llvm.Value.callInst (some 1) [])))).cm.WF ∧
      (engineStart (moduleWith (copyBody 0 1 (llvm.Value.callInst (some 1) [])))).called = [] ∧
      (engineStart (moduleWith (copyBody 0 1 (llvm.Value.callInst (some 1) [])))).wrapped = [] ∧
      (getCalledAndWrappedFunctionsTrace (inertHelpers [] [0, 1]) MAX_STATES 10 ⟨some 0, 0, 0⟩
          (engineStart (moduleWith (copyBody 0 1 (llvm.Value.callInst (some 1) []))))).map
        (fun p => (p.2.called, p.2.wrapped, p.2.cm.calledFunctionsTable.map (fun cf => cf.fun_)))
          = some ([1], [1], [some 3, some 1]) ∧
      ∃ fuel tr r, getCalledAndWrappedFunctionsTrace (inertHelpers [] [0, 1]) MAX_STATES fuel
        ⟨some 0, 0, 0⟩
        (engineStart (moduleWith (copyBody 0 1 (llvm.Value.callInst (some 1) [])))) =
          some (tr, r) :=
  ⟨engineCM_wf _, rfl, rfl, by decide,
    (results_classified (inertHelpers [] [0, 1]) ⟨some 0, 0, 0⟩
      (engineStart (moduleWith (copyBody 0 1 (llvm.Value.callInst (some 1) []))))
      (engineCM_wf _) rfl rfl).1⟩

/-! ## C22: the constructor pre-populates the registry -/

/-- C22. Registry pre-population.  Let `cm` be the module the constructor
`CalledModuleTy::CalledModuleTy` leaves, the use lists holding every direct call
instruction of the bodies as a user of its callee.  Then `cm` is well formed,
and for every direct call instruction of the module there is a handle in
`calledFunctionsTable`, of the callee, that `getCalledFunction` returns for the
instruction in `cm` and in every later state of the module, leaving
`calledFunctionsTable` and `argInfosTable` as they are; so `cm` knows the call
sites of every function.  Hence the loop of the driver, over the handles in any
order and in particular `getCalledAllocators`, returns and ends with the
`calledFunctionsTable` and the `argInfosTable` of `cm`, and so does every state
of the module in between: the lookups of the engine do not modify the set of
handles iterated over. -/
theorem registry_prepopulated (H : Helpers) (this : Nat) (m : llvm.Module)
    (users : Nat → List llvm.Value) (symbolsMap : Nat → Option String)
    (errorFunctions possibleAllocators allocatingFunctions : FunctionsSetTy) (gcFun : Nat)
    (cm : CalledModuleTy) (hcover : UsersCover m users)
    (hcm : cm = newCalledModuleTy H.isInstallConstantCall this m users symbolsMap
      errorFunctions possibleAllocators allocatingFunctions gcFun) :
    cm.WF ∧
      (∀ fn, ∀ bb ∈ (m.fn fn).blocks, ∀ inst ∈ bb, ∀ v ∈ lookedUp inst, ∀ callee args,
        v.callSite = some (some callee, args) →
        ∃ h cf, cm.calledFunctionsTable[h]? = some cf ∧ cf.fun_ = some callee ∧
          ∀ cm2, cm.Ext cm2 → cm2.WF →
            (cm2.getCalledFunction_Value H.isInstallConstantCall v).1 = some h ∧
            (cm2.getCalledFunction_Value H.isInstallConstantCall v).2.calledFunctionsTable =
              cm2.calledFunctionsTable ∧
            (cm2.getCalledFunction_Value H.isInstallConstantCall v).2.argInfosTable =
              cm2.argInfosTable) ∧
      (∀ fn, cm.Registered H.isInstallConstantCall (cm.m.fn fn)) ∧
      ∀ st : EngineState, st.cm = cm → ∀ o : List Nat,
        (∃ fuel rep st2, getCalledAllocatorsLoop H fuel o st = some (rep, st2)) ∧
        (∃ fuel rep st2, getCalledAllocators H fuel st = some (rep, st2)) ∧
        (∀ fuel rep st2, getCalledAllocators H fuel st = some (rep, st2) →
          st2.cm.calledFunctionsTable = cm.calledFunctionsTable ∧
          st2.cm.argInfosTable = cm.argInfosTable) ∧
        ∀ fuel rep st2, getCalledAllocatorsLoop H fuel o st = some (rep, st2) →
          st2.cm.calledFunctionsTable = cm.calledFunctionsTable ∧
          st2.cm.argInfosTable = cm.argInfosTable ∧
          ∀ cm2, cm.Ext cm2 → cm2.Ext st2.cm →
            cm2.calledFunctionsTable = cm.calledFunctionsTable ∧
            cm2.argInfosTable = cm.argInfosTable := by
  obtain ⟨hwf, hm, _, hlook⟩ := newCalledModuleTy_spec H.isInstallConstantCall this m users
    symbolsMap errorFunctions possibleAllocators allocatingFunctions gcFun hcover
  rw [← hcm] at hwf hm hlook
  have hreg : ∀ fn, cm.Registered H.isInstallConstantCall (cm.m.fn fn) := by
    intro fn
    rw [hm]
    exact registered_of_lookup _ cm _ hwf (hlook fn)
  refine ⟨hwf, ?_, hreg, ?_⟩
  · intro fn bb hbb inst hinst v hv callee args hcs
    obtain ⟨h, hl⟩ := hlook fn bb hbb inst hinst v hv callee args hcs
    obtain ⟨h1, h2, h3⟩ := getCalledFunction_Value_hit H.isInstallConstantCall cm v h hwf hl
    obtain ⟨h4, ai, c, hres, _, _, htab, _⟩ :=
      getCalledFunction_Value_spec H.isInstallConstantCall cm v callee args hwf hcs
    have h5 : some h = some h4 := by
      rw [← h1, hres]
    cases h5
    rw [h2] at htab
    refine ⟨h, _, htab, rfl, ?_⟩
    intro cm2 hext hwf2
    exact getCalledFunction_Value_hit H.isInstallConstantCall cm2 v h hwf2
      (lookupHandle_ext hwf hext _ v h hl)
  · intro st hst o
    subst hst
    have hloop : ∀ (o2 : List Nat) fuel rep st2,
        getCalledAllocatorsLoop H fuel o2 st = some (rep, st2) →
          st.cm.SameTables st2.cm ∧ st.cm.Ext st2.cm := by
      intro o2 fuel rep st2 h
      exact ⟨getCalledAllocatorsLoop_sameTables H fuel o2 st st2 rep hwf hreg h,
        (getCalledAllocatorsLoop_spec H fuel o2 st st2 rep hwf h).1⟩
    refine ⟨?_, ?_, ?_, ?_⟩
    · obtain ⟨fuel0, hf⟩ := getCalledAllocatorsLoop_terminates H o st
      obtain ⟨rep, st2, h⟩ := hf 0
      exact ⟨fuel0 + 0, rep, st2, h⟩
    · obtain ⟨fuel0, hf⟩ := getCalledAllocatorsLoop_terminates H
        (List.range st.cm.calledFunctionsTable.length) st
      obtain ⟨rep, st2, h⟩ := hf 0
      exact ⟨fuel0 + 0, rep, st2, h⟩
    · intro fuel rep st2 h
      exact (hloop _ fuel rep st2 h).1
    · intro fuel rep st2 h
      obtain ⟨h1, _⟩ := hloop o fuel rep st2 h
      exact ⟨h1.1, h1.2, fun cm2 ha hb => sameTables_between ha hb h1⟩

/-- Witness for C22: the module of `f() { f(); return alloc(); }`.  The
constructor enters the handles `0` of `f`, `1` of the allocator and `2` of the GC
function; the driver runs the engine on `f` and ends with this table. -/
theorem registry_prepopulated_witness :
    UsersCover (moduleWith recursiveBody) recursiveUsers ∧
      recursiveCM.calledFunctionsTable =
        [⟨some 0, 0, 0⟩, ⟨some 1, 0, 0⟩, ⟨some 3, 1, 0⟩] ∧
      (getCalledAllocators (inertHelpers [] []) 10
          { cm := recursiveCM, workList := [], doneSet := [], called := [], wrapped := [],
            errors := [] }).map (fun p => (p.1, p.2.cm.calledFunctionsTable)) =
        some ([⟨0, [1], [1]⟩], [⟨some 0, 0, 0⟩, ⟨some 1, 0, 0⟩, ⟨some 3, 1, 0⟩]) ∧
      ∃ fuel rep st2, getCalledAllocators (inertHelpers [] []) fuel
        { cm := recursiveCM, workList := [], doneSet := [], called := [], wrapped := [],
          errors := [] } = some (rep, st2) :=
  ⟨recursiveUsers_cover, by decide, by decide,
    ((registry_prepopulated (inertHelpers [] []) 0 (moduleWith recursiveBody) recursiveUsers
      (fun _ => none) [4] [1, 2] [1, 2, 3] 3 recursiveCM recursiveUsers_cover rfl).2.2.2
      { cm := recursiveCM, workList := [], doneSet := [], called := [], wrapped := [],
        errors := [] } rfl []).2.1⟩

end Rchk
